import Mathlib

/-!
# datalogo: a shallow embedding of the Datalog engine

The definitions below follow the Go sources under `datalog/`:

* `types.go`       : `Var`, `Term` (the dynamic values stored in `[]any`), `Atom`, `Rule`,
                     `Constraint`, `Goal` (the implementers of `Evaluable`);
* `vars.go`        : `Vars`, `Vars.Get`, `Vars.Unify`, `Vars.unifyVar`, `Vars.unifyAll`,
                     `Vars.substitute`, `Vars.rename`;
* `constraints.go` : `Vars.expand`, `Constraint.evalWith`, `compare`, `asType`, `toString`;
* `node.go`        : `Node`, `nodeFrom`, `Node.add`, `Node.remove`, `Node.find`,
                     `maybeUnifies`, `delete`;
* `db.go`          : `Database`, `Assert`, `Remove`, `find`, `Query`, `Materialize`;
* `eval.go`        : `Atom.Eval`, `Atom.unify`, `evalBody`, `renameVars`;

and, of the package `parser`, `parseTerm`, `isIdentifier`, `isVariable`, `isNumber` and
`optimizeBody` (`parser.go`) and `parseColumns` (`inputs.go`), with the functions of the Go
standard library they call (`strconv.Atoi`, `strings.Split`, `sort.Ints`, `slices.Compact`
as definitions that follow their documentation, `sort.Slice` as a parameter).

Conventions of the embedding.

* A Go value of type `any` that is used as a term is one of `int`, `String`, `Var`,
  `Wildcard`; it is a `Term`.  A node value is a term, an `Atom` or a `Rule`; it is a `Value`.
* Methods with a pointer receiver return the updated receiver next to their result.
* Recursion that Go does not bound (`Unify`, `expand`, `Eval`) takes a fuel argument that
  bounds the depth of the recursion; `none` (or `Emit.pending`) means the bound was hit.
* Channels are modelled by the list of the values sent, in depth-first order.  The Go code
  sends from concurrent goroutines, so only the multiset of the list is meaningful.
* A Go panic is a value: `Except.error` for the index operations, `Emit.fatal` inside
  a result stream.
* A slice is an immutable list and `append` builds a new list: an environment handed to
  several goroutines is a value of its own in each of them.  What Go does when two
  environments share a backing array is not part of these definitions; it is followed in
  a second embedding of `Unify`, `unifyVar` and `unifyAll` on slice headers and backing
  arrays (`Slice`, `Heap`, `goAppend`, `SVars`).
* A nil slice and an empty slice are the same list, and `reflect.DeepEqual` is structural
  equality.
* `int` is `Int` (the engine only compares integers; the parser, which computes with
  `int`, reduces with `wrapInt`) and `uint` is `Nat`, reduced modulo `uintSize` where the
  code increments it.
* A Go string is a Lean `String`; the parser looks at single bytes of a token, which are
  the ASCII characters of the token.
-/

namespace Datalog

/-! ## types.go -/

/-- Go `Var`: a name and a generation counter (`uint`). -/
structure Var where
  Name : String
  Counter : Nat
deriving DecidableEq, Repr

/-- The dynamic values that occur as arguments: `int`, `String`, `Var`, `Wildcard`. -/
inductive Term where
  | int (i : Int)
  | str (s : String)
  | var (v : Var)
  | wildcard
deriving DecidableEq, Repr

/-- Go `Atom`. -/
structure Atom where
  Name : String
  Args : List Term
deriving DecidableEq, Repr

/-- Go `Constraint`. -/
structure Constraint where
  Op : String
  Lhs : Term
  Rhs : Term
deriving DecidableEq, Repr

/-- The implementers of `Evaluable`: `Atom`, `Rule` (through the embedded `Atom`) and
`Constraint`.  A rule is given by its head and its body. -/
inductive Goal where
  | atom (a : Atom)
  | rule (head : Atom) (body : List Goal)
  | constraint (c : Constraint)
deriving Repr

mutual
/-- Structural equality of goals is decidable. -/
def Goal.decEq : (a b : Goal) → Decidable (a = b)
  | .atom a, .atom b =>
    if h : a = b then isTrue (by rw [h]) else isFalse (fun e => h (by cases e; rfl))
  | .constraint a, .constraint b =>
    if h : a = b then isTrue (by rw [h]) else isFalse (fun e => h (by cases e; rfl))
  | .rule h1 b1, .rule h2 b2 =>
    if h : h1 = h2 then
      match Goal.decEqList b1 b2 with
      | isTrue hb => isTrue (by rw [h, hb])
      | isFalse hb => isFalse (fun e => hb (by cases e; rfl))
    else isFalse (fun e => h (by cases e; rfl))
  | .atom _, .rule _ _ => isFalse (fun e => by cases e)
  | .atom _, .constraint _ => isFalse (fun e => by cases e)
  | .rule _ _, .atom _ => isFalse (fun e => by cases e)
  | .rule _ _, .constraint _ => isFalse (fun e => by cases e)
  | .constraint _, .atom _ => isFalse (fun e => by cases e)
  | .constraint _, .rule _ _ => isFalse (fun e => by cases e)
/-- Structural equality of goal lists is decidable. -/
def Goal.decEqList : (a b : List Goal) → Decidable (a = b)
  | [], [] => isTrue rfl
  | [], _ :: _ => isFalse (fun e => by cases e)
  | _ :: _, [] => isFalse (fun e => by cases e)
  | x :: xs, y :: ys =>
    match Goal.decEq x y with
    | isTrue h =>
      match Goal.decEqList xs ys with
      | isTrue hs => isTrue (by rw [h, hs])
      | isFalse hs => isFalse (fun e => hs (by cases e; rfl))
    | isFalse h => isFalse (fun e => h (by cases e; rfl))
end

instance : DecidableEq Goal := Goal.decEq

/-- Go `Rule`: the embedded head `Atom` and the body. -/
structure Rule where
  Atom : Atom
  Body : List Goal
deriving DecidableEq, Repr

/-- A value held by a trie node (`Node.Value`, of Go type `any`): a term on the spine, an
`Atom` or a `Rule` in a leaf. -/
inductive Value where
  | term (t : Term)
  | atom (a : Atom)
  | rule (r : Rule)
deriving DecidableEq, Repr

/-- The values of interface `HasKey`, the ones `Database.Assert` stores. -/
inductive Clause where
  | atom (a : Atom)
  | rule (r : Rule)
deriving DecidableEq, Repr

/-- The head atom of a clause. -/
def Clause.head : Clause → Atom
  | .atom a => a
  | .rule r => r.Atom

/-- Go `Key()`: the predicate name. -/
def Clause.Key (c : Clause) : String := c.head.Name

/-- The clause as a node value. -/
def Clause.toValue : Clause → Value
  | .atom a => .atom a
  | .rule r => .rule r

/-- Go `Atom.Equal`: same name and elementwise equal arguments. -/
def Atom.Equal (lhs rhs : Atom) : Bool :=
  decide (lhs.Name = rhs.Name) && decide (lhs.Args = rhs.Args)

/-! ## vars.go -/

/-- Go `Mapping`: one binding. -/
structure Mapping where
  Key : Var
  Val : Term
deriving DecidableEq, Repr

/-- Go `Vars`: the generation counter and the binding log, oldest binding first. -/
structure Vars where
  Counter : Nat
  Mapping : List Mapping
deriving DecidableEq, Repr

/-- The width of Go's `uint` on the 64-bit targets. -/
def uintSize : Nat := 18446744073709551616

/-- Go `Vars.Get`: scan the log from the newest binding backwards, return the value of the
first binding whose key is `key`. -/
def Vars.Get (v : Vars) (key : Var) : Option Term :=
  (v.Mapping.reverse.find? (fun m => decide (m.Key = key))).map (fun m => m.Val)

/-- The value stored by `unifyVar` for an unbound key: a variable value that has a binding
is replaced by the value of that binding (one step). -/
def Vars.resolveOnce (v : Vars) (val : Term) : Term :=
  match val with
  | .var newVal =>
    match v.Get newVal with
    | some x => x
    | none => val
  | _ => val

/-- Go `append(v.Mapping, Mapping{Key: key, Val: val})`. -/
def Vars.bind (v : Vars) (key : Var) (val : Term) : Vars :=
  { v with Mapping := v.Mapping ++ [⟨key, val⟩] }

mutual
/-- Go `Vars.Unify`.  The result is the returned status and the updated receiver; `none`
when the recursion is deeper than the fuel. -/
def Vars.Unify : Nat → Vars → Term → Term → Option (Bool × Vars)
  | 0, _, _, _ => none
  | fuel + 1, v, lhs, rhs =>
    if lhs = rhs then some (true, v)
    else if lhs = .wildcard then some (true, v)
    else if rhs = .wildcard then some (true, v)
    else
      match lhs with
      | .var l => Vars.unifyVar fuel v l rhs
      | _ =>
        match rhs with
        | .var r => Vars.unifyVar fuel v r lhs
        | _ => some (false, v)
/-- Go `Vars.unifyVar`. -/
def Vars.unifyVar : Nat → Vars → Var → Term → Option (Bool × Vars)
  | 0, _, _, _ => none
  | fuel + 1, v, key, val =>
    match v.Get key with
    | some key' => Vars.Unify fuel v key' val
    | none => some (true, v.bind key (v.resolveOnce val))
end

/-- The loop of `unifyAll` over the positions, for argument lists of equal length. -/
def Vars.unifyLoop (fuel : Nat) : Vars → List Term → List Term → Option (Bool × Vars)
  | vars, l :: ls, r :: rs =>
    match Vars.Unify fuel vars l r with
    | none => none
    | some (false, vars') => some (false, vars')
    | some (true, vars') => Vars.unifyLoop fuel vars' ls rs
  | vars, _, _ => some (true, vars)

/-- Go `Vars.unifyAll`: fails on a length mismatch, otherwise unifies left to right and
stops at the first failure. -/
def Vars.unifyAll (fuel : Nat) (vars : Vars) (lhs rhs : List Term) : Option (Bool × Vars) :=
  if lhs.length ≠ rhs.length then some (false, vars)
  else Vars.unifyLoop fuel vars lhs rhs

/-- One outer iteration of `substitute`: every value equal to the key of `new` becomes the
value of `new`. -/
def substOne (new : Mapping) (this : Mapping) : Mapping :=
  if this.Val = .var new.Key then { this with Val := new.Val } else this

/-- The loops of `substitute` on the log in newest-first order: the head is
`v.Mapping[last]`, the tail holds the bindings with a smaller index; the inner loop rewrites
the tail, then `last` moves to the next older binding.  The first argument counts the
outer iterations that are left. -/
def substLoop : Nat → List Mapping → List Mapping
  | 0, l => l
  | _ + 1, [] => []
  | n + 1, new :: older => new :: substLoop n (older.map (substOne new))

/-- The loops of `substitute`, started with one outer iteration per binding. -/
def substRev (l : List Mapping) : List Mapping := substLoop l.length l

/-- Go `Vars.substitute`. -/
def Vars.substitute (v : Vars) : Vars :=
  { v with Mapping := (substRev v.Mapping.reverse).reverse }

/-- Go `Vars.rename`: a variable gets the generation `vars.Counter`. -/
def Vars.rename (vars : Vars) (val : Term) : Term :=
  match val with
  | .var x => .var { x with Counter := vars.Counter }
  | _ => val

/-! ## node.go -/

/-- Go `Node`: a value and the child nodes. -/
inductive Node where
  | mk (Value : Value) (Next : List Node)
deriving Repr

/-- Field `Value` of a node. -/
def Node.Value : Node → Value
  | .mk v _ => v

/-- Field `Next` of a node. -/
def Node.Next : Node → List Node
  | .mk _ next => next

mutual
/-- Structural equality of nodes is decidable. -/
def Node.decEq : (a b : Node) → Decidable (a = b)
  | .mk v1 n1, .mk v2 n2 =>
    if h : v1 = v2 then
      match Node.decEqList n1 n2 with
      | isTrue hn => isTrue (by rw [h, hn])
      | isFalse hn => isFalse (fun e => hn (by cases e; rfl))
    else isFalse (fun e => h (by cases e; rfl))
/-- Structural equality of node lists is decidable. -/
def Node.decEqList : (a b : List Node) → Decidable (a = b)
  | [], [] => isTrue rfl
  | [], _ :: _ => isFalse (fun e => by cases e)
  | _ :: _, [] => isFalse (fun e => by cases e)
  | x :: xs, y :: ys =>
    match Node.decEq x y with
    | isTrue h =>
      match Node.decEqList xs ys with
      | isTrue hs => isTrue (by rw [h, hs])
      | isFalse hs => isFalse (fun e => hs (by cases e; rfl))
    | isFalse h => isFalse (fun e => h (by cases e; rfl))
end

instance : DecidableEq Node := Node.decEq

/-- Go `nodeFrom`: a fresh spine for `args` that ends in a leaf holding `val`.  The
arguments are stored as they are. -/
def nodeFrom : List Term → Value → Node
  | [], val => .mk val []
  | a :: args, val => .mk (.term a) [nodeFrom args val]

/-- The type switch at the head of `Node.add`: a `Wildcard` or a `Var` argument becomes
`Wildcard{}`, any other argument is kept. -/
def normalize (arg : Term) : Term :=
  match arg with
  | .wildcard => .wildcard
  | .var _ => .wildcard
  | _ => arg

/-- Go `maybeUnifies`.  At every call site one of the two values is an argument, so the
final `rhs == lhs` never compares two atoms or two rules. -/
def maybeUnifies (lhs rhs : Value) : Bool :=
  match lhs with
  | .term (.var _) => true
  | .term .wildcard => true
  | _ =>
    match rhs with
    | .term (.var _) => true
    | .term .wildcard => true
    | _ => decide (rhs = lhs)

/-- A loop `for i := range nodes { if nodes[i].add(..) { return true } }`: the first node
that accepts is updated in place; `none` when no node accepts. -/
def firstAccept (f : Node → Option Node) : List Node → Option (List Node)
  | [] => none
  | n :: ns =>
    match f n with
    | some n' => some (n' :: ns)
    | none => (firstAccept f ns).map (fun l => n :: l)

/-- Go `Node.add` for the argument list `a :: rest` (the Go code indexes `args[0]`).
`none` is the result `false` (the node is left as it was), `some n` is the result `true`
with the updated node.  `reflect.DeepEqual` on the leaf values is structural equality. -/
def Node.add : Node → Term → List Term → Clause → Option Node
  | .mk value next, a, [], val =>
    if value ≠ .term (normalize a) then none
    else if next.any (fun elem => decide (elem.Value = val.toValue)) then
      some (.mk value next)
    else some (.mk value (next ++ [.mk val.toValue []]))
  | .mk value next, a, b :: rest, val =>
    if value ≠ .term (normalize a) then none
    else
      match firstAccept (fun c => Node.add c b rest val) next with
      | some next' => some (.mk value next')
      | none => some (.mk value (next ++ [nodeFrom (b :: rest) val.toValue]))

/-- Go `delete`: overwrite position `i` with the last element and drop the last element. -/
def delete (s : List Node) (i : Nat) : List Node :=
  match s.getLast? with
  | none => s
  | some last => (s.set i last).dropLast

/-- The test of the loop in `Node.remove`: the node value is an `Atom` equal to `val`. -/
def isAtomEqual (val : Atom) (node : Node) : Bool :=
  match node.Value with
  | .atom this => this.Equal val
  | _ => false

/-- Go `Node.remove` for the argument list `a :: rest`; the result is the updated node. -/
def Node.remove : Node → Term → List Term → Atom → Node
  | .mk value next, a, [], val =>
    if !maybeUnifies value (.term a) then .mk value next
    else
      match next.findIdx? (isAtomEqual val) with
      | some i => .mk value (delete next i)
      | none => .mk value next
  | .mk value next, a, b :: rest, val =>
    if !maybeUnifies value (.term a) then .mk value next
    else .mk value (next.map (fun node => Node.remove node b rest val))

/-- Go `Node.find`: the clauses sent to `out`, children visited in order. -/
def Node.find : Node → List Term → List Clause
  | .mk value _, [] =>
    match value with
    | .atom a => [.atom a]
    | .rule r => [.rule r]
    | .term _ => []
  | .mk value next, a :: rest =>
    if maybeUnifies (.term a) value then next.flatMap (fun c => Node.find c rest) else []

/-! ## db.go -/

/-- Go `Database`, a `map[Key][]*Node`: `none` for a key that is not in the map. -/
def Database : Type := String → Option (List Node)

/-- The map `make(Database)`. -/
def Database.empty : Database := fun _ => none

/-- Go `db[key]` as an expression: the zero value (no nodes) for a missing key. -/
def Database.nodes (db : Database) (key : String) : List Node :=
  (db key).getD []

/-- Go `db[key] = nodes`. -/
def Database.set (db : Database) (key : String) (nodes : List Node) : Database :=
  fun k => if k = key then some nodes else db k

/-- Go `Database.Assert`.  With an empty argument list `node.add` panics on `args[0]` as
soon as the key has a node. -/
def Database.Assert (db : Database) (val : Clause) : Except String Database :=
  match val.head.Args with
  | [] =>
    match db.nodes val.Key with
    | [] => .ok (db.set val.Key [nodeFrom [] val.toValue])
    | _ :: _ => .error "index out of range"
  | a :: rest =>
    match firstAccept (fun n => Node.add n a rest val) (db.nodes val.Key) with
    | some nodes' => .ok (db.set val.Key nodes')
    | none => .ok (db.set val.Key (db.nodes val.Key ++ [nodeFrom (a :: rest) val.toValue]))

/-- Go `Database.Remove`.  With an empty argument list `node.remove` panics on `args[0]`
as soon as the key has a node. -/
def Database.Remove (db : Database) (val : Atom) : Except String Database :=
  match val.Args with
  | [] =>
    match db.nodes val.Name with
    | [] => .ok (db.set val.Name [])
    | _ :: _ => .error "index out of range"
  | a :: rest => .ok (db.set val.Name ((db.nodes val.Name).map (fun n => Node.remove n a rest val)))

/-- Go `Database.find`: the candidate clauses sent to `out`. -/
def Database.find (db : Database) (query : Atom) : List Clause :=
  match db query.Name with
  | some nodes => nodes.flatMap (fun node => Node.find node query.Args)
  | none => []

/-- Go `Atom.Materialize`. -/
def Atom.Materialize (a : Atom) (vars : Vars) : Atom :=
  { Name := a.Name
    Args := a.Args.map (fun arg =>
      match arg with
      | .var v =>
        match vars.Get v with
        | some val => val
        | none => arg
      | _ => arg) }

/-! ## constraints.go -/

/-- Go `Vars.expand`: follow the bindings of a variable until a term that is not a bound
variable is reached; `none` when more than `fuel` iterations are needed. -/
def Vars.expand : Nat → Vars → Term → Option Term
  | 0, _, _ => none
  | fuel + 1, vars, key =>
    match key with
    | .var k =>
      match vars.Get k with
      | some val => Vars.expand fuel vars val
      | none => some key
    | _ => some key

/-- Go `toString`: the text of a `String`, `strconv.Itoa` of an `int`. -/
def toString (val : Term) : Option String :=
  match val with
  | .str s => some s
  | .int i => some (Int.repr i)
  | _ => none

/-- Go `strings.Contains(s, substr)`. -/
def stringsContains (s substr : String) : Bool :=
  decide (substr.data <:+: s.data)

/-- Go `asType[String]`. -/
def asTypeString (lhs rhs : Term) : Option (String × String) :=
  match lhs, rhs with
  | .str l, .str r => some (l, r)
  | _, _ => none

/-- Go `asType[int]`. -/
def asTypeInt (lhs rhs : Term) : Option (Int × Int) :=
  match lhs, rhs with
  | .int l, .int r => some (l, r)
  | _, _ => none

/-- Go `compare`: the six comparisons; any other operator panics. -/
def compare {α : Type} [LinearOrder α] (op : String) (lhs rhs : α) : Except String Bool :=
  if op = "=" then .ok (decide (lhs = rhs))
  else if op = "!=" then .ok (decide (lhs ≠ rhs))
  else if op = "<" then .ok (decide (lhs < rhs))
  else if op = "<=" then .ok (decide (lhs ≤ rhs))
  else if op = ">" then .ok (decide (lhs > rhs))
  else if op = ">=" then .ok (decide (lhs ≥ rhs))
  else .error ("invalid operator: " ++ op)

/-- Go `Constraint.evalWith`. -/
def Constraint.evalWith (c : Constraint) (lhs rhs : Term) : Except String Bool :=
  if c.Op = "in" then
    match toString lhs with
    | some l =>
      match toString rhs with
      | some r => .ok (stringsContains r l)
      | none => .ok false
    | none => .ok false
  else do
    let asStrings ←
      match asTypeString lhs rhs with
      | some (l, r) => compare c.Op l r
      | none => pure false
    if asStrings then pure true
    else
      match asTypeInt lhs rhs with
      | some (l, r) => compare c.Op l r
      | none => pure false

/-- What a goroutine does to its output channel: it sends a value, it panics, or it is
still running when the fuel of the model is used up. -/
inductive Emit (α : Type) where
  | out (a : α)
  | fatal (msg : String)
  | pending
deriving DecidableEq, Repr

/-- The values sent on a channel. -/
def results {α : Type} (l : List (Emit α)) : List α :=
  l.filterMap (fun e =>
    match e with
    | .out a => some a
    | _ => none)

/-- Go `Constraint.Eval`: the environment is sent on when the constraint holds. -/
def Constraint.Eval (fuel : Nat) (c : Constraint) (vars : Vars) : List (Emit Vars) :=
  match vars.expand fuel c.Lhs with
  | none => [.pending]
  | some lhs =>
    match vars.expand fuel c.Rhs with
    | none => [.pending]
    | some rhs =>
      match c.evalWith lhs rhs with
      | .error msg => [.fatal msg]
      | .ok true => [.out vars]
      | .ok false => []

/-! ## eval.go -/

/-- Go `Atom.renameVars`. -/
def Atom.renameVars (a : Atom) (vars : Vars) : Atom :=
  { Name := a.Name, Args := a.Args.map vars.rename }

/-- Go `Constraint.renameVars`. -/
def Constraint.renameVars (c : Constraint) (vars : Vars) : Constraint :=
  { Op := c.Op, Lhs := vars.rename c.Lhs, Rhs := vars.rename c.Rhs }

mutual
/-- The type switch on a body literal in `Rule.renameVars`. -/
def Goal.renameVars (vars : Vars) : Goal → Goal
  | .atom a => .atom (a.renameVars vars)
  | .rule head body => .rule (head.renameVars vars) (Goal.renameVarsList vars body)
  | .constraint c => .constraint (c.renameVars vars)
/-- The loop over the body in `Rule.renameVars`. -/
def Goal.renameVarsList (vars : Vars) : List Goal → List Goal
  | [] => []
  | g :: gs => Goal.renameVars vars g :: Goal.renameVarsList vars gs
end

/-- Go `Rule.renameVars`. -/
def Rule.renameVars (r : Rule) (vars : Vars) : Rule :=
  { Atom := r.Atom.renameVars vars, Body := Goal.renameVarsList vars r.Body }

/-- Go `evalBody`, with the evaluation of a single goal (`body[0].Eval`) as a parameter. -/
def evalBodyWith (ev : Goal → Vars → List (Emit Vars)) : List Goal → Vars → List (Emit Vars)
  | [], _ => [.fatal "rule's body cannot be empty"]
  | g :: rest, vars =>
    (ev g vars).flatMap (fun e =>
      match e with
      | .out vars' => if rest.length = 0 then [.out vars'] else evalBodyWith ev rest vars'
      | .fatal msg => [.fatal msg]
      | .pending => [.pending])

/-- Go `Atom.unify`, with the evaluation of a single goal as a parameter.  `ufuel` bounds
the recursion of `Unify`. -/
def Atom.unifyWith (ev : Goal → Vars → List (Emit Vars)) (ufuel : Nat) (query : Atom)
    (fact : Clause) (vars : Vars) : List (Emit Vars) :=
  match fact with
  | .atom fact =>
    match vars.unifyAll ufuel query.Args (fact.renameVars vars).Args with
    | none => [.pending]
    | some (true, vars') => [.out vars']
    | some (false, _) => []
  | .rule fact =>
    match vars.unifyAll ufuel query.Args (fact.renameVars vars).Atom.Args with
    | none => [.pending]
    | some (true, vars') => evalBodyWith ev (fact.renameVars vars).Body vars'
    | some (false, _) => []

/-- Go `Atom.Eval`: the environments sent to `out`.  The counter is incremented once, then
every candidate of `db.find` is unified with the query in its own goroutine.  `fuel` bounds
the depth of the resolution and of each unification.  Every goroutine gets the binding
list as a value here, so an environment is what its own branch has appended; in Go a
goroutine gets a copy of the slice header and the goroutines share the backing array,
which the embedding on slices (`SVars`) follows. -/
def Atom.Eval : Nat → Atom → Vars → Database → List (Emit Vars)
  | 0, _, _, _ => [.pending]
  | fuel + 1, query, vars, db =>
    (db.find query).flatMap (fun fact =>
      Atom.unifyWith
        (fun g v =>
          match g with
          | .atom a => Atom.Eval fuel a v db
          | .rule head _ => Atom.Eval fuel head v db
          | .constraint c => c.Eval fuel v)
        (fuel + 1) query fact { vars with Counter := (vars.Counter + 1) % uintSize })

/-- The method `Eval` of an `Evaluable`: `Atom.Eval`, the same on the head of a `Rule`
(the method is promoted from the embedded atom), `Constraint.Eval`. -/
def Goal.Eval (fuel : Nat) (g : Goal) (vars : Vars) (db : Database) : List (Emit Vars) :=
  match g with
  | .atom a => Atom.Eval fuel a vars db
  | .rule head _ => Atom.Eval fuel head vars db
  | .constraint c => c.Eval fuel vars

/-- Go `evalBody`. -/
def evalBody (fuel : Nat) (body : List Goal) (vars : Vars) (db : Database) :
    List (Emit Vars) :=
  evalBodyWith (fun g v => Goal.Eval fuel g v db) body vars

/-- Go `Atom.unify`. -/
def Atom.unify (fuel : Nat) (query : Atom) (fact : Clause) (vars : Vars) (db : Database) :
    List (Emit Vars) :=
  Atom.unifyWith (fun g v => Goal.Eval fuel g v db) (fuel + 1) query fact vars

/-- The second goroutine of `Database.Query` on one received environment: collapse it and
materialize the query under it. -/
def Database.post (query : Atom) (e : Emit Vars) : Emit Atom :=
  match e with
  | .out vars => .out (query.Materialize vars.substitute)
  | .fatal msg => .fatal msg
  | .pending => .pending

/-- Go `Database.Query`: evaluate the query from the empty environment `Vars{}`, then
post-process every environment. -/
def Database.Query (fuel : Nat) (db : Database) (query : Atom) : List (Emit Atom) :=
  (query.Eval fuel { Counter := 0, Mapping := [] } db).map (Database.post query)

/-! ## Notions used by the statements -/

/-- A constant: an `int` or a `String`. -/
def Term.isConst : Term → Bool
  | .int _ => true
  | .str _ => true
  | _ => false

/-- The environment of `TestUnifyComplex`: `X = ok`, `Y = X`, `Z = Y`. -/
def envComplex : Vars :=
  { Counter := 0
    Mapping := [⟨⟨"X", 0⟩, .str "ok"⟩, ⟨⟨"Y", 0⟩, .var ⟨"X", 0⟩⟩, ⟨⟨"Z", 0⟩, .var ⟨"Y", 0⟩⟩] }

/-- The environment after `Unify(X, Y)` from the empty environment. -/
def envXY : Vars :=
  { Counter := 0, Mapping := [⟨⟨"X", 0⟩, .var ⟨"Y", 0⟩⟩] }

/-- The environment after `Unify(X, Y)` and `Unify(Y, X)`: `Y` is bound to itself. -/
def envSelf : Vars :=
  { Counter := 0, Mapping := [⟨⟨"X", 0⟩, .var ⟨"Y", 0⟩⟩, ⟨⟨"Y", 0⟩, .var ⟨"Y", 0⟩⟩] }

/-- The environment after `Unify(V, W)`, `Unify(W, "c")` and `Unify(U, V)`. -/
def envLate : Vars :=
  { Counter := 0
    Mapping := [⟨⟨"V", 0⟩, .var ⟨"W", 0⟩⟩, ⟨⟨"W", 0⟩, .str "c"⟩, ⟨⟨"U", 0⟩, .var ⟨"W", 0⟩⟩] }

/-- The clause held by a node value, when the value is an `Atom` or a `Rule`. -/
def Value.clause? : Value → Option Clause
  | .atom a => some (.atom a)
  | .rule r => some (.rule r)
  | .term _ => none

mutual
/-- The clauses held in and below a node, each with the values of the nodes above it
(from the node itself down to the parent of the holder). -/
def Node.leaves : Node → List (List Datalog.Value × Clause)
  | .mk v next =>
    v.clause?.toList.map (fun c => ([], c)) ++
      (Node.leavesList next).map (fun e => (v :: e.1, e.2))
/-- The clauses held in and below the nodes of a list. -/
def Node.leavesList : List Node → List (List Datalog.Value × Clause)
  | [] => []
  | n :: ns => Node.leaves n ++ Node.leavesList ns
end

/-- The arguments of a query pass `maybeUnifies` against the values of a path, position by
position, and there are as many arguments as values. -/
def pathMatch : List Term → List Value → Bool
  | [], [] => true
  | a :: as, s :: ss => maybeUnifies (.term a) s && pathMatch as ss
  | _, _ => false

/-- The clauses stored under a predicate name, each with its path. -/
def Database.leaves (db : Database) (key : String) : List (List Datalog.Value × Clause) :=
  Node.leavesList (db.nodes key)

/-- The value is a `Var`. -/
def Value.isVar : Datalog.Value → Bool
  | .term (.var _) => true
  | _ => false

/-- Sibling nodes whose value is not a `Var` have pairwise different values. -/
def DistinctVals (l : List Node) : Prop :=
  ((l.map Node.Value).filter (fun v => !v.isVar)).Nodup

/-- Shape of the trie: a node that holds a clause has no children, and among the children
of a node the values other than variables are pairwise different. -/
inductive Node.WF : Node → Prop where
  | mk (v : Datalog.Value) (next : List Node) :
      (v.clause?.isSome = true → next = []) → (∀ c ∈ next, Node.WF c) → DistinctVals next →
      Node.WF (.mk v next)

/-- Shape of a list of sibling nodes. -/
def ForestWF (l : List Node) : Prop :=
  (∀ n ∈ l, Node.WF n) ∧ DistinctVals l

/-- The value stored on the spine for argument `a`: the argument itself (a spine
built by `nodeFrom`) or its normal form (a spine entered by `Node.add`). -/
def SpineOf (s : Datalog.Value) (a : Term) : Prop :=
  s = .term a ∨ s = .term (normalize a)

/-- A stored clause lies under its predicate name, and the path to it is the spine of its
head arguments. -/
def LeafOK (key : String) (e : List Datalog.Value × Clause) : Prop :=
  e.2.Key = key ∧ List.Forall₂ SpineOf e.1 e.2.head.Args

/-- The loop over sibling nodes shared by `Node.add` and `Database.Assert`: the first node
that accepts takes the clause, otherwise a fresh spine is appended. -/
def addTo (nodes : List Node) (a : Term) (rest : List Term) (val : Clause) : List Node :=
  match firstAccept (fun n => Node.add n a rest val) nodes with
  | some nodes' => nodes'
  | none => nodes ++ [nodeFrom (a :: rest) val.toValue]

/-- How the stored leaves change when a clause with head arguments `a :: rest` is added:
either one leaf holding the clause appears, on a spine of the arguments, or nothing
changes and such a leaf was already there. -/
def AddChar (before after : List (List Datalog.Value × Clause)) (a : Term) (rest : List Term)
    (val : Clause) : Prop :=
  (∃ p, List.Forall₂ SpineOf p (a :: rest) ∧ after.Perm ((p, val) :: before)) ∨
  (after = before ∧ ∃ p, List.Forall₂ SpineOf p (a :: rest) ∧ (p, val) ∈ before)

/-- The leaves that `Node.remove` deletes for the argument list `args`: the ones that hold
the atom and lie on a path that passes `maybeUnifies` against the arguments. -/
def removeHit (val : Atom) (args : List Term) (e : List Datalog.Value × Clause) : Bool :=
  decide (e.2 = .atom val) && pathMatch args e.1

/-- The databases built from the empty one by calls of `Assert` and `Remove` that return
(a call with an empty argument list panics as soon as the key has a node). -/
inductive Reachable : Database → Prop where
  | empty : Reachable Database.empty
  | assert {db db' : Database} (c : Clause) :
      Reachable db → db.Assert c = .ok db' → Reachable db'
  | remove {db db' : Database} (a : Atom) :
      Reachable db → db.Remove a = .ok db' → Reachable db'

/-- The invariant of the index: under every key the nodes are well shaped and every stored
clause lies on a spine of its own head arguments. -/
def DBInv (db : Database) : Prop :=
  ∀ key, ForestWF (db.nodes key) ∧ ∀ e ∈ db.leaves key, LeafOK key e

/-- The database stores the clause: some leaf under its predicate name holds it. -/
def Database.stores (db : Database) (c : Clause) : Prop :=
  ∃ p, (p, c) ∈ db.leaves c.Key

/-- The atom `foo(X)`. -/
def fooX : Clause := .atom { Name := "foo", Args := [.var ⟨"X", 0⟩] }

/-- The atom `foo(Y)`. -/
def fooY : Clause := .atom { Name := "foo", Args := [.var ⟨"Y", 0⟩] }

/-- The value of the top node under which a leaf entry lies: the first value of its path,
or the clause itself when the path is empty. -/
def entryHead (e : List Datalog.Value × Clause) : Datalog.Value :=
  match e.1 with
  | [] => e.2.toValue
  | s :: _ => s

/-- The atom `foo(a, b)`. -/
def atomAB : Atom := { Name := "foo", Args := [.str "a", .str "b"] }

/-- The atom `foo(X, b)`. -/
def atomXB : Atom := { Name := "foo", Args := [.var ⟨"X", 0⟩, .str "b"] }

/-- The database after `Assert(foo(a, b))` on the empty database. -/
def dbAB : Database :=
  Database.empty.set "foo" (addTo (Database.empty.nodes "foo") (.str "a") [.str "b"] (.atom atomAB))

/-- The database after `Assert(foo(a, b))` and `Assert(foo(X, b))`. -/
def dbABXB : Database :=
  dbAB.set "foo" (addTo (dbAB.nodes "foo") (.var ⟨"X", 0⟩) [.str "b"] (.atom atomXB))

/-- The database after `Assert(foo(a, b))` and `Remove(foo(a, b))`. -/
def dbABremoved : Database :=
  dbAB.set "foo" ((dbAB.nodes "foo").map (fun n => Node.remove n (.str "a") [.str "b"] atomAB))

/-- The environment with another counter. -/
def Vars.withCounter (c : Nat) (v : Vars) : Vars :=
  { v with Counter := c }

/-- Every binding of the environment has a constant as its value. -/
def ConstEnv (e : Vars) : Prop :=
  ∀ m ∈ e.Mapping, m.Val.isConst = true

/-- A ground atom: every argument is a constant. -/
def Atom.isGround (a : Atom) : Bool :=
  a.Args.all Term.isConst

/-- The query with every variable replaced by the argument of the fact at the same
position; constants and wildcards of the query are kept. -/
def Atom.instantiate (q F : Atom) : Atom :=
  { Name := q.Name
    Args := List.zipWith (fun qa fa =>
      match qa with
      | .var _ => fa
      | _ => qa) q.Args F.Args }

/-- `unifyAll(q.Args, F.Args)` succeeds from the empty environment. -/
def Atom.unifiesWith (q F : Atom) : Bool :=
  match Vars.unifyAll 3 { Counter := 0, Mapping := [] } q.Args F.Args with
  | some (true, _) => true
  | _ => false

/-- A sequence of `Assert` calls; the first panic ends it. -/
def Database.AssertAll (db : Database) : List Clause → Except String Database
  | [] => .ok db
  | c :: cs =>
    match db.Assert c with
    | .ok db' => db'.AssertAll cs
    | .error msg => .error msg

/-- The leaf entry of a ground atom: the path of its arguments and the atom. -/
def Atom.entry (F : Atom) : List Datalog.Value × Clause :=
  (F.Args.map Value.term, .atom F)

/-- The leaves of the database are the entries of the atoms of `seen`. -/
def GroundLeaves (db : Database) (seen : List Atom) : Prop :=
  ∀ key e, e ∈ db.leaves key ↔ ∃ F ∈ seen, F.Name = key ∧ e = F.entry

/-- The success condition of unifying query arguments with constants, on the list of the
pairs (query argument, fact argument): a constant of the query equals the argument of the
fact, a variable that the environment binds is bound to the argument of the fact, and a
variable that occurs twice meets equal arguments. -/
def GroundCompat (e : Vars) (Z : List (Term × Term)) : Prop :=
  (∀ p ∈ Z, (p.1.isConst = true → p.1 = p.2) ∧
    (∀ k x, p.1 = .var k → e.Get k = some x → x = p.2)) ∧
  (∀ p ∈ Z, ∀ p' ∈ Z, ∀ k, p.1 = .var k → p'.1 = .var k → p.2 = p'.2)

/-- The database after `Assert(foo(X))` on the empty database. -/
def dbFooX : Database :=
  Database.empty.set "foo" (addTo (Database.empty.nodes "foo") (.var ⟨"X", 0⟩) [] fooX)

/-- The atom `foo(a, c)`. -/
def atomAC : Atom := { Name := "foo", Args := [.str "a", .str "c"] }

/-- The comparison `a op b` for the six comparison operators, in the order of `α`. -/
def opHolds {α : Type} [LinearOrder α] (op : String) (a b : α) : Prop :=
  (op = "=" ∧ a = b) ∨ (op = "!=" ∧ a ≠ b) ∨ (op = "<" ∧ a < b) ∨
  (op = "<=" ∧ a ≤ b) ∨ (op = ">" ∧ b < a) ∨ (op = ">=" ∧ b ≤ a)

/-- The six comparison operators. -/
def comparisonOps : List String := ["=", "!=", "<", "<=", ">", ">="]

/-- The rule `p(a) :- .` with an empty body. -/
def ruleNoBody : Rule := { Atom := { Name := "p", Args := [.str "a"] }, Body := [] }

/-- The database after `Assert(p(b))` and `Assert(p(a) :- .)` on the empty database. -/
def dbNoBody : Database :=
  (Database.empty.set "p"
    (addTo (Database.empty.nodes "p") (.str "b") [] (.atom { Name := "p", Args := [.str "b"] }))).set
    "p"
    (addTo ((Database.empty.set "p" (addTo (Database.empty.nodes "p") (.str "b") []
      (.atom { Name := "p", Args := [.str "b"] }))).nodes "p") (.str "a") [] (.rule ruleNoBody))

/-- The message of the panic in `evalBody`. -/
def emptyBodyMsg : String := "rule's body cannot be empty"

/-! ## parser: the library functions it calls -/

/-- The least value of Go's `int` on the 64-bit targets. -/
def minInt : Int := -9223372036854775808

/-- The greatest value of Go's `int` on the 64-bit targets. -/
def maxInt : Int := 9223372036854775807

/-- Arithmetic of Go's `int`: the result modulo `2^64`, in the range of `int`. -/
def wrapInt (x : Int) : Int := (x - minInt) % 18446744073709551616 + minInt

/-- The value of a decimal digit. -/
def digitVal (c : Char) : Option Nat :=
  if '0' ≤ c ∧ c ≤ '9' then some (c.toNat - 48) else none

/-- The loop over the digits in `strconv.Atoi`: `n = n*10 + digit`, an error on any other
character. -/
def parseDigits : List Char → Nat → Option Nat
  | [], n => some n
  | c :: cs, n =>
    match digitVal c with
    | some d => parseDigits cs (n * 10 + d)
    | none => none

/-- Go `strconv.Atoi` (standard library): an optional sign `+` or `-`, then one or more
decimal digits; an error (`none`) for any other text and for a value outside the range of
`int`. -/
def atoi (s : String) : Option Int :=
  match s.data with
  | [] => none
  | c :: cs =>
    if c = '-' then
      if cs = [] then none
      else
        match parseDigits cs 0 with
        | some n => if -(n : Int) < minInt then none else some (-(n : Int))
        | none => none
    else if c = '+' then
      if cs = [] then none
      else
        match parseDigits cs 0 with
        | some n => if maxInt < (n : Int) then none else some (n : Int)
        | none => none
    else
      match parseDigits (c :: cs) 0 with
      | some n => if maxInt < (n : Int) then none else some (n : Int)
      | none => none

/-- Go `strings.Split(s, sep)` (standard library) for a separator of one character: the
pieces of `s` between the separators, at least one piece. -/
def stringsSplit (sep : Char) : List Char → List (List Char)
  | [] => [[]]
  | c :: cs =>
    if c = sep then [] :: stringsSplit sep cs
    else
      match stringsSplit sep cs with
      | f :: fs => (c :: f) :: fs
      | [] => [[c]]

/-- Go `sort.Ints` (standard library): the values in increasing order. -/
def sortInts (l : List Int) : List Int := l.insertionSort (fun a b => a ≤ b)

/-- Go `slices.Compact` (standard library): each run of equal consecutive values is
replaced by one copy. -/
def slicesCompact : List Int → List Int
  | a :: b :: rest => if a = b then slicesCompact (b :: rest) else a :: slicesCompact (b :: rest)
  | l => l

/-! ## parser/inputs.go -/

/-- The loop `for i := lo; i <= hi; i++ { out = append(out, i) }` of `parseColumns`: the
values from `lo` to `hi`.  When `hi` is the greatest `int` and the loop is entered, `i++`
wraps around and the loop never ends (it appends until memory runs out). -/
def columnLoop (lo hi : Int) : Except String (List Int) :=
  if lo ≤ hi ∧ hi = maxInt then .error "out of memory"
  else .ok ((List.range (hi - lo + 1).toNat).map (fun k => lo + (k : Int)))

/-- The loop over the fields in `parseColumns`, `out` being the indices collected so far. -/
def parseColumnsLoop : List (List Char) → List Int → Except String (List Int)
  | [], out => .ok out
  | field :: fields, out =>
    match stringsSplit '-' field with
    | [v] =>
      match atoi ⟨v⟩ with
      | none => .error "strconv.Atoi"
      | some val => parseColumnsLoop fields (out ++ [wrapInt (val - 1)])
    | [v0, _] =>
      match atoi ⟨v0⟩ with
      | none => .error "strconv.Atoi"
      | some lower =>
        match atoi ⟨v0⟩ with
        | none => .error "strconv.Atoi"
        | some upper =>
          match columnLoop (wrapInt (lower - 1)) (wrapInt (upper + 1)) with
          | .error msg => .error msg
          | .ok is => parseColumnsLoop fields (out ++ is)
    | _ => .error ("invalid range selector: " ++ String.mk field)

/-- Go `parseColumns`. -/
def parseColumns (input : String) : Except String (List Int) :=
  match parseColumnsLoop (stringsSplit ',' input.data) [] with
  | .error msg => .error msg
  | .ok out => .ok (slicesCompact (sortInts out))

/-! ## parser/parser.go -/

/-- The double quote character. -/
def quoteChar : Char := Char.ofNat 34

/-- Go `isIdentifier`: the first byte is a lowercase ASCII letter.  (The function indexes
`token[0]`; it is called on tokens that are not empty.) -/
def isIdentifier (token : String) : Bool :=
  match token.data with
  | c :: _ => decide ('a' ≤ c) && decide (c ≤ 'z')
  | [] => false

/-- Go `isVariable`: the first byte is an uppercase ASCII letter. -/
def isVariable (token : String) : Bool :=
  match token.data with
  | c :: _ => decide ('A' ≤ c) && decide (c ≤ 'Z')
  | [] => false

/-- Go `isNumber`: the first byte is a decimal digit or a sign. -/
def isNumber (token : String) : Bool :=
  match token.data with
  | c :: _ => (decide ('0' ≤ c) && decide (c ≤ '9')) || decide (c = '-') || decide (c = '+')
  | [] => false

/-- Go `parseTerm`.  The token is a list of characters here and a string of bytes in Go;
the tests on the first and the last byte are tests on the first and the last character,
because a byte of an ASCII character only occurs as that character in UTF-8. -/
def parseTerm (token : String) : Except String Term :=
  if token.data.length = 0 then .ok (.str "")
  else if isIdentifier token then .ok (.str token)
  else if isVariable token then .ok (.var { Name := token, Counter := 0 })
  else if token = "_" then .ok .wildcard
  else if isNumber token then
    match atoi token with
    | some integer => .ok (.int integer)
    | none => .ok (.str token)
  else if token.data.head? = some quoteChar then
    if token.data.length - 1 = 0 ∨ token.data.getLast? ≠ some quoteChar then
      .error ("invalid string: '" ++ token ++ "'")
    else .ok (.str ⟨(token.data.drop 1).dropLast⟩)
  else .error ("unexpected token: '" ++ token ++ "'")

/-- The number that a list of decimal digits denotes in base 10. -/
def decimalValue (ds : List Char) : Nat :=
  Nat.ofDigits 10 (ds.reverse.map (fun c => c.toNat - 48))

/-- A decimal digit. -/
def isDecimalDigit (c : Char) : Prop := '0' ≤ c ∧ c ≤ '9'

instance (c : Char) : Decidable (isDecimalDigit c) := by
  unfold isDecimalDigit
  infer_instance

/-- The literal is an `Atom` (the type assertion `.(Atom)`; a `Rule` is not one). -/
def Goal.isAtom : Goal → Bool
  | .atom _ => true
  | _ => false

/-- The literal is a `Constraint` (the type assertion `.(Constraint)`). -/
def Goal.isConstraint : Goal → Bool
  | .constraint _ => true
  | _ => false

/-- The `less` function that `optimizeBody` hands to `sort.Slice`, on the elements at the
two indices: an `Atom` sorts before a `Constraint`, nothing else is ordered. -/
def bodyLess (a b : Goal) : Bool :=
  if a.isAtom then b.isConstraint else false

/-- Go `optimizeBody`; `sort.Slice` of the standard library is the parameter `sortSlice`,
and the sorted slice is returned. -/
def optimizeBody (sortSlice : (Goal → Goal → Bool) → List Goal → List Goal)
    (body : List Goal) : List Goal :=
  sortSlice bodyLess body

/-- What the documentation of `sort.Slice` promises: when `less` is a strict weak ordering
of the elements of the slice (asymmetric, transitive, and transitive on the pairs it does
not order), the result is a rearrangement of the slice in which no element is less than an
element before it.  The sort need not be stable. -/
def SortContract (sortSlice : (Goal → Goal → Bool) → List Goal → List Goal) : Prop :=
  ∀ (less : Goal → Goal → Bool) (l : List Goal),
    (∀ a ∈ l, ∀ b ∈ l, less a b = true → less b a = false) →
    (∀ a ∈ l, ∀ b ∈ l, ∀ c ∈ l, less a b = true → less b c = true → less a c = true) →
    (∀ a ∈ l, ∀ b ∈ l, ∀ c ∈ l, less a b = false → less b c = false → less a c = false) →
    (sortSlice less l).Perm l ∧ (sortSlice less l).Pairwise (fun a b => less b a = false)

/-- The inner loop of the insertion sort of `sort.Slice`: the new element moves towards the
front as long as it is less than the element before it.  The sorted part is held last
element first. -/
def insertLess (less : Goal → Goal → Bool) (x : Goal) : List Goal → List Goal
  | [] => [x]
  | y :: rest => if less x y then y :: insertLess less x rest else x :: y :: rest

/-- The insertion sort that `sort.Slice` runs on slices of at most 12 elements. -/
def insertionSortLess (less : Goal → Goal → Bool) (l : List Goal) : List Goal :=
  (l.foldl (fun acc x => insertLess less x acc) []).reverse

/-- Every variable of the term has a generation of at most `c`. -/
def Term.genLe (c : Nat) : Term → Prop
  | .var v => v.Counter ≤ c
  | _ => True

/-- Every variable among the arguments of the atom has a generation of at most `c`. -/
def Atom.genLe (c : Nat) (a : Atom) : Prop := ∀ t ∈ a.Args, t.genLe c

/-- Every variable in the bindings, key or value, has a generation of at most `c`. -/
def Vars.genLe (c : Nat) (e : Vars) : Prop :=
  ∀ m ∈ e.Mapping, m.Key.Counter ≤ c ∧ m.Val.genLe c

/-- Every variable in the bindings has a generation of at most the counter of the
environment. -/
def Vars.GenOK (e : Vars) : Prop := e.genLe e.Counter

/-- The variables that `Eval` of the literal reads all have a generation of at most `c`:
the arguments of an `Atom`, the arguments of the head of a `Rule`. -/
def Goal.genLe (c : Nat) : Goal → Prop
  | .atom a => a.genLe c
  | .rule head _ => head.genLe c
  | .constraint _ => True

/-- The variables of a term. -/
def Term.vars : Term → List Var
  | .var v => [v]
  | _ => []

/-- The variables among the arguments of an atom. -/
def Atom.vars (a : Atom) : List Var := a.Args.flatMap Term.vars

/-- The variables of a constraint. -/
def Constraint.vars (c : Constraint) : List Var := c.Lhs.vars ++ c.Rhs.vars

mutual
/-- The variables of a body literal, those of the body of a rule included. -/
def Goal.vars : Goal → List Var
  | .atom a => a.vars
  | .rule head body => head.vars ++ Goal.varsList body
  | .constraint c => c.vars
/-- The variables of a list of body literals. -/
def Goal.varsList : List Goal → List Var
  | [] => []
  | g :: gs => Goal.vars g ++ Goal.varsList gs
end

/-- The variables of a stored clause: head and body. -/
def Clause.vars : Clause → List Var
  | .atom a => a.vars
  | .rule r => r.Atom.vars ++ Goal.varsList r.Body

/-- The renaming of the drawn clause in the two cases of `Atom.unify`. -/
def Clause.renameVars (c : Clause) (vars : Vars) : Clause :=
  match c with
  | .atom a => .atom (a.renameVars vars)
  | .rule r => .rule (r.renameVars vars)

/-- The variables of the bindings of an environment, keys and values. -/
def Vars.vars (e : Vars) : List Var :=
  e.Mapping.flatMap (fun m => m.Key :: m.Val.vars)

/-! ## The binding list as a Go slice

The definitions above hold the binding list as a value.  In Go it is a slice: a header
(array, length, capacity) that is copied with the `Vars` struct, and a backing array that is
not.  The definitions below repeat `Unify`, `unifyVar` and `unifyAll` with the slice and
the backing arrays explicit, to follow what `append` does when two copies of one header
are extended. -/

/-- A Go slice header: the backing array (its index among the allocated arrays), the
length and the capacity. -/
structure Slice where
  arr : Nat
  len : Nat
  cap : Nat
deriving DecidableEq, Repr

/-- The backing arrays allocated so far; a cell that was never written is `none`. -/
abbrev Heap : Type := List (List (Option Mapping))

/-- The elements of a slice: the first `len` cells of its backing array. -/
def Heap.view (h : Heap) (s : Slice) : List Mapping :=
  ((h.getD s.arr []).take s.len).filterMap id

/-- The capacity that the Go runtime (`growslice`) gives a slice that is full when one
element is appended: twice the old capacity, for capacities below 256. -/
def growCap (oldCap newLen : Nat) : Nat :=
  if 2 * oldCap < newLen then newLen else 2 * oldCap

/-- Go `append(s, m)`: with spare capacity the element is written into the backing array of
`s`, in place, and only the header changes; otherwise the elements are copied into a new,
larger array. -/
def goAppend (h : Heap) (s : Slice) (m : Mapping) : Heap × Slice :=
  if s.len < s.cap then
    (h.set s.arr ((h.getD s.arr []).set s.len (some m)), { s with len := s.len + 1 })
  else
    (h ++ [(h.getD s.arr []).take s.len ++ [some m] ++
        List.replicate (growCap s.cap (s.len + 1) - (s.len + 1)) none],
      { arr := h.length, len := s.len + 1, cap := growCap s.cap (s.len + 1) })

/-- Go `Vars` with the binding list as a slice header. -/
structure SVars where
  Counter : Nat
  Mapping : Slice
deriving DecidableEq, Repr

/-- The environment that a header denotes on the current backing arrays. -/
def SVars.view (v : SVars) (h : Heap) : Vars :=
  { Counter := v.Counter, Mapping := h.view v.Mapping }

mutual
/-- Go `Vars.Unify`, on slices: the result is the status, the backing arrays and the
header of the receiver after the call. -/
def SVars.Unify : Nat → Heap → SVars → Term → Term → Option (Bool × Heap × SVars)
  | 0, _, _, _, _ => none
  | fuel + 1, h, v, lhs, rhs =>
    if lhs = rhs then some (true, h, v)
    else if lhs = .wildcard then some (true, h, v)
    else if rhs = .wildcard then some (true, h, v)
    else
      match lhs with
      | .var l => SVars.unifyVar fuel h v l rhs
      | _ =>
        match rhs with
        | .var r => SVars.unifyVar fuel h v r lhs
        | _ => some (false, h, v)
/-- Go `Vars.unifyVar`, on slices: the new binding is appended with `append`. -/
def SVars.unifyVar : Nat → Heap → SVars → Var → Term → Option (Bool × Heap × SVars)
  | 0, _, _, _, _ => none
  | fuel + 1, h, v, key, val =>
    match (v.view h).Get key with
    | some key' => SVars.Unify fuel h v key' val
    | none =>
      some (true, (goAppend h v.Mapping ⟨key, (v.view h).resolveOnce val⟩).1,
        { v with Mapping := (goAppend h v.Mapping ⟨key, (v.view h).resolveOnce val⟩).2 })
end

/-- The loop of `unifyAll`, on slices. -/
def SVars.unifyLoop (fuel : Nat) : Heap → SVars → List Term → List Term →
    Option (Bool × Heap × SVars)
  | h, vars, l :: ls, r :: rs =>
    match SVars.Unify fuel h vars l r with
    | none => none
    | some (false, h', vars') => some (false, h', vars')
    | some (true, h', vars') => SVars.unifyLoop fuel h' vars' ls rs
  | h, vars, _, _ => some (true, h, vars)

/-- Go `Vars.unifyAll`, on slices.  The receiver is a copy of the caller's header; the
backing array is the caller's. -/
def SVars.unifyAll (fuel : Nat) (h : Heap) (vars : SVars) (lhs rhs : List Term) :
    Option (Bool × Heap × SVars) :=
  if lhs.length ≠ rhs.length then some (false, h, vars)
  else SVars.unifyLoop fuel h vars lhs rhs

/-- The rule `t(X, Y, Z) :- u(X).` -/
def ruleT : Rule :=
  { Atom := { Name := "t", Args := [.var ⟨"X", 0⟩, .var ⟨"Y", 0⟩, .var ⟨"Z", 0⟩] }
    Body := [.atom { Name := "u", Args := [.var ⟨"X", 0⟩] }] }

/-- The query `t(A, B, C)`. -/
def queryT : Atom := { Name := "t", Args := [.var ⟨"A", 0⟩, .var ⟨"B", 0⟩, .var ⟨"C", 0⟩] }

/-- The database after `Assert(u(1))`, `Assert(u(2))` and `Assert(t(X, Y, Z) :- u(X))`. -/
def dbTU : Database :=
  ((Database.empty.set "u" (addTo (Database.empty.nodes "u") (.int 1) []
      (.atom { Name := "u", Args := [.int 1] }))).set "u"
    (addTo ((Database.empty.set "u" (addTo (Database.empty.nodes "u") (.int 1) []
      (.atom { Name := "u", Args := [.int 1] }))).nodes "u") (.int 2) []
      (.atom { Name := "u", Args := [.int 2] }))).set "t"
    (addTo [] (.var ⟨"X", 0⟩) [.var ⟨"Y", 0⟩, .var ⟨"Z", 0⟩] (.rule ruleT))

/-- The backing arrays after the query `t(A, B, C)` was unified with the renamed head
`t(X.1, Y.1, Z.1)`: three arrays of capacity 1, 2 and 4, the last one with a free cell. -/
def heapHead : Heap :=
  [[some ⟨⟨"A", 0⟩, .var ⟨"X", 1⟩⟩],
   [some ⟨⟨"A", 0⟩, .var ⟨"X", 1⟩⟩, some ⟨⟨"B", 0⟩, .var ⟨"Y", 1⟩⟩],
   [some ⟨⟨"A", 0⟩, .var ⟨"X", 1⟩⟩, some ⟨⟨"B", 0⟩, .var ⟨"Y", 1⟩⟩,
    some ⟨⟨"C", 0⟩, .var ⟨"Z", 1⟩⟩, none]]

/-- The backing arrays `heapHead` with the binding `(X.1, n)` in the free cell. -/
def heapBranch (n : Int) : Heap :=
  [[some ⟨⟨"A", 0⟩, .var ⟨"X", 1⟩⟩],
   [some ⟨⟨"A", 0⟩, .var ⟨"X", 1⟩⟩, some ⟨⟨"B", 0⟩, .var ⟨"Y", 1⟩⟩],
   [some ⟨⟨"A", 0⟩, .var ⟨"X", 1⟩⟩, some ⟨⟨"B", 0⟩, .var ⟨"Y", 1⟩⟩,
    some ⟨⟨"C", 0⟩, .var ⟨"Z", 1⟩⟩, some ⟨⟨"X", 1⟩, .int n⟩]]

/-- The filter of `find` on the head arguments of a stored clause: as many arguments as the
query has, and `maybeUnifies` at every position. -/
def argsMatch : List Term → List Term → Bool
  | [], [] => true
  | a :: as, b :: bs => maybeUnifies (.term a) (.term b) && argsMatch as bs
  | _, _ => false

/-- The variable `x` does not occur in the bindings, neither as a key nor as a value. -/
def Vars.Avoids (e : Vars) (x : Var) : Prop :=
  ∀ m ∈ e.Mapping, m.Key ≠ x ∧ m.Val ≠ .var x

/-- The environment `e` is `e'` with the binding `(x, c)` put in at some position. -/
def InsRel (x : Var) (c : Term) (e e' : Vars) : Prop :=
  e.Counter = e'.Counter ∧
    ∃ pre post, e'.Mapping = pre ++ post ∧ e.Mapping = pre ++ ⟨x, c⟩ :: post

/-- What `Database.Query` emits for one stored atom that `find` has sent: nothing when
`unifyAll` rejects the atom, else the query materialized under the collapsed bindings. -/
def atomItems (ufuel : Nat) (q a : Atom) (vars : Vars) : List (Emit Atom) :=
  match vars.unifyAll ufuel q.Args (a.renameVars vars).Args with
  | none => [.pending]
  | some (true, vars') => [.out (q.Materialize vars'.substitute)]
  | some (false, _) => []

/-- The fact with the argument at position `i` replaced by the wildcard. -/
def Atom.setWildcard (F : Atom) (i : Nat) : Atom :=
  { Name := F.Name, Args := F.Args.set i .wildcard }

/-- The atom `foo(Y, Y)`. -/
def atomYY : Atom := { Name := "foo", Args := [.var ⟨"Y", 0⟩, .var ⟨"Y", 0⟩] }

/-- The database after `Assert(foo(Y, Y))` on the empty database. -/
def dbFooYY : Database :=
  Database.empty.set "foo"
    (addTo (Database.empty.nodes "foo") (.var ⟨"Y", 0⟩) [.var ⟨"Y", 0⟩] (.atom atomYY))

/-- The database after `Assert(foo(_, Y))` on the empty database. -/
def dbFooWY : Database :=
  Database.empty.set "foo"
    (addTo (Database.empty.nodes "foo") .wildcard [.var ⟨"Y", 0⟩]
      (.atom (atomYY.setWildcard 0)))

/-! ## Renaming of variables -/

/-- The term with every variable replaced by its image under `f`. -/
def Term.mapVars (f : Var → Var) : Term → Term
  | .var v => .var (f v)
  | t => t

/-- The atom with `f` applied to the variables of its arguments. -/
def Atom.mapVars (f : Var → Var) (a : Atom) : Atom :=
  { Name := a.Name, Args := a.Args.map (Term.mapVars f) }

/-- The constraint with `f` applied to the variables of its sides. -/
def Constraint.mapVars (f : Var → Var) (c : Constraint) : Constraint :=
  { Op := c.Op, Lhs := c.Lhs.mapVars f, Rhs := c.Rhs.mapVars f }

mutual
/-- The body literal with `f` applied to all its variables. -/
def Goal.mapVars (f : Var → Var) : Goal → Goal
  | .atom a => .atom (a.mapVars f)
  | .rule head body => .rule (head.mapVars f) (Goal.mapVarsList f body)
  | .constraint c => .constraint (c.mapVars f)
/-- The body with `f` applied to all its variables. -/
def Goal.mapVarsList (f : Var → Var) : List Goal → List Goal
  | [] => []
  | g :: gs => Goal.mapVars f g :: Goal.mapVarsList f gs
end

/-- The rule with `f` applied to the variables of its head and of its body. -/
def Rule.mapVars (f : Var → Var) (r : Rule) : Rule :=
  { Atom := r.Atom.mapVars f, Body := Goal.mapVarsList f r.Body }

/-- The clause with `f` applied to all its variables. -/
def Clause.mapVars (f : Var → Var) : Clause → Clause
  | .atom a => .atom (a.mapVars f)
  | .rule r => .rule (r.mapVars f)

/-- The binding with `f` applied to its key and to its value. -/
def Mapping.mapVars (f : Var → Var) (m : Mapping) : Mapping :=
  { Key := f m.Key, Val := m.Val.mapVars f }

/-- The environment with `f` applied to the variables of its bindings. -/
def Vars.mapVars (f : Var → Var) (e : Vars) : Vars :=
  { Counter := e.Counter, Mapping := e.Mapping.map (Mapping.mapVars f) }

/-- The item with `g` applied to a value that was sent. -/
def Emit.mapOut {α β : Type} (g : α → β) : Emit α → Emit β
  | .out a => .out (g a)
  | .fatal msg => .fatal msg
  | .pending => .pending

/-- A consistent renaming of variables: the name goes through `ρ`, the generation stays. -/
def renameNames (ρ : String → String) (x : Var) : Var :=
  { Name := ρ x.Name, Counter := x.Counter }

/-- The renaming `ρ` applied to the variables of the generations in `G` only. -/
def renameGens (ρ : String → String) (G : List Nat) (x : Var) : Var :=
  if x.Counter ∈ G then { Name := ρ x.Name, Counter := x.Counter } else x

/-- The rule `p(X) :- q(a).` -/
def rulePX : Rule :=
  { Atom := { Name := "p", Args := [.var ⟨"X", 0⟩] }
    Body := [.atom { Name := "q", Args := [.str "a"] }] }

/-- The rule `p(W) :- q(a).` -/
def rulePW : Rule :=
  { Atom := { Name := "p", Args := [.var ⟨"W", 0⟩] }
    Body := [.atom { Name := "q", Args := [.str "a"] }] }

/-- The database after `Assert(q(a))` on the empty database. -/
def dbQa : Database :=
  Database.empty.set "q" (addTo [] (.str "a") [] (.atom { Name := "q", Args := [.str "a"] }))

/-- The database after `Assert(q(a))` and `Assert(p(X) :- q(a))`. -/
def dbPX : Database := dbQa.set "p" (addTo [] (.var ⟨"X", 0⟩) [] (.rule rulePX))

/-- The database after `Assert(q(a))` and `Assert(p(W) :- q(a))`. -/
def dbPW : Database := dbQa.set "p" (addTo [] (.var ⟨"W", 0⟩) [] (.rule rulePW))

/-- The rule `p(X) :- q(X).` -/
def rulePQ : Rule :=
  { Atom := { Name := "p", Args := [.var ⟨"X", 0⟩] }
    Body := [.atom { Name := "q", Args := [.var ⟨"X", 0⟩] }] }

/-- The values of the counter at the increments `vars.Counter++` made while `evalBody`
evaluates a body, given those made by the evaluation of one literal (`en`): those of the
first literal, and for every environment that it sends, those of the rest of the body. -/
def evalBodyCountersWith (ev : Goal → Vars → List (Emit Vars))
    (en : Goal → Vars → List Nat) : List Goal → Vars → List Nat
  | [], _ => []
  | g :: rest, vars =>
    en g vars ++ (ev g vars).flatMap (fun e =>
      match e with
      | .out vars' => if rest.length = 0 then [] else evalBodyCountersWith ev en rest vars'
      | .fatal _ => []
      | .pending => [])

/-- The values of the counter at the increments made in one goroutine `Atom.unify`: none
for an `Atom`, those of the body for a `Rule` whose head unifies with the query. -/
def Atom.unifyCountersWith (ev : Goal → Vars → List (Emit Vars))
    (en : Goal → Vars → List Nat) (ufuel : Nat) (query : Atom) (fact : Clause)
    (vars : Vars) : List Nat :=
  match fact with
  | .atom _ => []
  | .rule fact =>
    match vars.unifyAll ufuel query.Args (fact.renameVars vars).Atom.Args with
    | some (true, vars') => evalBodyCountersWith ev en (fact.renameVars vars).Body vars'
    | _ => []

/-- The values that the counter has at every increment `vars.Counter++` of the
evaluation `Atom.Eval fuel query vars db`, in all its branches: the counter of `vars` for
the call itself, then those of the calls in the bodies of the rules drawn.  The counter
does not wrap around in the evaluation when none of these values is the greatest `uint`. -/
def Atom.EvalCounters : Nat → Atom → Vars → Database → List Nat
  | 0, _, _, _ => []
  | fuel + 1, query, vars, db =>
    vars.Counter :: (db.find query).flatMap (fun fact =>
      Atom.unifyCountersWith
        (fun g v =>
          match g with
          | .atom a => Atom.Eval fuel a v db
          | .rule head _ => Atom.Eval fuel head v db
          | .constraint c => c.Eval fuel v)
        (fun g v =>
          match g with
          | .atom a => Atom.EvalCounters fuel a v db
          | .rule head _ => Atom.EvalCounters fuel head v db
          | .constraint _ => [])
        (fuel + 1) query fact { vars with Counter := (vars.Counter + 1) % uintSize })

/-- The database that the assertions of `cs`, in this order, build from the empty one (the
empty one when an assertion panics). -/
def Database.ofClauses (cs : List Clause) : Database :=
  match Database.empty.AssertAll cs with
  | .ok db => db
  | .error _ => Database.empty

/-- The rule `p(X) :- q(X), q(Y).` -/
def rulePQQ : Rule :=
  { Atom := { Name := "p", Args := [.var ⟨"X", 0⟩] }
    Body := [.atom { Name := "q", Args := [.var ⟨"X", 0⟩] },
      .atom { Name := "q", Args := [.var ⟨"Y", 0⟩] }] }

/-- The facts `q(a)` and `q(b)`. -/
def factsQab : List Clause :=
  [.atom { Name := "q", Args := [.str "a"] }, .atom { Name := "q", Args := [.str "b"] }]

/-- The header fits the backing arrays: the length is within the capacity, the capacity
within the array, and the cells below the length have been written. -/
def Slice.Valid (s : Slice) (h : Heap) : Prop :=
  s.len ≤ s.cap ∧ s.cap ≤ (h.getD s.arr []).length ∧
    ∀ c ∈ (h.getD s.arr []).take s.len, c ≠ none

/-- The query `t(A, B, C, D, E)`. -/
def queryT5 : Atom :=
  { Name := "t"
    Args := [.var ⟨"A", 0⟩, .var ⟨"B", 0⟩, .var ⟨"C", 0⟩, .var ⟨"D", 0⟩, .var ⟨"E", 0⟩] }

/-- The rule `t(P, Q, R, S, T) :- g(P, Q).` -/
def ruleT5 : Rule :=
  { Atom := { Name := "t"
              Args := [.var ⟨"P", 0⟩, .var ⟨"Q", 0⟩, .var ⟨"R", 0⟩, .var ⟨"S", 0⟩,
                .var ⟨"T", 0⟩] }
    Body := [.atom { Name := "g", Args := [.var ⟨"P", 0⟩, .var ⟨"Q", 0⟩] }] }

/-- The rule `g(U, _) :- h(U).` -/
def ruleG : Rule :=
  { Atom := { Name := "g", Args := [.var ⟨"U", 0⟩, .wildcard] }
    Body := [.atom { Name := "h", Args := [.var ⟨"U", 0⟩] }] }

/-- The backing arrays after the query `t(A, B, C, D, E)` was unified with the renamed head
`t(P.1, Q.1, R.1, S.1, T.1)`: four arrays of capacity 1, 2, 4 and 8; the last one holds the
five bindings and, in its cells 5 and 6, `c5` and `c6`; its cell 7 is free. -/
def heapT5 (c5 c6 : Option Mapping) : Heap :=
  [[some ⟨⟨"A", 0⟩, .var ⟨"P", 1⟩⟩],
   [some ⟨⟨"A", 0⟩, .var ⟨"P", 1⟩⟩, some ⟨⟨"B", 0⟩, .var ⟨"Q", 1⟩⟩],
   [some ⟨⟨"A", 0⟩, .var ⟨"P", 1⟩⟩, some ⟨⟨"B", 0⟩, .var ⟨"Q", 1⟩⟩,
    some ⟨⟨"C", 0⟩, .var ⟨"R", 1⟩⟩, some ⟨⟨"D", 0⟩, .var ⟨"S", 1⟩⟩],
   [some ⟨⟨"A", 0⟩, .var ⟨"P", 1⟩⟩, some ⟨⟨"B", 0⟩, .var ⟨"Q", 1⟩⟩,
    some ⟨⟨"C", 0⟩, .var ⟨"R", 1⟩⟩, some ⟨⟨"D", 0⟩, .var ⟨"S", 1⟩⟩,
    some ⟨⟨"E", 0⟩, .var ⟨"T", 1⟩⟩, c5, c6, none]]

/-- The query `p(Z)`. -/
def queryPZ : Atom := { Name := "p", Args := [.var ⟨"Z", 0⟩] }

/-- The database after `Assert(q(a))`, `Assert(q(b))` and `Assert(p(X) :- q(X), q(Y))`. -/
def dbPQQ : Database := Database.ofClauses (factsQab ++ [.rule rulePQQ])

/-! # Theorems -/

/-! ## Unification -/


theorem Vars.Get_bind (v : Vars) (k w : Var) (x : Term) :
    (v.bind k x).Get w = if w = k then some x else v.Get w := by
  unfold Vars.Get Vars.bind
  simp only [List.reverse_append, List.reverse_cons, List.reverse_nil, List.nil_append,
    List.singleton_append, List.find?_cons]
  by_cases h : k = w
  · subst h; simp
  · have h' : ¬ w = k := fun e => h e.symm
    simp [h, h']

theorem Vars.Unify_succ_unifyVar_succ (fuel : Nat) :
    (∀ v l r x, Vars.Unify fuel v l r = some x → Vars.Unify (fuel + 1) v l r = some x) ∧
    (∀ v k t x, Vars.unifyVar fuel v k t = some x → Vars.unifyVar (fuel + 1) v k t = some x) := by
  induction fuel with
  | zero => constructor <;> intro _ _ _ _ h <;> simp [Vars.Unify, Vars.unifyVar] at h
  | succ n ih =>
    obtain ⟨ihU, ihV⟩ := ih
    constructor
    · intro v l r x h
      cases l <;> cases r <;> simp only [Vars.Unify] at h ⊢ <;>
        first
        | exact h
        | (split_ifs at h ⊢ <;> first | exact h | exact ihV _ _ _ _ h)
    · intro v k t x h
      rw [Vars.unifyVar] at h
      rw [Vars.unifyVar]
      cases hg : v.Get k with
      | none => simpa [hg] using h
      | some k' =>
        simp only [hg] at h ⊢
        exact ihU _ _ _ _ h

theorem Vars.Unify_mono {fuel fuel' : Nat} (hle : fuel ≤ fuel') {v : Vars} {l r : Term}
    {x : Bool × Vars} (h : Vars.Unify fuel v l r = some x) : Vars.Unify fuel' v l r = some x := by
  induction hle with
  | refl => exact h
  | step _ ih => exact (Vars.Unify_succ_unifyVar_succ _).1 _ _ _ _ ih

theorem Vars.expand_var_unbound (n : Nat) : ∀ (e : Vars) (t : Term) (u : Var),
    e.expand n t = some (.var u) → e.Get u = none := by
  induction n with
  | zero => intro e t u h; simp [Vars.expand] at h
  | succ n ih =>
    intro e t u h
    cases t with
    | var k =>
      simp only [Vars.expand] at h
      cases hg : e.Get k with
      | none =>
        simp only [hg] at h
        have hk : k = u := by simpa using h
        rw [← hk]; exact hg
      | some val =>
        simp only [hg] at h
        exact ih e val u h
    | int i => simp [Vars.expand] at h
    | str s => simp [Vars.expand] at h
    | wildcard => simp [Vars.expand] at h

theorem Vars.expand_const (n : Nat) (e : Vars) (c : Term) (hc : c.isConst = true) :
    e.expand (n + 1) c = some c := by
  cases c <;> first | rfl | simp [Term.isConst] at hc

theorem Vars.expand_bind_chain (n : Nat) : ∀ (e : Vars) (t c : Term) (u : Var),
    c.isConst = true → e.expand n t = some (.var u) →
    (e.bind u c).expand (n + 1) t = some c := by
  induction n with
  | zero => intro e t c u _ h; simp [Vars.expand] at h
  | succ n ih =>
    intro e t c u hc h
    cases t with
    | var k =>
      have hu := Vars.expand_var_unbound _ _ _ _ h
      simp only [Vars.expand] at h
      cases hg : e.Get k with
      | none =>
        simp only [hg] at h
        have hk : k = u := by simpa using h
        subst hk
        rw [Vars.expand]
        simp only [Vars.Get_bind, if_true]
        exact Vars.expand_const _ _ _ hc
      | some val =>
        simp only [hg] at h
        have hne : k ≠ u := by
          intro hk; rw [hk, hu] at hg; cases hg
        rw [Vars.expand]
        simp only [Vars.Get_bind, if_neg hne, hg]
        exact ih e val c u hc h
    | int i => simp [Vars.expand] at h
    | str s => simp [Vars.expand] at h
    | wildcard => simp [Vars.expand] at h

theorem Vars.resolveOnce_const (e : Vars) (c : Term) (hc : c.isConst = true) :
    e.resolveOnce c = c := by
  cases c <;> first | rfl | simp [Term.isConst] at hc

theorem Vars.Unify_walk (n : Nat) : ∀ (e : Vars) (t r c : Term),
    c.isConst = true → e.expand n t = some r →
    ∃ b e', e.Unify (2 * n) t c = some (b, e') ∧
      (b = true ↔ (r = c ∨ r = .wildcard ∨ ∃ u, r = .var u)) ∧
      (∀ u, r = .var u → e' = e.bind u c) ∧
      ((∀ u, r ≠ .var u) → e' = e) := by
  induction n with
  | zero => intro e t r c _ h; simp [Vars.expand] at h
  | succ n ih =>
    intro e t r c hc h
    have h2 : 2 * (n + 1) = (2 * n + 1) + 1 := by ring
    rw [h2]
    cases t with
    | var k =>
      simp only [Vars.expand] at h
      have hkc : Term.var k ≠ c := by
        intro hk; rw [← hk] at hc; simp [Term.isConst] at hc
      have hcw : c ≠ Term.wildcard := by
        intro hk; rw [hk] at hc; simp [Term.isConst] at hc
      have hU : e.Unify ((2 * n + 1) + 1) (.var k) c = e.unifyVar (2 * n + 1) k c := by
        simp [Vars.Unify, hkc, hcw]
      rw [hU, Vars.unifyVar]
      cases hg : e.Get k with
      | none =>
        simp only [hg] at h
        have hr : r = .var k := by simpa using h.symm
        subst hr
        refine ⟨true, e.bind k c, ?_, ?_, ?_, ?_⟩
        · simp [Vars.resolveOnce_const e c hc]
        · simp
        · intro u hu
          have : k = u := by simpa using hu
          rw [this]
        · intro hne; exact absurd rfl (hne k)
      | some val =>
        simp only [hg] at h
        exact ih e val r c hc h
    | int i =>
      simp only [Vars.expand] at h
      have hr : r = .int i := by simpa using h.symm
      subst hr
      refine ⟨decide (Term.int i = c), e, ?_, ?_, ?_, ?_⟩
      · clear ih
        cases c with
        | int j => by_cases hij : i = j <;> simp [Vars.Unify, hij]
        | str s => simp [Vars.Unify]
        | var _ => simp [Term.isConst] at hc
        | wildcard => simp [Term.isConst] at hc
      · simp
      · intro u hu; cases hu
      · intro _; rfl
    | str s =>
      simp only [Vars.expand] at h
      have hr : r = .str s := by simpa using h.symm
      subst hr
      refine ⟨decide (Term.str s = c), e, ?_, ?_, ?_, ?_⟩
      · clear ih
        cases c with
        | int j => simp [Vars.Unify]
        | str s' => by_cases hij : s = s' <;> simp [Vars.Unify, hij]
        | var _ => simp [Term.isConst] at hc
        | wildcard => simp [Term.isConst] at hc
      · simp
      · intro u hu; cases hu
      · intro _; rfl
    | wildcard =>
      simp only [Vars.expand] at h
      have hr : r = .wildcard := by simpa using h.symm
      subst hr
      refine ⟨true, e, ?_, ?_, ?_, ?_⟩
      · simp [Vars.Unify]
      · simp
      · intro u hu; cases hu
      · intro _; rfl

/-- C2: a variable whose chain of bindings ends, after finitely many lookups, in a term
`r` that is not a bound variable unifies with a constant `c` exactly when `r` is `c`, a
wildcard or an unbound variable.  In the last case the single binding `(r, c)` is appended
and walking the variable then yields `c`; in every other case the environment is unchanged. -/
theorem Vars.Unify_var_const (e : Vars) (V : Var) (c r : Term) (n : Nat)
    (hc : c.isConst = true) (hr : e.expand n (.var V) = some r) :
    ∃ b e', (∀ fuel, 2 * n ≤ fuel → e.Unify fuel (.var V) c = some (b, e')) ∧
      (b = true ↔ (r = c ∨ r = .wildcard ∨ ∃ u, r = .var u ∧ e.Get u = none)) ∧
      (∀ u, r = .var u →
        e'.Mapping = e.Mapping ++ [⟨u, c⟩] ∧ e'.Counter = e.Counter ∧
        e'.expand (n + 1) (.var V) = some c) ∧
      ((∀ u, r ≠ .var u) → e' = e) := by
  obtain ⟨b, e', hU, hb, hvar, hother⟩ := Vars.Unify_walk n e (.var V) r c hc hr
  refine ⟨b, e', fun fuel hle => Vars.Unify_mono hle hU, ?_, ?_, hother⟩
  · rw [hb]
    constructor
    · rintro (h | h | ⟨u, hu⟩)
      · exact Or.inl h
      · exact Or.inr (Or.inl h)
      · refine Or.inr (Or.inr ⟨u, hu, ?_⟩)
        rw [hu] at hr
        exact Vars.expand_var_unbound _ _ _ _ hr
    · rintro (h | h | ⟨u, hu, _⟩)
      · exact Or.inl h
      · exact Or.inr (Or.inl h)
      · exact Or.inr (Or.inr ⟨u, hu⟩)
  · intro u hu
    rw [hvar u hu]
    refine ⟨rfl, rfl, ?_⟩
    rw [hu] at hr
    exact Vars.expand_bind_chain n e (.var V) c u hc hr

theorem Vars.Unify_var_const_witness :
    ∃ b e', (∀ fuel, 2 * 4 ≤ fuel →
        envComplex.Unify fuel (.var ⟨"Z", 0⟩) (.str "ok") = some (b, e')) ∧
      (b = true ↔ (Term.str "ok" = Term.str "ok" ∨ Term.str "ok" = .wildcard ∨
        ∃ u, Term.str "ok" = .var u ∧ envComplex.Get u = none)) ∧
      (∀ u, Term.str "ok" = .var u →
        e'.Mapping = envComplex.Mapping ++ [⟨u, .str "ok"⟩] ∧ e'.Counter = envComplex.Counter ∧
        e'.expand (4 + 1) (.var ⟨"Z", 0⟩) = some (.str "ok")) ∧
      ((∀ u, Term.str "ok" ≠ .var u) → e' = envComplex) :=
  Vars.Unify_var_const envComplex ⟨"Z", 0⟩ (.str "ok") (.str "ok") 4 (by decide) (by decide)

theorem Vars.Unify_envSelf_none (fuel : Nat) :
    envSelf.Unify fuel (.var ⟨"Y", 0⟩) (.str "c") = none ∧
    envSelf.unifyVar fuel ⟨"Y", 0⟩ (.str "c") = none := by
  induction fuel with
  | zero => exact ⟨rfl, rfl⟩
  | succ n ih =>
    have hg : envSelf.Get ⟨"Y", 0⟩ = some (.var ⟨"Y", 0⟩) := by decide
    constructor
    · have : envSelf.Unify (n + 1) (.var ⟨"Y", 0⟩) (.str "c")
          = envSelf.unifyVar n ⟨"Y", 0⟩ (.str "c") := by
        simp [Vars.Unify]
      rw [this]; exact ih.2
    · rw [Vars.unifyVar, hg]; exact ih.1

/-- C3 fails on the code: from the empty environment `Unify(X, Y)` and then `Unify(Y, X)`
both succeed, the second one appends the binding of `Y` to itself, and after that
`Unify(Y, "c")` does not return within any bound on the depth of its recursion. -/
theorem Vars.Unify_not_total :
    Vars.Unify 2 { Counter := 0, Mapping := [] } (.var ⟨"X", 0⟩) (.var ⟨"Y", 0⟩)
      = some (true, envXY) ∧
    Vars.Unify 2 envXY (.var ⟨"Y", 0⟩) (.var ⟨"X", 0⟩) = some (true, envSelf) ∧
    ∀ fuel, Vars.Unify fuel envSelf (.var ⟨"Y", 0⟩) (.str "c") = none :=
  ⟨by decide, by decide, fun fuel => (Vars.Unify_envSelf_none fuel).1⟩

/-- C4 fails on the code: `Unify(V, W)`, `Unify(W, "c")`, `Unify(U, V)` succeed from the
empty environment; after `substitute` the binding of `U` still has the value `W`, and `W`
has a binding, so `Get(U)` is the variable `W` and not the constant. -/
theorem Vars.substitute_leaves_bound_value :
    Vars.Unify 2 { Counter := 0, Mapping := [] } (.var ⟨"V", 0⟩) (.var ⟨"W", 0⟩)
      = some (true, { Counter := 0, Mapping := [⟨⟨"V", 0⟩, .var ⟨"W", 0⟩⟩] }) ∧
    Vars.Unify 2 { Counter := 0, Mapping := [⟨⟨"V", 0⟩, .var ⟨"W", 0⟩⟩] }
        (.var ⟨"W", 0⟩) (.str "c")
      = some (true, { Counter := 0,
                      Mapping := [⟨⟨"V", 0⟩, .var ⟨"W", 0⟩⟩, ⟨⟨"W", 0⟩, .str "c"⟩] }) ∧
    Vars.Unify 2 { Counter := 0,
                   Mapping := [⟨⟨"V", 0⟩, .var ⟨"W", 0⟩⟩, ⟨⟨"W", 0⟩, .str "c"⟩] }
        (.var ⟨"U", 0⟩) (.var ⟨"V", 0⟩)
      = some (true, envLate) ∧
    envLate.substitute.Mapping
      = [⟨⟨"V", 0⟩, .str "c"⟩, ⟨⟨"W", 0⟩, .str "c"⟩, ⟨⟨"U", 0⟩, .var ⟨"W", 0⟩⟩] ∧
    envLate.substitute.Get ⟨"U", 0⟩ = some (.var ⟨"W", 0⟩) ∧
    envLate.substitute.Get ⟨"W", 0⟩ = some (.str "c") := by
  refine ⟨by decide, by decide, by decide, by decide, by decide, by decide⟩

/-! ## The index: `find` in terms of the stored leaves -/

theorem Node.leavesList_eq_flatMap (l : List Node) :
    Node.leavesList l = l.flatMap Node.leaves := by
  induction l with
  | nil => simp [Node.leavesList]
  | cons n ns ih => simp [Node.leavesList, ih]

theorem Node.leaves_mk (v : Datalog.Value) (next : List Node) :
    Node.leaves (.mk v next) =
      v.clause?.toList.map (fun c => ([], c)) ++
        (next.flatMap Node.leaves).map (fun e => (v :: e.1, e.2)) := by
  rw [Node.leaves, Node.leavesList_eq_flatMap]

theorem Node.find_nil (v : Datalog.Value) (next : List Node) :
    Node.find (.mk v next) [] = v.clause?.toList := by
  cases v <;> rfl

theorem Node.find_eq_leaves (args : List Term) : ∀ n : Node,
    Node.find n args = ((Node.leaves n).filter (fun e => pathMatch args e.1)).map (fun e => e.2) := by
  induction args with
  | nil =>
    intro n
    cases n with
    | mk v next =>
      rw [Node.find_nil, Node.leaves_mk, List.filter_append, List.map_append]
      have h1 : (List.filter (fun e => pathMatch [] e.1)
          (List.map (fun e : List Datalog.Value × Clause => (v :: e.1, e.2)) (next.flatMap Node.leaves))) = [] := by
        rw [List.filter_eq_nil_iff]
        intro e he
        obtain ⟨e', _, rfl⟩ := List.mem_map.1 he
        simp [pathMatch]
      rw [h1]
      cases h : v.clause? <;> simp [pathMatch]
  | cons a rest ih =>
    intro n
    cases n with
    | mk v next =>
      rw [Node.leaves_mk, List.filter_append, List.map_append]
      have h1 : (List.filter (fun e => pathMatch (a :: rest) e.1)
          (List.map (fun c : Clause => (([] : List Datalog.Value), c)) v.clause?.toList)) = [] := by
        rw [List.filter_eq_nil_iff]
        intro e he
        obtain ⟨e', _, rfl⟩ := List.mem_map.1 he
        simp [pathMatch]
      rw [h1, List.map_nil, List.nil_append, Node.find]
      by_cases hm : maybeUnifies (.term a) v = true
      · rw [if_pos hm, List.filter_map, List.map_map, List.filter_flatMap, List.map_flatMap]
        apply List.flatMap_congr
        intro c _
        rw [ih c]
        congr 1
        apply List.filter_congr
        intro e _
        simp [pathMatch, hm]
      · rw [if_neg hm]
        symm
        rw [List.map_eq_nil_iff, List.filter_eq_nil_iff]
        intro e he
        obtain ⟨e', _, rfl⟩ := List.mem_map.1 he
        simp [pathMatch, hm]

theorem Database.find_eq_filter_leaves (db : Database) (q : Atom) :
    db.find q = ((db.leaves q.Name).filter (fun e => pathMatch q.Args e.1)).map (fun e => e.2) := by
  unfold Database.find Database.leaves Database.nodes
  cases h : db q.Name with
  | none => simp [Node.leavesList]
  | some nodes =>
    simp only [Option.getD_some]
    rw [Node.leavesList_eq_flatMap, List.filter_flatMap, List.map_flatMap]
    apply List.flatMap_congr
    intro n _
    exact Node.find_eq_leaves _ n

/-! ## The index: `Node.add` -/

theorem Clause.toValue_clause? (c : Clause) : c.toValue.clause? = some c := by
  cases c <;> rfl

theorem Clause.toValue_isVar (c : Clause) : c.toValue.isVar = false := by
  cases c <;> rfl

theorem Clause.toValue_injective {c d : Clause} (h : c.toValue = d.toValue) : c = d := by
  cases c <;> cases d <;> simp_all [Clause.toValue]

theorem Clause.toValue_ne_term (c : Clause) (t : Term) : c.toValue ≠ .term t := by
  cases c <;> simp [Clause.toValue]

theorem Value.clause?_eq_some {v : Datalog.Value} {c : Clause} (h : v.clause? = some c) :
    v = c.toValue := by
  cases v <;> simp [Value.clause?] at h <;> subst h <;> rfl

theorem firstAccept_eq_none {f : Node → Option Node} {l : List Node} :
    firstAccept f l = none ↔ ∀ n ∈ l, f n = none := by
  induction l with
  | nil => simp [firstAccept]
  | cons n ns ih =>
    rw [firstAccept]
    cases h : f n with
    | some n' => simp [h]
    | none => simp [h, ih]

theorem firstAccept_eq_some {f : Node → Option Node} {l l' : List Node}
    (h : firstAccept f l = some l') :
    ∃ l1 n n' l2, l = l1 ++ n :: l2 ∧ l' = l1 ++ n' :: l2 ∧ f n = some n' ∧
      ∀ m ∈ l1, f m = none := by
  induction l generalizing l' with
  | nil => simp [firstAccept] at h
  | cons n ns ih =>
    rw [firstAccept] at h
    cases hf : f n with
    | some n' =>
      simp only [hf, Option.some.injEq] at h
      exact ⟨[], n, n', ns, rfl, h.symm, hf, by simp⟩
    | none =>
      simp only [hf, Option.map_eq_some'] at h
      obtain ⟨l'', h1, h2⟩ := h
      obtain ⟨l1, m, m', l2, e1, e2, e3, e4⟩ := ih h1
      refine ⟨n :: l1, m, m', l2, by simp [e1], by simp [← h2, e2], e3, ?_⟩
      intro x hx
      rcases List.mem_cons.1 hx with rfl | hx
      · exact hf
      · exact e4 x hx

theorem Node.add_eq_none {n : Node} {a : Term} {rest : List Term} {val : Clause} :
    Node.add n a rest val = none ↔ n.Value ≠ .term (normalize a) := by
  cases n with
  | mk v next =>
    cases rest with
    | nil =>
      simp only [Node.add, Node.Value]
      split_ifs <;> simp_all
    | cons b rest =>
      simp only [Node.add, Node.Value]
      split_ifs with h1
      · simp_all
      · cases firstAccept (fun c => Node.add c b rest val) next <;> simp_all

theorem Node.add_cons {v : Datalog.Value} {next : List Node} {a b : Term} {rest : List Term}
    {val : Clause} (h : v = .term (normalize a)) :
    Node.add (.mk v next) a (b :: rest) val = some (.mk v (addTo next b rest val)) := by
  simp only [Node.add, addTo, h, ne_eq, not_true_eq_false, if_false]
  cases firstAccept (fun c => Node.add c b rest val) next <;> rfl

theorem Node.add_value {n n' : Node} {a : Term} {rest : List Term} {val : Clause}
    (h : Node.add n a rest val = some n') :
    n.Value = .term (normalize a) ∧ n'.Value = .term (normalize a) := by
  have h1 : n.Value = .term (normalize a) := by
    by_contra hne
    rw [Node.add_eq_none.2 hne] at h
    cases h
  refine ⟨h1, ?_⟩
  cases n with
  | mk v next =>
    simp only [Node.Value] at h1
    cases rest with
    | nil =>
      simp only [Node.add, h1, ne_eq, not_true_eq_false, if_false] at h
      split_ifs at h <;> (cases h; rfl)
    | cons b rest =>
      rw [Node.add_cons h1] at h
      cases h; exact h1

theorem leaves_nodeFrom (args : List Term) (val : Clause) :
    Node.leaves (nodeFrom args val.toValue) = [(args.map Value.term, val)] := by
  induction args with
  | nil => simp [nodeFrom, Node.leaves_mk, Clause.toValue_clause?]
  | cons a rest ih => simp [nodeFrom, Node.leaves_mk, Value.clause?, ih]

theorem Node.leavesList_append (l1 l2 : List Node) :
    Node.leavesList (l1 ++ l2) = Node.leavesList l1 ++ Node.leavesList l2 := by
  simp [Node.leavesList_eq_flatMap]

theorem Node.leavesList_cons (n : Node) (l : List Node) :
    Node.leavesList (n :: l) = Node.leaves n ++ Node.leavesList l := by
  simp [Node.leavesList_eq_flatMap]

theorem Node.leaves_mk' (v : Datalog.Value) (next : List Node) :
    Node.leaves (.mk v next) =
      v.clause?.toList.map (fun c => ([], c)) ++
        (Node.leavesList next).map (fun e => (v :: e.1, e.2)) := by
  rw [Node.leaves]

theorem forall₂_spineOf_map_term (args : List Term) :
    List.Forall₂ SpineOf (args.map Value.term) args := by
  induction args with
  | nil => exact List.Forall₂.nil
  | cons a rest ih => exact List.Forall₂.cons (Or.inl rfl) ih

theorem addChar_of_node_step {val : Clause} {a : Term} {rest : List Term}
    (hnode : ∀ n n', Node.add n a rest val = some n' →
      AddChar (Node.leaves n) (Node.leaves n') a rest val)
    (nodes : List Node) :
    AddChar (Node.leavesList nodes) (Node.leavesList (addTo nodes a rest val)) a rest val := by
  unfold addTo
  cases h : firstAccept (fun n => Node.add n a rest val) nodes with
  | none =>
    simp only
    left
    refine ⟨(a :: rest).map Value.term, forall₂_spineOf_map_term _, ?_⟩
    rw [Node.leavesList_append, Node.leavesList_cons, leaves_nodeFrom]
    simp only [Node.leavesList, List.append_nil]
    exact List.perm_append_comm
  | some l' =>
    simp only
    obtain ⟨l1, n, n', l2, e1, e2, e3, _⟩ := firstAccept_eq_some h
    subst e1 e2
    simp only [Node.leavesList_append, Node.leavesList_cons]
    rcases hnode n n' e3 with ⟨p, hp, hperm⟩ | ⟨heq, p, hp, hmem⟩
    · left
      refine ⟨p, hp, ?_⟩
      have h1 : (Node.leavesList l1 ++ (Node.leaves n' ++ Node.leavesList l2)).Perm
          (Node.leavesList l1 ++ ((p, val) :: Node.leaves n ++ Node.leavesList l2)) :=
        List.Perm.append_left _ (List.Perm.append_right _ hperm)
      exact h1.trans (by simp)
    · right
      rw [heq]
      exact ⟨rfl, p, hp, by simp [hmem]⟩

theorem Node.add_addChar (val : Clause) (rest : List Term) : ∀ (a : Term) (n n' : Node),
    Node.add n a rest val = some n' → AddChar (Node.leaves n) (Node.leaves n') a rest val := by
  induction rest with
  | nil =>
    intro a n n' h
    have hv := (Node.add_value h).1
    cases n with
    | mk v next =>
      simp only [Node.Value] at hv
      subst hv
      simp only [Node.add, ne_eq, not_true_eq_false, if_false] at h
      split_ifs at h with hany
      · cases h
        right
        refine ⟨rfl, [.term (normalize a)], List.Forall₂.cons (Or.inr rfl) List.Forall₂.nil, ?_⟩
        obtain ⟨elem, hmem, hval⟩ := List.any_eq_true.1 hany
        have hval' : elem.Value = val.toValue := by simpa using hval
        rw [Node.leaves_mk, List.mem_append]
        right
        refine List.mem_map.2 ⟨([], val), List.mem_flatMap.2 ⟨elem, hmem, ?_⟩, rfl⟩
        cases elem with
        | mk ev en =>
          simp only [Node.Value] at hval'
          rw [Node.leaves_mk, hval', Clause.toValue_clause?]
          simp
      · cases h
        left
        refine ⟨[.term (normalize a)], List.Forall₂.cons (Or.inr rfl) List.Forall₂.nil, ?_⟩
        rw [Node.leaves_mk', Node.leaves_mk', Node.leavesList_append, Node.leavesList_cons,
          Node.leaves_mk', Clause.toValue_clause?]
        simp only [Node.leavesList, List.map_nil, List.append_nil, Option.toList_some,
          List.map_cons, List.map_append]
        rw [← List.append_assoc]
        exact List.perm_append_comm
  | cons b rest ih =>
    intro a n n' h
    have hv := (Node.add_value h).1
    cases n with
    | mk v next =>
      simp only [Node.Value] at hv
      rw [Node.add_cons hv] at h
      cases h
      have hf := addChar_of_node_step (ih b) next
      rw [Node.leaves_mk', Node.leaves_mk']
      rcases hf with ⟨p, hp, hperm⟩ | ⟨heq, p, hp, hmem⟩
      · left
        refine ⟨v :: p, List.Forall₂.cons (by rw [hv]; exact Or.inr rfl) hp, ?_⟩
        have h1 := (hperm.map (fun e : List Datalog.Value × Clause => (v :: e.1, e.2))).append_left
          (v.clause?.toList.map (fun c => (([] : List Datalog.Value), c)))
        exact h1.trans (by simp)
      · right
        rw [heq]
        refine ⟨rfl, v :: p, List.Forall₂.cons (by rw [hv]; exact Or.inr rfl) hp, ?_⟩
        rw [List.mem_append]
        right
        exact List.mem_map.2 ⟨(p, val), hmem, rfl⟩

theorem addTo_addChar (nodes : List Node) (a : Term) (rest : List Term) (val : Clause) :
    AddChar (Node.leavesList nodes) (Node.leavesList (addTo nodes a rest val)) a rest val :=
  addChar_of_node_step (Node.add_addChar val rest a) nodes

theorem distinctVals_nil : DistinctVals [] := by
  simp [DistinctVals]

theorem distinctVals_singleton (n : Node) : DistinctVals [n] := by
  unfold DistinctVals
  exact List.Nodup.sublist (List.filter_sublist _) (List.nodup_singleton _)

theorem distinctVals_append_singleton {l : List Node} {x : Node} (h : DistinctVals l)
    (hx : x.Value.isVar = false → ∀ n ∈ l, n.Value ≠ x.Value) : DistinctVals (l ++ [x]) := by
  unfold DistinctVals at *
  rw [List.map_append, List.filter_append]
  cases hv : x.Value.isVar with
  | true => simpa [hv] using h
  | false =>
    simp only [List.map_cons, List.map_nil, List.filter_cons, hv, Bool.not_false, if_true,
      List.filter_nil]
    rw [List.nodup_append]
    refine ⟨h, List.nodup_singleton _, ?_⟩
    intro v hv1 hv2
    have hvx : v = x.Value := by simpa using hv2
    subst hvx
    obtain ⟨n, hn, hnv⟩ := List.mem_map.1 (List.mem_filter.1 hv1).1
    exact hx hv n hn hnv

theorem normalize_of_not_isVar {a : Term} (h : (Value.term a).isVar = false) :
    normalize a = a := by
  cases a <;> simp_all [normalize, Value.isVar]

theorem nodeFrom_value_cons (a : Term) (rest : List Term) (v : Datalog.Value) :
    (nodeFrom (a :: rest) v).Value = .term a := rfl

theorem nodeFrom_WF (args : List Term) (val : Clause) : Node.WF (nodeFrom args val.toValue) := by
  induction args with
  | nil =>
    exact Node.WF.mk _ _ (fun _ => rfl) (by simp) distinctVals_nil
  | cons a rest ih =>
    refine Node.WF.mk _ _ (by simp [Value.clause?]) ?_ (distinctVals_singleton _)
    intro c hc
    have : c = nodeFrom rest val.toValue := by simpa using hc
    rw [this]; exact ih

theorem forestWF_addTo_of_node {val : Clause} {a : Term} {rest : List Term}
    (hnode : ∀ n n', Node.WF n → Node.add n a rest val = some n' → Node.WF n')
    {nodes : List Node} (hwf : ForestWF nodes) : ForestWF (addTo nodes a rest val) := by
  unfold addTo
  cases h : firstAccept (fun n => Node.add n a rest val) nodes with
  | none =>
    simp only
    refine ⟨?_, ?_⟩
    · intro n hn
      rcases List.mem_append.1 hn with hn | hn
      · exact hwf.1 n hn
      · have : n = nodeFrom (a :: rest) val.toValue := by simpa using hn
        rw [this]; exact nodeFrom_WF _ _
    · apply distinctVals_append_singleton hwf.2
      intro hvar n hn
      rw [nodeFrom_value_cons] at hvar ⊢
      have hnone := firstAccept_eq_none.1 h n hn
      have := Node.add_eq_none.1 hnone
      rwa [normalize_of_not_isVar hvar] at this
  | some l' =>
    simp only
    obtain ⟨l1, n, n', l2, e1, e2, e3, _⟩ := firstAccept_eq_some h
    subst e1 e2
    have hval : n'.Value = n.Value := by
      rw [(Node.add_value e3).1, (Node.add_value e3).2]
    refine ⟨?_, ?_⟩
    · intro m hm
      rcases List.mem_append.1 hm with hm | hm
      · exact hwf.1 m (List.mem_append.2 (Or.inl hm))
      · rcases List.mem_cons.1 hm with rfl | hm
        · exact hnode n m (hwf.1 n (by simp)) e3
        · exact hwf.1 m (List.mem_append.2 (Or.inr (List.mem_cons_of_mem _ hm)))
    · have := hwf.2
      unfold DistinctVals at this ⊢
      simpa [hval] using this

theorem Node.add_WF (val : Clause) (rest : List Term) : ∀ (a : Term) (n n' : Node),
    Node.WF n → Node.add n a rest val = some n' → Node.WF n' := by
  induction rest with
  | nil =>
    intro a n n' hwf h
    have hv := (Node.add_value h).1
    cases hwf with
    | mk v next h1 h2 h3 =>
      simp only [Node.Value] at hv
      subst hv
      simp only [Node.add, ne_eq, not_true_eq_false, if_false] at h
      split_ifs at h with hany
      · cases h
        exact Node.WF.mk _ _ h1 h2 h3
      · cases h
        refine Node.WF.mk _ _ (by simp [Value.clause?]) ?_ ?_
        · intro c hc
          rcases List.mem_append.1 hc with hc | hc
          · exact h2 c hc
          · have : c = .mk val.toValue [] := by simpa using hc
            rw [this]
            exact nodeFrom_WF [] val
        · apply distinctVals_append_singleton h3
          intro _ n hn heq
          apply hany
          exact List.any_eq_true.2 ⟨n, hn, by simpa [Node.Value] using heq⟩
  | cons b rest ih =>
    intro a n n' hwf h
    have hv := (Node.add_value h).1
    cases hwf with
    | mk v next h1 h2 h3 =>
      simp only [Node.Value] at hv
      rw [Node.add_cons hv] at h
      cases h
      have hf : ForestWF (addTo next b rest val) := forestWF_addTo_of_node (ih b) ⟨h2, h3⟩
      exact Node.WF.mk _ _ (by simp [hv, Value.clause?]) hf.1 hf.2

theorem addTo_WF {nodes : List Node} (hwf : ForestWF nodes) (a : Term) (rest : List Term)
    (val : Clause) : ForestWF (addTo nodes a rest val) :=
  forestWF_addTo_of_node (Node.add_WF val rest a) hwf

/-! ## The index: `Node.remove` -/

theorem findIdx?_split {p : Node → Bool} : ∀ {l : List Node} {i : Nat},
    l.findIdx? p = some i →
    ∃ l1 x l2, l = l1 ++ x :: l2 ∧ p x = true ∧ (∀ y ∈ l1, p y = false) ∧ i = l1.length := by
  intro l
  induction l with
  | nil => intro i h; simp at h
  | cons y ys ih =>
    intro i h
    rw [List.findIdx?_cons] at h
    by_cases hp : p y = true
    · simp only [hp, if_true, Option.some.injEq] at h
      exact ⟨[], y, ys, rfl, hp, by simp, by simp [← h]⟩
    · simp only [hp, Bool.false_eq_true, if_false, Nat.zero_add] at h
      rw [List.findIdx?_succ] at h
      obtain ⟨j, hj, hji⟩ := Option.map_eq_some'.1 h
      obtain ⟨l1, x, l2, e1, e2, e3, e4⟩ := ih hj
      refine ⟨y :: l1, x, l2, by simp [e1], e2, ?_, by simp [← hji, e4]⟩
      intro z hz
      rcases List.mem_cons.1 hz with rfl | hz
      · simpa using hp
      · exact e3 z hz

theorem delete_perm (l1 l2 : List Node) (x : Node) :
    (delete (l1 ++ x :: l2) l1.length).Perm (l1 ++ l2) := by
  unfold delete
  rcases List.eq_nil_or_concat l2 with rfl | ⟨l2', last, rfl⟩
  · have h1 : (l1 ++ [x]).getLast? = some x := List.getLast?_concat l1
    simp only [h1]
    rw [List.set_append_right _ _ (le_refl _)]
    simp
  · rw [List.concat_eq_append]
    have h1 : (l1 ++ x :: (l2' ++ [last])).getLast? = some last := by
      rw [show l1 ++ x :: (l2' ++ [last]) = (l1 ++ x :: l2') ++ [last] by simp]
      exact List.getLast?_concat _
    simp only [h1]
    rw [List.set_append_right _ _ (le_refl _)]
    simp only [Nat.sub_self, List.set_cons_zero]
    rw [show l1 ++ last :: (l2' ++ [last]) = (l1 ++ last :: l2') ++ [last] by simp,
      List.dropLast_concat]
    have : (l1 ++ (l2' ++ [last])).Perm (l1 ++ last :: l2') :=
      List.Perm.append_left _ List.perm_append_comm
    exact this.symm

theorem maybeUnifies_comm (x y : Datalog.Value) : maybeUnifies x y = maybeUnifies y x := by
  unfold maybeUnifies
  cases x with
  | term s =>
    cases s <;> cases y with
    | term t => cases t <;> simp [eq_comm]
    | atom b => simp
    | rule r => simp
  | atom a =>
    cases y with
    | term t => cases t <;> simp
    | atom b => simp [eq_comm]
    | rule r => simp
  | rule q =>
    cases y with
    | term t => cases t <;> simp
    | atom b => simp
    | rule r => simp [eq_comm]

theorem Atom.Equal_iff (a b : Atom) : a.Equal b = true ↔ a = b := by
  cases a; cases b
  simp [Atom.Equal]

theorem isAtomEqual_iff (val : Atom) (n : Node) :
    isAtomEqual val n = true ↔ n.Value = .atom val := by
  unfold isAtomEqual
  cases h : n.Value with
  | term t => simp
  | rule r => simp
  | atom a => simp [Atom.Equal_iff]

theorem Node.remove_value (n : Node) (a : Term) (rest : List Term) (val : Atom) :
    (Node.remove n a rest val).Value = n.Value := by
  cases n with
  | mk v next =>
    cases rest with
    | nil =>
      simp only [Node.remove]
      split_ifs
      · rfl
      · cases next.findIdx? (isAtomEqual val) <;> rfl
    | cons b rest =>
      simp only [Node.remove]
      split_ifs <;> rfl

theorem distinctVals_of_perm {l l' : List Node} (h : l.Perm l') (hd : DistinctVals l) :
    DistinctVals l' := by
  unfold DistinctVals at *
  exact (((h.map Node.Value).filter _).nodup_iff).1 hd

theorem distinctVals_of_sublist {l l' : List Node} (h : l'.Sublist l) (hd : DistinctVals l) :
    DistinctVals l' := by
  unfold DistinctVals at *
  exact List.Nodup.sublist ((h.map Node.Value).filter _) hd

theorem distinctVals_map_of_value {l : List Node} (f : Node → Node)
    (hf : ∀ n, (f n).Value = n.Value) (hd : DistinctVals l) : DistinctVals (l.map f) := by
  unfold DistinctVals at *
  have : (l.map f).map Node.Value = l.map Node.Value := by
    rw [List.map_map]; apply List.map_congr_left; intro n _; exact hf n
  rwa [this]

theorem Node.remove_WF (val : Atom) (rest : List Term) : ∀ (a : Term) (n : Node),
    Node.WF n → Node.WF (Node.remove n a rest val) := by
  induction rest with
  | nil =>
    intro a n hwf
    cases hwf with
    | mk v next h1 h2 h3 =>
      simp only [Node.remove]
      split_ifs
      · exact Node.WF.mk _ _ h1 h2 h3
      · cases hi : next.findIdx? (isAtomEqual val) with
        | none => exact Node.WF.mk _ _ h1 h2 h3
        | some i =>
          simp only
          obtain ⟨l1, x, l2, e1, _, _, e4⟩ := findIdx?_split hi
          subst e1 e4
          have hp := delete_perm l1 l2 x
          have hsub : (l1 ++ l2).Sublist (l1 ++ x :: l2) :=
            List.Sublist.append_left (List.sublist_cons_self x l2) l1
          refine Node.WF.mk _ _ ?_ ?_ ?_
          · intro hc
            have := h1 hc
            simp at this
          · intro c hc
            exact h2 c (hsub.subset (hp.subset hc))
          · exact distinctVals_of_perm hp.symm (distinctVals_of_sublist hsub h3)
  | cons b rest ih =>
    intro a n hwf
    cases hwf with
    | mk v next h1 h2 h3 =>
      simp only [Node.remove]
      split_ifs
      · exact Node.WF.mk _ _ h1 h2 h3
      · refine Node.WF.mk _ _ ?_ ?_ ?_
        · intro hc; rw [h1 hc]; rfl
        · intro c hc
          obtain ⟨c', hc', rfl⟩ := List.mem_map.1 hc
          exact ih b c' (h2 c' hc')
        · exact distinctVals_map_of_value _ (fun n => Node.remove_value n b rest val) h3

theorem forestWF_remove {nodes : List Node} (hwf : ForestWF nodes) (a : Term)
    (rest : List Term) (val : Atom) :
    ForestWF (nodes.map (fun n => Node.remove n a rest val)) := by
  refine ⟨?_, distinctVals_map_of_value _ (fun n => Node.remove_value n a rest val) hwf.2⟩
  intro c hc
  obtain ⟨c', hc', rfl⟩ := List.mem_map.1 hc
  exact Node.remove_WF val rest a c' (hwf.1 c' hc')

theorem removeHit_nil_path (val : Atom) (a : Term) (rest : List Term) (c : Clause) :
    removeHit val (a :: rest) ([], c) = false := by
  simp [removeHit, pathMatch]

theorem removeHit_cons (val : Atom) (a : Term) (rest : List Term) (v : Datalog.Value)
    (p : List Datalog.Value) (c : Clause) :
    removeHit val (a :: rest) (v :: p, c) = (maybeUnifies (.term a) v && removeHit val rest (p, c)) := by
  simp only [removeHit, pathMatch]
  cases maybeUnifies (.term a) v <;> simp

theorem filter_removeHit_own (val : Atom) (a : Term) (rest : List Term) (l : List Clause) :
    (l.map (fun c => (([] : List Datalog.Value), c))).filter
        (fun e => !removeHit val (a :: rest) e) =
      l.map (fun c => ([], c)) := by
  rw [List.filter_eq_self]
  intro e he
  obtain ⟨c, _, rfl⟩ := List.mem_map.1 he
  simp [removeHit_nil_path]

theorem filter_removeHit_children (val : Atom) (a : Term) (rest : List Term)
    (v : Datalog.Value) (L : List (List Datalog.Value × Clause)) :
    (L.map (fun e => (v :: e.1, e.2))).filter (fun e => !removeHit val (a :: rest) e) =
      if maybeUnifies (.term a) v = true then
        (L.filter (fun e => !removeHit val rest e)).map (fun e => (v :: e.1, e.2))
      else L.map (fun e => (v :: e.1, e.2)) := by
  split_ifs with hm
  · rw [List.filter_map]
    congr 1
    apply List.filter_congr
    intro e _
    simp [removeHit_cons, hm]
  · rw [List.filter_eq_self]
    intro e he
    obtain ⟨e', _, rfl⟩ := List.mem_map.1 he
    simp [removeHit_cons, hm]

theorem Node.leaves_filter_removeHit_nil (val : Atom) {x : Node} (hwf : Node.WF x) :
    (Node.leaves x).filter (fun e => !removeHit val [] e) =
      if x.Value = .atom val then [] else Node.leaves x := by
  cases hwf with
  | mk v next h1 h2 h3 =>
    simp only [Node.Value]
    split_ifs with hv
    · subst hv
      have hn : next = [] := h1 rfl
      subst hn
      simp [Node.leaves_mk, Value.clause?, removeHit, pathMatch]
    · rw [List.filter_eq_self]
      intro e he
      rw [Node.leaves_mk, List.mem_append] at he
      rcases he with he | he
      · obtain ⟨c, hc, rfl⟩ := List.mem_map.1 he
        have hc' : v.clause? = some c := by simpa using hc
        have hvc := Value.clause?_eq_some hc'
        have : c ≠ .atom val := by
          intro h; apply hv; rw [hvc, h]; rfl
        simp [removeHit, this]
      · obtain ⟨e', _, rfl⟩ := List.mem_map.1 he
        simp [removeHit, pathMatch]

theorem distinctVals_split {l1 l2 : List Node} {x : Node} (hd : DistinctVals (l1 ++ x :: l2))
    (hx : x.Value.isVar = false) : ∀ y ∈ l2, y.Value ≠ x.Value := by
  intro y hy heq
  unfold DistinctVals at hd
  rw [List.map_append, List.filter_append, List.map_cons, List.filter_cons] at hd
  simp only [hx, Bool.not_false, if_true] at hd
  have h2 := (List.nodup_append.1 hd).2.1
  rw [List.nodup_cons] at h2
  apply h2.1
  rw [List.mem_filter]
  exact ⟨List.mem_map.2 ⟨y, hy, heq⟩, by simp [heq, hx]⟩

theorem Node.remove_leaves (val : Atom) (rest : List Term) : ∀ (a : Term) (n : Node),
    Node.WF n →
    (Node.leaves (Node.remove n a rest val)).Perm
      ((Node.leaves n).filter (fun e => !removeHit val (a :: rest) e)) := by
  induction rest with
  | nil =>
    intro a n hwf
    cases hwf with
    | mk v next h1 h2 h3 =>
      rw [Node.leaves_mk v next, List.filter_append, filter_removeHit_own,
        filter_removeHit_children]
      simp only [Node.remove]
      by_cases hm : maybeUnifies (.term a) v = true
      · have hm' : maybeUnifies v (.term a) = true := by rw [maybeUnifies_comm]; exact hm
        simp only [hm', Bool.not_true, Bool.false_eq_true, if_false, hm, if_true]
        rw [List.filter_flatMap]
        have hF : ∀ c ∈ next, (Node.leaves c).filter (fun e => !removeHit val [] e) =
            if c.Value = .atom val then [] else Node.leaves c :=
          fun c hc => Node.leaves_filter_removeHit_nil val (h2 c hc)
        cases hi : next.findIdx? (isAtomEqual val) with
        | none =>
          simp only
          rw [Node.leaves_mk]
          apply List.Perm.of_eq
          congr 2
          apply List.flatMap_congr
          intro c hc
          rw [hF c hc]
          have : ¬ c.Value = .atom val := by
            intro h
            have := List.findIdx?_eq_none_iff.1 hi c hc
            rw [(isAtomEqual_iff val c).2 h] at this
            cases this
          rw [if_neg this]
        | some i =>
          simp only
          obtain ⟨l1, x, l2, e1, e2, e3, e4⟩ := findIdx?_split hi
          subst e1 e4
          have hxv : x.Value = .atom val := (isAtomEqual_iff val x).1 e2
          have hl1 : ∀ y ∈ l1, ¬ y.Value = .atom val := by
            intro y hy h
            have := e3 y hy
            rw [(isAtomEqual_iff val y).2 h] at this
            cases this
          have hl2 : ∀ y ∈ l2, ¬ y.Value = .atom val := by
            intro y hy h
            exact distinctVals_split h3 (by rw [hxv]; rfl) y hy (by rw [h, hxv])
          have hR : (l1 ++ x :: l2).flatMap
              (fun c => (Node.leaves c).filter (fun e => !removeHit val [] e)) =
              (l1 ++ l2).flatMap Node.leaves := by
            rw [List.flatMap_append, List.flatMap_cons, List.flatMap_append]
            rw [hF x (by simp), if_pos hxv, List.nil_append]
            congr 1
            · apply List.flatMap_congr
              intro c hc
              rw [hF c (by simp [hc]), if_neg (hl1 c hc)]
            · apply List.flatMap_congr
              intro c hc
              rw [hF c (by simp [hc]), if_neg (hl2 c hc)]
          rw [hR, Node.leaves_mk]
          apply List.Perm.append_left
          apply List.Perm.map
          exact List.Perm.flatMap_right _ (delete_perm l1 l2 x)
      · have hm' : ¬ maybeUnifies v (.term a) = true := by rw [maybeUnifies_comm]; exact hm
        simp only [hm', Bool.not_false, if_true, hm, if_false, Bool.false_eq_true]
        rw [Node.leaves_mk]
  | cons b rest ih =>
    intro a n hwf
    cases hwf with
    | mk v next h1 h2 h3 =>
      rw [Node.leaves_mk v next, List.filter_append, filter_removeHit_own,
        filter_removeHit_children]
      simp only [Node.remove]
      by_cases hm : maybeUnifies (.term a) v = true
      · have hm' : maybeUnifies v (.term a) = true := by rw [maybeUnifies_comm]; exact hm
        simp only [hm', Bool.not_true, Bool.false_eq_true, if_false, hm, if_true]
        rw [Node.leaves_mk, List.filter_flatMap, List.flatMap_map]
        apply List.Perm.append_left
        apply List.Perm.map
        apply List.Perm.flatMap_left
        intro c hc
        exact ih b c (h2 c hc)
      · have hm' : ¬ maybeUnifies v (.term a) = true := by rw [maybeUnifies_comm]; exact hm
        simp only [hm', Bool.not_false, if_true, hm, if_false, Bool.false_eq_true]
        rw [Node.leaves_mk]

theorem leavesList_remove {nodes : List Node} (hwf : ForestWF nodes) (a : Term)
    (rest : List Term) (val : Atom) :
    (Node.leavesList (nodes.map (fun n => Node.remove n a rest val))).Perm
      ((Node.leavesList nodes).filter (fun e => !removeHit val (a :: rest) e)) := by
  rw [Node.leavesList_eq_flatMap, Node.leavesList_eq_flatMap, List.filter_flatMap,
    List.flatMap_map]
  apply List.Perm.flatMap_left
  intro c hc
  exact Node.remove_leaves val rest a c (hwf.1 c hc)

/-! ## The database -/

theorem Database.nodes_set (db : Database) (key : String) (l : List Node) (k : String) :
    (db.set key l).nodes k = if k = key then l else db.nodes k := by
  unfold Database.nodes Database.set
  split_ifs <;> rfl

theorem Database.leaves_set (db : Database) (key : String) (l : List Node) (k : String) :
    (db.set key l).leaves k = if k = key then Node.leavesList l else db.leaves k := by
  unfold Database.leaves
  rw [Database.nodes_set]
  split_ifs <;> rfl

theorem Database.Assert_cons {db : Database} {c : Clause} {a : Term} {rest : List Term}
    (h : c.head.Args = a :: rest) :
    db.Assert c = .ok (db.set c.Key (addTo (db.nodes c.Key) a rest c)) := by
  unfold Database.Assert addTo
  rw [h]
  simp only
  cases firstAccept (fun n => Node.add n a rest c) (db.nodes c.Key) <;> rfl

theorem Database.Remove_cons {db : Database} {val : Atom} {a : Term} {rest : List Term}
    (h : val.Args = a :: rest) :
    db.Remove val =
      .ok (db.set val.Name ((db.nodes val.Name).map (fun n => Node.remove n a rest val))) := by
  unfold Database.Remove
  rw [h]

theorem Database.Assert_ok {db : Database} {c : Clause} (h : c.head.Args ≠ []) :
    ∃ db', db.Assert c = .ok db' := by
  cases hc : c.head.Args with
  | nil => exact absurd hc h
  | cons a rest => exact ⟨_, Database.Assert_cons hc⟩

theorem Database.Remove_ok {db : Database} {val : Atom} (h : val.Args ≠ []) :
    ∃ db', db.Remove val = .ok db' := by
  cases hc : val.Args with
  | nil => exact absurd hc h
  | cons a rest => exact ⟨_, Database.Remove_cons hc⟩

theorem DBInv_empty : DBInv Database.empty := by
  intro key
  refine ⟨⟨by simp [Database.nodes, Database.empty], ?_⟩, ?_⟩
  · simp [Database.nodes, Database.empty, distinctVals_nil]
  · simp [Database.leaves, Database.nodes, Database.empty, Node.leavesList]

theorem Database.Assert_nil {db db' : Database} {c : Clause} (hc : c.head.Args = [])
    (h : db.Assert c = .ok db') :
    db.nodes c.Key = [] ∧ db' = db.set c.Key [nodeFrom [] c.toValue] := by
  unfold Database.Assert at h
  rw [hc] at h
  simp only at h
  cases hn : db.nodes c.Key with
  | nil =>
    rw [hn] at h
    simp only at h
    cases h
    exact ⟨rfl, rfl⟩
  | cons n ns =>
    rw [hn] at h
    simp only at h
    cases h

theorem Database.Remove_nil {db db' : Database} {val : Atom} (hc : val.Args = [])
    (h : db.Remove val = .ok db') :
    db.nodes val.Name = [] ∧ db' = db.set val.Name [] := by
  unfold Database.Remove at h
  rw [hc] at h
  simp only at h
  cases hn : db.nodes val.Name with
  | nil =>
    rw [hn] at h
    simp only at h
    cases h
    exact ⟨rfl, rfl⟩
  | cons n ns =>
    rw [hn] at h
    simp only at h
    cases h

theorem DBInv_assert {db db' : Database} {c : Clause} (hinv : DBInv db)
    (h : db.Assert c = .ok db') : DBInv db' := by
  cases hc : c.head.Args with
  | nil =>
    obtain ⟨_, rfl⟩ := Database.Assert_nil hc h
    intro key
    rw [Database.nodes_set, Database.leaves_set]
    by_cases hk : key = c.Key
    · simp only [hk, if_true]
      refine ⟨⟨?_, distinctVals_singleton _⟩, ?_⟩
      · intro n hn
        have : n = nodeFrom [] c.toValue := by simpa using hn
        rw [this]; exact nodeFrom_WF [] c
      · intro e he
        rw [Node.leavesList_cons, leaves_nodeFrom] at he
        have : e = ([], c) := by simpa [Node.leavesList] using he
        rw [this]
        exact ⟨rfl, by rw [hc]; exact List.Forall₂.nil⟩
    · simp only [hk, if_false]
      exact hinv key
  | cons a rest =>
    rw [Database.Assert_cons hc] at h
    cases h
    intro key
    rw [Database.nodes_set, Database.leaves_set]
    by_cases hk : key = c.Key
    · simp only [hk, if_true]
      refine ⟨addTo_WF (hinv c.Key).1 a rest c, ?_⟩
      intro e he
      rcases addTo_addChar (db.nodes c.Key) a rest c with ⟨p, hp, hperm⟩ | ⟨heq, _⟩
      · rcases List.mem_cons.1 (hperm.subset he) with rfl | he'
        · exact ⟨rfl, by rw [hc]; exact hp⟩
        · exact (hinv c.Key).2 e he'
      · rw [heq] at he
        exact (hinv c.Key).2 e he
    · simp only [hk, if_false]
      exact hinv key

theorem DBInv_remove {db db' : Database} {val : Atom} (hinv : DBInv db)
    (h : db.Remove val = .ok db') : DBInv db' := by
  cases hc : val.Args with
  | nil =>
    obtain ⟨_, rfl⟩ := Database.Remove_nil hc h
    intro key
    rw [Database.nodes_set, Database.leaves_set]
    by_cases hk : key = val.Name
    · simp only [hk, if_true]
      exact ⟨⟨by simp, distinctVals_nil⟩, by simp [Node.leavesList]⟩
    · simp only [hk, if_false]
      exact hinv key
  | cons a rest =>
    rw [Database.Remove_cons hc] at h
    cases h
    intro key
    rw [Database.nodes_set, Database.leaves_set]
    by_cases hk : key = val.Name
    · simp only [hk, if_true]
      refine ⟨forestWF_remove (hinv val.Name).1 a rest val, ?_⟩
      intro e he
      have := (leavesList_remove (hinv val.Name).1 a rest val).subset he
      exact (hinv val.Name).2 e (List.mem_filter.1 this).1
    · simp only [hk, if_false]
      exact hinv key

theorem Reachable.inv {db : Database} (h : Reachable db) : DBInv db := by
  induction h with
  | empty => exact DBInv_empty
  | assert c _ hA ih => exact DBInv_assert ih hA
  | remove a _ hR ih => exact DBInv_remove ih hR

/-! ## Claims on the index -/

/-- C5 fails on the code: asserting the atom `foo(X)` twice into the empty database stores
it twice.  The first `Assert` builds the spine with `nodeFrom`, which keeps the variable as
the node value; the second `Assert` compares that value with `Wildcard{}` in `Node.add`, is
rejected, and appends a second spine with a second leaf. -/
theorem Database.Assert_var_twice :
    ∃ db1 db2, Database.empty.Assert fooX = .ok db1 ∧ db1.Assert fooX = .ok db2 ∧
      db2.leaves "foo" =
        [([.term (.var ⟨"X", 0⟩)], fooX), ([.term (.var ⟨"X", 0⟩)], fooX)] ∧
      db2.find { Name := "foo", Args := [.wildcard] } = [fooX, fooX] :=
  ⟨_, _, Database.Assert_cons rfl, Database.Assert_cons rfl, by decide, by decide⟩

/-- C6 fails on the code: after `Assert(foo(X))` on the empty database the node of the
argument position holds the variable `X`, not `Wildcard{}`; and after `Assert(foo(Y))` the
two clauses, which differ only in the name of the variable, lie on two different spines. -/
theorem Database.Assert_var_spine :
    ∃ db1 db2, Database.empty.Assert fooX = .ok db1 ∧ db1.Assert fooY = .ok db2 ∧
      db1.nodes "foo" = [.mk (.term (.var ⟨"X", 0⟩)) [.mk fooX.toValue []]] ∧
      db2.nodes "foo" =
        [.mk (.term (.var ⟨"X", 0⟩)) [.mk fooX.toValue []],
         .mk (.term (.var ⟨"Y", 0⟩)) [.mk fooY.toValue []]] :=
  ⟨_, _, Database.Assert_cons rfl, Database.Assert_cons rfl, by decide, by decide⟩

theorem maybeUnifies_refl_term (a : Term) : maybeUnifies (.term a) (.term a) = true := by
  cases a <;> simp [maybeUnifies]

theorem maybeUnifies_normalize (a : Term) :
    maybeUnifies (.term a) (.term (normalize a)) = true := by
  cases a <;> simp [maybeUnifies, normalize]

theorem maybeUnifies_spineOf {a c : Term} {s : Datalog.Value}
    (h : maybeUnifies (.term a) (.term c) = true) (hs : SpineOf s c) :
    maybeUnifies (.term a) s = true := by
  rcases hs with rfl | rfl
  · exact h
  · cases c with
    | int i => exact h
    | str t => exact h
    | var v => cases a <;> simp [maybeUnifies, normalize]
    | wildcard => exact h

theorem Vars.Unify_true_maybeUnifies {fuel : Nat} {e e' : Vars} {l r : Term}
    (h : e.Unify fuel l r = some (true, e')) : maybeUnifies (.term l) (.term r) = true := by
  cases fuel with
  | zero => simp [Vars.Unify] at h
  | succ n =>
    cases l <;> cases r <;> simp only [Vars.Unify] at h <;>
      first
      | (simp [maybeUnifies]; done)
      | (split_ifs at h with h1 <;> first | (simp [maybeUnifies, h1]; done) | (simp at h; done) | skip)
    all_goals simp_all [maybeUnifies]

theorem Vars.unifyLoop_true_forall₂ (fuel : Nat) : ∀ (as cs : List Term) (e e' : Vars),
    as.length = cs.length → Vars.unifyLoop fuel e as cs = some (true, e') →
    List.Forall₂ (fun a c => maybeUnifies (.term a) (.term c) = true) as cs := by
  intro as
  induction as with
  | nil =>
    intro cs e e' hl _
    cases cs with
    | nil => exact List.Forall₂.nil
    | cons c cs => simp at hl
  | cons a as ih =>
    intro cs e e' hl h
    cases cs with
    | nil => simp at hl
    | cons c cs =>
      rw [Vars.unifyLoop] at h
      cases hu : e.Unify fuel a c with
      | none => simp [hu] at h
      | some x =>
        obtain ⟨b, e1⟩ := x
        cases b with
        | false => simp [hu] at h
        | true =>
          simp only [hu] at h
          exact List.Forall₂.cons (Vars.Unify_true_maybeUnifies hu)
            (ih cs e1 e' (by simpa using hl) h)

theorem Vars.unifyAll_true_forall₂ {fuel : Nat} {as cs : List Term} {e e' : Vars}
    (h : Vars.unifyAll fuel e as cs = some (true, e')) :
    List.Forall₂ (fun a c => maybeUnifies (.term a) (.term c) = true) as cs := by
  unfold Vars.unifyAll at h
  split_ifs at h with hl
  · simp at h
  · exact Vars.unifyLoop_true_forall₂ fuel as cs e e' (by simpa using hl) h

theorem pathMatch_of_forall₂ : ∀ {as cs : List Term} {p : List Datalog.Value},
    List.Forall₂ (fun a c => maybeUnifies (.term a) (.term c) = true) as cs →
    List.Forall₂ SpineOf p cs → pathMatch as p = true := by
  intro as
  induction as with
  | nil =>
    intro cs p h1 h2
    cases h1
    cases h2
    rfl
  | cons a as ih =>
    intro cs p h1 h2
    cases h1 with
    | cons ha has =>
      cases h2 with
      | cons hs hss =>
        simp only [pathMatch, Bool.and_eq_true]
        exact ⟨maybeUnifies_spineOf ha hs, ih has hss⟩

theorem maybeUnifies_spineOf_rename {a c : Term} {s : Datalog.Value} (v : Vars)
    (h : maybeUnifies (.term a) (.term (v.rename c)) = true) (hs : SpineOf s c) :
    maybeUnifies (.term a) s = true := by
  cases c with
  | int i => exact maybeUnifies_spineOf h hs
  | str t => exact maybeUnifies_spineOf h hs
  | wildcard => exact maybeUnifies_spineOf h hs
  | var x =>
    rcases hs with rfl | rfl <;> cases a <;> simp [maybeUnifies, normalize]

theorem pathMatch_of_forall₂_rename (v : Vars) : ∀ {as cs : List Term} {p : List Datalog.Value},
    List.Forall₂ (fun a c => maybeUnifies (.term a) (.term c) = true) as (cs.map v.rename) →
    List.Forall₂ SpineOf p cs → pathMatch as p = true := by
  intro as
  induction as with
  | nil =>
    intro cs p h1 h2
    cases cs with
    | nil => cases h2; rfl
    | cons c cs => cases h1
  | cons a as ih =>
    intro cs p h1 h2
    cases cs with
    | nil => cases h1
    | cons c cs =>
      rw [List.map_cons] at h1
      cases h1 with
      | cons ha has =>
        cases h2 with
        | cons hs hss =>
          simp only [pathMatch, Bool.and_eq_true]
          exact ⟨maybeUnifies_spineOf_rename v ha hs, ih has hss⟩

/-- C7: the prefix search is complete with respect to unification.  In a database built
by `Assert` and `Remove`, a stored clause (atom or rule) whose head arguments unify with
the arguments of a query of the same name, under some environment, is among the clauses
that `Database.find` sends for that query; the same holds when the head arguments are
first renamed, as `Atom.unify` does before it unifies. -/
theorem Database.find_complete (db : Database) (c : Clause) (q : Atom) (fuel : Nat)
    (e e' : Vars) (hdb : Reachable db) (hc : db.stores c) (hq : q.Name = c.Key)
    (hu : Vars.unifyAll fuel e q.Args c.head.Args = some (true, e') ∨
      ∃ v, Vars.unifyAll fuel e q.Args (c.head.renameVars v).Args = some (true, e')) :
    c ∈ db.find q := by
  obtain ⟨p, hp⟩ := hc
  have hok := (hdb.inv c.Key).2 (p, c) hp
  rw [Database.find_eq_filter_leaves, hq]
  refine List.mem_map.2 ⟨(p, c), List.mem_filter.2 ⟨hp, ?_⟩, rfl⟩
  rcases hu with hu | ⟨v, hu⟩
  · exact pathMatch_of_forall₂ (Vars.unifyAll_true_forall₂ hu) hok.2
  · exact pathMatch_of_forall₂_rename v (Vars.unifyAll_true_forall₂ hu) hok.2

theorem forall₂_maybeUnifies_refl (as : List Term) :
    List.Forall₂ (fun a c => maybeUnifies (.term a) (.term c) = true) as as := by
  induction as with
  | nil => exact List.Forall₂.nil
  | cons a as ih => exact List.Forall₂.cons (maybeUnifies_refl_term a) ih

theorem Database.leaves_Remove {db db' : Database} {val : Atom} (hinv : DBInv db)
    (hne : val.Args ≠ []) (h : db.Remove val = .ok db') (key : String) :
    (db'.leaves key).Perm ((db.leaves key).filter (fun e => decide (e.2 ≠ .atom val))) := by
  cases hc : val.Args with
  | nil => exact absurd hc hne
  | cons a rest =>
    rw [Database.Remove_cons hc] at h
    cases h
    rw [Database.leaves_set]
    by_cases hk : key = val.Name
    · simp only [hk, if_true]
      refine (leavesList_remove (hinv val.Name).1 a rest val).trans (List.Perm.of_eq ?_)
      apply List.filter_congr
      intro e he
      have hok := (hinv val.Name).2 e he
      by_cases hev : e.2 = .atom val
      · have hp : pathMatch (a :: rest) e.1 = true := by
          have h2 := hok.2
          rw [hev] at h2
          simp only [Clause.head, hc] at h2
          exact pathMatch_of_forall₂ (forall₂_maybeUnifies_refl _) h2
        simp [removeHit, hev, hp]
      · simp [removeHit, hev]
    · simp only [hk, if_false]
      apply List.Perm.of_eq
      symm
      rw [List.filter_eq_self]
      intro e he
      have hok := (hinv key).2 e he
      have : e.2 ≠ .atom val := by
        intro hev
        apply hk
        rw [← hok.1, hev]
        rfl
      simpa using this

theorem Database.find_perm_of_leaves {db db' : Database} (p : Clause → Bool)
    (h : ∀ key, (db'.leaves key).Perm ((db.leaves key).filter (fun e => p e.2))) (q : Atom) :
    (db'.find q).Perm ((db.find q).filter p) := by
  rw [Database.find_eq_filter_leaves, Database.find_eq_filter_leaves, List.filter_map]
  apply List.Perm.map
  refine ((h q.Name).filter _).trans (List.Perm.of_eq ?_)
  rw [List.filter_filter, List.filter_filter]
  apply List.filter_congr
  intro e _
  simp [Bool.and_comm]

/-- C8: in a database built by `Assert` and `Remove`, `Remove(A)` for an atom with at least
one argument deletes exactly the leaves that hold an atom equal to `A`: under every key
the stored leaves afterwards are the leaves before without those holding `A`; no leaf
holding `A` remains; and `find` sends, for every query, what it sent before without `A`, so
every other clause (rules with head `A` included) is sent for the same queries as before. -/
theorem Database.Remove_exact (db db' : Database) (A : Atom) (hdb : Reachable db)
    (hne : A.Args ≠ []) (h : db.Remove A = .ok db') :
    (∀ key, (db'.leaves key).Perm ((db.leaves key).filter (fun e => decide (e.2 ≠ .atom A)))) ∧
    ¬ db'.stores (.atom A) ∧
    (∀ q, (db'.find q).Perm ((db.find q).filter (fun c => decide (c ≠ .atom A)))) ∧
    (∀ q c, c ≠ .atom A → (c ∈ db'.find q ↔ c ∈ db.find q)) := by
  have h1 := Database.leaves_Remove hdb.inv hne h
  have h3 := Database.find_perm_of_leaves (fun c => decide (c ≠ .atom A)) h1
  refine ⟨h1, ?_, h3, ?_⟩
  · rintro ⟨p, hp⟩
    have := (List.mem_filter.1 ((h1 _).subset hp)).2
    simp at this
  · intro q c hc
    rw [(h3 q).mem_iff, List.mem_filter]
    simp [hc]

/-! ## Leaves on a path without variables are unique -/

theorem Node.mem_leaves_value {n : Node} {e : List Datalog.Value × Clause}
    (h : e ∈ Node.leaves n) : n.Value = entryHead e := by
  cases n with
  | mk v next =>
    rw [Node.leaves_mk, List.mem_append] at h
    rcases h with h | h
    · obtain ⟨c, hc, rfl⟩ := List.mem_map.1 h
      have hc' : v.clause? = some c := by simpa using hc
      exact Value.clause?_eq_some hc'
    · obtain ⟨e', _, rfl⟩ := List.mem_map.1 h
      rfl

theorem Node.mem_leavesList_value {l : List Node} {e : List Datalog.Value × Clause}
    (h : e ∈ Node.leavesList l) : ∃ n ∈ l, n.Value = entryHead e := by
  rw [Node.leavesList_eq_flatMap] at h
  obtain ⟨n, hn, he⟩ := List.mem_flatMap.1 h
  exact ⟨n, hn, Node.mem_leaves_value he⟩

theorem forestWF_tail {n : Node} {ns : List Node} (h : ForestWF (n :: ns)) : ForestWF ns :=
  ⟨fun m hm => h.1 m (List.mem_cons_of_mem _ hm),
    distinctVals_of_sublist (List.sublist_cons_self n ns) h.2⟩

theorem leavesList_count_of_node {e : List Datalog.Value × Clause}
    (he : (entryHead e).isVar = false) :
    ∀ nodes : List Node, ForestWF nodes →
      (∀ n ∈ nodes, (Node.leaves n).count e ≤ 1) → (Node.leavesList nodes).count e ≤ 1 := by
  intro nodes
  induction nodes with
  | nil => intro _ _; simp [Node.leavesList]
  | cons n ns ih =>
    intro hwf hn
    rw [Node.leavesList_cons, List.count_append]
    have h1 := hn n (by simp)
    have h2 := ih (forestWF_tail hwf) (fun m hm => hn m (List.mem_cons_of_mem _ hm))
    by_cases hmem : e ∈ Node.leaves n
    · have hv := Node.mem_leaves_value hmem
      have : e ∉ Node.leavesList ns := by
        intro hm2
        obtain ⟨m, hm, hmv⟩ := Node.mem_leavesList_value hm2
        have hd : DistinctVals ([] ++ n :: ns) := hwf.2
        exact distinctVals_split hd (by rw [hv]; exact he) m hm (by rw [hmv, hv])
      rw [List.count_eq_zero_of_not_mem this]
      omega
    · rw [List.count_eq_zero_of_not_mem hmem]
      omega

theorem leavesList_count_le_one (p : List Datalog.Value) :
    ∀ (nodes : List Node) (c : Clause), ForestWF nodes → (∀ s ∈ p, s.isVar = false) →
      (Node.leavesList nodes).count (p, c) ≤ 1 := by
  induction p with
  | nil =>
    intro nodes c hwf _
    apply leavesList_count_of_node (by simp [entryHead, Clause.toValue_isVar]) nodes hwf
    intro n _
    cases n with
    | mk v next =>
      rw [Node.leaves_mk, List.count_append]
      have h0 : List.count (([] : List Datalog.Value), c)
          (List.map (fun e : List Datalog.Value × Clause => (v :: e.1, e.2))
            (next.flatMap Node.leaves)) = 0 := by
        apply List.count_eq_zero_of_not_mem
        intro hm
        obtain ⟨e', _, he'⟩ := List.mem_map.1 hm
        simp at he'
      rw [h0]
      have h1 := List.count_le_length (([] : List Datalog.Value), c)
        (List.map (fun c => (([] : List Datalog.Value), c)) v.clause?.toList)
      have h2 : (List.map (fun c => (([] : List Datalog.Value), c)) v.clause?.toList).length ≤ 1 := by
        cases v.clause? <;> simp
      omega
  | cons s p ih =>
    intro nodes c hwf hp
    apply leavesList_count_of_node (by simpa [entryHead] using hp s (by simp)) nodes hwf
    intro n hn
    have hnwf := hwf.1 n hn
    cases hnwf with
    | mk v next h1 h2 h3 =>
      rw [Node.leaves_mk', List.count_append]
      have h0 : List.count (s :: p, c)
          (List.map (fun c => (([] : List Datalog.Value), c)) v.clause?.toList) = 0 := by
        apply List.count_eq_zero_of_not_mem
        intro hm
        obtain ⟨e', _, he'⟩ := List.mem_map.1 hm
        simp at he'
      rw [h0]
      by_cases hsv : s = v
      · subst hsv
        have h5 : List.count (s :: p, c)
            (List.map (fun e : List Datalog.Value × Clause => (s :: e.1, e.2))
              (Node.leavesList next)) = List.count (p, c) (Node.leavesList next) := by
          rw [List.count_eq_countP, List.count_eq_countP, List.countP_map]
          apply List.countP_congr
          intro e _
          simp only [Function.comp, beq_iff_eq, Prod.mk.injEq, List.cons.injEq, true_and]
          obtain ⟨e1, e2⟩ := e
          simp
        rw [h5]
        have := ih next c ⟨h2, h3⟩ (fun t ht => hp t (List.mem_cons_of_mem _ ht))
        omega
      · have : List.count (s :: p, c)
            (List.map (fun e : List Datalog.Value × Clause => (v :: e.1, e.2))
              (Node.leavesList next)) = 0 := by
          apply List.count_eq_zero_of_not_mem
          intro hm
          obtain ⟨e', _, he'⟩ := List.mem_map.1 hm
          simp only [Prod.mk.injEq, List.cons.injEq] at he'
          exact hsv he'.1.1.symm
        omega

/-! ## Asserting a stored ground atom changes nothing -/

theorem normalize_const {a : Term} (h : a.isConst = true) : normalize a = a := by
  cases a <;> first | rfl | simp [Term.isConst] at h

theorem isVar_term_const {a : Term} (h : a.isConst = true) : (Value.term a).isVar = false := by
  cases a <;> first | rfl | simp [Term.isConst] at h

theorem spineOf_const {s : Datalog.Value} {a : Term} (h : a.isConst = true)
    (hs : SpineOf s a) : s = .term a := by
  rcases hs with rfl | rfl
  · rfl
  · rw [normalize_const h]

theorem forall₂_spineOf_const : ∀ {p : List Datalog.Value} {args : List Term},
    (∀ t ∈ args, t.isConst = true) → List.Forall₂ SpineOf p args → p = args.map Value.term := by
  intro p args hc h
  induction h with
  | nil => rfl
  | cons hs _ ih =>
    rw [List.map_cons, spineOf_const (hc _ (by simp)) hs,
      ih (fun t ht => hc t (List.mem_cons_of_mem _ ht))]

theorem distinctVals_split_left {l1 l2 : List Node} {x : Node}
    (hd : DistinctVals (l1 ++ x :: l2)) (hx : x.Value.isVar = false) :
    ∀ y ∈ l1, y.Value ≠ x.Value := by
  intro y hy
  have hp : (l1 ++ x :: l2).Perm ([] ++ x :: (l1 ++ l2)) := by
    simp
  exact distinctVals_split (distinctVals_of_perm hp hd) hx y (List.mem_append.2 (Or.inl hy))

theorem firstAccept_append {f : Node → Option Node} {l1 l2 : List Node} {n n' : Node}
    (h1 : ∀ m ∈ l1, f m = none) (h2 : f n = some n') :
    firstAccept f (l1 ++ n :: l2) = some (l1 ++ n' :: l2) := by
  induction l1 with
  | nil => simp [firstAccept, h2]
  | cons m ms ih =>
    have hm := h1 m (by simp)
    rw [List.cons_append, firstAccept, hm]
    simp only
    rw [ih (fun x hx => h1 x (List.mem_cons_of_mem _ hx))]
    rfl

theorem addTo_fix_of_node {val : Clause} {a : Term} {rest : List Term}
    (ha : a.isConst = true)
    (hnode : ∀ n, Node.WF n →
      ((a :: rest).map Value.term, val) ∈ Node.leaves n → Node.add n a rest val = some n)
    {nodes : List Node} (hwf : ForestWF nodes)
    (hmem : ((a :: rest).map Value.term, val) ∈ Node.leavesList nodes) :
    addTo nodes a rest val = nodes := by
  rw [Node.leavesList_eq_flatMap] at hmem
  obtain ⟨n, hn, he⟩ := List.mem_flatMap.1 hmem
  have hv : n.Value = .term a := Node.mem_leaves_value he
  obtain ⟨l1, l2, rfl⟩ := List.append_of_mem hn
  have hl1 : ∀ m ∈ l1, Node.add m a rest val = none := by
    intro m hm
    apply Node.add_eq_none.2
    rw [normalize_const ha, ← hv]
    exact distinctVals_split_left hwf.2 (by rw [hv]; exact isVar_term_const ha) m hm
  have hadd := hnode n (hwf.1 n hn) he
  unfold addTo
  rw [firstAccept_append hl1 hadd]

theorem Node.add_fix (val : Clause) (rest : List Term) : ∀ (a : Term) (n : Node),
    a.isConst = true → (∀ t ∈ rest, t.isConst = true) → Node.WF n →
    ((a :: rest).map Value.term, val) ∈ Node.leaves n → Node.add n a rest val = some n := by
  induction rest with
  | nil =>
    intro a n ha _ hwf hmem
    cases n with
    | mk v next =>
      rw [Node.leaves_mk', List.mem_append] at hmem
      rcases hmem with hmem | hmem
      · obtain ⟨c, _, hc⟩ := List.mem_map.1 hmem
        simp at hc
      · obtain ⟨e', he', heq⟩ := List.mem_map.1 hmem
        simp only [List.map_cons, List.map_nil, Prod.mk.injEq, List.cons.injEq] at heq
        obtain ⟨⟨hv, hp⟩, hc⟩ := heq
        obtain ⟨m, hm, hmv⟩ := Node.mem_leavesList_value he'
        have hmv' : m.Value = val.toValue := by
          rw [hmv]
          unfold entryHead
          rw [hp, hc]
        have hany : next.any (fun elem => decide (elem.Value = val.toValue)) = true :=
          List.any_eq_true.2 ⟨m, hm, by simpa using hmv'⟩
        simp [Node.add, hv, normalize_const ha, hany]
  | cons b rest ih =>
    intro a n ha hrest hwf hmem
    cases hwf with
    | mk v next h1 h2 h3 =>
      rw [Node.leaves_mk', List.mem_append] at hmem
      rcases hmem with hmem | hmem
      · obtain ⟨c, _, hc⟩ := List.mem_map.1 hmem
        simp at hc
      · obtain ⟨e', he', heq⟩ := List.mem_map.1 hmem
        simp only [List.map_cons, Prod.mk.injEq, List.cons.injEq] at heq
        obtain ⟨⟨hv, hp⟩, hc⟩ := heq
        have hv' : v = .term (normalize a) := by rw [normalize_const ha, hv]
        rw [Node.add_cons hv']
        have he2 : ((b :: rest).map Value.term, val) ∈ Node.leavesList next := by
          have : e' = ((b :: rest).map Value.term, val) := Prod.ext hp hc
          rw [← this]; exact he'
        have hb : b.isConst = true := hrest b (by simp)
        have hr : ∀ t ∈ rest, t.isConst = true := fun t ht => hrest t (List.mem_cons_of_mem _ ht)
        rw [addTo_fix_of_node hb (fun m hm hmm => ih b m hb hr hm hmm) ⟨h2, h3⟩ he2]

theorem addTo_fix {nodes : List Node} {a : Term} {rest : List Term} {val : Clause}
    (hwf : ForestWF nodes) (hc : ∀ t ∈ a :: rest, t.isConst = true)
    (hmem : ((a :: rest).map Value.term, val) ∈ Node.leavesList nodes) :
    addTo nodes a rest val = nodes :=
  addTo_fix_of_node (hc a (by simp))
    (fun m hm hmm => Node.add_fix val rest a m (hc a (by simp))
      (fun t ht => hc t (List.mem_cons_of_mem _ ht)) hm hmm) hwf hmem

theorem Database.set_nodes_self {db : Database} {key : String} (h : db.nodes key ≠ []) :
    db.set key (db.nodes key) = db := by
  funext k
  unfold Database.set
  split_ifs with hk
  · subst hk
    unfold Database.nodes at h ⊢
    cases hd : db k with
    | none => simp [hd] at h
    | some l => simp
  · rfl

theorem count_map_snd_of_unique {L : List (List Datalog.Value × Clause)} {p0 : List Datalog.Value}
    {c : Clause} (h : ∀ e ∈ L, e.2 = c → e.1 = p0) :
    (L.map (fun e => e.2)).count c = L.count (p0, c) := by
  rw [List.count_eq_countP, List.count_eq_countP, List.countP_map]
  apply List.countP_congr
  intro e he
  obtain ⟨e1, e2⟩ := e
  simp only [Function.comp, beq_iff_eq, Prod.mk.injEq]
  constructor
  · intro h2; exact ⟨h (e1, e2) he h2, h2⟩
  · intro h2; exact h2.2

theorem reachable_dbAB : Reachable dbAB :=
  Reachable.assert (.atom atomAB) Reachable.empty (Database.Assert_cons rfl)

theorem reachable_dbABXB : Reachable dbABXB :=
  Reachable.assert (.atom atomXB) reachable_dbAB (Database.Assert_cons rfl)

/-- C10 fails on the code as stated: the database built by `Assert(foo(a, b))` and
`Assert(foo(X, b))` stores the ground atom `foo(a, b)`, and the query `foo(a, Y)`, which
matches it, returns `foo(a, b)` twice: once from the stored atom and once from `foo(X, b)`. -/
theorem Database.Query_returns_stored_twice :
    Reachable dbABXB ∧ dbABXB.stores (.atom atomAB) ∧
    dbABXB.Query 3 { Name := "foo", Args := [.str "a", .var ⟨"Y", 0⟩] }
      = [.out atomAB, .out atomAB] :=
  ⟨reachable_dbABXB, ⟨[.term (.str "a"), .term (.str "b")], by decide⟩, by decide⟩

theorem Database.stores_ground_path {db : Database} {A : Atom} (hinv : DBInv db)
    (hg : ∀ t ∈ A.Args, t.isConst = true) {e : List Datalog.Value × Clause}
    (he : e ∈ db.leaves A.Name) (hA : e.2 = .atom A) : e.1 = A.Args.map Value.term := by
  have hok := (hinv A.Name).2 e he
  have h2 := hok.2
  rw [hA] at h2
  exact forall₂_spineOf_const hg h2

theorem Database.stores_after_Assert {db db1 : Database} {c : Clause} (hne : c.head.Args ≠ [])
    (h : db.Assert c = .ok db1) : db1.stores c := by
  cases hc : c.head.Args with
  | nil => exact absurd hc hne
  | cons a rest =>
    rw [Database.Assert_cons hc] at h
    cases h
    unfold Database.stores
    rw [Database.leaves_set, if_pos rfl]
    rcases addTo_addChar (db.nodes c.Key) a rest c with ⟨p, _, hperm⟩ | ⟨heq, p, _, hmem⟩
    · exact ⟨p, hperm.symm.subset (by simp)⟩
    · exact ⟨p, by rw [heq]; exact hmem⟩

theorem Database.Assert_stored_same {db : Database} {A : Atom} (hdb : Reachable db)
    (hne : A.Args ≠ []) (hg : ∀ t ∈ A.Args, t.isConst = true) (hs : db.stores (.atom A)) :
    db.Assert (.atom A) = .ok db := by
  obtain ⟨p, hp⟩ := hs
  have hinv := hdb.inv
  have hok := (hinv A.Name).2 (p, .atom A) hp
  have hpath : p = A.Args.map Value.term := Database.stores_ground_path hinv hg hp rfl
  cases hc : A.Args with
  | nil => exact absurd hc hne
  | cons a rest =>
    have hc' : (Clause.atom A).head.Args = a :: rest := hc
    rw [Database.Assert_cons hc']
    have hmem : ((a :: rest).map Value.term, Clause.atom A) ∈ Node.leavesList (db.nodes A.Name) := by
      rw [← hc, ← hpath]; exact hp
    have hfix : addTo (db.nodes A.Name) a rest (.atom A) = db.nodes A.Name :=
      addTo_fix (hinv A.Name).1 (by rw [← hc]; exact hg) hmem
    have hnodes : db.nodes A.Name ≠ [] := by
      intro h0
      rw [h0] at hmem
      simp [Node.leavesList] at hmem
    show Except.ok (db.set A.Name (addTo (db.nodes A.Name) a rest (.atom A))) = Except.ok db
    rw [hfix, Database.set_nodes_self hnodes]

theorem Database.find_count_stored_ground {db : Database} {A : Atom} (hdb : Reachable db)
    (hg : ∀ t ∈ A.Args, t.isConst = true) (hs : db.stores (.atom A)) (q : Atom) :
    (db.find q).count (.atom A) =
      if q.Name = A.Name ∧ pathMatch q.Args (A.Args.map Value.term) = true then 1 else 0 := by
  have hinv := hdb.inv
  obtain ⟨p, hp⟩ := hs
  have hpath : p = A.Args.map Value.term := Database.stores_ground_path hinv hg hp rfl
  subst hpath
  have hnv : ∀ s ∈ A.Args.map Value.term, s.isVar = false := by
    intro s hs
    obtain ⟨t, ht, rfl⟩ := List.mem_map.1 hs
    exact isVar_term_const (hg t ht)
  have hone : (db.leaves A.Name).count (A.Args.map Value.term, Clause.atom A) = 1 := by
    have h1 := leavesList_count_le_one _ (db.nodes A.Name) (.atom A) (hinv A.Name).1 hnv
    have h2 : 0 < (db.leaves A.Name).count (A.Args.map Value.term, Clause.atom A) :=
      List.count_pos_iff.2 hp
    unfold Database.leaves at h2 ⊢
    omega
  rw [Database.find_eq_filter_leaves]
  by_cases hq : q.Name = A.Name
  · rw [hq]
    rw [@count_map_snd_of_unique _ (A.Args.map Value.term)]
    · by_cases hpm : pathMatch q.Args (A.Args.map Value.term) = true
      · rw [if_pos ⟨rfl, hpm⟩, List.count_filter (by simpa using hpm), hone]
      · rw [if_neg (fun h => hpm h.2)]
        apply List.count_eq_zero_of_not_mem
        intro hm
        exact hpm (by simpa using (List.mem_filter.1 hm).2)
    · intro e he hA
      exact Database.stores_ground_path hinv hg (List.mem_filter.1 he).1 hA
  · rw [if_neg (fun h => hq h.1)]
    apply List.count_eq_zero_of_not_mem
    intro hm
    obtain ⟨e, he, heq⟩ := List.mem_map.1 hm
    have hok := (hinv q.Name).2 e (List.mem_filter.1 he).1
    apply hq
    rw [← hok.1, heq]
    rfl

/-- C10, amended: in a database built by `Assert` and `Remove`, `Assert(A)` of a ground
atom with at least one argument that is already stored leaves the database unchanged, so
asserting twice equals asserting once; the atom is then held by one leaf, and `find` hands
it exactly once to every query of its name whose arguments pass the prefix match (and
never to another query). -/
theorem Database.Assert_ground_idempotent (db : Database) (A : Atom) (hdb : Reachable db)
    (hne : A.Args ≠ []) (hg : ∀ t ∈ A.Args, t.isConst = true) :
    (db.stores (.atom A) →
      db.Assert (.atom A) = .ok db ∧
      ∀ q, (db.find q).count (.atom A) =
        if q.Name = A.Name ∧ pathMatch q.Args (A.Args.map Value.term) = true then 1 else 0) ∧
    (∀ db1, db.Assert (.atom A) = .ok db1 →
      db1.stores (.atom A) ∧ db1.Assert (.atom A) = .ok db1 ∧
      ∀ q, (db1.find q).count (.atom A) =
        if q.Name = A.Name ∧ pathMatch q.Args (A.Args.map Value.term) = true then 1 else 0) := by
  refine ⟨fun hs => ⟨Database.Assert_stored_same hdb hne hg hs,
    Database.find_count_stored_ground hdb hg hs⟩, ?_⟩
  intro db1 h1
  have hr1 : Reachable db1 := Reachable.assert (.atom A) hdb h1
  have hs1 : db1.stores (.atom A) := Database.stores_after_Assert hne h1
  exact ⟨hs1, Database.Assert_stored_same hr1 hne hg hs1, Database.find_count_stored_ground hr1 hg hs1⟩

theorem Database.Assert_ground_idempotent_witness :
    atomAB.Args ≠ [] ∧ (∀ t ∈ atomAB.Args, t.isConst = true) ∧
    ((dbAB.stores (.atom atomAB) →
      dbAB.Assert (.atom atomAB) = .ok dbAB ∧
      ∀ q, (dbAB.find q).count (.atom atomAB) =
        if q.Name = atomAB.Name ∧ pathMatch q.Args (atomAB.Args.map Value.term) = true
        then 1 else 0) ∧
    (∀ db1, dbAB.Assert (.atom atomAB) = .ok db1 →
      db1.stores (.atom atomAB) ∧ db1.Assert (.atom atomAB) = .ok db1 ∧
      ∀ q, (db1.find q).count (.atom atomAB) =
        if q.Name = atomAB.Name ∧ pathMatch q.Args (atomAB.Args.map Value.term) = true
        then 1 else 0)) :=
  ⟨by decide, by decide,
    Database.Assert_ground_idempotent dbAB atomAB reachable_dbAB (by decide) (by decide)⟩

theorem Database.find_complete_witness :
    Clause.atom atomAB ∈ dbAB.find { Name := "foo", Args := [.str "a", .var ⟨"X", 0⟩] } :=
  Database.find_complete dbAB (.atom atomAB) { Name := "foo", Args := [.str "a", .var ⟨"X", 0⟩] }
    3 { Counter := 0, Mapping := [] } { Counter := 0, Mapping := [⟨⟨"X", 0⟩, .str "b"⟩] }
    reachable_dbAB ⟨[.term (.str "a"), .term (.str "b")], by decide⟩ rfl (Or.inl (by decide))

theorem Database.Remove_exact_witness :
    atomAB.Args ≠ [] ∧
    ((∀ key, (dbABremoved.leaves key).Perm
        ((dbAB.leaves key).filter (fun e => decide (e.2 ≠ .atom atomAB)))) ∧
    ¬ dbABremoved.stores (.atom atomAB) ∧
    (∀ q, (dbABremoved.find q).Perm
        ((dbAB.find q).filter (fun c => decide (c ≠ .atom atomAB)))) ∧
    (∀ q c, c ≠ .atom atomAB → (c ∈ dbABremoved.find q ↔ c ∈ dbAB.find q))) :=
  ⟨by decide,
    Database.Remove_exact dbAB dbABremoved atomAB reachable_dbAB (by decide)
      (Database.Remove_cons rfl)⟩

/-! ## Resolution is monotone in the candidates of `find` -/

theorem evalBodyWith_subset {ev ev' : Goal → Vars → List (Emit Vars)}
    (h : ∀ g v, ev' g v ⊆ ev g v) :
    ∀ (body : List Goal) (vars : Vars), evalBodyWith ev' body vars ⊆ evalBodyWith ev body vars := by
  intro body
  induction body with
  | nil => intro vars; simp [evalBodyWith]
  | cons g rest ih =>
    intro vars x hx
    rw [evalBodyWith, List.mem_flatMap] at hx
    obtain ⟨e, he, hxe⟩ := hx
    rw [evalBodyWith, List.mem_flatMap]
    refine ⟨e, h g vars he, ?_⟩
    cases e with
    | out v =>
      simp only at hxe ⊢
      split_ifs at hxe ⊢ with hl
      · exact hxe
      · exact ih v hxe
    | fatal m => exact hxe
    | pending => exact hxe

theorem Atom.unifyWith_subset {ev ev' : Goal → Vars → List (Emit Vars)}
    (h : ∀ g v, ev' g v ⊆ ev g v) (ufuel : Nat) (query : Atom) (fact : Clause) (vars : Vars) :
    Atom.unifyWith ev' ufuel query fact vars ⊆ Atom.unifyWith ev ufuel query fact vars := by
  intro x hx
  cases fact with
  | atom a => exact hx
  | rule r =>
    simp only [Atom.unifyWith] at hx ⊢
    cases hu : vars.unifyAll ufuel query.Args (r.renameVars vars).Atom.Args with
    | none => simpa [hu] using hx
    | some res =>
      obtain ⟨b, v'⟩ := res
      cases b with
      | false => simp [hu] at hx
      | true =>
        simp only [hu] at hx ⊢
        exact evalBodyWith_subset h _ _ hx

theorem Atom.Eval_subset {db db' : Database} (h : ∀ q, db'.find q ⊆ db.find q) :
    ∀ (fuel : Nat) (query : Atom) (vars : Vars),
      Atom.Eval fuel query vars db' ⊆ Atom.Eval fuel query vars db := by
  intro fuel
  induction fuel with
  | zero => intro query vars; simp [Atom.Eval]
  | succ n ih =>
    intro query vars x hx
    rw [Atom.Eval, List.mem_flatMap] at hx
    obtain ⟨fact, hf, hxf⟩ := hx
    rw [Atom.Eval, List.mem_flatMap]
    refine ⟨fact, h query hf, ?_⟩
    refine Atom.unifyWith_subset ?_ _ _ _ _ hxf
    intro g v
    cases g with
    | atom a => exact ih a v
    | rule hd body => exact ih hd v
    | constraint c => exact fun _ hy => hy

theorem Database.Query_subset {db db' : Database} (h : ∀ q, db'.find q ⊆ db.find q)
    (fuel : Nat) (query : Atom) : db'.Query fuel query ⊆ db.Query fuel query := by
  unfold Database.Query
  exact List.map_subset _ (Atom.Eval_subset h fuel query _)

theorem results_subset {α : Type} {l l' : List (Emit α)} (h : l' ⊆ l) :
    results l' ⊆ results l := by
  intro a ha
  unfold results at ha ⊢
  rw [List.mem_filterMap] at ha ⊢
  obtain ⟨e, he, hea⟩ := ha
  exact ⟨e, h he, hea⟩

theorem Database.find_Assert_subset {db db1 : Database} {c : Clause} (hne : c.head.Args ≠ [])
    (h : db.Assert c = .ok db1) (q : Atom) : ∀ x ∈ db1.find q, x = c ∨ x ∈ db.find q := by
  cases hc : c.head.Args with
  | nil => exact absurd hc hne
  | cons a rest =>
    rw [Database.Assert_cons hc] at h
    cases h
    intro x hx
    rw [Database.find_eq_filter_leaves] at hx
    obtain ⟨e, he, rfl⟩ := List.mem_map.1 hx
    obtain ⟨he1, he2⟩ := List.mem_filter.1 he
    rw [Database.leaves_set] at he1
    by_cases hk : q.Name = c.Key
    · rw [if_pos hk] at he1
      rcases addTo_addChar (db.nodes c.Key) a rest c with ⟨p, _, hperm⟩ | ⟨heq, _⟩
      · rcases List.mem_cons.1 (hperm.subset he1) with rfl | he'
        · exact Or.inl rfl
        · right
          rw [Database.find_eq_filter_leaves, hk]
          exact List.mem_map.2 ⟨e, List.mem_filter.2 ⟨he', he2⟩, rfl⟩
      · right
        rw [heq] at he1
        rw [Database.find_eq_filter_leaves, hk]
        exact List.mem_map.2 ⟨e, List.mem_filter.2 ⟨he1, he2⟩, rfl⟩
    · rw [if_neg hk] at he1
      right
      rw [Database.find_eq_filter_leaves]
      exact List.mem_map.2 ⟨e, List.mem_filter.2 ⟨he1, he2⟩, rfl⟩

/-- C9: assert-then-retract round trip.  In a database built by `Assert` and `Remove`,
after `Assert(A)` and then `Remove(A)` of an atom with at least one argument the stream of
the query `A` is contained in the stream of the same query on the database before (at
every bound on the depth of the resolution); so when the query `A` yielded no result
before, it yields no result afterwards. -/
theorem Database.Assert_Remove_roundtrip (db db1 db2 : Database) (A : Atom) (fuel : Nat)
    (hdb : Reachable db) (hne : A.Args ≠ [])
    (h1 : db.Assert (.atom A) = .ok db1) (h2 : db1.Remove A = .ok db2)
    (hno : results (db.Query fuel A) = []) :
    results (db2.Query fuel A) = [] ∧ db2.Query fuel A ⊆ db.Query fuel A := by
  have hr1 : Reachable db1 := Reachable.assert (.atom A) hdb h1
  have hfind : ∀ q, db2.find q ⊆ db.find q := by
    intro q x hx
    have h3 := Database.find_perm_of_leaves (fun c => decide (c ≠ .atom A))
      (Database.leaves_Remove hr1.inv hne h2) q
    have hx' := List.mem_filter.1 (h3.subset hx)
    have hxA : x ≠ .atom A := by simpa using hx'.2
    rcases @Database.find_Assert_subset db db1 (.atom A) hne h1 q x hx'.1 with h | h
    · exact absurd h hxA
    · exact h
  have hsub := Database.Query_subset hfind fuel A
  refine ⟨?_, hsub⟩
  have := results_subset hsub
  rw [hno] at this
  exact List.eq_nil_of_subset_nil this

theorem Database.Assert_Remove_roundtrip_witness :
    atomAB.Args ≠ [] ∧ results (Database.empty.Query 3 atomAB) = [] ∧
    results (dbABremoved.Query 3 atomAB) = [] ∧
    dbABremoved.Query 3 atomAB ⊆ Database.empty.Query 3 atomAB :=
  ⟨by decide, by decide,
    Database.Assert_Remove_roundtrip Database.empty dbAB dbABremoved atomAB 3 Reachable.empty
      (by decide) (Database.Assert_cons rfl) (Database.Remove_cons rfl) (by decide)⟩

/-! ## Unification against ground arguments -/

theorem Vars.Get_withCounter (c : Nat) (v : Vars) (k : Var) :
    (v.withCounter c).Get k = v.Get k := rfl

theorem Vars.resolveOnce_withCounter (c : Nat) (v : Vars) (t : Term) :
    (v.withCounter c).resolveOnce t = v.resolveOnce t := rfl

theorem Vars.Unify_withCounter (fuel : Nat) :
    (∀ (v : Vars) (l r : Term) (c : Nat), (v.withCounter c).Unify fuel l r =
      (v.Unify fuel l r).map (fun x => (x.1, x.2.withCounter c))) ∧
    (∀ (v : Vars) (k : Var) (t : Term) (c : Nat), (v.withCounter c).unifyVar fuel k t =
      (v.unifyVar fuel k t).map (fun x => (x.1, x.2.withCounter c))) := by
  induction fuel with
  | zero => exact ⟨fun _ _ _ _ => rfl, fun _ _ _ _ => rfl⟩
  | succ n ih =>
    obtain ⟨ihU, ihV⟩ := ih
    constructor
    · intro v l r c
      cases l <;> cases r <;> simp only [Vars.Unify] <;>
        first
        | rfl
        | (split_ifs <;> first | rfl | exact ihV _ _ _ _)
    · intro v k t c
      rw [Vars.unifyVar, Vars.unifyVar, Vars.Get_withCounter]
      cases hg : v.Get k with
      | none => rfl
      | some k' => exact ihU _ _ _ _

theorem Vars.unifyLoop_withCounter (fuel : Nat) (c : Nat) : ∀ (ls rs : List Term) (v : Vars),
    (v.withCounter c).unifyLoop fuel ls rs =
      (v.unifyLoop fuel ls rs).map (fun x => (x.1, x.2.withCounter c)) := by
  intro ls
  induction ls with
  | nil => intro rs v; cases rs <;> rfl
  | cons l ls ih =>
    intro rs v
    cases rs with
    | nil => rfl
    | cons r rs =>
      rw [Vars.unifyLoop, Vars.unifyLoop, (Vars.Unify_withCounter fuel).1]
      cases hu : v.Unify fuel l r with
      | none => rfl
      | some x =>
        obtain ⟨b, v'⟩ := x
        cases b with
        | false => rfl
        | true => exact ih rs v'

theorem Vars.unifyAll_withCounter (fuel : Nat) (c : Nat) (ls rs : List Term) (v : Vars) :
    (v.withCounter c).unifyAll fuel ls rs =
      (v.unifyAll fuel ls rs).map (fun x => (x.1, x.2.withCounter c)) := by
  unfold Vars.unifyAll
  split_ifs
  · rfl
  · exact Vars.unifyLoop_withCounter fuel c ls rs v

theorem Vars.unifyLoop_mono {fuel fuel' : Nat} (hle : fuel ≤ fuel') :
    ∀ (ls rs : List Term) (v : Vars) (x : Bool × Vars),
      v.unifyLoop fuel ls rs = some x → v.unifyLoop fuel' ls rs = some x := by
  intro ls
  induction ls with
  | nil => intro rs v x h; cases rs <;> exact h
  | cons l ls ih =>
    intro rs v x h
    cases rs with
    | nil => exact h
    | cons r rs =>
      rw [Vars.unifyLoop] at h ⊢
      cases hu : v.Unify fuel l r with
      | none => simp [hu] at h
      | some y =>
        rw [Vars.Unify_mono hle hu]
        obtain ⟨b, v'⟩ := y
        cases b with
        | false => simpa [hu] using h
        | true =>
          simp only [hu] at h ⊢
          exact ih rs v' x h

theorem Vars.unifyAll_mono {fuel fuel' : Nat} (hle : fuel ≤ fuel') {ls rs : List Term}
    {v : Vars} {x : Bool × Vars} (h : v.unifyAll fuel ls rs = some x) :
    v.unifyAll fuel' ls rs = some x := by
  unfold Vars.unifyAll at h ⊢
  split_ifs at h ⊢
  · exact h
  · exact Vars.unifyLoop_mono hle ls rs v x h

theorem ConstEnv.get {e : Vars} (he : ConstEnv e) {k : Var} {x : Term}
    (h : e.Get k = some x) : x.isConst = true := by
  unfold Vars.Get at h
  obtain ⟨m, hm, rfl⟩ := Option.map_eq_some'.1 h
  exact he m (List.mem_reverse.1 (List.mem_of_find?_eq_some hm))

theorem ConstEnv.bind {e : Vars} (he : ConstEnv e) (k : Var) {x : Term}
    (hx : x.isConst = true) : ConstEnv (e.bind k x) := by
  intro m hm
  rcases List.mem_append.1 hm with hm | hm
  · exact he m hm
  · have : m = ⟨k, x⟩ := by simpa using hm
    rw [this]; exact hx

theorem Vars.Unify_ground {e : Vars} (he : ConstEnv e) (l : Term) {r : Term}
    (hr : r.isConst = true) :
    ∃ b e', e.Unify 3 l r = some (b, e') ∧ ConstEnv e' ∧
      (∀ k x, e.Get k = some x → e'.Get k = some x) ∧
      (b = true → ∀ k, l = .var k → e'.Get k = some r) := by
  have hrw : r ≠ .wildcard := by
    intro h; rw [h] at hr; simp [Term.isConst] at hr
  cases l with
  | wildcard =>
    refine ⟨true, e, ?_, he, fun _ _ h => h, ?_⟩
    · simp [Vars.Unify]
    · intro _ k hk; cases hk
  | int i =>
    refine ⟨decide (Term.int i = r), e, ?_, he, fun _ _ h => h, ?_⟩
    · cases r with
      | int j => by_cases hij : i = j <;> simp [Vars.Unify, hij]
      | str s => simp [Vars.Unify]
      | var _ => simp [Term.isConst] at hr
      | wildcard => simp [Term.isConst] at hr
    · intro _ k hk; cases hk
  | str s =>
    refine ⟨decide (Term.str s = r), e, ?_, he, fun _ _ h => h, ?_⟩
    · cases r with
      | int j => simp [Vars.Unify]
      | str s' => by_cases hij : s = s' <;> simp [Vars.Unify, hij]
      | var _ => simp [Term.isConst] at hr
      | wildcard => simp [Term.isConst] at hr
    · intro _ k hk; cases hk
  | var k =>
    have hkr : Term.var k ≠ r := by
      intro h; rw [← h] at hr; simp [Term.isConst] at hr
    have hU : e.Unify 3 (.var k) r = e.unifyVar 2 k r := by
      simp [Vars.Unify, hkr, hrw]
    rw [hU, Vars.unifyVar]
    cases hg : e.Get k with
    | none =>
      refine ⟨true, e.bind k r, ?_, he.bind k hr, ?_, ?_⟩
      · simp [Vars.resolveOnce_const e r hr]
      · intro k' x hx
        rw [Vars.Get_bind]
        split_ifs with hkk
        · rw [hkk, hg] at hx; cases hx
        · exact hx
      · intro _ k' hk'
        have : k = k' := by simpa using hk'
        rw [← this, Vars.Get_bind, if_pos rfl]
    | some x =>
      have hx := he.get hg
      have hxw : x ≠ .wildcard := by
        intro h; rw [h] at hx; simp [Term.isConst] at hx
      refine ⟨decide (x = r), e, ?_, he, fun _ _ h => h, ?_⟩
      · simp only
        cases x with
        | int i =>
          cases r with
          | int j => by_cases hij : i = j <;> simp [Vars.Unify, hij]
          | str s => simp [Vars.Unify]
          | var _ => simp [Term.isConst] at hr
          | wildcard => simp [Term.isConst] at hr
        | str s =>
          cases r with
          | int j => simp [Vars.Unify]
          | str s' => by_cases hij : s = s' <;> simp [Vars.Unify, hij]
          | var _ => simp [Term.isConst] at hr
          | wildcard => simp [Term.isConst] at hr
        | var _ => simp [Term.isConst] at hx
        | wildcard => simp [Term.isConst] at hx
      · intro hb k' hk'
        have hk : k = k' := by simpa using hk'
        have hxr : x = r := by simpa using hb
        rw [← hk, hg, hxr]

theorem Vars.unifyLoop_ground : ∀ (ls rs : List Term) (e : Vars), ConstEnv e →
    (∀ r ∈ rs, r.isConst = true) → ls.length = rs.length →
    ∃ b e', e.unifyLoop 3 ls rs = some (b, e') ∧
      (b = true → ConstEnv e' ∧ (∀ k x, e.Get k = some x → e'.Get k = some x) ∧
        List.Forall₂ (fun l r => ∀ k, l = .var k → e'.Get k = some r) ls rs) := by
  intro ls
  induction ls with
  | nil =>
    intro rs e he _ hlen
    cases rs with
    | nil => exact ⟨true, e, rfl, fun _ => ⟨he, fun _ _ h => h, List.Forall₂.nil⟩⟩
    | cons r rs => simp at hlen
  | cons l ls ih =>
    intro rs e he hrs hlen
    cases rs with
    | nil => simp at hlen
    | cons r rs =>
      obtain ⟨b, e1, hU, he1, hmono1, hvar1⟩ := Vars.Unify_ground he l (hrs r (by simp))
      rw [Vars.unifyLoop, hU]
      cases b with
      | false => exact ⟨false, e1, rfl, fun h => by cases h⟩
      | true =>
        obtain ⟨b2, e2, hL, hprops⟩ := ih rs e1 he1
          (fun t ht => hrs t (List.mem_cons_of_mem _ ht)) (by simpa using hlen)
        refine ⟨b2, e2, hL, ?_⟩
        intro hb2
        obtain ⟨he2, hmono2, hf2⟩ := hprops hb2
        refine ⟨he2, fun k x h => hmono2 k x (hmono1 k x h), List.Forall₂.cons ?_ hf2⟩
        intro k hk
        exact hmono2 k r (hvar1 rfl k hk)

theorem substLoop_const (n : Nat) : ∀ (l : List Mapping),
    (∀ m ∈ l, m.Val.isConst = true) → substLoop n l = l := by
  induction n with
  | zero => intro l _; rfl
  | succ n ih =>
    intro l hl
    cases l with
    | nil => rfl
    | cons new older =>
      have hmap : older.map (substOne new) = older := by
        conv_rhs => rw [← List.map_id older]
        apply List.map_congr_left
        intro m hm
        have hc := hl m (List.mem_cons_of_mem _ hm)
        unfold substOne
        split_ifs with h
        · rw [h] at hc; simp [Term.isConst] at hc
        · rfl
      rw [substLoop, hmap, ih older (fun m hm => hl m (List.mem_cons_of_mem _ hm))]

theorem Vars.substitute_const {e : Vars} (he : ConstEnv e) : e.substitute = e := by
  unfold Vars.substitute substRev
  rw [substLoop_const _ _ (fun m hm => he m (List.mem_reverse.1 hm)), List.reverse_reverse]

theorem materialize_args_eq_zipWith {e : Vars} {ls rs : List Term}
    (h : List.Forall₂ (fun l r => ∀ k, l = Term.var k → e.Get k = some r) ls rs) :
    ls.map (fun arg =>
        match arg with
        | .var v =>
          match e.Get v with
          | some val => val
          | none => arg
        | _ => arg) =
      List.zipWith (fun qa fa =>
        match qa with
        | .var _ => fa
        | _ => qa) ls rs := by
  induction h with
  | nil => rfl
  | @cons l r ls' rs' hlr _ ih =>
    rw [List.map_cons, List.zipWith_cons_cons, ih]
    congr 1
    cases l with
    | var k => simp [hlr k rfl]
    | int i => rfl
    | str s => rfl
    | wildcard => rfl

theorem Atom.Materialize_eq_instantiate {q F : Atom} {e : Vars}
    (h : List.Forall₂ (fun l r => ∀ k, l = Term.var k → e.Get k = some r) q.Args F.Args) :
    q.Materialize e = q.instantiate F := by
  unfold Atom.Materialize Atom.instantiate
  rw [materialize_args_eq_zipWith h]

theorem Atom.renameVars_ground {F : Atom} (hF : F.isGround = true) (vars : Vars) :
    F.renameVars vars = F := by
  unfold Atom.renameVars
  have : F.Args.map vars.rename = F.Args := by
    conv_rhs => rw [← List.map_id F.Args]
    apply List.map_congr_left
    intro t ht
    have hc : t.isConst = true := List.all_eq_true.1 hF t ht
    cases t <;> first | rfl | simp [Term.isConst] at hc
  rw [this]

theorem Vars.unifyAll_ground_total (q F : Atom) (hF : F.isGround = true) :
    ∃ b e', Vars.unifyAll 3 { Counter := 0, Mapping := [] } q.Args F.Args = some (b, e') ∧
      (b = true → ConstEnv e' ∧
        List.Forall₂ (fun l r => ∀ k, l = Term.var k → e'.Get k = some r) q.Args F.Args) := by
  unfold Vars.unifyAll
  split_ifs with hlen
  · exact ⟨false, _, rfl, fun h => by cases h⟩
  · have he : ConstEnv { Counter := 0, Mapping := [] } := by
      intro m hm; simp at hm
    obtain ⟨b, e', hL, hp⟩ := Vars.unifyLoop_ground q.Args F.Args _ he
      (fun r hr => List.all_eq_true.1 hF r hr) (by simpa using hlen)
    exact ⟨b, e', hL, fun hb => ⟨(hp hb).1, (hp hb).2.2⟩⟩

theorem Atom.unifyWith_ground (ev : Goal → Vars → List (Emit Vars)) (n c : Nat) (q F : Atom)
    (hF : F.isGround = true) :
    (Atom.unifyWith ev (n + 3) q (.atom F) { Counter := c, Mapping := [] }).map
        (Database.post q) =
      if q.unifiesWith F = true then [.out (q.instantiate F)] else [] := by
  obtain ⟨b, e', hU, hp⟩ := Vars.unifyAll_ground_total q F hF
  have hU' : Vars.unifyAll (n + 3) { Counter := c, Mapping := [] } q.Args F.Args
      = some (b, e'.withCounter c) := by
    have h1 := Vars.unifyAll_mono (Nat.le_add_left 3 n) hU
    have h2 := Vars.unifyAll_withCounter (n + 3) c q.Args F.Args { Counter := 0, Mapping := [] }
    rw [h1] at h2
    exact h2
  have hunif : q.unifiesWith F = b := by
    unfold Atom.unifiesWith
    rw [hU]
    cases b <;> rfl
  simp only [Atom.unifyWith, Atom.renameVars_ground hF, hU', hunif]
  cases b with
  | false => rfl
  | true =>
    obtain ⟨hce, hf⟩ := hp rfl
    have hce' : ConstEnv (e'.withCounter c) := hce
    simp only [List.map_cons, List.map_nil, Database.post, if_true]
    rw [Vars.substitute_const hce']
    have : q.Materialize (e'.withCounter c) = q.Materialize e' := rfl
    rw [this, Atom.Materialize_eq_instantiate hf]

theorem Database.Query_eq_map_post (fuel : Nat) (db : Database) (query : Atom) :
    db.Query fuel query =
      (query.Eval fuel { Counter := 0, Mapping := [] } db).map (Database.post query) := by
  rfl

theorem flatMap_ite_singleton {α β : Type} (p : α → Bool) (g : α → β) (l : List α) :
    l.flatMap (fun x => if p x = true then [g x] else []) = (l.filter p).map g := by
  induction l with
  | nil => rfl
  | cons x xs ih =>
    rw [List.flatMap_cons, ih, List.filter_cons]
    by_cases hp : p x = true <;> simp [hp]

theorem Atom.unifiesWith_pathMatch {q F : Atom} (h : q.unifiesWith F = true) :
    pathMatch q.Args (F.Args.map Value.term) = true := by
  unfold Atom.unifiesWith at h
  cases hU : Vars.unifyAll 3 { Counter := 0, Mapping := [] } q.Args F.Args with
  | none => simp [hU] at h
  | some x =>
    obtain ⟨b, e'⟩ := x
    cases b with
    | false => simp [hU] at h
    | true =>
      exact pathMatch_of_forall₂ (Vars.unifyAll_true_forall₂ hU) (forall₂_spineOf_map_term _)

/-! ## Databases of ground atoms -/

theorem nodup_of_count_le_one {α : Type} [BEq α] [LawfulBEq α] :
    ∀ (l : List α), (∀ a ∈ l, l.count a ≤ 1) → l.Nodup := by
  intro l
  induction l with
  | nil => intro _; exact List.nodup_nil
  | cons x xs ih =>
    intro h
    rw [List.nodup_cons]
    constructor
    · intro hx
      have h1 := h x (by simp)
      rw [List.count_cons_self] at h1
      have h2 : 0 < xs.count x := List.count_pos_iff.2 hx
      omega
    · apply ih
      intro a ha
      have h1 := h a (List.mem_cons_of_mem _ ha)
      have h2 : xs.count a ≤ (x :: xs).count a := by
        rw [List.count_cons]; omega
      omega

theorem Atom.entry_injective : Function.Injective Atom.entry := by
  intro F G h
  unfold Atom.entry at h
  have := (Prod.mk.injEq _ _ _ _).mp h
  exact Clause.atom.inj this.2

theorem GroundLeaves.nodup {db : Database} {seen : List Atom} (hdb : Reachable db)
    (hseen : ∀ F ∈ seen, F.isGround = true) (h : GroundLeaves db seen) (key : String) :
    (db.leaves key).Nodup := by
  apply nodup_of_count_le_one
  intro e he
  obtain ⟨F, hF, _, rfl⟩ := (h key e).1 he
  apply leavesList_count_le_one _ _ _ (hdb.inv key).1
  intro s hs
  obtain ⟨t, ht, rfl⟩ := List.mem_map.1 hs
  exact isVar_term_const (List.all_eq_true.1 (hseen F hF) t ht)

theorem GroundLeaves.assert {db db1 : Database} {seen : List Atom} {F : Atom}
    (h : GroundLeaves db seen) (hne : F.Args ≠ []) (hF : F.isGround = true)
    (hA : db.Assert (.atom F) = .ok db1) : GroundLeaves db1 (seen ++ [F]) := by
  cases hc : F.Args with
  | nil => exact absurd hc hne
  | cons a rest =>
    have hc' : (Clause.atom F).head.Args = a :: rest := hc
    rw [Database.Assert_cons hc'] at hA
    cases hA
    have hconst : ∀ t ∈ a :: rest, t.isConst = true := by
      rw [← hc]; exact fun t ht => List.all_eq_true.1 hF t ht
    intro key e
    rw [Database.leaves_set]
    have hkey : (Clause.atom F).Key = F.Name := rfl
    rw [hkey]
    by_cases hk : key = F.Name
    · rw [if_pos hk]
      have hold : ∀ e, e ∈ Node.leavesList (db.nodes F.Name) ↔
          ∃ G ∈ seen, G.Name = key ∧ e = G.entry := by
        intro e; rw [hk]; exact h F.Name e
      rcases addTo_addChar (db.nodes F.Name) a rest (.atom F) with ⟨p, hp, hperm⟩ | ⟨heq, p, hp, hmem⟩
      · have hpe : (p, Clause.atom F) = F.entry := by
          unfold Atom.entry
          rw [forall₂_spineOf_const hconst hp, hc]
        rw [hperm.mem_iff, List.mem_cons, hold e, hpe]
        constructor
        · rintro (rfl | ⟨G, hG, hGk, rfl⟩)
          · exact ⟨F, by simp, hk.symm, rfl⟩
          · exact ⟨G, by simp [hG], hGk, rfl⟩
        · rintro ⟨G, hG, hGk, rfl⟩
          rcases List.mem_append.1 hG with hG | hG
          · exact Or.inr ⟨G, hG, hGk, rfl⟩
          · have : G = F := by simpa using hG
            rw [this]; exact Or.inl rfl
      · have hpe : (p, Clause.atom F) = F.entry := by
          unfold Atom.entry
          rw [forall₂_spineOf_const hconst hp, hc]
        rw [heq, hold e]
        constructor
        · rintro ⟨G, hG, hGk, rfl⟩
          exact ⟨G, by simp [hG], hGk, rfl⟩
        · rintro ⟨G, hG, hGk, rfl⟩
          rcases List.mem_append.1 hG with hG | hG
          · exact ⟨G, hG, hGk, rfl⟩
          · have hGF : G = F := by simpa using hG
            rw [hGF, ← hpe]
            exact (hold _).1 hmem
    · rw [if_neg hk, h key e]
      constructor
      · rintro ⟨G, hG, hGk, rfl⟩
        exact ⟨G, by simp [hG], hGk, rfl⟩
      · rintro ⟨G, hG, hGk, rfl⟩
        rcases List.mem_append.1 hG with hG | hG
        · exact ⟨G, hG, hGk, rfl⟩
        · have hGF : G = F := by simpa using hG
          rw [hGF] at hGk
          exact absurd hGk.symm hk

theorem Database.AssertAll_ground : ∀ (facts seen : List Atom) (db : Database),
    Reachable db → GroundLeaves db seen →
    (∀ F ∈ facts, F.Args ≠ [] ∧ F.isGround = true) →
    ∃ db', db.AssertAll (facts.map Clause.atom) = .ok db' ∧ Reachable db' ∧
      GroundLeaves db' (seen ++ facts) := by
  intro facts
  induction facts with
  | nil =>
    intro seen db hdb hgl _
    exact ⟨db, rfl, hdb, by simpa using hgl⟩
  | cons F facts ih =>
    intro seen db hdb hgl hfacts
    obtain ⟨hne, hF⟩ := hfacts F (by simp)
    obtain ⟨db1, h1⟩ := @Database.Assert_ok db (.atom F) hne
    have hr1 : Reachable db1 := Reachable.assert (.atom F) hdb h1
    obtain ⟨db', h2, hr2, hgl2⟩ := ih (seen ++ [F]) db1 hr1 (hgl.assert hne hF h1)
      (fun G hG => hfacts G (List.mem_cons_of_mem _ hG))
    refine ⟨db', ?_, hr2, by simpa using hgl2⟩
    rw [List.map_cons, Database.AssertAll, h1]
    exact h2

theorem GroundLeaves.empty : GroundLeaves Database.empty [] := by
  intro key e
  simp [Database.leaves, Database.nodes, Database.empty, Node.leavesList]

theorem GroundLeaves.perm {db : Database} {facts : List Atom} (hdb : Reachable db)
    (hfacts : ∀ F ∈ facts, F.isGround = true) (h : GroundLeaves db facts) (key : String) :
    (db.leaves key).Perm
      ((facts.dedup.filter (fun F => decide (F.Name = key))).map Atom.entry) := by
  rw [List.perm_ext_iff_of_nodup (h.nodup hdb hfacts key)
    (((List.nodup_dedup facts).filter _).map Atom.entry_injective)]
  intro e
  rw [h key e, List.mem_map]
  constructor
  · rintro ⟨F, hF, hk, rfl⟩
    exact ⟨F, List.mem_filter.2 ⟨List.mem_dedup.2 hF, by simpa using hk⟩, rfl⟩
  · rintro ⟨F, hF, rfl⟩
    obtain ⟨h1, h2⟩ := List.mem_filter.1 hF
    exact ⟨F, List.mem_dedup.1 h1, by simpa using h2, rfl⟩

theorem Database.find_ground_perm {db : Database} {facts : List Atom} (hdb : Reachable db)
    (hfacts : ∀ F ∈ facts, F.isGround = true) (h : GroundLeaves db facts) (q : Atom) :
    (db.find q).Perm
      (((facts.dedup.filter (fun F => decide (F.Name = q.Name))).filter
        (fun F => pathMatch q.Args (F.Args.map Value.term))).map Clause.atom) := by
  rw [Database.find_eq_filter_leaves]
  refine (((h.perm hdb hfacts q.Name).filter _).map _).trans (List.Perm.of_eq ?_)
  rw [List.filter_map, List.map_map]
  rfl

theorem Database.Query_ground_of_leaves {db : Database} {facts : List Atom} (hdb : Reachable db)
    (hfacts : ∀ F ∈ facts, F.isGround = true) (h : GroundLeaves db facts) (q : Atom) (n : Nat) :
    (db.Query (n + 3) q).Perm
      ((facts.dedup.filter (fun F => decide (F.Name = q.Name) && q.unifiesWith F)).map
        (fun F => Emit.out (q.instantiate F))) := by
  rw [Database.Query_eq_map_post, Atom.Eval, List.map_flatMap]
  refine (List.Perm.flatMap_right _ (Database.find_ground_perm hdb hfacts h q)).trans
    (List.Perm.of_eq ?_)
  rw [List.flatMap_map]
  have hcongr : ∀ F ∈ (facts.dedup.filter (fun F => decide (F.Name = q.Name))).filter
        (fun F => pathMatch q.Args (F.Args.map Value.term)),
      (Atom.unifyWith
          (fun g v =>
            match g with
            | .atom a => Atom.Eval (n + 2) a v db
            | .rule head _ => Atom.Eval (n + 2) head v db
            | .constraint c => c.Eval (n + 2) v)
          (n + 2 + 1) q (.atom F)
          { Counter := (0 + 1) % uintSize, Mapping := [] }).map (Database.post q) =
        (fun F => if q.unifiesWith F = true then [Emit.out (q.instantiate F)] else []) F := by
    intro F hF
    have hFm : F ∈ facts :=
      List.mem_dedup.1 (List.mem_filter.1 (List.mem_filter.1 hF).1).1
    exact Atom.unifyWith_ground _ n _ q F (hfacts F hFm)
  rw [List.flatMap_congr hcongr, flatMap_ite_singleton, List.filter_filter, List.filter_filter]
  congr 1
  apply List.filter_congr
  intro F _
  by_cases hu : q.unifiesWith F = true
  · simp [hu, Atom.unifiesWith_pathMatch hu]
  · simp [hu]

theorem Atom.unifiesWith_iff (q F : Atom) (hF : F.isGround = true) :
    q.unifiesWith F = true ↔
      ∃ fuel e', Vars.unifyAll fuel { Counter := 0, Mapping := [] } q.Args F.Args
        = some (true, e') := by
  obtain ⟨b, e', hU, _⟩ := Vars.unifyAll_ground_total q F hF
  have hb : q.unifiesWith F = b := by
    unfold Atom.unifiesWith
    rw [hU]
    cases b <;> rfl
  rw [hb]
  constructor
  · intro h
    subst h
    exact ⟨3, e', hU⟩
  · rintro ⟨fuel, e'', h⟩
    rcases Nat.le_total fuel 3 with hle | hle
    · have := Vars.unifyAll_mono hle h
      rw [hU] at this
      cases this; rfl
    · have := Vars.unifyAll_mono hle hU
      rw [h] at this
      cases this; rfl

theorem Vars.Unify_const_ground {e : Vars} {l r : Term} (hl : l.isConst = true)
    (hr : r.isConst = true) : e.Unify 3 l r = some (decide (l = r), e) := by
  cases l with
  | int i =>
    cases r with
    | int j => by_cases hij : i = j <;> simp [Vars.Unify, hij]
    | str s => simp [Vars.Unify]
    | var _ => simp [Term.isConst] at hr
    | wildcard => simp [Term.isConst] at hr
  | str s =>
    cases r with
    | int j => simp [Vars.Unify]
    | str s' => by_cases hij : s = s' <;> simp [Vars.Unify, hij]
    | var _ => simp [Term.isConst] at hr
    | wildcard => simp [Term.isConst] at hr
  | var _ => simp [Term.isConst] at hl
  | wildcard => simp [Term.isConst] at hl

theorem Vars.Unify_var_ground {e : Vars} (he : ConstEnv e) (k : Var) {r : Term}
    (hr : r.isConst = true) :
    e.Unify 3 (.var k) r =
      match e.Get k with
      | some x => some (decide (x = r), e)
      | none => some (true, e.bind k r) := by
  have hrw : r ≠ .wildcard := by
    intro h; rw [h] at hr; simp [Term.isConst] at hr
  have hkr : Term.var k ≠ r := by
    intro h; rw [← h] at hr; simp [Term.isConst] at hr
  have hU : e.Unify 3 (.var k) r = e.unifyVar 2 k r := by
    simp [Vars.Unify, hkr, hrw]
  rw [hU, Vars.unifyVar]
  cases hg : e.Get k with
  | none => simp [Vars.resolveOnce_const e r hr]
  | some x =>
    simp only
    have hx := he.get hg
    have h3 := @Vars.Unify_const_ground e _ _ hx hr
    cases x <;> cases r <;> first
      | (simp [Term.isConst] at hx; done)
      | (simp [Term.isConst] at hr; done)
      | (simp only [Vars.Unify]; split_ifs <;> simp_all)

theorem groundCompat_cons_skip {e : Vars} {l r : Term} {Z : List (Term × Term)}
    (hhead : (l.isConst = true → l = r) ∧ (∀ k x, l = .var k → e.Get k = some x → x = r))
    (hvar : ∀ k, l = .var k → e.Get k = some r) :
    GroundCompat e ((l, r) :: Z) ↔ GroundCompat e Z := by
  constructor
  · intro h
    exact ⟨fun p hp => h.1 p (List.mem_cons_of_mem _ hp),
      fun p hp p' hp' => h.2 p (List.mem_cons_of_mem _ hp) p' (List.mem_cons_of_mem _ hp')⟩
  · intro h
    refine ⟨?_, ?_⟩
    · intro p hp
      rcases List.mem_cons.1 hp with rfl | hp
      · exact hhead
      · exact h.1 p hp
    · intro p hp p' hp' k hk hk'
      rcases List.mem_cons.1 hp with rfl | hp <;> rcases List.mem_cons.1 hp' with rfl | hp'
      · rfl
      · exact ((h.1 p' hp').2 k r hk' (hvar k hk)).symm ▸ rfl
      · exact (h.1 p hp).2 k r hk (hvar k hk') ▸ rfl
      · exact h.2 p hp p' hp' k hk hk'

theorem groundCompat_cons_bind {e : Vars} {k : Var} {r : Term} {Z : List (Term × Term)}
    (hg : e.Get k = none) :
    GroundCompat e ((.var k, r) :: Z) ↔ GroundCompat (e.bind k r) Z := by
  constructor
  · intro h
    refine ⟨?_, fun p hp p' hp' => h.2 p (List.mem_cons_of_mem _ hp) p' (List.mem_cons_of_mem _ hp')⟩
    intro p hp
    refine ⟨(h.1 p (List.mem_cons_of_mem _ hp)).1, ?_⟩
    intro k' x hk' hx
    rw [Vars.Get_bind] at hx
    split_ifs at hx with hkk
    · have hxr : r = x := by simpa using hx
      rw [← hxr]
      exact h.2 (.var k, r) (by simp) p (List.mem_cons_of_mem _ hp) k rfl (by rw [hk', hkk])
    · exact (h.1 p (List.mem_cons_of_mem _ hp)).2 k' x hk' hx
  · intro h
    have htail : ∀ p ∈ Z, p.1 = .var k → r = p.2 := by
      intro p hp hk
      exact (h.1 p hp).2 k r hk (by rw [Vars.Get_bind, if_pos rfl])
    refine ⟨?_, ?_⟩
    · intro p hp
      rcases List.mem_cons.1 hp with rfl | hp
      · refine ⟨fun hc => by simp [Term.isConst] at hc, ?_⟩
        intro k' x hk' hx
        have : k = k' := by simpa using hk'
        rw [← this, hg] at hx
        cases hx
      · refine ⟨(h.1 p hp).1, ?_⟩
        intro k' x hk' hx
        have hne : k' ≠ k := by
          intro hkk; rw [hkk, hg] at hx; cases hx
        exact (h.1 p hp).2 k' x hk' (by rw [Vars.Get_bind, if_neg hne]; exact hx)
    · intro p hp p' hp' k' hk hk'
      rcases List.mem_cons.1 hp with rfl | hp <;> rcases List.mem_cons.1 hp' with rfl | hp'
      · rfl
      · have hkk : k = k' := by simpa using hk
        exact htail p' hp' (by rw [hkk]; exact hk')
      · have hkk : k = k' := by simpa using hk'
        exact (htail p hp (by rw [hkk]; exact hk)).symm
      · exact h.2 p hp p' hp' k' hk hk'

theorem Vars.unifyLoop_ground_iff : ∀ (ls rs : List Term) (e : Vars), ConstEnv e →
    (∀ r ∈ rs, r.isConst = true) → ls.length = rs.length →
    ((∃ e', e.unifyLoop 3 ls rs = some (true, e')) ↔ GroundCompat e (ls.zip rs)) := by
  intro ls
  induction ls with
  | nil =>
    intro rs e _ _ hlen
    cases rs with
    | nil =>
      simp only [Vars.unifyLoop, List.zip_nil_left]
      exact ⟨fun _ => ⟨by simp, by simp⟩, fun _ => ⟨e, rfl⟩⟩
    | cons r rs => simp at hlen
  | cons l ls ih =>
    intro rs e he hrs hlen
    cases rs with
    | nil => simp at hlen
    | cons r rs =>
      have hr : r.isConst = true := hrs r (by simp)
      have hrs' : ∀ t ∈ rs, t.isConst = true := fun t ht => hrs t (List.mem_cons_of_mem _ ht)
      have hlen' : ls.length = rs.length := by simpa using hlen
      rw [List.zip_cons_cons, Vars.unifyLoop]
      cases l with
      | wildcard =>
        have hU : e.Unify 3 .wildcard r = some (true, e) := by simp [Vars.Unify]
        rw [hU]
        simp only
        rw [ih rs e he hrs' hlen']
        exact (groundCompat_cons_skip
          ⟨fun hc => by simp [Term.isConst] at hc, fun k x hk => by cases hk⟩
          (fun k hk => by cases hk)).symm
      | var k =>
        rw [Vars.Unify_var_ground he k hr]
        cases hg : e.Get k with
        | none =>
          simp only
          rw [ih rs (e.bind k r) (he.bind k hr) hrs' hlen']
          exact (groundCompat_cons_bind hg).symm
        | some x =>
          simp only
          by_cases hxr : x = r
          · subst hxr
            simp only [decide_True]
            rw [ih rs e he hrs' hlen']
            refine (groundCompat_cons_skip ⟨fun hc => by simp [Term.isConst] at hc, ?_⟩ ?_).symm
            · intro k' x' hk' hx'
              have : k = k' := by simpa using hk'
              rw [← this, hg] at hx'
              exact (Option.some.inj hx').symm
            · intro k' hk'
              have : k = k' := by simpa using hk'
              rw [← this]; exact hg
          · simp only [hxr, decide_False]
            constructor
            · rintro ⟨e', h⟩; cases h
            · intro h
              exact absurd ((h.1 (.var k, r) (by simp)).2 k x rfl hg) hxr
      | int i =>
        rw [@Vars.Unify_const_ground e (.int i) r rfl hr]
        by_cases hlr : Term.int i = r
        · simp only [hlr, decide_True]
          rw [ih rs e he hrs' hlen', ← hlr]
          exact (groundCompat_cons_skip ⟨fun _ => rfl, fun k x hk => by cases hk⟩
            (fun k hk => by cases hk)).symm
        · simp only [hlr, decide_False]
          constructor
          · rintro ⟨e', h⟩; cases h
          · intro h
            exact absurd ((h.1 (.int i, r) (by simp)).1 rfl) hlr
      | str s =>
        rw [@Vars.Unify_const_ground e (.str s) r rfl hr]
        by_cases hlr : Term.str s = r
        · simp only [hlr, decide_True]
          rw [ih rs e he hrs' hlen', ← hlr]
          exact (groundCompat_cons_skip ⟨fun _ => rfl, fun k x hk => by cases hk⟩
            (fun k hk => by cases hk)).symm
        · simp only [hlr, decide_False]
          constructor
          · rintro ⟨e', h⟩; cases h
          · intro h
            exact absurd ((h.1 (.str s, r) (by simp)).1 rfl) hlr

theorem Atom.unifiesWith_iff_compat (q F : Atom) (hF : F.isGround = true) :
    q.unifiesWith F = true ↔
      q.Args.length = F.Args.length ∧
      (∀ p ∈ q.Args.zip F.Args, p.1.isConst = true → p.1 = p.2) ∧
      (∀ p ∈ q.Args.zip F.Args, ∀ p' ∈ q.Args.zip F.Args, ∀ k,
        p.1 = .var k → p'.1 = .var k → p.2 = p'.2) := by
  have he : ConstEnv { Counter := 0, Mapping := [] } := by
    intro m hm; simp at hm
  unfold Atom.unifiesWith Vars.unifyAll
  by_cases hlen : q.Args.length = F.Args.length
  · have hiff := Vars.unifyLoop_ground_iff q.Args F.Args _ he
      (fun r hr => List.all_eq_true.1 hF r hr) hlen
    simp only [hlen, ne_eq, not_true_eq_false, if_false, true_and]
    have hget : ∀ k, Vars.Get { Counter := 0, Mapping := [] } k = none := fun _ => rfl
    constructor
    · intro h
      have hex : ∃ e', Vars.unifyLoop 3 { Counter := 0, Mapping := [] } q.Args F.Args
          = some (true, e') := by
        cases hU : Vars.unifyLoop 3 { Counter := 0, Mapping := [] } q.Args F.Args with
        | none => simp [hU] at h
        | some x =>
          obtain ⟨b, e'⟩ := x
          cases b with
          | false => simp [hU] at h
          | true => exact ⟨e', rfl⟩
      have hc := hiff.1 hex
      exact ⟨fun p hp => (hc.1 p hp).1, hc.2⟩
    · rintro ⟨h1, h2⟩
      have hc : GroundCompat { Counter := 0, Mapping := [] } (q.Args.zip F.Args) :=
        ⟨fun p hp => ⟨h1 p hp, fun k x _ hx => by rw [hget k] at hx; cases hx⟩, h2⟩
      obtain ⟨e', hU⟩ := hiff.2 hc
      simp [hU]
  · simp [hlen]

/-- C1: for a database built from the empty one by asserting ground atoms with at least
one argument, the asserts succeed, and for every query atom and every bound of at least 3
on the depth of the evaluation `Database.Query` emits, up to the order, exactly one result
for each distinct asserted atom `F` of the name of the query for which `unifyAll(q.Args,
F.Args)` succeeds from the empty environment; that result is the query with every variable
replaced by the argument of `F` at that position; nothing else is emitted (no panic, no
branch left running).  `unifyAll` succeeds exactly when the lengths agree, every constant
of the query equals the argument of `F` at its position, and a variable that occurs twice
in the query meets equal arguments of `F`. -/
theorem Database.Query_ground_facts (facts : List Atom)
    (hg : ∀ F ∈ facts, F.Args ≠ [] ∧ F.isGround = true) :
    ∃ db, Database.empty.AssertAll (facts.map Clause.atom) = .ok db ∧
      (∀ (q : Atom) (fuel : Nat), 3 ≤ fuel →
        (db.Query fuel q).Perm
          ((facts.dedup.filter (fun F => decide (F.Name = q.Name) && q.unifiesWith F)).map
            (fun F => Emit.out (q.instantiate F)))) ∧
      (∀ (q : Atom), ∀ F ∈ facts, (q.unifiesWith F = true ↔
        ∃ fuel e', Vars.unifyAll fuel { Counter := 0, Mapping := [] } q.Args F.Args
          = some (true, e'))) ∧
      (∀ (q : Atom), ∀ F ∈ facts, (q.unifiesWith F = true ↔
        q.Args.length = F.Args.length ∧
        (∀ p ∈ q.Args.zip F.Args, p.1.isConst = true → p.1 = p.2) ∧
        (∀ p ∈ q.Args.zip F.Args, ∀ p' ∈ q.Args.zip F.Args, ∀ k,
          p.1 = .var k → p'.1 = .var k → p.2 = p'.2))) := by
  obtain ⟨db, hA, hr, hgl⟩ := Database.AssertAll_ground facts [] Database.empty Reachable.empty
    GroundLeaves.empty hg
  rw [List.nil_append] at hgl
  refine ⟨db, hA, ?_, fun q F hF => Atom.unifiesWith_iff q F (hg F hF).2,
    fun q F hF => Atom.unifiesWith_iff_compat q F (hg F hF).2⟩
  intro q fuel hfuel
  obtain ⟨n, rfl⟩ : ∃ n, fuel = n + 3 := ⟨fuel - 3, by omega⟩
  exact Database.Query_ground_of_leaves hr (fun F hF => (hg F hF).2) hgl q n

theorem Database.Query_ground_facts_witness :
    (∀ F ∈ [atomAB], F.Args ≠ [] ∧ F.isGround = true) ∧
    ∃ db, Database.empty.AssertAll ([atomAB].map Clause.atom) = .ok db ∧
      (∀ (q : Atom) (fuel : Nat), 3 ≤ fuel →
        (db.Query fuel q).Perm
          (([atomAB].dedup.filter (fun F => decide (F.Name = q.Name) && q.unifiesWith F)).map
            (fun F => Emit.out (q.instantiate F)))) ∧
      (∀ (q : Atom), ∀ F ∈ [atomAB], (q.unifiesWith F = true ↔
        ∃ fuel e', Vars.unifyAll fuel { Counter := 0, Mapping := [] } q.Args F.Args
          = some (true, e'))) ∧
      (∀ (q : Atom), ∀ F ∈ [atomAB], (q.unifiesWith F = true ↔
        q.Args.length = F.Args.length ∧
        (∀ p ∈ q.Args.zip F.Args, p.1.isConst = true → p.1 = p.2) ∧
        (∀ p ∈ q.Args.zip F.Args, ∀ p' ∈ q.Args.zip F.Args, ∀ k,
          p.1 = .var k → p'.1 = .var k → p.2 = p'.2))) :=
  ⟨by decide, Database.Query_ground_facts [atomAB] (by decide)⟩

/-! ## Arity, groundness and order of assertion -/

theorem pathMatch_length : ∀ {as : List Term} {p : List Datalog.Value},
    pathMatch as p = true → as.length = p.length := by
  intro as
  induction as with
  | nil =>
    intro p h
    cases p with
    | nil => rfl
    | cons s ss => simp [pathMatch] at h
  | cons a as ih =>
    intro p h
    cases p with
    | nil => simp [pathMatch] at h
    | cons s ss =>
      simp only [pathMatch, Bool.and_eq_true] at h
      simp [ih h.2]

theorem Database.mem_find {db : Database} {q : Atom} {c : Clause} (hinv : DBInv db)
    (hc : c ∈ db.find q) :
    ∃ p, (p, c) ∈ db.leaves q.Name ∧ pathMatch q.Args p = true ∧ c.Key = q.Name ∧
      List.Forall₂ SpineOf p c.head.Args := by
  rw [Database.find_eq_filter_leaves] at hc
  obtain ⟨e, he, rfl⟩ := List.mem_map.1 hc
  obtain ⟨he1, he2⟩ := List.mem_filter.1 he
  have hok := (hinv q.Name).2 e he1
  exact ⟨e.1, he1, he2, hok.1, hok.2⟩

/-- C11: in a database built by `Assert` and `Remove`, every clause that `Database.find`
sends for a query has the name of the query and exactly as many head arguments as the
query; hence, when every stored clause of that name has another arity, `find` sends
nothing and `Query` emits nothing at all (no result, no panic, no branch left running). -/
theorem Database.find_same_arity (db : Database) (q : Atom) (hdb : Reachable db) :
    (∀ c ∈ db.find q, c.Key = q.Name ∧ c.head.Args.length = q.Args.length) ∧
    ((∀ c, db.stores c → c.Key = q.Name → c.head.Args.length ≠ q.Args.length) →
      db.find q = [] ∧ ∀ fuel, db.Query (fuel + 1) q = []) := by
  have h1 : ∀ c ∈ db.find q, c.Key = q.Name ∧ c.head.Args.length = q.Args.length ∧
      db.stores c := by
    intro c hc
    obtain ⟨p, hp, hpm, hk, hf⟩ := Database.mem_find hdb.inv hc
    refine ⟨hk, ?_, ⟨p, by rw [hk]; exact hp⟩⟩
    rw [← hf.length_eq, pathMatch_length hpm]
  refine ⟨fun c hc => ⟨(h1 c hc).1, (h1 c hc).2.1⟩, ?_⟩
  intro hall
  have hnil : db.find q = [] := by
    apply List.eq_nil_iff_forall_not_mem.2
    intro c hc
    exact hall c (h1 c hc).2.2 (h1 c hc).1 (h1 c hc).2.1
  refine ⟨hnil, ?_⟩
  intro fuel
  rw [Database.Query_eq_map_post, Atom.Eval, hnil]
  rfl

theorem Database.find_same_arity_witness :
    (∀ c ∈ dbAB.find { Name := "foo", Args := [.var ⟨"X", 0⟩] },
      c.Key = "foo" ∧ c.head.Args.length = 1) ∧
    ((∀ c, dbAB.stores c → c.Key = "foo" → c.head.Args.length ≠ 1) →
      dbAB.find { Name := "foo", Args := [.var ⟨"X", 0⟩] } = [] ∧
      ∀ fuel, dbAB.Query (fuel + 1) { Name := "foo", Args := [.var ⟨"X", 0⟩] } = []) :=
  Database.find_same_arity dbAB { Name := "foo", Args := [.var ⟨"X", 0⟩] } reachable_dbAB

/-- C12 fails on the code: the query `foo(a, _)` against the stored atom `foo(a, b)`
yields `foo(a, _)`, which keeps the wildcard of the query; and the query `foo(Z)` against
the stored atom `foo(X)` yields `foo(X.1)`, the renamed variable of the stored atom. -/
theorem Database.Query_result_not_ground :
    dbAB.Query 3 { Name := "foo", Args := [.str "a", .wildcard] }
      = [.out { Name := "foo", Args := [.str "a", .wildcard] }] ∧
    Reachable dbFooX ∧
    dbFooX.Query 3 { Name := "foo", Args := [.var ⟨"Z", 0⟩] }
      = [.out { Name := "foo", Args := [.var ⟨"X", 1⟩] }] :=
  ⟨by decide, Reachable.assert fooX Reachable.empty (Database.Assert_cons rfl), by decide⟩

theorem Atom.instantiate_ground {q F : Atom} (hF : F.isGround = true)
    (hq : ∀ t ∈ q.Args, t ≠ .wildcard) : (q.instantiate F).isGround = true := by
  unfold Atom.isGround Atom.instantiate
  simp only
  rw [List.all_eq_true]
  intro t ht
  obtain ⟨i, hi, rfl⟩ := List.getElem_of_mem ht
  rw [List.getElem_zipWith]
  have hlen := hi
  rw [List.length_zipWith] at hlen
  have hqi : q.Args[i] ∈ q.Args := List.getElem_mem _
  have hFi : F.Args[i] ∈ F.Args := List.getElem_mem _
  cases hqa : q.Args[i] with
  | var v => simpa using List.all_eq_true.1 hF _ hFi
  | int n => rfl
  | str s => rfl
  | wildcard => exact absurd hqa (hq _ hqi)

/-- C12, amended: for a database built from the empty one by asserting ground atoms with
at least one argument and for a query atom none of whose arguments is a wildcard, every
item that `Database.Query` emits (at a depth bound of at least 3) is a result atom, and it
is ground: none of its arguments is a variable or a wildcard. -/
theorem Database.Query_ground_results (facts : List Atom) (q : Atom)
    (hg : ∀ F ∈ facts, F.Args ≠ [] ∧ F.isGround = true)
    (hq : ∀ t ∈ q.Args, t ≠ .wildcard) :
    ∃ db, Database.empty.AssertAll (facts.map Clause.atom) = .ok db ∧
      ∀ fuel, 3 ≤ fuel → ∀ x ∈ db.Query fuel q, ∃ a, x = .out a ∧ a.isGround = true := by
  obtain ⟨db, hA, hr, hgl⟩ := Database.AssertAll_ground facts [] Database.empty Reachable.empty
    GroundLeaves.empty hg
  rw [List.nil_append] at hgl
  refine ⟨db, hA, ?_⟩
  intro fuel hfuel x hx
  obtain ⟨n, rfl⟩ : ∃ n, fuel = n + 3 := ⟨fuel - 3, by omega⟩
  have hperm := Database.Query_ground_of_leaves hr (fun F hF => (hg F hF).2) hgl q n
  obtain ⟨F, hF, rfl⟩ := List.mem_map.1 (hperm.subset hx)
  have hFm : F ∈ facts := List.mem_dedup.1 (List.mem_filter.1 hF).1
  exact ⟨_, rfl, Atom.instantiate_ground (hg F hFm).2 hq⟩

theorem Database.Query_ground_results_witness :
    (∀ F ∈ [atomAB], F.Args ≠ [] ∧ F.isGround = true) ∧
    ∃ db, Database.empty.AssertAll ([atomAB].map Clause.atom) = .ok db ∧
      ∀ fuel, 3 ≤ fuel →
        ∀ x ∈ db.Query fuel { Name := "foo", Args := [.str "a", .var ⟨"Y", 0⟩] },
          ∃ a, x = .out a ∧ a.isGround = true :=
  ⟨by decide,
    Database.Query_ground_results [atomAB] { Name := "foo", Args := [.str "a", .var ⟨"Y", 0⟩] }
      (by decide) (by decide)⟩

/-- C15: commutativity of facts.  Two sequences of assertions of ground atoms (each with
at least one argument) that are permutations of each other build, from the empty
database, databases on which every query emits the same results, up to the order (at every
depth bound of at least 3). -/
theorem Database.Query_ground_perm (facts₁ facts₂ : List Atom) (hperm : facts₁.Perm facts₂)
    (hg : ∀ F ∈ facts₁, F.Args ≠ [] ∧ F.isGround = true) :
    ∃ db₁ db₂, Database.empty.AssertAll (facts₁.map Clause.atom) = .ok db₁ ∧
      Database.empty.AssertAll (facts₂.map Clause.atom) = .ok db₂ ∧
      ∀ (q : Atom) (fuel : Nat), 3 ≤ fuel → (db₁.Query fuel q).Perm (db₂.Query fuel q) := by
  have hg₂ : ∀ F ∈ facts₂, F.Args ≠ [] ∧ F.isGround = true :=
    fun F hF => hg F (hperm.symm.subset hF)
  obtain ⟨db₁, hA₁, hr₁, hgl₁⟩ := Database.AssertAll_ground facts₁ [] Database.empty
    Reachable.empty GroundLeaves.empty hg
  obtain ⟨db₂, hA₂, hr₂, hgl₂⟩ := Database.AssertAll_ground facts₂ [] Database.empty
    Reachable.empty GroundLeaves.empty hg₂
  rw [List.nil_append] at hgl₁ hgl₂
  refine ⟨db₁, db₂, hA₁, hA₂, ?_⟩
  intro q fuel hfuel
  obtain ⟨n, rfl⟩ : ∃ n, fuel = n + 3 := ⟨fuel - 3, by omega⟩
  have h₁ := Database.Query_ground_of_leaves hr₁ (fun F hF => (hg F hF).2) hgl₁ q n
  have h₂ := Database.Query_ground_of_leaves hr₂ (fun F hF => (hg₂ F hF).2) hgl₂ q n
  exact h₁.trans ((((hperm.dedup).filter _).map _).trans h₂.symm)

theorem Database.Query_ground_perm_witness :
    ([atomAB, atomAC].Perm [atomAC, atomAB]) ∧
    ∃ db₁ db₂, Database.empty.AssertAll ([atomAB, atomAC].map Clause.atom) = .ok db₁ ∧
      Database.empty.AssertAll ([atomAC, atomAB].map Clause.atom) = .ok db₂ ∧
      ∀ (q : Atom) (fuel : Nat), 3 ≤ fuel → (db₁.Query fuel q).Perm (db₂.Query fuel q) :=
  ⟨List.Perm.swap _ _ _,
    Database.Query_ground_perm [atomAB, atomAC] [atomAC, atomAB] (List.Perm.swap _ _ _)
      (by decide)⟩

/-! ## Constraints -/

theorem compare_ok {α : Type} [LinearOrder α] {op : String} (hop : op ∈ comparisonOps)
    (a b : α) : ∃ res, compare op a b = .ok res ∧ (res = true ↔ opHolds op a b) := by
  simp only [comparisonOps, List.mem_cons, List.mem_singleton, List.not_mem_nil, or_false] at hop
  rcases hop with rfl | rfl | rfl | rfl | rfl | rfl
  · exact ⟨decide (a = b), by simp [compare], by simp [opHolds]⟩
  · exact ⟨decide (a ≠ b), by simp [compare], by simp [opHolds]⟩
  · exact ⟨decide (a < b), by simp [compare], by simp [opHolds]⟩
  · exact ⟨decide (a ≤ b), by simp [compare], by simp [opHolds]⟩
  · exact ⟨decide (a > b), by simp [compare], by simp [opHolds]⟩
  · exact ⟨decide (a ≥ b), by simp [compare], by simp [opHolds]⟩

theorem comparisonOps_ne_in {op : String} (hop : op ∈ comparisonOps) : op ≠ "in" := by
  simp only [comparisonOps, List.mem_cons, List.mem_singleton, List.not_mem_nil, or_false] at hop
  rcases hop with rfl | rfl | rfl | rfl | rfl | rfl <;> decide

/-- C16: for each of the six comparison operators and every pair of operand values,
`Constraint.evalWith` returns without a panic, and it returns true exactly when both
operands are integers or both are strings and the comparison holds in the order of the
integers, respectively the lexicographic order of the strings; with operands of different
types, a variable or a wildcard it returns false. -/
theorem Constraint.evalWith_comparison (c : Constraint) (l r : Term)
    (hop : c.Op ∈ comparisonOps) :
    ∃ res, c.evalWith l r = .ok res ∧
      (res = true ↔
        (∃ i j, l = .int i ∧ r = .int j ∧ opHolds c.Op i j) ∨
        (∃ s t, l = .str s ∧ r = .str t ∧ opHolds c.Op s t)) ∧
      (∀ s t : String, s < t ↔ s.toList < t.toList) := by
  have hin := comparisonOps_ne_in hop
  unfold Constraint.evalWith
  rw [if_neg hin]
  cases l with
  | int i =>
    cases r with
    | int j =>
      obtain ⟨res, h1, h2⟩ := compare_ok hop i j
      refine ⟨res, ?_, ?_, fun s t => String.lt_iff_toList_lt⟩
      · simp [asTypeString, asTypeInt, h1, bind, Except.bind, pure, Except.pure]
      · rw [h2]; simp
    | _ =>
      refine ⟨false, ?_, by simp, fun s t => String.lt_iff_toList_lt⟩
      simp [asTypeString, asTypeInt, bind, Except.bind, pure, Except.pure]
  | str s =>
    cases r with
    | str t =>
      obtain ⟨res, h1, h2⟩ := compare_ok hop s t
      refine ⟨res, ?_, ?_, fun s t => String.lt_iff_toList_lt⟩
      · cases res <;>
          simp [asTypeString, asTypeInt, h1, bind, Except.bind, pure, Except.pure]
      · rw [h2]; simp
    | _ =>
      refine ⟨false, ?_, by simp, fun s t => String.lt_iff_toList_lt⟩
      simp [asTypeString, asTypeInt, bind, Except.bind, pure, Except.pure]
  | var v =>
    refine ⟨false, ?_, by simp, fun s t => String.lt_iff_toList_lt⟩
    simp [asTypeString, asTypeInt, bind, Except.bind, pure, Except.pure]
  | wildcard =>
    refine ⟨false, ?_, by simp, fun s t => String.lt_iff_toList_lt⟩
    simp [asTypeString, asTypeInt, bind, Except.bind, pure, Except.pure]

theorem Constraint.evalWith_comparison_witness :
    "<" ∈ comparisonOps ∧
    ∃ res, Constraint.evalWith { Op := "<", Lhs := .wildcard, Rhs := .wildcard }
        (.int 1) (.int 2) = .ok res ∧
      (res = true ↔
        (∃ i j, Term.int 1 = .int i ∧ Term.int 2 = .int j ∧ opHolds "<" i j) ∨
        (∃ s t, Term.int 1 = .str s ∧ Term.int 2 = .str t ∧ opHolds "<" s t)) ∧
      (∀ s t : String, s < t ↔ s.toList < t.toList) :=
  ⟨by decide,
    Constraint.evalWith_comparison { Op := "<", Lhs := .wildcard, Rhs := .wildcard }
      (.int 1) (.int 2) (by decide)⟩

/-- C17: for the operator `in` and every pair of operand values, `Constraint.evalWith`
returns without a panic, and it returns true exactly when each operand is an integer or a
string and the text of the right operand contains the text of the left one as a contiguous
run; the text of a string is the string, the text of an integer is its base-10 form with a
minus sign in front when it is negative, and a variable or a wildcard has no text. -/
theorem Constraint.evalWith_in (c : Constraint) (l r : Term) (hop : c.Op = "in") :
    ∃ res, c.evalWith l r = .ok res ∧
      (res = true ↔
        ∃ tl tr, toString l = some tl ∧ toString r = some tr ∧ tl.data <:+: tr.data) ∧
      (∀ s, toString (.str s) = some s) ∧
      (∀ n : Nat, toString (.int (Int.ofNat n)) = some (Nat.toDigits 10 n).asString) ∧
      (∀ n : Nat, toString (.int (Int.negSucc n)) =
        some ("-" ++ (Nat.toDigits 10 (n + 1)).asString)) ∧
      (∀ v, toString (.var v) = none) ∧ toString .wildcard = none := by
  unfold Constraint.evalWith
  rw [if_pos hop]
  cases hl : toString l with
  | none =>
    exact ⟨false, rfl, by simp, fun _ => rfl, fun _ => rfl, fun _ => rfl, fun _ => rfl, rfl⟩
  | some tl =>
    cases hr : toString r with
    | none =>
      exact ⟨false, rfl, by simp, fun _ => rfl, fun _ => rfl, fun _ => rfl, fun _ => rfl, rfl⟩
    | some tr =>
      exact ⟨stringsContains tr tl, rfl, by simp [stringsContains],
        fun _ => rfl, fun _ => rfl, fun _ => rfl, fun _ => rfl, rfl⟩

theorem Constraint.evalWith_in_witness :
    ∃ res, Constraint.evalWith { Op := "in", Lhs := .wildcard, Rhs := .wildcard }
        (.int 12) (.str "a123") = .ok res ∧
      (res = true ↔
        ∃ tl tr, toString (.int 12) = some tl ∧ toString (.str "a123") = some tr ∧
          tl.data <:+: tr.data) ∧
      (∀ s, toString (.str s) = some s) ∧
      (∀ n : Nat, toString (.int (Int.ofNat n)) = some (Nat.toDigits 10 n).asString) ∧
      (∀ n : Nat, toString (.int (Int.negSucc n)) =
        some ("-" ++ (Nat.toDigits 10 (n + 1)).asString)) ∧
      (∀ v, toString (.var v) = none) ∧ toString .wildcard = none :=
  Constraint.evalWith_in { Op := "in", Lhs := .wildcard, Rhs := .wildcard }
    (.int 12) (.str "a123") rfl

/-- C18 fails on the code: with the invalid operator `~`, `evalWith` panics on two
integers, but on an integer and a string it returns false without a panic, and
`Constraint.Eval` with an unbound variable as an operand sends nothing and does not panic:
`compare`, which holds the panic, is only reached when `asType` accepts both operands. -/
theorem Constraint.evalWith_invalid_operator :
    Constraint.evalWith { Op := "~", Lhs := .int 1, Rhs := .int 2 } (.int 1) (.int 2)
      = .error "invalid operator: ~" ∧
    Constraint.evalWith { Op := "~", Lhs := .int 1, Rhs := .str "a" } (.int 1) (.str "a")
      = .ok false ∧
    Constraint.Eval 2 { Op := "~", Lhs := .var ⟨"X", 0⟩, Rhs := .int 1 }
      { Counter := 0, Mapping := [] } = [] := by
  refine ⟨rfl, rfl, by decide⟩

theorem Vars.expand_envSelf_none (fuel : Nat) :
    envSelf.expand fuel (.var ⟨"Y", 0⟩) = none := by
  induction fuel with
  | zero => rfl
  | succ n ih =>
    have hg : envSelf.Get ⟨"Y", 0⟩ = some (.var ⟨"Y", 0⟩) := by decide
    rw [Vars.expand, hg]
    exact ih

/-- C19 fails on the code: from the empty environment `Unify(X, Y)` and then `Unify(Y, X)`
succeed and leave `Y` bound to itself; `expand(Y)` then follows that binding without end,
it returns within no bound on the number of its iterations. -/
theorem Vars.expand_not_total :
    Vars.Unify 2 { Counter := 0, Mapping := [] } (.var ⟨"X", 0⟩) (.var ⟨"Y", 0⟩)
      = some (true, envXY) ∧
    Vars.Unify 2 envXY (.var ⟨"Y", 0⟩) (.var ⟨"X", 0⟩) = some (true, envSelf) ∧
    ∀ fuel, envSelf.expand fuel (.var ⟨"Y", 0⟩) = none :=
  ⟨by decide, by decide, Vars.expand_envSelf_none⟩

/-! ## `substitute` is idempotent -/

theorem substOne_idem (new m : Mapping) : substOne new (substOne new m) = substOne new m := by
  unfold substOne
  by_cases h : m.Val = .var new.Key
  · simp only [h, if_true]
    by_cases h2 : new.Val = .var new.Key
    · simp [h2]
    · simp [h2]
  · simp [h]

theorem substOne_fixed (new m : Mapping) (h : m.Val = .var new.Key → new.Val = m.Val) :
    substOne new m = m := by
  unfold substOne
  by_cases h1 : m.Val = .var new.Key
  · rw [if_pos h1]
    cases m
    simp only [Mapping.mk.injEq, true_and]
    exact h h1
  · rw [if_neg h1]

theorem substOne_val (new m : Mapping) :
    (substOne new m).Val = .var new.Key → new.Val = (substOne new m).Val := by
  unfold substOne
  by_cases h1 : m.Val = .var new.Key
  · rw [if_pos h1]
    intro _
    rfl
  · rw [if_neg h1]
    intro h
    exact absurd h h1

theorem substLoop_vals (n : Nat) (l : List Mapping) :
    ∀ m ∈ substLoop n l, ∃ m' ∈ l, m.Val = m'.Val := by
  induction n generalizing l with
  | zero => intro m hm; exact ⟨m, hm, rfl⟩
  | succ n ih =>
    cases l with
    | nil => intro m hm; simp [substLoop] at hm
    | cons new older =>
      intro m hm
      simp only [substLoop, List.mem_cons] at hm
      rcases hm with rfl | hm
      · exact ⟨m, List.mem_cons_self _ _, rfl⟩
      · obtain ⟨m', hm', hv⟩ := ih _ m hm
        obtain ⟨m'', hm'', rfl⟩ := List.mem_map.1 hm'
        unfold substOne at hv
        by_cases h1 : m''.Val = .var new.Key
        · rw [if_pos h1] at hv
          exact ⟨new, List.mem_cons_self _ _, hv⟩
        · rw [if_neg h1] at hv
          exact ⟨m'', List.mem_cons_of_mem _ hm'', hv⟩

theorem substLoop_length (n : Nat) (l : List Mapping) : (substLoop n l).length = l.length := by
  induction n generalizing l with
  | zero => rfl
  | succ n ih =>
    cases l with
    | nil => rfl
    | cons new older => simp [substLoop, ih]

theorem substLoop_idem (n : Nat) (l : List Mapping) :
    substLoop n (substLoop n l) = substLoop n l := by
  induction n generalizing l with
  | zero => rfl
  | succ n ih =>
    cases l with
    | nil => rfl
    | cons new older =>
      simp only [substLoop]
      have hfix : (substLoop n (older.map (substOne new))).map (substOne new)
          = substLoop n (older.map (substOne new)) := by
        conv_rhs => rw [← List.map_id (substLoop n (older.map (substOne new)))]
        apply List.map_congr_left
        intro m hm
        obtain ⟨m', hm', hv⟩ := substLoop_vals n _ m hm
        obtain ⟨m'', _, rfl⟩ := List.mem_map.1 hm'
        simp only [id]
        apply substOne_fixed
        rw [hv]
        exact substOne_val new m''
      rw [hfix, ih]

theorem substRev_idem (l : List Mapping) : substRev (substRev l) = substRev l := by
  unfold substRev
  rw [substLoop_length, substLoop_idem]

/-- C20: `substitute` is idempotent: for every environment, whatever its binding list
(duplicate keys and self-bindings included), applying `substitute` twice gives the same
environment, binding list and counter, as applying it once. -/
theorem Vars.substitute_idempotent (v : Vars) :
    v.substitute.substitute = v.substitute := by
  unfold Vars.substitute
  simp only [List.reverse_reverse, substRev_idem]

/-! ## `Unify`, `Get` and `Materialize` case by case -/

/-- C21: in an environment where the variable `V` has no binding, for a term `t` that is
neither the wildcard nor `V` itself, `Unify(V, t)` returns true and the binding list becomes
the old list with one binding `(V, val)` appended, the counter unchanged: `val` is `Get(t)`
when `t` is a variable that has a binding (one step only), and `t` otherwise. -/
theorem Vars.Unify_unbound_var (v : Vars) (V : Var) (t : Term) (hV : v.Get V = none)
    (hw : t ≠ .wildcard) (hne : t ≠ .var V) (fuel : Nat) :
    ∃ val, Vars.Unify (fuel + 2) v (.var V) t
        = some (true, { Counter := v.Counter, Mapping := v.Mapping ++ [⟨V, val⟩] }) ∧
      (∀ w x, t = .var w → v.Get w = some x → val = x) ∧
      ((∀ w, t = .var w → v.Get w = none) → val = t) := by
  refine ⟨v.resolveOnce t, ?_, ?_, ?_⟩
  · have h1 : (Term.var V = t) = False := eq_false (fun h => hne h.symm)
    simp [Vars.Unify, Vars.unifyVar, hV, Vars.bind, hw, h1]
  · intro w x ht hg
    subst ht
    simp [Vars.resolveOnce, hg]
  · intro h
    cases t with
    | var w => simp [Vars.resolveOnce, h w rfl]
    | wildcard => rfl
    | int i => rfl
    | str s => rfl

theorem Vars.Unify_unbound_var_witness :
    ∃ val, Vars.Unify (0 + 2) envXY (.var ⟨"Z", 0⟩) (.var ⟨"X", 0⟩)
        = some (true, { Counter := envXY.Counter,
                        Mapping := envXY.Mapping ++ [⟨⟨"Z", 0⟩, val⟩] }) ∧
      (∀ w x, Term.var ⟨"X", 0⟩ = .var w → envXY.Get w = some x → val = x) ∧
      ((∀ w, Term.var ⟨"X", 0⟩ = .var w → envXY.Get w = none) → val = .var ⟨"X", 0⟩) :=
  Vars.Unify_unbound_var envXY ⟨"Z", 0⟩ (.var ⟨"X", 0⟩) (by decide) (by decide) (by decide) 0

theorem find?_reverse_eq_some {α : Type} (p : α → Bool) (l : List α) (m : α) :
    l.reverse.find? p = some m ↔
      ∃ pre post, l = pre ++ m :: post ∧ p m = true ∧ ∀ m' ∈ post, p m' = false := by
  induction l using List.reverseRecOn with
  | nil => simp
  | append_singleton l a ih =>
    rw [List.reverse_append, List.reverse_singleton, List.singleton_append, List.find?_cons]
    cases hpa : p a with
    | true =>
      simp only [Option.some.injEq]
      constructor
      · rintro rfl
        exact ⟨l, [], rfl, hpa, by simp⟩
      · rintro ⟨pre, post, hl, hpm, hpost⟩
        rcases List.eq_nil_or_concat post with rfl | ⟨post', b, rfl⟩
        · have := List.append_inj_right' hl (by simp)
          simpa using this
        · rw [List.concat_eq_append, ← List.cons_append, ← List.append_assoc] at hl
          have h2 := List.append_inj_right' hl (by simp)
          simp only [List.cons.injEq, and_true] at h2
          have := hpost b (by simp)
          rw [← h2, hpa] at this
          exact absurd this (by simp)
    | false =>
      simp only
      rw [ih]
      constructor
      · rintro ⟨pre, post, rfl, hpm, hpost⟩
        refine ⟨pre, post ++ [a], by simp, hpm, ?_⟩
        intro m' hm'
        rcases List.mem_append.1 hm' with h | h
        · exact hpost m' h
        · simp only [List.mem_singleton] at h
          rw [h, hpa]
      · rintro ⟨pre, post, hl, hpm, hpost⟩
        rcases List.eq_nil_or_concat post with rfl | ⟨post', b, rfl⟩
        · have := List.append_inj_right' hl (by simp)
          simp only [List.cons.injEq, and_true] at this
          rw [this, hpm] at hpa
          exact absurd hpa (by simp)
        · rw [List.concat_eq_append, ← List.cons_append, ← List.append_assoc] at hl
          have h1 := List.append_inj_left' hl (by simp)
          refine ⟨pre, post', h1, hpm, ?_⟩
          intro m' hm'
          exact hpost m' (by simp [hm'])

theorem find?_reverse_eq_none {α : Type} (p : α → Bool) (l : List α) :
    l.reverse.find? p = none ↔ ∀ m ∈ l, p m = false := by
  simp [List.find?_eq_none]

theorem Vars.Get_eq_some_iff (v : Vars) (V : Var) (x : Term) :
    v.Get V = some x ↔
      ∃ pre m post, v.Mapping = pre ++ m :: post ∧ m.Key = V ∧ m.Val = x ∧
        ∀ m' ∈ post, m'.Key ≠ V := by
  unfold Vars.Get
  simp only [Option.map_eq_some', find?_reverse_eq_some]
  constructor
  · rintro ⟨m, ⟨pre, post, hl, hpm, hpost⟩, hx⟩
    exact ⟨pre, m, post, hl, by simpa using hpm, hx, fun m' hm' => by simpa using hpost m' hm'⟩
  · rintro ⟨pre, m, post, hl, hk, hx, hpost⟩
    exact ⟨m, ⟨pre, post, hl, by simpa using hk, fun m' hm' => by simpa using hpost m' hm'⟩, hx⟩

theorem Vars.Get_eq_none_iff (v : Vars) (V : Var) :
    v.Get V = none ↔ ∀ m ∈ v.Mapping, m.Key ≠ V := by
  unfold Vars.Get
  simp [List.find?_eq_none]

/-- C22: `Vars.Get(V)` returns `x` exactly when the binding list has a binding with key `V`
and value `x` at an index after which no binding has key `V` (the greatest such index, the
most recently appended binding); it reports not-found exactly when no binding of the list
has key `V`; two keys are the same exactly when their names and their generations are. -/
theorem Vars.Get_most_recent (v : Vars) (V : Var) :
    (∀ x, v.Get V = some x ↔
      ∃ (i : Nat) (m : Datalog.Mapping), v.Mapping[i]? = some m ∧ m.Key = V ∧ m.Val = x ∧
        ∀ (j : Nat) (m' : Datalog.Mapping), i < j → v.Mapping[j]? = some m' → m'.Key ≠ V) ∧
    (v.Get V = none ↔ ∀ m ∈ v.Mapping, m.Key ≠ V) ∧
    (∀ a b : Var, a = b ↔ a.Name = b.Name ∧ a.Counter = b.Counter) := by
  refine ⟨?_, Vars.Get_eq_none_iff v V, ?_⟩
  · intro x
    rw [Vars.Get_eq_some_iff]
    constructor
    · rintro ⟨pre, m, post, hl, hk, hx, hpost⟩
      refine ⟨pre.length, m, by rw [hl, List.getElem?_append_right (le_refl _)]; simp, hk, hx, ?_⟩
      intro j m' hij hj
      apply hpost
      rw [hl, List.getElem?_append_right (le_of_lt hij)] at hj
      obtain ⟨k, hk'⟩ : ∃ k, j - pre.length = k + 1 := ⟨j - pre.length - 1, by omega⟩
      rw [hk', List.getElem?_cons_succ] at hj
      exact List.mem_iff_getElem?.2 ⟨_, hj⟩
    · rintro ⟨i, m, hi, hk, hx, hlast⟩
      obtain ⟨hlt, hget⟩ := List.getElem?_eq_some.1 hi
      refine ⟨v.Mapping.take i, m, v.Mapping.drop (i + 1), ?_, hk, hx, ?_⟩
      · rw [← hget]
        simp
      · intro m' hm'
        obtain ⟨k, hk'⟩ := List.getElem?_of_mem hm'
        rw [List.getElem?_drop] at hk'
        exact hlast (i + 1 + k) m' (by omega) hk'
  · intro a b
    cases a
    cases b
    simp

/-- C23: for two constants `a` and `b` (each an `int` or a `String`), `Unify(a, b)` returns
true exactly when `a` and `b` are the same constant (same type and same value), and in both
cases it leaves the environment as it was; an `int` is never the same constant as a
`String`. -/
theorem Vars.Unify_constants (v : Vars) (a b : Term) (ha : a.isConst = true)
    (hb : b.isConst = true) (fuel : Nat) :
    ∃ res, Vars.Unify (fuel + 1) v a b = some (res, v) ∧ (res = true ↔ a = b) ∧
      ∀ (i : Int) (s : String), Term.int i ≠ Term.str s := by
  refine ⟨decide (a = b), ?_, by simp, fun i s h => Term.noConfusion h⟩
  cases a <;> cases b <;> simp [Term.isConst] at ha hb <;>
    simp only [Vars.Unify] <;> split_ifs <;> simp_all

theorem Vars.Unify_constants_witness :
    ∃ res, Vars.Unify (0 + 1) envXY (.int 1) (.str "1") = some (res, envXY) ∧
      (res = true ↔ Term.int 1 = Term.str "1") ∧
      ∀ (i : Int) (s : String), Term.int i ≠ Term.str s :=
  Vars.Unify_constants envXY (.int 1) (.str "1") rfl rfl 0

/-- C24: for every environment and every term `t` (a constant, the wildcard, a variable
with or without a binding), `Unify(Wildcard, t)` and `Unify(t, Wildcard)` both return true
and leave the environment as it was. -/
theorem Vars.Unify_wildcard (v : Vars) (t : Term) (fuel : Nat) :
    Vars.Unify (fuel + 1) v .wildcard t = some (true, v) ∧
    Vars.Unify (fuel + 1) v t .wildcard = some (true, v) := by
  constructor
  · cases t <;> simp [Vars.Unify]
  · cases t <;> simp [Vars.Unify]

/-- C25: `q.Materialize(E)` has the name of `q` and as many arguments as `q`; at every
position, an argument of `q` that is a variable with a binding in `E` is replaced by `Get`
of that variable, and any other argument (a constant, the wildcard, a variable without a
binding) is kept. -/
theorem Atom.Materialize_spec (q : Atom) (E : Vars) :
    (q.Materialize E).Name = q.Name ∧
    (q.Materialize E).Args.length = q.Args.length ∧
    ∀ (i : Nat) (arg : Term), q.Args[i]? = some arg →
      (∀ x val, arg = .var x → E.Get x = some val → (q.Materialize E).Args[i]? = some val) ∧
      ((∀ x, arg = .var x → E.Get x = none) → (q.Materialize E).Args[i]? = some arg) := by
  refine ⟨rfl, by simp [Atom.Materialize], ?_⟩
  intro i arg hi
  constructor
  · intro x val hx hg
    subst hx
    simp [Atom.Materialize, hi, hg]
  · intro h
    cases arg with
    | var x => simp [Atom.Materialize, hi, h x rfl]
    | wildcard => simp [Atom.Materialize, hi]
    | int n => simp [Atom.Materialize, hi]
    | str s => simp [Atom.Materialize, hi]

/-! ## Bindings are only appended -/

theorem Vars.Unify_step (fuel : Nat) :
    (∀ (v : Vars) (l r : Term) (b : Bool) (v' : Vars), Vars.Unify fuel v l r = some (b, v') →
      v' = v ∨ ∃ k val, v.Get k = none ∧ b = true ∧ v' = v.bind k val) ∧
    (∀ (v : Vars) (k : Var) (r : Term) (b : Bool) (v' : Vars),
      Vars.unifyVar fuel v k r = some (b, v') →
      v' = v ∨ ∃ k val, v.Get k = none ∧ b = true ∧ v' = v.bind k val) := by
  induction fuel with
  | zero =>
    constructor
    · intro v l r b v' h
      simp [Vars.Unify] at h
    · intro v k r b v' h
      simp [Vars.unifyVar] at h
  | succ n ih =>
    constructor
    · intro v l r b v' h
      cases l <;> cases r <;> simp only [Vars.Unify] at h <;> split_ifs at h <;>
        first
          | (simp only [Option.some.injEq, Prod.mk.injEq] at h
             exact Or.inl h.2.symm)
          | exact ih.2 _ _ _ _ _ h
    · intro v k r b v' h
      simp only [Vars.unifyVar] at h
      cases hg : v.Get k with
      | some x =>
        rw [hg] at h
        exact ih.1 _ _ _ _ _ h
      | none =>
        rw [hg] at h
        simp only [Option.some.injEq, Prod.mk.injEq] at h
        exact Or.inr ⟨k, _, hg, h.1.symm, h.2.symm⟩

theorem Vars.keys_nodup_bind {v : Vars} {k : Var} (val : Term) (hk : v.Get k = none)
    (hn : (v.Mapping.map (fun m => m.Key)).Nodup) :
    ((v.bind k val).Mapping.map (fun m => m.Key)).Nodup := by
  unfold Vars.Get at hk
  simp only [Option.map_eq_none', List.find?_eq_none, List.mem_reverse, decide_eq_true_eq] at hk
  simp only [Vars.bind, List.map_append, List.map_cons, List.map_nil]
  rw [List.nodup_append]
  refine ⟨hn, by simp, ?_⟩
  intro a ha hb
  simp only [List.mem_singleton] at hb
  obtain ⟨m, hm, rfl⟩ := List.mem_map.1 ha
  exact hk m hm hb

/-- C26: when `Unify(l, r)` returns, with either status, the counter is unchanged and the
binding list is the old list, or the old list with one binding appended whose key had no
binding before the call; so the old list is a prefix of the new one, and when the keys of
the bindings are pairwise distinct before the call they are pairwise distinct after it. -/
theorem Vars.Unify_append_only (fuel : Nat) (v : Vars) (l r : Term) (b : Bool) (v' : Vars)
    (h : Vars.Unify fuel v l r = some (b, v')) :
    v'.Counter = v.Counter ∧
    (v'.Mapping = v.Mapping ∨
      ∃ k val, v.Get k = none ∧ v'.Mapping = v.Mapping ++ [⟨k, val⟩]) ∧
    v.Mapping <+: v'.Mapping ∧
    ((v.Mapping.map (fun m => m.Key)).Nodup → (v'.Mapping.map (fun m => m.Key)).Nodup) := by
  rcases (Vars.Unify_step fuel).1 v l r b v' h with rfl | ⟨k, val, hk, _, rfl⟩
  · exact ⟨rfl, Or.inl rfl, List.prefix_refl _, fun hn => hn⟩
  · exact ⟨rfl, Or.inr ⟨k, val, hk, rfl⟩, List.prefix_append _ _,
      fun hn => Vars.keys_nodup_bind val hk hn⟩

theorem Vars.Unify_append_only_witness :
    (Vars.withCounter 0 envSelf).Counter = envXY.Counter ∧
    ((Vars.withCounter 0 envSelf).Mapping = envXY.Mapping ∨
      ∃ k val, envXY.Get k = none ∧
        (Vars.withCounter 0 envSelf).Mapping = envXY.Mapping ++ [⟨k, val⟩]) ∧
    envXY.Mapping <+: (Vars.withCounter 0 envSelf).Mapping ∧
    ((envXY.Mapping.map (fun m => m.Key)).Nodup →
      ((Vars.withCounter 0 envSelf).Mapping.map (fun m => m.Key)).Nodup) :=
  Vars.Unify_append_only 2 envXY (.var ⟨"Y", 0⟩) (.var ⟨"X", 0⟩) true
    (Vars.withCounter 0 envSelf) (by decide)

/-! ## Rules without a body -/

theorem Goal.renameVarsList_nil (vars : Vars) : Goal.renameVarsList vars [] = [] := by
  simp [Goal.renameVarsList]

/-- C27: `evalBody` called with an empty body panics with "rule's body cannot be empty"
and sends no environment.  So for a stored rule with an empty body: when the arguments of
the query unify with the renamed head, the branch of that rule ends in the panic, and a
query that finds the rule and unifies with its head has the panic among the items of
`Database.Query`; when the arguments do not unify with the head, the branch of the rule
sends nothing and does not panic. -/
theorem evalBody_empty (fuel : Nat) (vars : Vars) (db : Database) (q : Atom) (r : Rule)
    (hr : r.Body = []) :
    evalBody fuel [] vars db = [.fatal emptyBodyMsg] ∧
    results (evalBody fuel [] vars db) = [] ∧
    (∀ vars', vars.unifyAll (fuel + 1) q.Args (r.renameVars vars).Atom.Args
        = some (true, vars') → q.unify fuel (.rule r) vars db = [.fatal emptyBodyMsg]) ∧
    (∀ vars', vars.unifyAll (fuel + 1) q.Args (r.renameVars vars).Atom.Args
        = some (false, vars') → q.unify fuel (.rule r) vars db = []) ∧
    (Clause.rule r ∈ db.find q →
      (∃ vars', Vars.unifyAll (fuel + 1) { Counter := 1, Mapping := [] } q.Args
        (r.renameVars { Counter := 1, Mapping := [] }).Atom.Args = some (true, vars')) →
      Emit.fatal emptyBodyMsg ∈ db.Query (fuel + 1) q) := by
  have hb : ∀ v : Vars, (r.renameVars v).Body = [] := by
    intro v
    simp [Rule.renameVars, hr, Goal.renameVarsList]
  refine ⟨rfl, rfl, ?_, ?_, ?_⟩
  · intro vars' h
    simp only [Atom.unify, Atom.unifyWith, h, hb]
    rfl
  · intro vars' h
    simp only [Atom.unify, Atom.unifyWith, h]
  · rintro hmem ⟨vars', h⟩
    unfold Database.Query
    refine List.mem_map.2 ⟨.fatal emptyBodyMsg, ?_, rfl⟩
    simp only [Atom.Eval]
    refine List.mem_flatMap.2 ⟨.rule r, hmem, ?_⟩
    have h1 : (0 + 1) % uintSize = 1 := by decide
    simp only [Atom.unifyWith, h1, h, hb]
    simp [evalBodyWith, emptyBodyMsg]

theorem evalBody_empty_witness :
    ruleNoBody.Body = [] ∧ Reachable dbNoBody ∧
    Emit.fatal emptyBodyMsg ∈ dbNoBody.Query (2 + 1) (Atom.mk "p" [.var ⟨"X", 0⟩]) ∧
    (Atom.mk "p" [.var ⟨"X", 0⟩]).unify 2 (.rule ruleNoBody)
      { Counter := 0, Mapping := [] } dbNoBody = [.fatal emptyBodyMsg] ∧
    dbNoBody.Query 3 (Atom.mk "p" [.var ⟨"X", 0⟩])
      = [.out (Atom.mk "p" [.str "b"]), .fatal emptyBodyMsg] ∧
    dbNoBody.Query 3 (Atom.mk "p" [.str "b"]) = [.out (Atom.mk "p" [.str "b"])] :=
  ⟨rfl,
    Reachable.assert (.rule ruleNoBody)
      (Reachable.assert (.atom (Atom.mk "p" [.str "b"])) Reachable.empty
        (Database.Assert_cons rfl))
      (Database.Assert_cons rfl),
    (evalBody_empty 2 { Counter := 0, Mapping := [] } dbNoBody (Atom.mk "p" [.var ⟨"X", 0⟩])
      ruleNoBody rfl).2.2.2.2 (by decide)
      ⟨{ Counter := 1, Mapping := [⟨⟨"X", 0⟩, .str "a"⟩] }, by decide⟩,
    (evalBody_empty 2 { Counter := 0, Mapping := [] } dbNoBody (Atom.mk "p" [.var ⟨"X", 0⟩])
      ruleNoBody rfl).2.2.1 { Counter := 0, Mapping := [⟨⟨"X", 0⟩, .str "a"⟩] } (by decide),
    by decide, by decide⟩

/-! ## A failed unification -/

/-- C33: a failed unification records nothing: when `Unify(l, r)` returns false, the
binding list and the counter after the call are the ones before it. -/
theorem Vars.Unify_false_unchanged (fuel : Nat) (v : Vars) (l r : Term) (v' : Vars)
    (h : Vars.Unify fuel v l r = some (false, v')) :
    v'.Mapping = v.Mapping ∧ v'.Counter = v.Counter := by
  rcases (Vars.Unify_step fuel).1 v l r false v' h with rfl | ⟨_, _, _, hb, _⟩
  · exact ⟨rfl, rfl⟩
  · exact absurd hb (by decide)

theorem Vars.Unify_false_unchanged_witness :
    Vars.Unify 7 envComplex (.var ⟨"Z", 0⟩) (.str "no") = some (false, envComplex) ∧
    envComplex.Mapping = envComplex.Mapping ∧ envComplex.Counter = envComplex.Counter :=
  ⟨by decide,
    Vars.Unify_false_unchanged 7 envComplex (.var ⟨"Z", 0⟩) (.str "no") envComplex (by decide)⟩

/-! ## The parser -/

/-- C32 fails on the code: for the documented selector `1-2,6` `parseColumns` returns the
indices `[0, 1, 2, 5]` and not `[0, 1, 5]`; the range `1-2` alone gives `[0, 1, 2]` and the
range `2-5` gives `[1, 2, 3]`: the upper bound is read from the text of the lower bound and
the loop runs to `upper + 1`.  A single number `n` gives the index `n - 1`. -/
theorem parseColumns_range_wrong :
    parseColumns "1-2,6" = .ok [0, 1, 2, 5] ∧
    parseColumns "1-2" = .ok [0, 1, 2] ∧
    parseColumns "2-5" = .ok [1, 2, 3] ∧
    parseColumns "6,1,6" = .ok [0, 5] := by
  refine ⟨rfl, rfl, rfl, rfl⟩

theorem parseDigits_eq (ds : List Char) (hd : ∀ d ∈ ds, isDecimalDigit d) (n : Nat) :
    parseDigits ds n = some (n * 10 ^ ds.length + decimalValue ds) := by
  induction ds generalizing n with
  | nil => simp [parseDigits, decimalValue]
  | cons c cs ih =>
    have hc : isDecimalDigit c := hd c (List.mem_cons_self _ _)
    have hcs : ∀ d ∈ cs, isDecimalDigit d := fun d h => hd d (List.mem_cons_of_mem _ h)
    have hv : digitVal c = some (c.toNat - 48) := by
      unfold digitVal
      exact if_pos hc
    simp only [parseDigits, hv]
    rw [ih hcs]
    simp only [decimalValue, List.reverse_cons, List.map_append, List.map_cons, List.map_nil,
      Nat.ofDigits_append, Nat.ofDigits_singleton, List.length_map, List.length_reverse,
      List.length_cons]
    congr 1
    ring

theorem isNumber_of_digit {token : String} {c : Char} {cs : List Char}
    (h : token.data = c :: cs) (hc : isDecimalDigit c) :
    isIdentifier token = false ∧ isVariable token = false ∧ token ≠ "_" ∧
      isNumber token = true ∧ c ≠ '-' ∧ c ≠ '+' := by
  obtain ⟨h0, h9⟩ := hc
  have h0' : 48 ≤ c.toNat := h0
  have h9' : c.toNat ≤ 57 := h9
  have ha : ¬ ('a' ≤ c) := fun hh => by
    have : 97 ≤ c.toNat := hh
    omega
  have hA : ¬ (c ≤ 'Z' ∧ 'A' ≤ c) := fun hh => by
    have : 65 ≤ c.toNat := hh.2
    omega
  refine ⟨?_, ?_, ?_, ?_, ?_, ?_⟩
  · simp [isIdentifier, h, ha]
  · simp only [isVariable, h, Bool.and_eq_false_imp, decide_eq_true_eq, decide_eq_false_iff_not]
    intro h1 h2
    exact hA ⟨h2, h1⟩
  · intro ht
    rw [ht] at h
    have : c = '_' := by
      have := (List.cons.inj h).1
      exact this.symm
    rw [this] at h9'
    exact absurd h9' (by decide)
  · simp [isNumber, h, h0, h9]
  · rintro rfl
    exact absurd h0' (by decide)
  · rintro rfl
    exact absurd h0' (by decide)

theorem atoi_unsigned {token : String} {c : Char} {cs : List Char}
    (h : token.data = c :: cs) (hd : ∀ d ∈ c :: cs, isDecimalDigit d) :
    atoi token = if maxInt < (decimalValue (c :: cs) : Int) then none
      else some (decimalValue (c :: cs) : Int) := by
  have hc := isNumber_of_digit h (hd c (List.mem_cons_self _ _))
  unfold atoi
  rw [h]
  simp only [hc.2.2.2.2.1, hc.2.2.2.2.2, if_false]
  rw [parseDigits_eq _ hd]
  simp

theorem atoi_minus {token : String} {ds : List Char}
    (h : token.data = '-' :: ds) (hne : ds ≠ []) (hd : ∀ d ∈ ds, isDecimalDigit d) :
    atoi token = if -(decimalValue ds : Int) < minInt then none
      else some (-(decimalValue ds : Int)) := by
  unfold atoi
  rw [h]
  simp only [if_true, hne, if_false]
  rw [parseDigits_eq _ hd]
  simp

theorem atoi_plus {token : String} {ds : List Char}
    (h : token.data = '+' :: ds) (hne : ds ≠ []) (hd : ∀ d ∈ ds, isDecimalDigit d) :
    atoi token = if maxInt < (decimalValue ds : Int) then none
      else some (decimalValue ds : Int) := by
  unfold atoi
  rw [h]
  have h1 : ('+' = '-') = False := by decide
  simp only [h1, if_true, hne, if_false]
  rw [parseDigits_eq _ hd]
  simp

theorem parseTerm_signed {token : String} {c : Char} {ds : List Char}
    (h : token.data = c :: ds) (hc : c = '-' ∨ c = '+') :
    parseTerm token = match atoi token with
      | some integer => .ok (.int integer)
      | none => .ok (.str token) := by
  unfold parseTerm
  have h1 : isIdentifier token = false := by
    rcases hc with rfl | rfl <;> simp [isIdentifier, h]
  have h2 : isVariable token = false := by
    rcases hc with rfl | rfl <;> simp [isVariable, h]
  have h3 : token ≠ "_" := by
    intro ht
    rw [ht] at h
    have := (List.cons.inj h).1
    rcases hc with rfl | rfl <;> exact absurd this (by decide)
  have h4 : isNumber token = true := by
    rcases hc with rfl | rfl <;> simp [isNumber, h]
  simp [h, h1, h2, h3, h4]

theorem parseTerm_unsigned {token : String} {c : Char} {ds : List Char}
    (h : token.data = c :: ds) (hc : isDecimalDigit c) :
    parseTerm token = match atoi token with
      | some integer => .ok (.int integer)
      | none => .ok (.str token) := by
  unfold parseTerm
  have hn := isNumber_of_digit h hc
  simp [h, hn.1, hn.2.1, hn.2.2.1, hn.2.2.2.1]

/-- C30 fails on the code as stated: the token `9223372036854775808` is a decimal integer
(it denotes `2^63`), and `parseTerm` yields the string constant of the token, not the
integer: `strconv.Atoi` rejects a value outside the range of `int`, and `parseTerm` then
falls back to the string. -/
theorem parseTerm_integer_out_of_range :
    parseTerm "9223372036854775808" = .ok (.str "9223372036854775808") ∧
    decimalValue "9223372036854775808".data = 2 ^ 63 ∧
    parseTerm "9223372036854775807" = .ok (.int 9223372036854775807) := by
  refine ⟨rfl, by decide, rfl⟩

/-- C30, amended: `parseTerm` classifies a token that is not empty by its first
character.  A lowercase ASCII letter: the string constant of the whole token.  An
uppercase ASCII letter: the variable of that name, generation 0.  The token `_`: the
wildcard.  Decimal digits only, or a sign `+` or `-` followed by at least one decimal
digit and digits only: the integer the token denotes in base 10, when that integer lies in
the range of `int` (from `-2^63` to `2^63 - 1`), and the string constant of the whole token
when it does not.  A double quote, and a double quote at the end of a token of at least two
characters: the string constant of the text between the two quotes.  A double quote in front
and no closing one: the error `invalid string`. -/
theorem parseTerm_classifies (token : String) (c : Char) (cs : List Char)
    (h : token.data = c :: cs) :
    ('a' ≤ c → c ≤ 'z' → parseTerm token = .ok (.str token)) ∧
    ('A' ≤ c → c ≤ 'Z' → parseTerm token = .ok (.var { Name := token, Counter := 0 })) ∧
    (token = "_" → parseTerm token = .ok .wildcard) ∧
    ((∀ d ∈ c :: cs, isDecimalDigit d) → (decimalValue (c :: cs) : Int) ≤ maxInt →
      parseTerm token = .ok (.int (decimalValue (c :: cs)))) ∧
    (c = '+' → cs ≠ [] → (∀ d ∈ cs, isDecimalDigit d) → (decimalValue cs : Int) ≤ maxInt →
      parseTerm token = .ok (.int (decimalValue cs))) ∧
    (c = '-' → cs ≠ [] → (∀ d ∈ cs, isDecimalDigit d) → minInt ≤ -(decimalValue cs : Int) →
      parseTerm token = .ok (.int (-(decimalValue cs : Int)))) ∧
    (c = quoteChar → ∀ body, cs = body ++ [quoteChar] →
      parseTerm token = .ok (.str ⟨body⟩)) ∧
    (c = quoteChar → (cs = [] ∨ cs.getLast? ≠ some quoteChar) →
      parseTerm token = .error ("invalid string: '" ++ token ++ "'")) ∧
    ((∀ d ∈ c :: cs, isDecimalDigit d) → maxInt < (decimalValue (c :: cs) : Int) →
      parseTerm token = .ok (.str token)) ∧
    (c = '+' → cs ≠ [] → (∀ d ∈ cs, isDecimalDigit d) → maxInt < (decimalValue cs : Int) →
      parseTerm token = .ok (.str token)) ∧
    (c = '-' → cs ≠ [] → (∀ d ∈ cs, isDecimalDigit d) → -(decimalValue cs : Int) < minInt →
      parseTerm token = .ok (.str token)) := by
  refine ⟨?_, ?_, ?_, ?_, ?_, ?_, ?_, ?_, ?_, ?_, ?_⟩
  · intro h1 h2
    simp [parseTerm, h, isIdentifier, h1, h2]
  · intro h1 h2
    have h3 : ¬ ('a' ≤ c) := fun hh => by
      have ha : 97 ≤ c.toNat := hh
      have hz : c.toNat ≤ 90 := h2
      omega
    simp [parseTerm, h, isIdentifier, isVariable, h1, h2, h3]
  · rintro rfl
    rfl
  · intro hd hr
    rw [parseTerm_unsigned h (hd c (List.mem_cons_self _ _)), atoi_unsigned h hd,
      if_neg (not_lt.2 hr)]
  · rintro rfl hne hd hr
    rw [parseTerm_signed h (Or.inr rfl), atoi_plus h hne hd, if_neg (not_lt.2 hr)]
  · rintro rfl hne hd hr
    rw [parseTerm_signed h (Or.inl rfl), atoi_minus h hne hd, if_neg (not_lt.2 hr)]
  · rintro rfl body rfl
    have e1 : isIdentifier token = false := by simp [isIdentifier, h, quoteChar]
    have e2 : isVariable token = false := by simp [isVariable, h, quoteChar]
    have e3 : token ≠ "_" := by
      intro ht
      rw [ht] at h
      exact absurd (List.cons.inj h).1 (by decide)
    have e4 : isNumber token = false := by simp [isNumber, h, quoteChar]
    have hl : (quoteChar :: (body ++ [quoteChar])).getLast? = some quoteChar := by
      rw [← List.cons_append]
      exact List.getLast?_concat _
    simp [parseTerm, h, e1, e2, e3, e4, hl]
  · rintro rfl hcs
    have e1 : isIdentifier token = false := by simp [isIdentifier, h, quoteChar]
    have e2 : isVariable token = false := by simp [isVariable, h, quoteChar]
    have e3 : token ≠ "_" := by
      intro ht
      rw [ht] at h
      exact absurd (List.cons.inj h).1 (by decide)
    have e4 : isNumber token = false := by simp [isNumber, h, quoteChar]
    have hc2 : ¬cs = [] → ¬(quoteChar :: cs).getLast? = some quoteChar := by
      intro hne
      rcases hcs with rfl | hl
      · exact absurd rfl hne
      · cases cs with
        | nil => exact absurd rfl hne
        | cons x xs =>
          rw [List.getLast?_cons_cons]
          exact hl
    simpa [parseTerm, h, e1, e2, e3, e4] using hc2
  · intro hd hr
    rw [parseTerm_unsigned h (hd c (List.mem_cons_self _ _)), atoi_unsigned h hd, if_pos hr]
  · rintro rfl hne hd hr
    rw [parseTerm_signed h (Or.inr rfl), atoi_plus h hne hd, if_pos hr]
  · rintro rfl hne hd hr
    rw [parseTerm_signed h (Or.inl rfl), atoi_minus h hne hd, if_pos hr]

theorem parseTerm_classifies_witness :
    parseTerm "-615" = .ok (.int (-(decimalValue ['6', '1', '5'] : Int))) ∧
    decimalValue ['6', '1', '5'] = 615 :=
  ⟨(parseTerm_classifies "-615" '-' ['6', '1', '5'] rfl).2.2.2.2.2.1 rfl (by decide)
      (by decide) (by decide),
    by decide⟩

theorem insertLess_perm (less : Goal → Goal → Bool) (x : Goal) (l : List Goal) :
    (insertLess less x l).Perm (x :: l) := by
  induction l with
  | nil => exact List.Perm.refl _
  | cons y l ih =>
    simp only [insertLess]
    split_ifs
    · exact (List.Perm.cons y ih).trans (List.Perm.swap x y l)
    · exact List.Perm.refl _

theorem insertLess_pairwise (less : Goal → Goal → Bool) (s : List Goal)
    (hasym : ∀ a ∈ s, ∀ b ∈ s, less a b = true → less b a = false)
    (hneg : ∀ a ∈ s, ∀ b ∈ s, ∀ c ∈ s, less a b = false → less b c = false → less a c = false)
    (x : Goal) (hx : x ∈ s) (l : List Goal) (hl : ∀ y ∈ l, y ∈ s)
    (hp : l.Pairwise (fun a b => less a b = false)) :
    (insertLess less x l).Pairwise (fun a b => less a b = false) := by
  induction l with
  | nil => simp [insertLess]
  | cons y l ih =>
    have hy : y ∈ s := hl y (List.mem_cons_self _ _)
    have hl' : ∀ z ∈ l, z ∈ s := fun z hz => hl z (List.mem_cons_of_mem _ hz)
    obtain ⟨hyl, hpl⟩ := List.pairwise_cons.1 hp
    simp only [insertLess]
    by_cases hxy : less x y = true
    · rw [if_pos hxy]
      refine List.pairwise_cons.2 ⟨?_, ih hl' hpl⟩
      intro z hz
      rcases List.mem_cons.1 ((insertLess_perm less x l).subset hz) with rfl | hz
      · exact hasym z hx y hy hxy
      · exact hyl z hz
    · rw [if_neg hxy]
      have hxy' : less x y = false := by simpa using hxy
      refine List.pairwise_cons.2 ⟨?_, hp⟩
      intro z hz
      rcases List.mem_cons.1 hz with rfl | hz
      · exact hxy'
      · exact hneg x hx y hy z (hl' z hz) hxy' (hyl z hz)

theorem foldl_insertLess (less : Goal → Goal → Bool) (s : List Goal)
    (hasym : ∀ a ∈ s, ∀ b ∈ s, less a b = true → less b a = false)
    (hneg : ∀ a ∈ s, ∀ b ∈ s, ∀ c ∈ s, less a b = false → less b c = false → less a c = false)
    (l : List Goal) : ∀ (acc : List Goal), (∀ y ∈ l, y ∈ s) → (∀ y ∈ acc, y ∈ s) →
      acc.Pairwise (fun a b => less a b = false) →
      (l.foldl (fun acc x => insertLess less x acc) acc).Perm (l ++ acc) ∧
      (l.foldl (fun acc x => insertLess less x acc) acc).Pairwise
        (fun a b => less a b = false) := by
  induction l with
  | nil => intro acc _ _ hp; exact ⟨List.Perm.refl _, hp⟩
  | cons x l ih =>
    intro acc hl hacc hp
    simp only [List.foldl_cons]
    have hx : x ∈ s := hl x (List.mem_cons_self _ _)
    have hperm := insertLess_perm less x acc
    obtain ⟨h1, h2⟩ := ih (insertLess less x acc)
      (fun y hy => hl y (List.mem_cons_of_mem _ hy))
      (fun y hy => by
        rcases List.mem_cons.1 (hperm.subset hy) with rfl | h
        · exact hx
        · exact hacc y h)
      (insertLess_pairwise less s hasym hneg x hx acc hacc hp)
    refine ⟨?_, h2⟩
    refine h1.trans ?_
    refine (List.Perm.append_left l hperm).trans ?_
    exact List.perm_middle

theorem insertionSortLess_contract : SortContract insertionSortLess := by
  intro less l hasym _ hneg
  obtain ⟨h1, h2⟩ := foldl_insertLess less l hasym hneg l [] (fun y hy => hy)
    (fun y hy => absurd hy (List.not_mem_nil _)) List.Pairwise.nil
  unfold insertionSortLess
  refine ⟨(List.reverse_perm _).trans (by simpa using h1), ?_⟩
  rw [List.pairwise_reverse]
  exact h2

/-- C29: for a rule body of `Atom`s and `Constraint`s, and `sort.Slice` doing what its
documentation promises, the body after `optimizeBody` is a permutation of the original body
in which no `Constraint` stands before an `Atom`. -/
theorem optimizeBody_atoms_first
    (sortSlice : (Goal → Goal → Bool) → List Goal → List Goal) (body : List Goal)
    (hsort : SortContract sortSlice)
    (hbody : ∀ g ∈ body, g.isAtom = true ∨ g.isConstraint = true) :
    (optimizeBody sortSlice body).Perm body ∧
    (optimizeBody sortSlice body).Pairwise
      (fun a b => ¬ (a.isConstraint = true ∧ b.isAtom = true)) := by
  have hex : ∀ g ∈ body, g.isAtom = true → g.isConstraint = false := by
    intro g _ h
    cases g <;> simp_all [Goal.isAtom, Goal.isConstraint]
  obtain ⟨hperm, hpair⟩ := hsort bodyLess body
    (by
      intro a ha b hb h
      unfold bodyLess at h ⊢
      by_cases h1 : a.isAtom = true
      · rw [if_pos h1] at h
        by_cases h2 : b.isAtom = true
        · rw [hex b hb h2] at h
          exact absurd h (by decide)
        · rw [if_neg h2]
      · rw [if_neg h1] at h
        exact absurd h (by decide))
    (by
      intro a ha b hb c hc h1 h2
      unfold bodyLess at h1 h2 ⊢
      by_cases ha1 : a.isAtom = true
      · rw [if_pos ha1] at h1
        by_cases hb1 : b.isAtom = true
        · rw [hex b hb hb1] at h1
          exact absurd h1 (by decide)
        · rw [if_neg hb1] at h2
          exact absurd h2 (by decide)
      · rw [if_neg ha1] at h1
        exact absurd h1 (by decide))
    (by
      intro a ha b hb c hc h1 h2
      unfold bodyLess at h1 h2 ⊢
      by_cases ha1 : a.isAtom = true
      · rw [if_pos ha1] at h1 ⊢
        by_cases hb1 : b.isAtom = true
        · rw [if_pos hb1] at h2
          exact h2
        · rcases hbody b hb with hb2 | hb2
          · exact absurd hb2 hb1
          · rw [hb2] at h1
            exact absurd h1 (by decide)
      · rw [if_neg ha1])
  refine ⟨hperm, hpair.imp ?_⟩
  intro a b hba hcon
  unfold bodyLess at hba
  rw [if_pos hcon.2, hcon.1] at hba
  exact absurd hba (by decide)

theorem optimizeBody_atoms_first_witness :
    SortContract insertionSortLess ∧
    optimizeBody insertionSortLess
        [.constraint ⟨"<", .var ⟨"X", 0⟩, .int 3⟩, .atom ⟨"p", [.var ⟨"X", 0⟩]⟩,
          .constraint ⟨"!=", .var ⟨"Y", 0⟩, .int 1⟩, .atom ⟨"q", [.var ⟨"Y", 0⟩]⟩]
      = [.atom ⟨"p", [.var ⟨"X", 0⟩]⟩, .atom ⟨"q", [.var ⟨"Y", 0⟩]⟩,
          .constraint ⟨"<", .var ⟨"X", 0⟩, .int 3⟩, .constraint ⟨"!=", .var ⟨"Y", 0⟩, .int 1⟩] ∧
    (optimizeBody insertionSortLess
        [.constraint ⟨"<", .var ⟨"X", 0⟩, .int 3⟩, .atom ⟨"p", [.var ⟨"X", 0⟩]⟩,
          .constraint ⟨"!=", .var ⟨"Y", 0⟩, .int 1⟩, .atom ⟨"q", [.var ⟨"Y", 0⟩]⟩]).Pairwise
      (fun a b => ¬ (a.isConstraint = true ∧ b.isAtom = true)) :=
  ⟨insertionSortLess_contract, by decide,
    (optimizeBody_atoms_first insertionSortLess
      [.constraint ⟨"<", .var ⟨"X", 0⟩, .int 3⟩, .atom ⟨"p", [.var ⟨"X", 0⟩]⟩,
        .constraint ⟨"!=", .var ⟨"Y", 0⟩, .int 1⟩, .atom ⟨"q", [.var ⟨"Y", 0⟩]⟩]
      insertionSortLess_contract (by decide)).2⟩

/-! ## Generations of variables -/

theorem Term.genLe_mono {c c' : Nat} (h : c ≤ c') {t : Term} (ht : t.genLe c) : t.genLe c' := by
  cases t with
  | var v => exact le_trans ht h
  | int _ => trivial
  | str _ => trivial
  | wildcard => trivial

theorem Vars.genLe_get {c : Nat} {e : Vars} (he : e.genLe c) {k : Var} {x : Term}
    (h : e.Get k = some x) : x.genLe c := by
  obtain ⟨pre, m, post, hl, _, hx, _⟩ := (Vars.Get_eq_some_iff e k x).1 h
  rw [← hx]
  exact (he m (by rw [hl]; simp)).2

theorem Vars.genLe_bind {c : Nat} {e : Vars} (he : e.genLe c) {k : Var} {x : Term}
    (hk : k.Counter ≤ c) (hx : x.genLe c) : (e.bind k x).genLe c := by
  intro m hm
  simp only [Vars.bind, List.mem_append, List.mem_singleton] at hm
  rcases hm with hm | rfl
  · exact he m hm
  · exact ⟨hk, hx⟩

theorem Vars.genLe_resolveOnce {c : Nat} {e : Vars} (he : e.genLe c) {t : Term}
    (ht : t.genLe c) : (e.resolveOnce t).genLe c := by
  cases t with
  | var w =>
    simp only [Vars.resolveOnce]
    cases hg : e.Get w with
    | some x => exact Vars.genLe_get he hg
    | none => exact ht
  | int _ => exact ht
  | str _ => exact ht
  | wildcard => exact ht

theorem Vars.Unify_genLe (c : Nat) (fuel : Nat) :
    (∀ (v : Vars) (l r : Term) (b : Bool) (v' : Vars), v.genLe c → l.genLe c → r.genLe c →
      Vars.Unify fuel v l r = some (b, v') → v'.genLe c ∧ v'.Counter = v.Counter) ∧
    (∀ (v : Vars) (k : Var) (r : Term) (b : Bool) (v' : Vars), v.genLe c → k.Counter ≤ c →
      r.genLe c → Vars.unifyVar fuel v k r = some (b, v') →
      v'.genLe c ∧ v'.Counter = v.Counter) := by
  induction fuel with
  | zero =>
    constructor
    · intro v l r b v' _ _ _ h
      simp [Vars.Unify] at h
    · intro v k r b v' _ _ _ h
      simp [Vars.unifyVar] at h
  | succ n ih =>
    constructor
    · intro v l r b v' hv hl hr h
      cases l <;> cases r <;> simp only [Vars.Unify] at h <;> split_ifs at h <;>
        first
          | (simp only [Option.some.injEq, Prod.mk.injEq] at h
             obtain ⟨_, rfl⟩ := h
             exact ⟨hv, rfl⟩)
          | exact ih.2 _ _ _ _ _ hv hl hr h
          | exact ih.2 _ _ _ _ _ hv hr hl h
    · intro v k r b v' hv hk hr h
      simp only [Vars.unifyVar] at h
      cases hg : v.Get k with
      | some x =>
        rw [hg] at h
        exact ih.1 _ _ _ _ _ hv (Vars.genLe_get hv hg) hr h
      | none =>
        rw [hg] at h
        simp only [Option.some.injEq, Prod.mk.injEq] at h
        obtain ⟨_, rfl⟩ := h
        exact ⟨Vars.genLe_bind hv hk (Vars.genLe_resolveOnce hv hr), rfl⟩

theorem Vars.unifyLoop_genLe (c : Nat) (fuel : Nat) : ∀ (ls rs : List Term) (v : Vars)
    (b : Bool) (v' : Vars), v.genLe c → (∀ t ∈ ls, t.genLe c) → (∀ t ∈ rs, t.genLe c) →
    Vars.unifyLoop fuel v ls rs = some (b, v') → v'.genLe c ∧ v'.Counter = v.Counter := by
  intro ls
  induction ls with
  | nil =>
    intro rs v b v' hv _ _ h
    simp only [Vars.unifyLoop, Option.some.injEq, Prod.mk.injEq] at h
    obtain ⟨_, rfl⟩ := h
    exact ⟨hv, rfl⟩
  | cons l ls ih =>
    intro rs v b v' hv hl hr h
    cases rs with
    | nil =>
      simp only [Vars.unifyLoop, Option.some.injEq, Prod.mk.injEq] at h
      obtain ⟨_, rfl⟩ := h
      exact ⟨hv, rfl⟩
    | cons r rs =>
      simp only [Vars.unifyLoop] at h
      cases hu : Vars.Unify fuel v l r with
      | none => rw [hu] at h; simp at h
      | some p =>
        obtain ⟨b1, v1⟩ := p
        have h1 := (Vars.Unify_genLe c fuel).1 v l r b1 v1 hv (hl l (List.mem_cons_self _ _))
          (hr r (List.mem_cons_self _ _)) hu
        rw [hu] at h
        cases b1 with
        | false =>
          simp only [Option.some.injEq, Prod.mk.injEq] at h
          obtain ⟨_, rfl⟩ := h
          exact h1
        | true =>
          simp only at h
          have h2 := ih rs v1 b v' h1.1 (fun t ht => hl t (List.mem_cons_of_mem _ ht))
            (fun t ht => hr t (List.mem_cons_of_mem _ ht)) h
          exact ⟨h2.1, h2.2.trans h1.2⟩

theorem Vars.unifyAll_genLe {c : Nat} {fuel : Nat} {ls rs : List Term} {v : Vars}
    {b : Bool} {v' : Vars} (hv : v.genLe c) (hl : ∀ t ∈ ls, t.genLe c)
    (hr : ∀ t ∈ rs, t.genLe c) (h : Vars.unifyAll fuel v ls rs = some (b, v')) :
    v'.genLe c ∧ v'.Counter = v.Counter := by
  unfold Vars.unifyAll at h
  split_ifs at h
  · simp only [Option.some.injEq, Prod.mk.injEq] at h
    obtain ⟨_, rfl⟩ := h
    exact ⟨hv, rfl⟩
  · exact Vars.unifyLoop_genLe c fuel ls rs v b v' hv hl hr h

theorem Term.vars_rename (vars : Vars) (t : Term) :
    ∀ x ∈ (vars.rename t).vars, x.Counter = vars.Counter := by
  intro x hx
  cases t with
  | var v =>
    simp only [Vars.rename, Term.vars, List.mem_singleton] at hx
    rw [hx]
  | int _ => simp [Vars.rename, Term.vars] at hx
  | str _ => simp [Vars.rename, Term.vars] at hx
  | wildcard => simp [Vars.rename, Term.vars] at hx

theorem Atom.vars_renameVars (vars : Vars) (a : Atom) :
    ∀ x ∈ (a.renameVars vars).vars, x.Counter = vars.Counter := by
  intro x hx
  simp only [Atom.vars, Atom.renameVars, List.mem_flatMap, List.mem_map] at hx
  obtain ⟨t', ⟨t, _, rfl⟩, hx⟩ := hx
  exact Term.vars_rename vars t x hx

theorem Constraint.vars_renameVars_constraint (vars : Vars) (c : Constraint) :
    ∀ x ∈ (c.renameVars vars).vars, x.Counter = vars.Counter := by
  intro x hx
  simp only [Constraint.vars, Constraint.renameVars, List.mem_append] at hx
  rcases hx with hx | hx
  · exact Term.vars_rename vars _ x hx
  · exact Term.vars_rename vars _ x hx

mutual
theorem Goal.vars_renameVars_goal (vars : Vars) :
    ∀ (g : Goal), ∀ x ∈ (Goal.renameVars vars g).vars, x.Counter = vars.Counter
  | .atom a => by
    intro x hx
    simp only [Goal.renameVars, Goal.vars] at hx
    exact Atom.vars_renameVars vars a x hx
  | .rule head body => by
    intro x hx
    simp only [Goal.renameVars, Goal.vars, List.mem_append] at hx
    rcases hx with hx | hx
    · exact Atom.vars_renameVars vars head x hx
    · exact Goal.varsList_renameVars vars body x hx
  | .constraint c => by
    intro x hx
    simp only [Goal.renameVars, Goal.vars] at hx
    exact Constraint.vars_renameVars_constraint vars c x hx
theorem Goal.varsList_renameVars (vars : Vars) :
    ∀ (gs : List Goal), ∀ x ∈ Goal.varsList (Goal.renameVarsList vars gs),
      x.Counter = vars.Counter
  | [] => by
    intro x hx
    simp [Goal.renameVarsList, Goal.varsList] at hx
  | g :: gs => by
    intro x hx
    simp only [Goal.renameVarsList, Goal.varsList, List.mem_append] at hx
    rcases hx with hx | hx
    · exact Goal.vars_renameVars_goal vars g x hx
    · exact Goal.varsList_renameVars vars gs x hx
end

theorem Clause.vars_renameVars_clause (vars : Vars) (c : Clause) :
    ∀ x ∈ (c.renameVars vars).vars, x.Counter = vars.Counter := by
  intro x hx
  cases c with
  | atom a => exact Atom.vars_renameVars vars a x hx
  | rule r =>
    simp only [Clause.renameVars, Clause.vars, Rule.renameVars, List.mem_append] at hx
    rcases hx with hx | hx
    · exact Atom.vars_renameVars vars _ x hx
    · exact Goal.varsList_renameVars vars _ x hx

theorem Term.genLe_vars {c : Nat} {t : Term} (h : t.genLe c) : ∀ x ∈ t.vars, x.Counter ≤ c := by
  intro x hx
  cases t with
  | var v =>
    simp only [Term.vars, List.mem_singleton] at hx
    rw [hx]
    exact h
  | int _ => simp [Term.vars] at hx
  | str _ => simp [Term.vars] at hx
  | wildcard => simp [Term.vars] at hx

theorem Atom.genLe_vars_atom {c : Nat} {a : Atom} (h : a.genLe c) : ∀ x ∈ a.vars, x.Counter ≤ c := by
  intro x hx
  simp only [Atom.vars, List.mem_flatMap] at hx
  obtain ⟨t, ht, hx⟩ := hx
  exact Term.genLe_vars (h t ht) x hx

theorem Vars.genLe_vars_env {c : Nat} {e : Vars} (h : e.genLe c) : ∀ x ∈ e.vars, x.Counter ≤ c := by
  intro x hx
  simp only [Vars.vars, List.mem_flatMap, List.mem_cons] at hx
  obtain ⟨m, hm, hx⟩ := hx
  rcases hx with rfl | hx
  · exact (h m hm).1
  · exact Term.genLe_vars (h m hm).2 x hx

theorem Vars.rename_genLe (vars : Vars) (t : Term) : (vars.rename t).genLe vars.Counter := by
  cases t with
  | var v => exact le_refl _
  | int _ => trivial
  | str _ => trivial
  | wildcard => trivial

theorem Atom.renameVars_genLe (vars : Vars) (a : Atom) :
    ∀ t ∈ (a.renameVars vars).Args, t.genLe vars.Counter := by
  intro t ht
  simp only [Atom.renameVars, List.mem_map] at ht
  obtain ⟨t0, _, rfl⟩ := ht
  exact Vars.rename_genLe vars t0

theorem Goal.renameVars_genLe_goal (vars : Vars) (g : Goal) :
    (Goal.renameVars vars g).genLe vars.Counter := by
  cases g with
  | atom a =>
    simp only [Goal.renameVars, Goal.genLe]
    exact Atom.renameVars_genLe vars a
  | rule head body =>
    simp only [Goal.renameVars, Goal.genLe]
    exact Atom.renameVars_genLe vars head
  | constraint c =>
    simp only [Goal.renameVars, Goal.genLe]

theorem Goal.renameVarsList_genLe (vars : Vars) (gs : List Goal) :
    (∀ g ∈ Goal.renameVarsList vars gs, g.genLe vars.Counter) ∧
    (Goal.renameVarsList vars gs).length = gs.length := by
  induction gs with
  | nil => simp [Goal.renameVarsList]
  | cons g gs ih =>
    simp only [Goal.renameVarsList, List.mem_cons, List.length_cons]
    refine ⟨?_, by rw [ih.2]⟩
    rintro g' (rfl | h)
    · exact Goal.renameVars_genLe_goal vars g
    · exact ih.1 g' h

theorem Goal.genLe_mono_goal {c c' : Nat} (h : c ≤ c') {g : Goal} (hg : g.genLe c) : g.genLe c' := by
  cases g with
  | atom a => exact fun t ht => Term.genLe_mono h (hg t ht)
  | rule head body => exact fun t ht => Term.genLe_mono h (hg t ht)
  | constraint c => trivial

theorem Vars.genLe_mono_env {c c' : Nat} (h : c ≤ c') {e : Vars} (he : e.genLe c) : e.genLe c' :=
  fun m hm => ⟨le_trans (he m hm).1 h, Term.genLe_mono h (he m hm).2⟩

theorem Constraint.Eval_out {fuel : Nat} {c : Constraint} {v e : Vars}
    (h : Emit.out e ∈ c.Eval fuel v) : e = v := by
  unfold Constraint.Eval at h
  cases h1 : v.expand fuel c.Lhs with
  | none => simp [h1] at h
  | some lhs =>
    cases h2 : v.expand fuel c.Rhs with
    | none => simp [h1, h2] at h
    | some rhs =>
      cases h3 : c.evalWith lhs rhs with
      | error msg => simp [h1, h2, h3] at h
      | ok b =>
        cases b with
        | false => simp [h1, h2, h3] at h
        | true => simpa [h1, h2, h3] using h

theorem evalBodyWith_genOK (ev : Goal → Vars → List (Emit Vars))
    (en : Goal → Vars → List Nat) (c0 : Nat)
    (hev : ∀ g v e, g.genLe v.Counter → v.GenOK → (∀ c ∈ en g v, c + 1 < uintSize) →
      Emit.out e ∈ ev g v → e.GenOK ∧ v.Counter ≤ e.Counter) :
    ∀ (body : List Goal) (v e : Vars), (∀ g ∈ body, g.genLe c0) → c0 ≤ v.Counter → v.GenOK →
      (∀ c ∈ evalBodyCountersWith ev en body v, c + 1 < uintSize) →
      Emit.out e ∈ evalBodyWith ev body v → e.GenOK ∧ v.Counter ≤ e.Counter := by
  intro body
  induction body with
  | nil =>
    intro v e _ _ _ _ h
    simp [evalBodyWith] at h
  | cons g rest ih =>
    intro v e hb hc hv hW h
    simp only [evalBodyWith, List.mem_flatMap] at h
    obtain ⟨x, hx, hex⟩ := h
    simp only [evalBodyCountersWith, List.mem_append, List.mem_flatMap] at hW
    cases x with
    | fatal msg => simp at hex
    | pending => simp at hex
    | out v1 =>
      have h1 := hev g v v1 (Goal.genLe_mono_goal hc (hb g (List.mem_cons_self _ _))) hv
        (fun c hc' => hW c (Or.inl hc')) hx
      simp only at hex
      by_cases hr : rest.length = 0
      · rw [if_pos hr] at hex
        simp only [List.mem_singleton, Emit.out.injEq] at hex
        subst hex
        exact h1
      · rw [if_neg hr] at hex
        have h2 := ih v1 e (fun g' hg' => hb g' (List.mem_cons_of_mem _ hg'))
          (le_trans hc h1.2) h1.1
          (fun c hc' => hW c (Or.inr ⟨.out v1, hx, by simp only [if_neg hr]; exact hc'⟩)) hex
        exact ⟨h2.1, le_trans h1.2 h2.2⟩

theorem Atom.Eval_genOK (db : Database) :
    ∀ (fuel : Nat) (query : Atom) (vars e : Vars), query.genLe vars.Counter → vars.GenOK →
      (∀ c ∈ query.EvalCounters fuel vars db, c + 1 < uintSize) →
      Emit.out e ∈ query.Eval fuel vars db → e.GenOK ∧ vars.Counter < e.Counter := by
  intro fuel
  induction fuel with
  | zero =>
    intro query vars e _ _ _ h
    simp [Atom.Eval] at h
  | succ n ih =>
    intro query vars e hq hv hW h
    simp only [Atom.Eval, List.mem_flatMap] at h
    obtain ⟨fact, hfact, h⟩ := h
    simp only [Atom.EvalCounters, List.mem_cons, List.mem_flatMap] at hW
    have hlt : vars.Counter + 1 < uintSize := hW _ (Or.inl rfl)
    have hC : (vars.Counter + 1) % uintSize = vars.Counter + 1 := Nat.mod_eq_of_lt hlt
    have hWf := fun c hc => hW c (Or.inr ⟨fact, hfact, hc⟩)
    rw [hC] at h hWf
    have hv1 : Vars.genLe (vars.Counter + 1)
        { Counter := vars.Counter + 1, Mapping := vars.Mapping } :=
      Vars.genLe_mono_env (Nat.le_succ _) hv
    have hq1 : ∀ t ∈ query.Args, t.genLe (vars.Counter + 1) :=
      fun t ht => Term.genLe_mono (Nat.le_succ _) (hq t ht)
    have hev : ∀ (g : Goal) (v e : Vars), g.genLe v.Counter → v.GenOK →
        (∀ c ∈ (match g with
          | .atom a => Atom.EvalCounters n a v db
          | .rule head _ => Atom.EvalCounters n head v db
          | .constraint _ => []), c + 1 < uintSize) →
        Emit.out e ∈ (match g with
          | .atom a => Atom.Eval n a v db
          | .rule head _ => Atom.Eval n head v db
          | .constraint c => c.Eval n v) →
        e.GenOK ∧ v.Counter ≤ e.Counter := by
      intro g v e hg hvg hBg hout
      cases g with
      | atom a =>
        have := ih a v e hg hvg hBg hout
        exact ⟨this.1, le_of_lt this.2⟩
      | rule head body =>
        have := ih head v e hg hvg hBg hout
        exact ⟨this.1, le_of_lt this.2⟩
      | constraint c =>
        have := Constraint.Eval_out hout
        subst this
        exact ⟨hvg, le_refl _⟩
    cases fact with
    | atom a =>
      simp only [Atom.unifyWith] at h
      cases hu : Vars.unifyAll (n + 1) { Counter := vars.Counter + 1, Mapping := vars.Mapping }
          query.Args (a.renameVars { Counter := vars.Counter + 1, Mapping := vars.Mapping }).Args with
      | none => rw [hu] at h; simp at h
      | some p =>
        obtain ⟨b, v'⟩ := p
        rw [hu] at h
        cases b with
        | false => simp at h
        | true =>
          simp only [List.mem_singleton, Emit.out.injEq] at h
          subst h
          have h1 := Vars.unifyAll_genLe hv1 hq1 (Atom.renameVars_genLe _ a) hu
          have hc : e.Counter = vars.Counter + 1 := h1.2
          refine ⟨?_, by omega⟩
          unfold Vars.GenOK
          rw [hc]
          exact h1.1
    | rule r =>
      simp only [Atom.unifyWith] at h
      simp only [Atom.unifyCountersWith] at hWf
      cases hu : Vars.unifyAll (n + 1) { Counter := vars.Counter + 1, Mapping := vars.Mapping }
          query.Args
          (r.renameVars { Counter := vars.Counter + 1, Mapping := vars.Mapping }).Atom.Args with
      | none => rw [hu] at h; simp at h
      | some p =>
        obtain ⟨b, v'⟩ := p
        rw [hu] at h hWf
        cases b with
        | false => simp at h
        | true =>
          simp only at h hWf
          have h1 := Vars.unifyAll_genLe hv1 hq1 (Atom.renameVars_genLe _ r.Atom) hu
          have hc : v'.Counter = vars.Counter + 1 := h1.2
          have hv' : v'.GenOK := by
            unfold Vars.GenOK
            rw [hc]
            exact h1.1
          have hbody := Goal.renameVarsList_genLe
            { Counter := vars.Counter + 1, Mapping := vars.Mapping } r.Body
          have h2 := evalBodyWith_genOK _ _ (vars.Counter + 1) hev
            (r.renameVars { Counter := vars.Counter + 1, Mapping := vars.Mapping }).Body v' e
            (by simpa [Rule.renameVars] using hbody.1) (le_of_eq hc.symm) hv' hWf h
          exact ⟨h2.1, by omega⟩

/-! ### One goroutine: unification on slices and on values -/

theorem take_succ_set {α : Type} (l : List α) (n : Nat) (a : α) (h : n < l.length) :
    (l.set n a).take (n + 1) = l.take n ++ [a] := by
  rw [List.take_succ, List.getElem?_set_self h]
  congr 1
  rw [List.set_eq_take_append_cons_drop, if_pos h]
  exact List.take_left' (List.length_take_of_le (le_of_lt h))

theorem goAppend_view (h : Heap) (s : Slice) (m : Mapping) (hv : s.Valid h) :
    (goAppend h s m).2.Valid (goAppend h s m).1 ∧
    (goAppend h s m).1.view (goAppend h s m).2 = h.view s ++ [m] := by
  obtain ⟨h1, h2, h3⟩ := hv
  unfold goAppend
  by_cases hlt : s.len < s.cap
  · rw [if_pos hlt]
    have harr : s.arr < h.length := by
      by_contra hc
      rw [List.getD_eq_default h [] (not_lt.1 hc)] at h2
      simp only [List.length_nil] at h2
      omega
    have hget : (h.set s.arr ((h.getD s.arr []).set s.len (some m))).getD s.arr []
        = (h.getD s.arr []).set s.len (some m) := by
      rw [List.getD_eq_getElem?_getD, List.getElem?_set_self harr]
      rfl
    have htake := take_succ_set (h.getD s.arr []) s.len (some m) (by omega)
    refine ⟨⟨?_, ?_, ?_⟩, ?_⟩
    · exact hlt
    · simp only [hget, List.length_set]
      exact h2
    · simp only [hget, htake, List.mem_append, List.mem_singleton]
      rintro c (hc | rfl)
      · exact h3 c hc
      · simp
    · simp only [Heap.view, hget, htake, List.filterMap_append]
      rfl
  · rw [if_neg hlt]
    have hget : (h ++ [(h.getD s.arr []).take s.len ++ [some m] ++
          List.replicate (growCap s.cap (s.len + 1) - (s.len + 1)) none]).getD h.length []
        = (h.getD s.arr []).take s.len ++ [some m] ++
          List.replicate (growCap s.cap (s.len + 1) - (s.len + 1)) none := by
      rw [List.getD_eq_getElem?_getD, List.getElem?_concat_length]
      rfl
    have hlen : ((h.getD s.arr []).take s.len).length = s.len :=
      List.length_take_of_le (le_trans h1 h2)
    have htake : ((h.getD s.arr []).take s.len ++ [some m] ++
          List.replicate (growCap s.cap (s.len + 1) - (s.len + 1)) none).take (s.len + 1)
        = (h.getD s.arr []).take s.len ++ [some m] :=
      List.take_left' (by rw [List.length_append, hlen]; rfl)
    have hg : s.len + 1 ≤ growCap s.cap (s.len + 1) := by
      unfold growCap
      split_ifs <;> omega
    refine ⟨⟨?_, ?_, ?_⟩, ?_⟩
    · exact hg
    · simp only [hget, List.length_append, hlen, List.length_singleton, List.length_replicate]
      omega
    · simp only [hget, htake, List.mem_append, List.mem_singleton]
      rintro c (hc | rfl)
      · exact h3 c hc
      · simp
    · simp only [Heap.view, hget, htake, List.filterMap_append]
      rfl

/-- On one goroutine, read when the call returns, `Unify` on slices is `Unify` on the
binding list as a value. -/
theorem SVars.Unify_view : ∀ (fuel : Nat),
    (∀ (h : Heap) (v : SVars) (l r : Term), v.Mapping.Valid h →
      Vars.Unify fuel (v.view h) l r
        = (SVars.Unify fuel h v l r).map (fun x => (x.1, x.2.2.view x.2.1)) ∧
      ∀ b h' v', SVars.Unify fuel h v l r = some (b, h', v') → v'.Mapping.Valid h') ∧
    (∀ (h : Heap) (v : SVars) (k : Var) (t : Term), v.Mapping.Valid h →
      Vars.unifyVar fuel (v.view h) k t
        = (SVars.unifyVar fuel h v k t).map (fun x => (x.1, x.2.2.view x.2.1)) ∧
      ∀ b h' v', SVars.unifyVar fuel h v k t = some (b, h', v') → v'.Mapping.Valid h') := by
  intro fuel
  induction fuel with
  | zero =>
    refine ⟨fun h v l r _ => ⟨by simp [Vars.Unify, SVars.Unify], ?_⟩,
      fun h v k t _ => ⟨by simp [Vars.unifyVar, SVars.unifyVar], ?_⟩⟩
    · intro b h' v' hh
      simp [SVars.Unify] at hh
    · intro b h' v' hh
      simp [SVars.unifyVar] at hh
  | succ n ih =>
    refine ⟨?_, ?_⟩
    · intro h v l r hv
      have hconst : ∀ b0 : Bool,
          some (b0, v.view h)
            = (some (b0, h, v)).map (fun x : Bool × Heap × SVars => (x.1, x.2.2.view x.2.1)) ∧
          ∀ b h' v', some (b0, h, v) = some (b, h', v') → v'.Mapping.Valid h' :=
        fun b0 => ⟨rfl, fun b h' v' hh => by cases hh; exact hv⟩
      simp only [Vars.Unify, SVars.Unify]
      by_cases e1 : l = r
      · rw [if_pos e1, if_pos e1]
        exact hconst true
      rw [if_neg e1, if_neg e1]
      by_cases e2 : l = .wildcard
      · rw [if_pos e2, if_pos e2]
        exact hconst true
      rw [if_neg e2, if_neg e2]
      by_cases e3 : r = .wildcard
      · rw [if_pos e3, if_pos e3]
        exact hconst true
      rw [if_neg e3, if_neg e3]
      cases l with
      | var k => exact ih.2 h v k r hv
      | wildcard => exact absurd rfl e2
      | int i =>
        cases r with
        | var k => exact ih.2 h v k (.int i) hv
        | wildcard => exact absurd rfl e3
        | int j => exact hconst false
        | str s => exact hconst false
      | str s =>
        cases r with
        | var k => exact ih.2 h v k (.str s) hv
        | wildcard => exact absurd rfl e3
        | int j => exact hconst false
        | str s' => exact hconst false
    · intro h v k t hv
      simp only [Vars.unifyVar, SVars.unifyVar]
      cases hg : (v.view h).Get k with
      | some key' => exact ih.1 h v key' t hv
      | none =>
        have ha := goAppend_view h v.Mapping ⟨k, (v.view h).resolveOnce t⟩ hv
        simp only [Option.map_some']
        refine ⟨?_, ?_⟩
        · have h2 := ha.2
          simp only [SVars.view] at h2
          simp only [Vars.bind, SVars.view, h2]
        · intro b h' v' hh
          cases hh
          exact ha.1

theorem SVars.unifyLoop_view (fuel : Nat) : ∀ (l r : List Term) (h : Heap) (v : SVars),
    v.Mapping.Valid h →
    Vars.unifyLoop fuel (v.view h) l r
      = (SVars.unifyLoop fuel h v l r).map (fun x => (x.1, x.2.2.view x.2.1)) := by
  intro l
  induction l with
  | nil => intro r h v _; simp [Vars.unifyLoop, SVars.unifyLoop]
  | cons a l ih =>
    intro r h v hv
    cases r with
    | nil => simp [Vars.unifyLoop, SVars.unifyLoop]
    | cons b r =>
      have h1 := (SVars.Unify_view fuel).1 h v a b hv
      simp only [Vars.unifyLoop, SVars.unifyLoop, h1.1]
      cases hu : SVars.Unify fuel h v a b with
      | none => rfl
      | some p =>
        obtain ⟨ok, h', v'⟩ := p
        cases ok with
        | false => rfl
        | true =>
          simp only [Option.map_some']
          exact ih r h' v' (h1.2 true h' v' hu)

/-- On one goroutine, read when the call returns, `unifyAll` on slices is `unifyAll` on
the binding list as a value. -/
theorem SVars.unifyAll_view (fuel : Nat) (l r : List Term) (h : Heap) (v : SVars)
    (hv : v.Mapping.Valid h) :
    Vars.unifyAll fuel (v.view h) l r
      = (SVars.unifyAll fuel h v l r).map (fun x => (x.1, x.2.2.view x.2.1)) := by
  unfold Vars.unifyAll SVars.unifyAll
  split_ifs
  · rfl
  · exact SVars.unifyLoop_view fuel l r h v hv

/-- C31 fails on the code as stated, in two ways.  The counter wraps: `Atom.Eval` entered
with the counter at the greatest `uint` (an environment without bindings, the query
`foo(Y.5)`, so the counter is at least every generation) increments the counter to 0: the
stored clause `foo(X)` is renamed to generation 0, not to a generation above the counter,
and the emitted environment has the counter 0 and a binding of generation 5.  And sibling
branches write into one backing array: for the query `t(A, B, C, D, E)` and the rule
`t(P, Q, R, S, T) :- g(P, Q).` the head unification leaves a binding list of length 5 and
capacity 8; in `Atom.Eval` of `g(P.1, Q.1)` the branch of the fact `g(1, 2)` sends the
header of length 7 with the counter 2, and its sibling, the branch of the rule
`g(U, _) :- h(U).`, started from the same header of length 5, writes `(P.1, U.2)` into
cell 5 and then, in `Atom.Eval` of `h(U.2)` with the fact `h(Z)` drawn at the counter 3,
`(U.2, Z.3)` into cell 6: the environment that the first branch has sent with the counter
2 holds a variable of generation 3. -/
theorem Atom.Eval_generation_above_counter :
    (Atom.mk "foo" [.var ⟨"X", 0⟩]).renameVars
        { Counter := (uintSize - 1 + 1) % uintSize, Mapping := [] }
      = Atom.mk "foo" [.var ⟨"X", 0⟩] ∧
    (Atom.mk "foo" [.var ⟨"Y", 5⟩]).Eval 2 { Counter := uintSize - 1, Mapping := [] } dbFooX
      = [.out { Counter := 0, Mapping := [⟨⟨"Y", 5⟩, .var ⟨"X", 0⟩⟩] }] ∧
    SVars.unifyAll 3 [] ⟨1, ⟨0, 0, 0⟩⟩ queryT5.Args (ruleT5.renameVars ⟨1, []⟩).Atom.Args
      = some (true, heapT5 none none, ⟨1, ⟨3, 5, 8⟩⟩) ∧
    (ruleT5.renameVars ⟨1, []⟩).Body
      = [.atom { Name := "g", Args := [.var ⟨"P", 1⟩, .var ⟨"Q", 1⟩] }] ∧
    SVars.unifyAll 3 (heapT5 none none) ⟨2, ⟨3, 5, 8⟩⟩ [.var ⟨"P", 1⟩, .var ⟨"Q", 1⟩]
        ((Atom.mk "g" [.int 1, .int 2]).renameVars ⟨2, []⟩).Args
      = some (true, heapT5 (some ⟨⟨"P", 1⟩, .int 1⟩) (some ⟨⟨"Q", 1⟩, .int 2⟩),
          ⟨2, ⟨3, 7, 8⟩⟩) ∧
    SVars.unifyAll 3 (heapT5 (some ⟨⟨"P", 1⟩, .int 1⟩) (some ⟨⟨"Q", 1⟩, .int 2⟩))
        ⟨2, ⟨3, 5, 8⟩⟩ [.var ⟨"P", 1⟩, .var ⟨"Q", 1⟩] (ruleG.renameVars ⟨2, []⟩).Atom.Args
      = some (true, heapT5 (some ⟨⟨"P", 1⟩, .var ⟨"U", 2⟩⟩) (some ⟨⟨"Q", 1⟩, .int 2⟩),
          ⟨2, ⟨3, 6, 8⟩⟩) ∧
    (ruleG.renameVars ⟨2, []⟩).Body = [.atom { Name := "h", Args := [.var ⟨"U", 2⟩] }] ∧
    SVars.unifyAll 3 (heapT5 (some ⟨⟨"P", 1⟩, .var ⟨"U", 2⟩⟩) (some ⟨⟨"Q", 1⟩, .int 2⟩))
        ⟨3, ⟨3, 6, 8⟩⟩ [.var ⟨"U", 2⟩]
        ((Atom.mk "h" [.var ⟨"Z", 0⟩]).renameVars ⟨3, []⟩).Args
      = some (true,
          heapT5 (some ⟨⟨"P", 1⟩, .var ⟨"U", 2⟩⟩) (some ⟨⟨"U", 2⟩, .var ⟨"Z", 3⟩⟩),
          ⟨3, ⟨3, 7, 8⟩⟩) ∧
    SVars.view ⟨2, ⟨3, 7, 8⟩⟩
        (heapT5 (some ⟨⟨"P", 1⟩, .var ⟨"U", 2⟩⟩) (some ⟨⟨"U", 2⟩, .var ⟨"Z", 3⟩⟩))
      = { Counter := 2
          Mapping := [⟨⟨"A", 0⟩, .var ⟨"P", 1⟩⟩, ⟨⟨"B", 0⟩, .var ⟨"Q", 1⟩⟩,
            ⟨⟨"C", 0⟩, .var ⟨"R", 1⟩⟩, ⟨⟨"D", 0⟩, .var ⟨"S", 1⟩⟩, ⟨⟨"E", 0⟩, .var ⟨"T", 1⟩⟩,
            ⟨⟨"P", 1⟩, .var ⟨"U", 2⟩⟩, ⟨⟨"U", 2⟩, .var ⟨"Z", 3⟩⟩] } ∧
    ¬ (SVars.view ⟨2, ⟨3, 7, 8⟩⟩
        (heapT5 (some ⟨⟨"P", 1⟩, .var ⟨"U", 2⟩⟩) (some ⟨⟨"U", 2⟩, .var ⟨"Z", 3⟩⟩))).GenOK := by
  refine ⟨by decide, by decide, by decide, by decide, by decide, by decide, by decide,
    by decide, by decide, ?_⟩
  intro h
  have h1 : (3 : Nat) ≤ 2 := (h ⟨⟨"U", 2⟩, .var ⟨"Z", 3⟩⟩ (by decide)).2
  exact absurd h1 (by decide)

/-- C31, amended: fresh-variable isolation, as long as the counter does not wrap around
and for the environments as their own branch builds them.  `Atom.Eval` is entered with an
environment whose counter is at least the generation of every variable of the query and of
the bindings, and no value that the counter has at an increment of the evaluation
(`EvalCounters`) is the greatest `uint`.  Then every clause drawn is renamed to the
generation `Counter + 1`, so none of its variables occurs in the query or in the bindings
of the caller.  Every environment emitted, with the binding list held as a value (what a
branch appends, nothing of a sibling), has all generations of its bindings at most its own
counter, which is greater than the counter of the caller, so a next body literal of
generation `Counter + 1` is again evaluated under an environment whose counter is at least
every generation.  The empty environment has this property.  On slices, the environment
that a branch has built when the unification of the query with the renamed head returns,
read on the backing arrays as that call leaves them, has the property as well; what a
sibling writes into the same array afterwards is not covered. -/
theorem Atom.Eval_fresh_generation (fuel : Nat) (query : Atom) (vars : Vars)
    (db : Database) (hq : query.genLe vars.Counter) (hv : vars.GenOK)
    (hW : ∀ c ∈ query.EvalCounters (fuel + 1) vars db, c + 1 < uintSize) :
    (∀ fact ∈ db.find query,
      ∀ x ∈ (fact.renameVars { vars with Counter := (vars.Counter + 1) % uintSize }).vars,
        x.Counter = vars.Counter + 1 ∧ x ∉ query.vars ∧ x ∉ vars.vars) ∧
    (∀ e, Emit.out e ∈ query.Eval (fuel + 1) vars db →
      e.GenOK ∧ vars.Counter < e.Counter ∧
        ∀ g : Goal, g.genLe (vars.Counter + 1) → g.genLe e.Counter) ∧
    Vars.GenOK { Counter := 0, Mapping := [] } ∧
    (∀ (h : Heap) (sv : SVars), sv.Mapping.Valid h →
      sv.view h = { vars with Counter := (vars.Counter + 1) % uintSize } →
      ∀ fact ∈ db.find query, ∀ (h' : Heap) (sv' : SVars),
        SVars.unifyAll (fuel + 1) h sv query.Args (fact.renameVars (sv.view h)).head.Args
          = some (true, h', sv') →
        (sv'.view h').GenOK ∧ vars.Counter < sv'.Counter) := by
  have hC : (vars.Counter + 1) % uintSize = vars.Counter + 1 := by
    apply Nat.mod_eq_of_lt
    exact hW vars.Counter (by simp [Atom.EvalCounters])
  refine ⟨?_, ?_, ?_, ?_⟩
  · intro fact _ x hx
    have h1 := Clause.vars_renameVars_clause _ fact x hx
    simp only [hC] at h1
    refine ⟨h1, ?_, ?_⟩
    · intro hmem
      have := Atom.genLe_vars_atom hq x hmem
      omega
    · intro hmem
      have := Vars.genLe_vars_env hv x hmem
      omega
  · intro e he
    have h1 := Atom.Eval_genOK db (fuel + 1) query vars e hq hv hW he
    exact ⟨h1.1, h1.2, fun g hg => Goal.genLe_mono_goal h1.2 hg⟩
  · intro m hm
    simp at hm
  · intro h sv hvalid hview fact _ h' sv' hu
    have hb := SVars.unifyAll_view (fuel + 1) query.Args
      (fact.renameVars (sv.view h)).head.Args h sv hvalid
    rw [hu, hview, hC] at hb
    simp only [Option.map_some'] at hb
    have hv1 : Vars.genLe (vars.Counter + 1)
        { Counter := vars.Counter + 1, Mapping := vars.Mapping } :=
      Vars.genLe_mono_env (Nat.le_succ _) hv
    have hq1 : ∀ t ∈ query.Args, t.genLe (vars.Counter + 1) :=
      fun t ht => Term.genLe_mono (Nat.le_succ _) (hq t ht)
    have hr : ∀ t ∈ (fact.renameVars
        { Counter := vars.Counter + 1, Mapping := vars.Mapping }).head.Args,
        t.genLe (vars.Counter + 1) := by
      cases fact with
      | atom a => exact Atom.renameVars_genLe ⟨vars.Counter + 1, vars.Mapping⟩ a
      | rule r => exact Atom.renameVars_genLe ⟨vars.Counter + 1, vars.Mapping⟩ r.Atom
    have h1 := Vars.unifyAll_genLe hv1 hq1 hr hb
    have hc : sv'.Counter = vars.Counter + 1 := h1.2
    refine ⟨?_, by omega⟩
    show Vars.genLe sv'.Counter (sv'.view h')
    rw [hc]
    exact h1.1

theorem Atom.Eval_fresh_generation_witness :
    ((∀ fact ∈ dbPQQ.find queryPZ,
      ∀ x ∈ (fact.renameVars { Counter := (0 + 1) % uintSize, Mapping := [] }).vars,
        x.Counter = 0 + 1 ∧ x ∉ queryPZ.vars ∧ x ∉ Vars.vars { Counter := 0, Mapping := [] }) ∧
    (∀ e, Emit.out e ∈ queryPZ.Eval (2 + 1) { Counter := 0, Mapping := [] } dbPQQ →
      e.GenOK ∧ 0 < e.Counter ∧ ∀ g : Goal, g.genLe (0 + 1) → g.genLe e.Counter) ∧
    Vars.GenOK { Counter := 0, Mapping := [] } ∧
    (∀ (h : Heap) (sv : SVars), sv.Mapping.Valid h →
      sv.view h = { Counter := (0 + 1) % uintSize, Mapping := [] } →
      ∀ fact ∈ dbPQQ.find queryPZ, ∀ (h' : Heap) (sv' : SVars),
        SVars.unifyAll (2 + 1) h sv queryPZ.Args (fact.renameVars (sv.view h)).head.Args
          = some (true, h', sv') →
        (sv'.view h').GenOK ∧ 0 < sv'.Counter)) ∧
    dbPQQ.find queryPZ = [.rule rulePQQ] ∧
    queryPZ.EvalCounters (2 + 1) { Counter := 0, Mapping := [] } dbPQQ = [0, 1, 2, 2] ∧
    queryPZ.Eval (2 + 1) { Counter := 0, Mapping := [] } dbPQQ
      = [.out { Counter := 3
                Mapping := [⟨⟨"Z", 0⟩, .var ⟨"X", 1⟩⟩, ⟨⟨"X", 1⟩, .str "a"⟩,
                  ⟨⟨"Y", 1⟩, .str "a"⟩] },
         .out { Counter := 3
                Mapping := [⟨⟨"Z", 0⟩, .var ⟨"X", 1⟩⟩, ⟨⟨"X", 1⟩, .str "a"⟩,
                  ⟨⟨"Y", 1⟩, .str "b"⟩] },
         .out { Counter := 3
                Mapping := [⟨⟨"Z", 0⟩, .var ⟨"X", 1⟩⟩, ⟨⟨"X", 1⟩, .str "b"⟩,
                  ⟨⟨"Y", 1⟩, .str "a"⟩] },
         .out { Counter := 3
                Mapping := [⟨⟨"Z", 0⟩, .var ⟨"X", 1⟩⟩, ⟨⟨"X", 1⟩, .str "b"⟩,
                  ⟨⟨"Y", 1⟩, .str "b"⟩] }] :=
  ⟨Atom.Eval_fresh_generation 2 queryPZ { Counter := 0, Mapping := [] } dbPQQ
      (by intro t ht; simp only [queryPZ, List.mem_singleton] at ht; subst ht; exact le_refl _)
      (by intro m hm; simp at hm) (by decide),
    by decide, by decide, by decide⟩

/-! ## Sibling branches and the backing array -/

/-- C28 fails on the code: the goroutines of `Atom.Eval` get copies of the slice header of
the binding list, not of its backing array.  For the rule `t(X, Y, Z) :- u(X).`, the facts
`u(1)`, `u(2)` and the query `t(A, B, C)`: unifying the query with the renamed head leaves a
binding list of length 3 and capacity 4; the branch of `u(1)` appends `(X.1, 1)` in place
into the free cell, and the sibling branch of `u(2)`, started from the same header, writes
`(X.1, 2)` into the same cell.  The environment that the first branch has sent then holds
the binding of its sibling, and its result is `t(2, Y.1, Z.1)` instead of `t(1, Y.1, Z.1)`.
On binding lists held as values the query has both results. -/
theorem Atom.Eval_branches_share_array :
    SVars.unifyAll 3 [] ⟨1, ⟨0, 0, 0⟩⟩ queryT.Args
        (ruleT.renameVars ⟨1, []⟩).Atom.Args
      = some (true, heapHead, ⟨1, ⟨2, 3, 4⟩⟩) ∧
    SVars.unifyAll 3 heapHead ⟨2, ⟨2, 3, 4⟩⟩ [.var ⟨"X", 1⟩] [.int 1]
      = some (true, heapBranch 1, ⟨2, ⟨2, 4, 4⟩⟩) ∧
    SVars.unifyAll 3 (heapBranch 1) ⟨2, ⟨2, 3, 4⟩⟩ [.var ⟨"X", 1⟩] [.int 2]
      = some (true, heapBranch 2, ⟨2, ⟨2, 4, 4⟩⟩) ∧
    (SVars.view ⟨2, ⟨2, 4, 4⟩⟩ (heapBranch 1)).Get ⟨"X", 1⟩ = some (.int 1) ∧
    (SVars.view ⟨2, ⟨2, 4, 4⟩⟩ (heapBranch 2)).Get ⟨"X", 1⟩ = some (.int 2) ∧
    queryT.Materialize (SVars.view ⟨2, ⟨2, 4, 4⟩⟩ (heapBranch 2)).substitute
      = { Name := "t", Args := [.int 2, .var ⟨"Y", 1⟩, .var ⟨"Z", 1⟩] } ∧
    dbTU.Query 4 queryT
      = [.out { Name := "t", Args := [.int 1, .var ⟨"Y", 1⟩, .var ⟨"Z", 1⟩] },
         .out { Name := "t", Args := [.int 2, .var ⟨"Y", 1⟩, .var ⟨"Z", 1⟩] }] := by
  refine ⟨by decide, by decide, by decide, by decide, by decide, by decide, by decide⟩

/-! ## A variable of a fact replaced by the wildcard -/

theorem maybeUnifies_spineOf_eq {a b : Term} {s : Datalog.Value} (hs : SpineOf s b) :
    maybeUnifies (.term a) s = maybeUnifies (.term a) (.term b) := by
  rcases hs with rfl | rfl
  · rfl
  · cases b <;> cases a <;> simp [maybeUnifies, normalize]

theorem pathMatch_eq_argsMatch : ∀ {as bs : List Term} {p : List Datalog.Value},
    List.Forall₂ SpineOf p bs → pathMatch as p = argsMatch as bs := by
  intro as
  induction as with
  | nil =>
    intro bs p h
    cases h with
    | nil => rfl
    | cons _ _ => rfl
  | cons a as ih =>
    intro bs p h
    cases h with
    | nil => rfl
    | cons hs hss =>
      simp only [pathMatch, argsMatch]
      rw [maybeUnifies_spineOf_eq hs, ih hss]

theorem Database.stores_Assert_iff {db db1 : Database} {c : Clause} (hne : c.head.Args ≠ [])
    (h : db.Assert c = .ok db1) (x : Clause) : db1.stores x ↔ x = c ∨ db.stores x := by
  cases hc : c.head.Args with
  | nil => exact absurd hc hne
  | cons a rest =>
    rw [Database.Assert_cons hc] at h
    cases h
    unfold Database.stores
    rw [Database.leaves_set]
    by_cases hk : x.Key = c.Key
    · rw [if_pos hk]
      have hb : db.leaves x.Key = Node.leavesList (db.nodes c.Key) := by
        rw [hk]
        rfl
      rw [hb]
      rcases addTo_addChar (db.nodes c.Key) a rest c with ⟨p, _, hperm⟩ | ⟨heq, p, _, hmem⟩
      · constructor
        · rintro ⟨p', hp'⟩
          rcases List.mem_cons.1 (hperm.subset hp') with h1 | h1
          · exact Or.inl (Prod.mk.inj h1).2
          · exact Or.inr ⟨p', h1⟩
        · rintro (rfl | ⟨p', hp'⟩)
          · exact ⟨p, hperm.symm.subset (List.mem_cons_self _ _)⟩
          · exact ⟨p', hperm.symm.subset (List.mem_cons_of_mem _ hp')⟩
      · rw [heq]
        constructor
        · exact fun h1 => Or.inr h1
        · rintro (rfl | h1)
          · exact ⟨p, hmem⟩
          · exact h1
    · rw [if_neg hk]
      constructor
      · exact fun h1 => Or.inr h1
      · rintro (rfl | h1)
        · exact absurd rfl hk
        · exact h1

theorem Database.stores_empty (x : Clause) : ¬ Database.empty.stores x := by
  rintro ⟨p, hp⟩
  simp [Database.leaves, Database.nodes, Database.empty, Node.leavesList] at hp

theorem Database.AssertAll_stores : ∀ (cs seen : List Clause) (db : Database),
    Reachable db → (∀ x, db.stores x ↔ x ∈ seen) → (∀ c ∈ cs, c.head.Args ≠ []) →
    ∃ db', db.AssertAll cs = .ok db' ∧ Reachable db' ∧ ∀ x, db'.stores x ↔ x ∈ seen ++ cs := by
  intro cs
  induction cs with
  | nil =>
    intro seen db hdb hs _
    exact ⟨db, rfl, hdb, by simpa using hs⟩
  | cons c cs ih =>
    intro seen db hdb hs hne
    obtain ⟨db1, h1⟩ := @Database.Assert_ok db c (hne c (List.mem_cons_self _ _))
    have hr1 : Reachable db1 := Reachable.assert c hdb h1
    have hs1 : ∀ x, db1.stores x ↔ x ∈ seen ++ [c] := by
      intro x
      rw [Database.stores_Assert_iff (hne c (List.mem_cons_self _ _)) h1, hs x]
      simp only [List.mem_append, List.mem_singleton]
      exact Or.comm
    obtain ⟨db', h2, hr2, hs2⟩ := ih (seen ++ [c]) db1 hr1 hs1
      (fun c' hc' => hne c' (List.mem_cons_of_mem _ hc'))
    refine ⟨db', ?_, hr2, by simpa using hs2⟩
    rw [Database.AssertAll, h1]
    exact h2

theorem Database.mem_find_iff {db : Database} (hdb : Reachable db) (q : Atom) (c : Clause) :
    c ∈ db.find q ↔
      db.stores c ∧ c.Key = q.Name ∧ argsMatch q.Args c.head.Args = true := by
  constructor
  · intro hc
    obtain ⟨p, hp, hpm, hk, hf⟩ := Database.mem_find hdb.inv hc
    refine ⟨⟨p, by rw [hk]; exact hp⟩, hk, ?_⟩
    rw [← pathMatch_eq_argsMatch hf]
    exact hpm
  · rintro ⟨⟨p, hp⟩, hk, hm⟩
    rw [Database.find_eq_filter_leaves]
    refine List.mem_map.2 ⟨(p, c), List.mem_filter.2 ⟨by rw [← hk]; exact hp, ?_⟩, rfl⟩
    have hok := (hdb.inv c.Key).2 (p, c) hp
    simp only
    rw [pathMatch_eq_argsMatch hok.2]
    exact hm

theorem Vars.Unify_shape (l r : Term) :
    (∃ b, ∀ (fuel : Nat) (e : Vars), Vars.Unify (fuel + 1) e l r = some (b, e)) ∨
    (∃ k t, ((l = .var k ∧ t = r) ∨ (r = .var k ∧ t = l)) ∧ t ≠ .wildcard ∧ t ≠ .var k ∧
      ∀ (fuel : Nat) (e : Vars), Vars.Unify (fuel + 1) e l r = Vars.unifyVar fuel e k t) := by
  by_cases h1 : l = r
  · exact Or.inl ⟨true, fun fuel e => by simp [Vars.Unify, h1]⟩
  by_cases h2 : l = .wildcard
  · exact Or.inl ⟨true, fun fuel e => by simp [Vars.Unify, h2]⟩
  by_cases h3 : r = .wildcard
  · exact Or.inl ⟨true, fun fuel e => by simp [Vars.Unify, h3]⟩
  cases l with
  | var k =>
    refine Or.inr ⟨k, r, Or.inl ⟨rfl, rfl⟩, h3, fun h => h1 h.symm, ?_⟩
    intro fuel e
    simp [Vars.Unify, h1, h3]
  | wildcard => exact absurd rfl h2
  | int i =>
    cases r with
    | var k =>
      refine Or.inr ⟨k, .int i, Or.inr ⟨rfl, rfl⟩, by simp, by simp, ?_⟩
      intro fuel e
      simp [Vars.Unify]
    | wildcard => exact absurd rfl h3
    | int j => exact Or.inl ⟨false, fun fuel e => by simp [Vars.Unify, h1]⟩
    | str s => exact Or.inl ⟨false, fun fuel e => by simp [Vars.Unify]⟩
  | str s =>
    cases r with
    | var k =>
      refine Or.inr ⟨k, .str s, Or.inr ⟨rfl, rfl⟩, by simp, by simp, ?_⟩
      intro fuel e
      simp [Vars.Unify]
    | wildcard => exact absurd rfl h3
    | int j => exact Or.inl ⟨false, fun fuel e => by simp [Vars.Unify]⟩
    | str t => exact Or.inl ⟨false, fun fuel e => by simp [Vars.Unify, h1]⟩

theorem Vars.Unify_avoids (x : Var) (fuel : Nat) :
    (∀ (v : Vars) (l r : Term) (b : Bool) (v' : Vars), v.Avoids x → l ≠ .var x → r ≠ .var x →
      Vars.Unify fuel v l r = some (b, v') → v'.Avoids x) ∧
    (∀ (v : Vars) (k : Var) (r : Term) (b : Bool) (v' : Vars), v.Avoids x → k ≠ x →
      r ≠ .var x → Vars.unifyVar fuel v k r = some (b, v') → v'.Avoids x) := by
  induction fuel with
  | zero =>
    constructor
    · intro v l r b v' _ _ _ h
      simp [Vars.Unify] at h
    · intro v k r b v' _ _ _ h
      simp [Vars.unifyVar] at h
  | succ n ih =>
    constructor
    · intro v l r b v' hv hl hr h
      rcases Vars.Unify_shape l r with ⟨b0, hb⟩ | ⟨k, t, hkt, _, _, hu⟩
      · rw [hb] at h
        simp only [Option.some.injEq, Prod.mk.injEq] at h
        rw [← h.2]
        exact hv
      · rw [hu] at h
        rcases hkt with ⟨rfl, rfl⟩ | ⟨rfl, rfl⟩
        · exact ih.2 v k t b v' hv (fun hk => hl (by rw [hk])) hr h
        · exact ih.2 v k t b v' hv (fun hk => hr (by rw [hk])) hl h
    · intro v k r b v' hv hk hr h
      simp only [Vars.unifyVar] at h
      cases hg : v.Get k with
      | some y =>
        rw [hg] at h
        obtain ⟨pre, m, post, hl, _, hy, _⟩ := (Vars.Get_eq_some_iff v k y).1 hg
        have hy' : y ≠ .var x := by
          rw [← hy]
          exact (hv m (by rw [hl]; simp)).2
        exact ih.1 v y r b v' hv hy' hr h
      | none =>
        rw [hg] at h
        simp only [Option.some.injEq, Prod.mk.injEq] at h
        rw [← h.2]
        intro m hm
        simp only [Vars.bind, List.mem_append, List.mem_singleton] at hm
        rcases hm with hm | rfl
        · exact hv m hm
        · refine ⟨hk, ?_⟩
          simp only
          cases r with
          | var w =>
            simp only [Vars.resolveOnce]
            cases hw : v.Get w with
            | some z =>
              obtain ⟨pre, m, post, hl, _, hz, _⟩ := (Vars.Get_eq_some_iff v w z).1 hw
              simp only
              rw [← hz]
              exact (hv m (by rw [hl]; simp)).2
            | none => exact hr
          | int _ => exact hr
          | str _ => exact hr
          | wildcard => exact hr

theorem InsRel.get_eq {x : Var} {c : Term} {e e' : Vars} (h : InsRel x c e e') {k : Var}
    (hk : k ≠ x) : e.Get k = e'.Get k := by
  obtain ⟨_, pre, post, h1, h2⟩ := h
  unfold Vars.Get
  rw [h1, h2]
  simp only [List.reverse_append, List.reverse_cons, List.append_assoc, List.singleton_append,
    List.find?_append, List.find?_cons]
  have : decide (x = k) = false := by simpa using fun h => hk h.symm
  simp [this]

theorem InsRel.resolveOnce_eq {x : Var} {c : Term} {e e' : Vars} (h : InsRel x c e e') {t : Term}
    (ht : t ≠ .var x) : e.resolveOnce t = e'.resolveOnce t := by
  cases t with
  | var w =>
    have hw : w ≠ x := fun hh => ht (by rw [hh])
    simp only [Vars.resolveOnce, h.get_eq hw]
  | int _ => rfl
  | str _ => rfl
  | wildcard => rfl

theorem InsRel.bind_ins {x : Var} {c : Term} {e e' : Vars} (h : InsRel x c e e') (k : Var)
    (v : Term) : InsRel x c (e.bind k v) (e'.bind k v) := by
  obtain ⟨hc, pre, post, h1, h2⟩ := h
  refine ⟨hc, pre, post ++ [⟨k, v⟩], ?_, ?_⟩
  · simp [Vars.bind, h1]
  · simp [Vars.bind, h2]

theorem Vars.Unify_ins (x : Var) (c : Term) (fuel : Nat) :
    (∀ (e e' : Vars) (l r : Term), InsRel x c e e' → e'.Avoids x → l ≠ .var x → r ≠ .var x →
      (Vars.Unify fuel e' l r = none → Vars.Unify fuel e l r = none) ∧
      (∀ b v', Vars.Unify fuel e' l r = some (b, v') →
        ∃ v, Vars.Unify fuel e l r = some (b, v) ∧ InsRel x c v v')) ∧
    (∀ (e e' : Vars) (k : Var) (r : Term), InsRel x c e e' → e'.Avoids x → k ≠ x →
      r ≠ .var x →
      (Vars.unifyVar fuel e' k r = none → Vars.unifyVar fuel e k r = none) ∧
      (∀ b v', Vars.unifyVar fuel e' k r = some (b, v') →
        ∃ v, Vars.unifyVar fuel e k r = some (b, v) ∧ InsRel x c v v')) := by
  induction fuel with
  | zero =>
    constructor
    · intro e e' l r _ _ _ _
      exact ⟨fun _ => rfl, fun b v' h => by simp [Vars.Unify] at h⟩
    · intro e e' k r _ _ _ _
      exact ⟨fun _ => rfl, fun b v' h => by simp [Vars.unifyVar] at h⟩
  | succ n ih =>
    constructor
    · intro e e' l r hrel hav hl hr
      rcases Vars.Unify_shape l r with ⟨b0, hb⟩ | ⟨k, t, hkt, _, _, hu⟩
      · rw [hb, hb]
        refine ⟨fun h => by simp at h, ?_⟩
        intro b v' h
        simp only [Option.some.injEq, Prod.mk.injEq] at h
        obtain ⟨rfl, rfl⟩ := h
        exact ⟨e, rfl, hrel⟩
      · rw [hu, hu]
        rcases hkt with ⟨rfl, rfl⟩ | ⟨rfl, rfl⟩
        · exact ih.2 e e' k t hrel hav (fun hk => hl (by rw [hk])) hr
        · exact ih.2 e e' k t hrel hav (fun hk => hr (by rw [hk])) hl
    · intro e e' k r hrel hav hk hr
      simp only [Vars.unifyVar]
      rw [hrel.get_eq hk]
      cases hg : e'.Get k with
      | some y =>
        obtain ⟨pre, m, post, hl, _, hy, _⟩ := (Vars.Get_eq_some_iff e' k y).1 hg
        have hy' : y ≠ .var x := by
          rw [← hy]
          exact (hav m (by rw [hl]; simp)).2
        exact ih.1 e e' y r hrel hav hy' hr
      | none =>
        refine ⟨fun h => by simp at h, ?_⟩
        intro b v' h
        simp only [Option.some.injEq, Prod.mk.injEq] at h
        obtain ⟨rfl, rfl⟩ := h
        refine ⟨_, rfl, ?_⟩
        rw [hrel.resolveOnce_eq hr]
        exact hrel.bind_ins k _

theorem Vars.unifyLoop_avoids (x : Var) (fuel : Nat) : ∀ (ls rs : List Term) (v : Vars)
    (b : Bool) (v' : Vars), v.Avoids x → (∀ t ∈ ls, t ≠ .var x) → (∀ t ∈ rs, t ≠ .var x) →
    Vars.unifyLoop fuel v ls rs = some (b, v') → v'.Avoids x := by
  intro ls
  induction ls with
  | nil =>
    intro rs v b v' hv _ _ h
    simp only [Vars.unifyLoop, Option.some.injEq, Prod.mk.injEq] at h
    rw [← h.2]
    exact hv
  | cons l ls ih =>
    intro rs v b v' hv hl hr h
    cases rs with
    | nil =>
      simp only [Vars.unifyLoop, Option.some.injEq, Prod.mk.injEq] at h
      rw [← h.2]
      exact hv
    | cons r rs =>
      simp only [Vars.unifyLoop] at h
      cases hu : Vars.Unify fuel v l r with
      | none => rw [hu] at h; simp at h
      | some p =>
        obtain ⟨b1, v1⟩ := p
        have h1 := (Vars.Unify_avoids x fuel).1 v l r b1 v1 hv (hl l (List.mem_cons_self _ _))
          (hr r (List.mem_cons_self _ _)) hu
        rw [hu] at h
        cases b1 with
        | false =>
          simp only [Option.some.injEq, Prod.mk.injEq] at h
          rw [← h.2]
          exact h1
        | true =>
          exact ih rs v1 b v' h1 (fun t ht => hl t (List.mem_cons_of_mem _ ht))
            (fun t ht => hr t (List.mem_cons_of_mem _ ht)) h

theorem Vars.unifyLoop_ins (x : Var) (c : Term) (fuel : Nat) : ∀ (ls rs : List Term)
    (e e' : Vars), InsRel x c e e' → e'.Avoids x → (∀ t ∈ ls, t ≠ .var x) →
    (∀ t ∈ rs, t ≠ .var x) →
    (Vars.unifyLoop fuel e' ls rs = none → Vars.unifyLoop fuel e ls rs = none) ∧
    (∀ b v', Vars.unifyLoop fuel e' ls rs = some (b, v') →
      ∃ v, Vars.unifyLoop fuel e ls rs = some (b, v) ∧ InsRel x c v v') := by
  intro ls
  induction ls with
  | nil =>
    intro rs e e' hrel _ _ _
    simp only [Vars.unifyLoop]
    refine ⟨fun h => by simp at h, ?_⟩
    intro b v' h
    simp only [Option.some.injEq, Prod.mk.injEq] at h
    obtain ⟨rfl, rfl⟩ := h
    exact ⟨e, rfl, hrel⟩
  | cons l ls ih =>
    intro rs e e' hrel hav hl hr
    cases rs with
    | nil =>
      simp only [Vars.unifyLoop]
      refine ⟨fun h => by simp at h, ?_⟩
      intro b v' h
      simp only [Option.some.injEq, Prod.mk.injEq] at h
      obtain ⟨rfl, rfl⟩ := h
      exact ⟨e, rfl, hrel⟩
    | cons r rs =>
      have hU := (Vars.Unify_ins x c fuel).1 e e' l r hrel hav (hl l (List.mem_cons_self _ _))
        (hr r (List.mem_cons_self _ _))
      simp only [Vars.unifyLoop]
      cases hu : Vars.Unify fuel e' l r with
      | none =>
        rw [hU.1 hu]
        exact ⟨fun _ => rfl, fun b v' h => by simp at h⟩
      | some p =>
        obtain ⟨b1, v1'⟩ := p
        obtain ⟨v1, hv1, hrel1⟩ := hU.2 b1 v1' hu
        have hav1 := (Vars.Unify_avoids x fuel).1 e' l r b1 v1' hav
          (hl l (List.mem_cons_self _ _)) (hr r (List.mem_cons_self _ _)) hu
        rw [hv1]
        cases b1 with
        | false =>
          refine ⟨fun h => by simp at h, ?_⟩
          intro b v' h
          simp only [Option.some.injEq, Prod.mk.injEq] at h
          obtain ⟨rfl, rfl⟩ := h
          exact ⟨v1, rfl, hrel1⟩
        | true =>
          exact ih rs v1 v1' hrel1 hav1 (fun t ht => hl t (List.mem_cons_of_mem _ ht))
            (fun t ht => hr t (List.mem_cons_of_mem _ ht))

theorem Vars.get_none_of_avoids {e : Vars} {x : Var} (h : e.Avoids x) : e.Get x = none := by
  rw [Vars.Get_eq_none_iff]
  exact fun m hm => (h m hm).1

/-- The outcome of the loop of `unifyAll` when the variable `x` at position `i` of the
right-hand list is replaced by the wildcard: the same status, and the same bindings up to
one binding of `x` to a constant. -/
theorem Vars.unifyLoop_set_wildcard (x : Var) (fuel : Nat) :
    ∀ (ls rs : List Term) (i : Nat) (e : Vars), e.Avoids x →
      (∀ t ∈ ls, t ≠ .var x) → rs[i]? = some (.var x) →
      (∀ (j : Nat) (t : Term), j ≠ i → rs[j]? = some t → t ≠ .var x) →
      (∀ w, ls[i]? ≠ some (.var w)) →
      (Vars.unifyLoop (fuel + 2) e ls (rs.set i .wildcard) = none →
        Vars.unifyLoop (fuel + 2) e ls rs = none) ∧
      (∀ b v', Vars.unifyLoop (fuel + 2) e ls (rs.set i .wildcard) = some (b, v') →
        v'.Avoids x ∧ ∃ v, Vars.unifyLoop (fuel + 2) e ls rs = some (b, v) ∧
          (v = v' ∨ ∃ c, c.isConst = true ∧ InsRel x c v v')) := by
  intro ls
  induction ls with
  | nil =>
    intro rs i e hav _ _ _ _
    simp only [Vars.unifyLoop]
    refine ⟨fun h => by simp at h, ?_⟩
    intro b v' h
    simp only [Option.some.injEq, Prod.mk.injEq] at h
    obtain ⟨rfl, rfl⟩ := h
    exact ⟨hav, e, rfl, Or.inl rfl⟩
  | cons l ls ih =>
    intro rs i e hav hl hi hother hq
    cases rs with
    | nil => simp at hi
    | cons r rs =>
      have hl0 : l ≠ .var x := hl l (List.mem_cons_self _ _)
      have hls : ∀ t ∈ ls, t ≠ .var x := fun t ht => hl t (List.mem_cons_of_mem _ ht)
      cases i with
      | zero =>
        simp only [List.getElem?_cons_zero, Option.some.injEq] at hi
        subst hi
        have hrs : ∀ t ∈ rs, t ≠ .var x := by
          intro t ht
          obtain ⟨j, hj⟩ := List.getElem?_of_mem ht
          exact hother (j + 1) t (by omega) (by simpa using hj)
        have hl1 : ∀ w, l ≠ .var w := fun w hw => hq w (by simp [hw])
        simp only [List.set_cons_zero, Vars.unifyLoop]
        have hW : Vars.Unify (fuel + 2) e l .wildcard = some (true, e) := by
          cases l <;> simp [Vars.Unify]
        rw [hW]
        simp only
        cases l with
        | var w => exact absurd rfl (hl1 w)
        | wildcard =>
          have hX : Vars.Unify (fuel + 2) e .wildcard (.var x) = some (true, e) := by
            simp [Vars.Unify]
          rw [hX]
          simp only
          refine ⟨fun h => h, ?_⟩
          intro b v' h
          exact ⟨Vars.unifyLoop_avoids x _ ls rs e b v' hav hls hrs h, v', h, Or.inl rfl⟩
        | int n =>
          have hX : Vars.Unify (fuel + 2) e (.int n) (.var x)
              = some (true, e.bind x (.int n)) := by
            simp [Vars.Unify, Vars.unifyVar, Vars.get_none_of_avoids hav, Vars.resolveOnce]
          rw [hX]
          simp only
          have hrel : InsRel x (.int n) (e.bind x (.int n)) e :=
            ⟨rfl, e.Mapping, [], by simp, by simp [Vars.bind]⟩
          have hI := Vars.unifyLoop_ins x (.int n) (fuel + 2) ls rs _ e hrel hav hls hrs
          refine ⟨hI.1, ?_⟩
          intro b v' h
          obtain ⟨v, hv, hr⟩ := hI.2 b v' h
          exact ⟨Vars.unifyLoop_avoids x _ ls rs e b v' hav hls hrs h, v, hv,
            Or.inr ⟨.int n, rfl, hr⟩⟩
        | str s =>
          have hX : Vars.Unify (fuel + 2) e (.str s) (.var x)
              = some (true, e.bind x (.str s)) := by
            simp [Vars.Unify, Vars.unifyVar, Vars.get_none_of_avoids hav, Vars.resolveOnce]
          rw [hX]
          simp only
          have hrel : InsRel x (.str s) (e.bind x (.str s)) e :=
            ⟨rfl, e.Mapping, [], by simp, by simp [Vars.bind]⟩
          have hI := Vars.unifyLoop_ins x (.str s) (fuel + 2) ls rs _ e hrel hav hls hrs
          refine ⟨hI.1, ?_⟩
          intro b v' h
          obtain ⟨v, hv, hr⟩ := hI.2 b v' h
          exact ⟨Vars.unifyLoop_avoids x _ ls rs e b v' hav hls hrs h, v, hv,
            Or.inr ⟨.str s, rfl, hr⟩⟩
      | succ i =>
        have hr0 : r ≠ .var x := hother 0 r (by omega) (by simp)
        simp only [List.set_cons_succ, Vars.unifyLoop]
        cases hu : Vars.Unify (fuel + 2) e l r with
        | none => exact ⟨fun _ => rfl, fun b v' h => by simp at h⟩
        | some p =>
          obtain ⟨b1, v1⟩ := p
          have hav1 := (Vars.Unify_avoids x (fuel + 2)).1 e l r b1 v1 hav hl0 hr0 hu
          cases b1 with
          | false =>
            refine ⟨fun h => by simp at h, ?_⟩
            intro b v' h
            simp only [Option.some.injEq, Prod.mk.injEq] at h
            obtain ⟨rfl, rfl⟩ := h
            exact ⟨hav1, v1, rfl, Or.inl rfl⟩
          | true =>
            exact ih rs i v1 hav1 hls (by simpa using hi)
              (fun j t hj ht => hother (j + 1) t (by omega) (by simpa using ht))
              (fun w hw => hq w (by simpa using hw))

theorem substLoop_nil (n : Nat) : substLoop n [] = [] := by
  cases n <;> rfl

theorem substLoop_ge (n : Nat) : ∀ (l : List Mapping), l.length ≤ n →
    substLoop n l = substLoop l.length l := by
  induction n with
  | zero =>
    intro l hl
    have : l = [] := List.length_eq_zero.1 (Nat.le_zero.1 hl)
    subst this
    rfl
  | succ n ih =>
    intro l hl
    cases l with
    | nil => rfl
    | cons m l =>
      simp only [substLoop, List.length_cons]
      rw [ih (l.map (substOne m)) (by simpa using hl)]
      simp

theorem substOne_const (new m : Mapping) (h : ∀ k, m.Val ≠ .var k) : substOne new m = m := by
  unfold substOne
  rw [if_neg (h new.Key)]

theorem substOne_val_ne (new m : Mapping) (x : Var) (hn : new.Val ≠ .var x)
    (hm : m.Val ≠ .var x) : (substOne new m).Val ≠ .var x := by
  unfold substOne
  split_ifs
  · exact hn
  · exact hm

theorem substLoop_ins_aux (m : Mapping) (hm : ∀ k, m.Val ≠ .var k) (k : Nat) :
    ∀ (A B : List Mapping) (n n' : Nat), A.length = k → (A ++ m :: B).length ≤ n →
      (A ++ B).length ≤ n' → (∀ y ∈ A ++ B, y.Val ≠ .var m.Key) →
      ∃ A2 B2, substLoop n (A ++ m :: B) = A2 ++ m :: B2 ∧
        substLoop n' (A ++ B) = A2 ++ B2 := by
  induction k with
  | zero =>
    intro A B n n' hA hn hn' hav
    have : A = [] := List.length_eq_zero.1 hA
    subst this
    cases n with
    | zero => simp at hn
    | succ n =>
      refine ⟨[], substLoop n' B, ?_, rfl⟩
      simp only [List.nil_append, substLoop]
      have hB : B.map (substOne m) = B := by
        conv_rhs => rw [← List.map_id B]
        apply List.map_congr_left
        intro y hy
        exact substOne_fixed m y (fun h => absurd h (hav y (by simpa using hy)))
      rw [hB, substLoop_ge n B (by simpa using hn), substLoop_ge n' B (by simpa using hn')]
  | succ k ih =>
    intro A B n n' hA hn hn' hav
    cases A with
    | nil => simp at hA
    | cons a A =>
      cases n with
      | zero => simp at hn
      | succ n =>
        cases n' with
        | zero => simp at hn'
        | succ n' =>
          have ha : a.Val ≠ .var m.Key := hav a (by simp)
          have hav' : ∀ y ∈ A.map (substOne a) ++ B.map (substOne a),
              y.Val ≠ .var m.Key := by
            intro y hy
            rw [← List.map_append] at hy
            obtain ⟨y0, hy0, rfl⟩ := List.mem_map.1 hy
            exact substOne_val_ne a y0 m.Key ha (hav y0 (List.mem_cons_of_mem _ hy0))
          obtain ⟨A2, B2, h1, h2⟩ := ih (A.map (substOne a)) (B.map (substOne a)) n n'
            (by simpa using hA) (by simpa using hn) (by simpa using hn') hav'
          refine ⟨a :: A2, B2, ?_, ?_⟩
          · have e1 : (a :: A ++ m :: B) = a :: (A ++ m :: B) := rfl
            rw [e1, substLoop, List.map_append, List.map_cons, substOne_const a m hm, h1]
            rfl
          · have e2 : (a :: A ++ B) = a :: (A ++ B) := rfl
            rw [e2, substLoop, List.map_append, h2]
            rfl

theorem substLoop_ins (m : Mapping) (hm : ∀ k, m.Val ≠ .var k) (A B : List Mapping)
    (n n' : Nat) (hn : (A ++ m :: B).length ≤ n) (hn' : (A ++ B).length ≤ n')
    (hav : ∀ y ∈ A ++ B, y.Val ≠ .var m.Key) :
    ∃ A2 B2, substLoop n (A ++ m :: B) = A2 ++ m :: B2 ∧ substLoop n' (A ++ B) = A2 ++ B2 :=
  substLoop_ins_aux m hm A.length A B n n' rfl hn hn' hav

theorem InsRel.substitute_ins {x : Var} {c : Term} {e e' : Vars} (h : InsRel x c e e')
    (hc : ∀ k, c ≠ .var k) (hav : e'.Avoids x) : InsRel x c e.substitute e'.substitute := by
  obtain ⟨hcnt, pre, post, h1, h2⟩ := h
  have havl : ∀ y ∈ post.reverse ++ pre.reverse, y.Val ≠ .var (Mapping.mk x c).Key := by
    intro y hy
    refine (hav y ?_).2
    rw [h1]
    simp only [List.mem_append, List.mem_reverse] at hy ⊢
    exact hy.symm
  obtain ⟨A2, B2, h3, h4⟩ := substLoop_ins ⟨x, c⟩ hc post.reverse pre.reverse
    (post.reverse ++ ⟨x, c⟩ :: pre.reverse).length (post.reverse ++ pre.reverse).length
    (le_refl _) (le_refl _) havl
  refine ⟨hcnt, B2.reverse, A2.reverse, ?_, ?_⟩
  · simp only [Vars.substitute, substRev, h1, List.reverse_append]
    rw [h4]
    simp
  · simp only [Vars.substitute, substRev, h2, List.reverse_append, List.reverse_cons,
      List.append_assoc, List.singleton_append]
    rw [h3]
    simp

theorem InsRel.materialize_eq {x : Var} {c : Term} {e e' : Vars} (h : InsRel x c e e')
    (q : Atom) (hq : ∀ t ∈ q.Args, t ≠ .var x) : q.Materialize e = q.Materialize e' := by
  unfold Atom.Materialize
  congr 1
  apply List.map_congr_left
  intro t ht
  cases t with
  | var w =>
    have hw : w ≠ x := fun hh => hq _ ht (by rw [hh])
    simp only [h.get_eq hw]
  | int _ => rfl
  | str _ => rfl
  | wildcard => rfl

theorem Atom.unifyWith_atom_post (ev : Goal → Vars → List (Emit Vars)) (ufuel : Nat)
    (q a : Atom) (vars : Vars) :
    (Atom.unifyWith ev ufuel q (.atom a) vars).map (Database.post q)
      = atomItems ufuel q a vars := by
  simp only [Atom.unifyWith, atomItems]
  cases h : vars.unifyAll ufuel q.Args (a.renameVars vars).Args with
  | none => rfl
  | some p =>
    obtain ⟨b, v⟩ := p
    cases b <;> rfl

theorem argsMatch_set_wildcard : ∀ (as bs : List Term) (i : Nat) (w : Var),
    bs[i]? = some (.var w) → argsMatch as (bs.set i .wildcard) = argsMatch as bs := by
  intro as
  induction as with
  | nil =>
    intro bs i w h
    cases bs with
    | nil => simp at h
    | cons b bs => cases i <;> rfl
  | cons a as ih =>
    intro bs i w h
    cases bs with
    | nil => simp at h
    | cons b bs =>
      cases i with
      | zero =>
        simp only [List.getElem?_cons_zero, Option.some.injEq] at h
        subst h
        simp only [List.set_cons_zero, argsMatch]
        cases a <;> simp [maybeUnifies]
      | succ i =>
        simp only [List.set_cons_succ, argsMatch]
        rw [ih bs i w (by simpa using h)]

theorem atomItems_setWildcard (fuel : Nat) (q F : Atom) (i : Nat) (V : Var)
    (hV : F.Args[i]? = some (.var V))
    (honce : ∀ (j : Nat) (w : Var), j ≠ i → F.Args[j]? = some (.var w) → w.Name ≠ V.Name)
    (hq : ∀ w, q.Args[i]? ≠ some (.var w))
    (hq0 : ∀ w, Term.var w ∈ q.Args → w.Counter = 0) :
    atomItems (fuel + 2) q (F.setWildcard i) { Counter := 1, Mapping := [] }
      = atomItems (fuel + 2) q F { Counter := 1, Mapping := [] } := by
  have hx : ∀ t ∈ q.Args, t ≠ .var ⟨V.Name, 1⟩ := by
    intro t ht hh
    rw [hh] at ht
    have := hq0 _ ht
    simp at this
  have hren : (F.setWildcard i).Args.map (Vars.rename ⟨1, []⟩)
      = (F.Args.map (Vars.rename ⟨1, []⟩)).set i .wildcard := by
    simp only [Atom.setWildcard]
    rw [List.map_set]
    rfl
  have hi : (F.Args.map (Vars.rename ⟨1, []⟩))[i]? = some (.var ⟨V.Name, 1⟩) := by
    rw [List.getElem?_map, hV]
    rfl
  have hoth : ∀ (j : Nat) (t : Term), j ≠ i →
      (F.Args.map (Vars.rename ⟨1, []⟩))[j]? = some t → t ≠ .var ⟨V.Name, 1⟩ := by
    intro j t hj ht
    rw [List.getElem?_map] at ht
    cases h0 : F.Args[j]? with
    | none => rw [h0] at ht; simp at ht
    | some t0 =>
      rw [h0] at ht
      simp only [Option.map_some', Option.some.injEq] at ht
      subst ht
      cases t0 with
      | var w =>
        intro hh
        simp only [Vars.rename, Term.var.injEq, Var.mk.injEq, and_true] at hh
        exact honce j w hj h0 hh
      | int _ => simp [Vars.rename]
      | str _ => simp [Vars.rename]
      | wildcard => simp [Vars.rename]
  have hav : Vars.Avoids ⟨1, []⟩ ⟨V.Name, 1⟩ := by
    intro m hm
    simp at hm
  have key := Vars.unifyLoop_set_wildcard ⟨V.Name, 1⟩ fuel q.Args
    (F.Args.map (Vars.rename ⟨1, []⟩)) i ⟨1, []⟩ hav hx hi hoth hq
  unfold atomItems Vars.unifyAll
  simp only [Atom.renameVars, hren, List.length_set, List.length_map]
  by_cases hlen : q.Args.length ≠ F.Args.length
  · rw [if_pos hlen, if_pos hlen]
  · rw [if_neg hlen, if_neg hlen]
    cases hw : Vars.unifyLoop (fuel + 2) ⟨1, []⟩ q.Args
        ((F.Args.map (Vars.rename ⟨1, []⟩)).set i .wildcard) with
    | none => rw [key.1 hw]
    | some p =>
      obtain ⟨b, v'⟩ := p
      obtain ⟨hav', v, hv, hrel⟩ := key.2 b v' hw
      rw [hv]
      cases b with
      | false => rfl
      | true =>
        simp only
        rcases hrel with rfl | ⟨c, hc, hrel⟩
        · rfl
        · have hcv : ∀ k, c ≠ .var k := by
            intro k hk
            rw [hk] at hc
            simp [Term.isConst] at hc
          rw [(hrel.substitute_ins hcv hav').materialize_eq q hx]

theorem Database.mem_Query_atoms {db : Database} (hdb : Reachable db) (atoms : List Atom)
    (hs : ∀ c, db.stores c ↔ c ∈ atoms.map Clause.atom) (fuel : Nat) (q : Atom)
    (x : Emit Atom) :
    x ∈ db.Query (fuel + 1) q ↔
      ∃ G ∈ atoms, G.Name = q.Name ∧ argsMatch q.Args G.Args = true ∧
        x ∈ atomItems (fuel + 1) q G { Counter := 1, Mapping := [] } := by
  unfold Database.Query
  simp only [Atom.Eval, List.map_flatMap, List.mem_flatMap]
  have h1 : (0 + 1) % uintSize = 1 := by decide
  constructor
  · rintro ⟨c, hc, hx⟩
    obtain ⟨hst, hk, hm⟩ := (Database.mem_find_iff hdb q c).1 hc
    obtain ⟨G, hG, rfl⟩ := List.mem_map.1 ((hs c).1 hst)
    rw [h1, Atom.unifyWith_atom_post] at hx
    exact ⟨G, hG, hk, hm, hx⟩
  · rintro ⟨G, hG, hk, hm, hx⟩
    refine ⟨.atom G, (Database.mem_find_iff hdb q (.atom G)).2
      ⟨(hs _).2 (List.mem_map.2 ⟨G, hG, rfl⟩), hk, hm⟩, ?_⟩
    rw [h1, Atom.unifyWith_atom_post]
    exact hx

/-- C14 fails on the code as stated: with the fact `foo(Y, Y)` the query `foo(a, X)`
returns `foo(a, a)`; with `foo(_, Y)`, the fact with its first variable replaced by the
wildcard, it returns `foo(a, Y.1)`.  And with the fact `foo(X)` the query `foo(Z)` returns
`foo(X.1)`, with `foo(_)` it returns `foo(Z)`. -/
theorem Database.Query_wildcard_differs :
    Database.empty.Assert (.atom atomYY) = .ok dbFooYY ∧
    Database.empty.Assert (.atom (atomYY.setWildcard 0)) = .ok dbFooWY ∧
    dbFooYY.Query 3 { Name := "foo", Args := [.str "a", .var ⟨"X", 0⟩] }
      = [.out { Name := "foo", Args := [.str "a", .str "a"] }] ∧
    dbFooWY.Query 3 { Name := "foo", Args := [.str "a", .var ⟨"X", 0⟩] }
      = [.out { Name := "foo", Args := [.str "a", .var ⟨"Y", 1⟩] }] ∧
    dbFooX.Query 3 { Name := "foo", Args := [.var ⟨"Z", 0⟩] }
      = [.out { Name := "foo", Args := [.var ⟨"X", 1⟩] }] ∧
    (Database.empty.set "foo" (addTo [] .wildcard []
        (.atom { Name := "foo", Args := [.wildcard] }))).Query 3
        { Name := "foo", Args := [.var ⟨"Z", 0⟩] }
      = [.out { Name := "foo", Args := [.var ⟨"Z", 0⟩] }] := by
  refine ⟨Database.Assert_cons rfl, Database.Assert_cons rfl, by decide, by decide, by decide,
    by decide⟩

/-- C14, amended: for a database built from the empty one by asserting atoms (each with at
least one argument), a fact `F` among them whose argument at position `i` is a variable
whose name occurs nowhere else in `F`, and a query with variables of generation 0 whose
argument at position `i` is not a variable: at every depth bound of at least 2 the query
emits the same items, and so the same result atoms, against the database with `F` as
against the database with `F` replaced by the fact that has the wildcard at position `i`. -/
theorem Database.Query_setWildcard (pre post : List Atom) (F : Atom) (i : Nat) (V : Var)
    (q : Atom) (hne : ∀ G ∈ pre ++ F :: post, G.Args ≠ [])
    (hV : F.Args[i]? = some (.var V))
    (honce : ∀ (j : Nat) (w : Var), j ≠ i → F.Args[j]? = some (.var w) → w.Name ≠ V.Name)
    (hq : ∀ w, q.Args[i]? ≠ some (.var w))
    (hq0 : ∀ w, Term.var w ∈ q.Args → w.Counter = 0) :
    ∃ db db', Database.empty.AssertAll ((pre ++ F :: post).map Clause.atom) = .ok db ∧
      Database.empty.AssertAll ((pre ++ F.setWildcard i :: post).map Clause.atom) = .ok db' ∧
      ∀ fuel, 2 ≤ fuel → ∀ x, x ∈ db.Query fuel q ↔ x ∈ db'.Query fuel q := by
  have hFne : (F.setWildcard i).Args ≠ [] := by
    intro h
    have h1 := congrArg List.length h
    simp only [Atom.setWildcard, List.length_set, List.length_nil] at h1
    exact hne F (by simp) (List.length_eq_zero.1 h1)
  obtain ⟨db, hA, hr, hs⟩ := Database.AssertAll_stores ((pre ++ F :: post).map Clause.atom) []
    Database.empty Reachable.empty
    (fun x => ⟨fun h => absurd h (Database.stores_empty x), fun h => by simp at h⟩)
    (by
      intro c hc
      obtain ⟨G, hG, rfl⟩ := List.mem_map.1 hc
      exact hne G hG)
  obtain ⟨db', hA', hr', hs'⟩ := Database.AssertAll_stores
    ((pre ++ F.setWildcard i :: post).map Clause.atom) [] Database.empty Reachable.empty
    (fun x => ⟨fun h => absurd h (Database.stores_empty x), fun h => by simp at h⟩)
    (by
      intro c hc
      obtain ⟨G, hG, rfl⟩ := List.mem_map.1 hc
      rcases List.mem_append.1 hG with h | h
      · exact hne G (List.mem_append_left _ h)
      · rcases List.mem_cons.1 h with rfl | h
        · exact hFne
        · exact hne G (List.mem_append_right _ (List.mem_cons_of_mem _ h)))
  rw [List.nil_append] at hs hs'
  refine ⟨db, db', hA, hA', ?_⟩
  intro fuel hfuel x
  obtain ⟨n, rfl⟩ : ∃ n, fuel = n + 1 + 1 := ⟨fuel - 2, by omega⟩
  rw [Database.mem_Query_atoms hr _ hs, Database.mem_Query_atoms hr' _ hs']
  have hitems := atomItems_setWildcard n q F i V hV honce hq hq0
  have hmatch := argsMatch_set_wildcard q.Args F.Args i V hV
  constructor
  · rintro ⟨G, hG, hk, hm, hx⟩
    rcases List.mem_append.1 hG with h | h
    · exact ⟨G, List.mem_append_left _ h, hk, hm, hx⟩
    · rcases List.mem_cons.1 h with rfl | h
      · refine ⟨G.setWildcard i, by simp, hk, ?_, ?_⟩
        · simp only [Atom.setWildcard]
          rw [hmatch]
          exact hm
        · rw [hitems]
          exact hx
      · exact ⟨G, List.mem_append_right _ (List.mem_cons_of_mem _ h), hk, hm, hx⟩
  · rintro ⟨G, hG, hk, hm, hx⟩
    rcases List.mem_append.1 hG with h | h
    · exact ⟨G, List.mem_append_left _ h, hk, hm, hx⟩
    · rcases List.mem_cons.1 h with rfl | h
      · refine ⟨F, by simp, hk, ?_, ?_⟩
        · simp only [Atom.setWildcard] at hm
          rw [hmatch] at hm
          exact hm
        · rw [hitems] at hx
          exact hx
      · exact ⟨G, List.mem_append_right _ (List.mem_cons_of_mem _ h), hk, hm, hx⟩

theorem Database.Query_setWildcard_witness :
    ∃ db db', Database.empty.AssertAll (([] ++ atomXB :: [atomAB]).map Clause.atom) = .ok db ∧
      Database.empty.AssertAll (([] ++ atomXB.setWildcard 0 :: [atomAB]).map Clause.atom)
        = .ok db' ∧
      ∀ fuel, 2 ≤ fuel → ∀ x,
        x ∈ db.Query fuel { Name := "foo", Args := [.str "a", .var ⟨"Z", 0⟩] } ↔
        x ∈ db'.Query fuel { Name := "foo", Args := [.str "a", .var ⟨"Z", 0⟩] } :=
  Database.Query_setWildcard [] [atomAB] atomXB 0 ⟨"X", 0⟩
    { Name := "foo", Args := [.str "a", .var ⟨"Z", 0⟩] } (by decide) rfl
    (by
      intro j w hj h
      match j, hj, h with
      | 1, _, h => simp [atomXB] at h
      | j + 2, _, h => simp [atomXB] at h)
    (by intro w h; simp at h)
    (by
      intro w h
      simp only [List.mem_cons, Term.var.injEq, List.mem_singleton, List.not_mem_nil,
        or_false, false_or, reduceCtorEq] at h
      rw [h])

/-! ## Renaming the variables of a rule -/

theorem Term.mapVars_inj {f : Var → Var} (hf : Function.Injective f) :
    Function.Injective (Term.mapVars f) := by
  intro a b h
  cases a <;> cases b <;> simp [Term.mapVars] at h ⊢
  · exact h
  · exact h
  · exact hf h

theorem Term.mapVars_eq_var {f : Var → Var} (hf : Function.Injective f) (t : Term) (k : Var) :
    t.mapVars f = .var (f k) ↔ t = .var k := by
  constructor
  · intro h
    exact Term.mapVars_inj hf (by rw [h]; rfl)
  · rintro rfl
    rfl

theorem Vars.Get_mapVars {f : Var → Var} (hf : Function.Injective f) (e : Vars) (k : Var) :
    (e.mapVars f).Get (f k) = (e.Get k).map (Term.mapVars f) := by
  unfold Vars.Get Vars.mapVars
  simp only [← List.map_reverse]
  induction e.Mapping.reverse with
  | nil => rfl
  | cons m l ih =>
    simp only [List.map_cons, List.find?_cons, Mapping.mapVars]
    by_cases h : m.Key = k
    · simp [h]
    · have h' : f m.Key ≠ f k := fun hh => h (hf hh)
      simp only [h, h', decide_False]
      exact ih

theorem Vars.resolveOnce_mapVars {f : Var → Var} (hf : Function.Injective f) (e : Vars)
    (t : Term) : (e.mapVars f).resolveOnce (t.mapVars f) = (e.resolveOnce t).mapVars f := by
  cases t with
  | var w =>
    simp only [Term.mapVars, Vars.resolveOnce, Vars.Get_mapVars hf]
    cases e.Get w <;> rfl
  | int _ => rfl
  | str _ => rfl
  | wildcard => rfl

theorem Vars.bind_mapVars (f : Var → Var) (e : Vars) (k : Var) (v : Term) :
    (e.bind k v).mapVars f = (e.mapVars f).bind (f k) (v.mapVars f) := by
  simp [Vars.bind, Vars.mapVars, Mapping.mapVars]

theorem Term.mapVars_eq_wildcard (f : Var → Var) (t : Term) :
    t.mapVars f = .wildcard ↔ t = .wildcard := by
  cases t <;> simp [Term.mapVars]

theorem Vars.Unify_shape_map {f : Var → Var} (hf : Function.Injective f) (l r : Term) :
    (∃ b, (∀ (fuel : Nat) (e : Vars), Vars.Unify (fuel + 1) e l r = some (b, e)) ∧
      ∀ (fuel : Nat) (e : Vars),
        Vars.Unify (fuel + 1) e (l.mapVars f) (r.mapVars f) = some (b, e)) ∨
    (∃ k t, (∀ (fuel : Nat) (e : Vars), Vars.Unify (fuel + 1) e l r = Vars.unifyVar fuel e k t) ∧
      ∀ (fuel : Nat) (e : Vars), Vars.Unify (fuel + 1) e (l.mapVars f) (r.mapVars f)
        = Vars.unifyVar fuel e (f k) (t.mapVars f)) := by
  have hinj := Term.mapVars_inj hf
  by_cases h1 : l = r
  · exact Or.inl ⟨true, fun fuel e => by simp [Vars.Unify, h1],
      fun fuel e => by simp [Vars.Unify, h1]⟩
  have h1' : l.mapVars f ≠ r.mapVars f := fun h => h1 (hinj h)
  by_cases h2 : l = .wildcard
  · exact Or.inl ⟨true, fun fuel e => by simp [Vars.Unify, h2],
      fun fuel e => by simp [Vars.Unify, h2, Term.mapVars]⟩
  have h2' : l.mapVars f ≠ .wildcard := fun h => h2 ((Term.mapVars_eq_wildcard f l).1 h)
  by_cases h3 : r = .wildcard
  · exact Or.inl ⟨true, fun fuel e => by simp [Vars.Unify, h3],
      fun fuel e => by simp [Vars.Unify, h3, Term.mapVars]⟩
  have h3' : r.mapVars f ≠ .wildcard := fun h => h3 ((Term.mapVars_eq_wildcard f r).1 h)
  cases l with
  | var k =>
    refine Or.inr ⟨k, r, fun fuel e => by simp [Vars.Unify, h1, h3], ?_⟩
    intro fuel e
    have h1'' : Term.var (f k) ≠ r.mapVars f := h1'
    show Vars.Unify (fuel + 1) e (.var (f k)) (r.mapVars f) = _
    generalize r.mapVars f = r' at h1'' h3'
    simp [Vars.Unify, h1'', h3']
  | wildcard => exact absurd rfl h2
  | int i =>
    cases r with
    | var k =>
      exact Or.inr ⟨k, .int i, fun fuel e => by simp [Vars.Unify],
        fun fuel e => by simp [Vars.Unify, Term.mapVars]⟩
    | wildcard => exact absurd rfl h3
    | int j =>
      exact Or.inl ⟨false, fun fuel e => by simp [Vars.Unify, h1],
        fun fuel e => by simpa [Vars.Unify, Term.mapVars] using h1⟩
    | str s =>
      exact Or.inl ⟨false, fun fuel e => by simp [Vars.Unify],
        fun fuel e => by simp [Vars.Unify, Term.mapVars]⟩
  | str s =>
    cases r with
    | var k =>
      exact Or.inr ⟨k, .str s, fun fuel e => by simp [Vars.Unify],
        fun fuel e => by simp [Vars.Unify, Term.mapVars]⟩
    | wildcard => exact absurd rfl h3
    | int j =>
      exact Or.inl ⟨false, fun fuel e => by simp [Vars.Unify],
        fun fuel e => by simp [Vars.Unify, Term.mapVars]⟩
    | str t =>
      exact Or.inl ⟨false, fun fuel e => by simp [Vars.Unify, h1],
        fun fuel e => by simpa [Vars.Unify, Term.mapVars] using h1⟩

theorem Vars.Unify_mapVars {f : Var → Var} (hf : Function.Injective f) (fuel : Nat) :
    (∀ (e : Vars) (l r : Term), Vars.Unify fuel (e.mapVars f) (l.mapVars f) (r.mapVars f)
      = (Vars.Unify fuel e l r).map (fun p => (p.1, p.2.mapVars f))) ∧
    (∀ (e : Vars) (k : Var) (r : Term), Vars.unifyVar fuel (e.mapVars f) (f k) (r.mapVars f)
      = (Vars.unifyVar fuel e k r).map (fun p => (p.1, p.2.mapVars f))) := by
  induction fuel with
  | zero => exact ⟨fun e l r => rfl, fun e k r => rfl⟩
  | succ n ih =>
    constructor
    · intro e l r
      rcases Vars.Unify_shape_map hf l r with ⟨b, hb, hb'⟩ | ⟨k, t, hu, hu'⟩
      · rw [hb, hb']
        rfl
      · rw [hu, hu']
        exact ih.2 e k t
    · intro e k r
      simp only [Vars.unifyVar, Vars.Get_mapVars hf]
      cases hg : e.Get k with
      | some y =>
        simp only [Option.map_some']
        exact ih.1 e y r
      | none =>
        simp only [Option.map_none', Option.map_some', Vars.bind_mapVars,
          Vars.resolveOnce_mapVars hf]

theorem Vars.unifyLoop_mapVars {f : Var → Var} (hf : Function.Injective f) (fuel : Nat) :
    ∀ (ls rs : List Term) (e : Vars),
      Vars.unifyLoop fuel (e.mapVars f) (ls.map (Term.mapVars f)) (rs.map (Term.mapVars f))
        = (Vars.unifyLoop fuel e ls rs).map (fun p => (p.1, p.2.mapVars f)) := by
  intro ls
  induction ls with
  | nil => intro rs e; rfl
  | cons l ls ih =>
    intro rs e
    cases rs with
    | nil => rfl
    | cons r rs =>
      simp only [List.map_cons, Vars.unifyLoop, (Vars.Unify_mapVars hf fuel).1]
      cases hu : Vars.Unify fuel e l r with
      | none => rfl
      | some p =>
        obtain ⟨b, v⟩ := p
        cases b with
        | false => rfl
        | true =>
          simp only [Option.map_some']
          exact ih rs v

theorem Vars.unifyAll_mapVars {f : Var → Var} (hf : Function.Injective f) (fuel : Nat)
    (ls rs : List Term) (e : Vars) :
    Vars.unifyAll fuel (e.mapVars f) (ls.map (Term.mapVars f)) (rs.map (Term.mapVars f))
      = (Vars.unifyAll fuel e ls rs).map (fun p => (p.1, p.2.mapVars f)) := by
  unfold Vars.unifyAll
  simp only [List.length_map]
  split_ifs
  · rfl
  · exact Vars.unifyLoop_mapVars hf fuel ls rs e

theorem Vars.expand_mapVars {f : Var → Var} (hf : Function.Injective f) (fuel : Nat) :
    ∀ (e : Vars) (t : Term),
      (e.mapVars f).expand fuel (t.mapVars f) = (e.expand fuel t).map (Term.mapVars f) := by
  induction fuel with
  | zero => intro e t; rfl
  | succ n ih =>
    intro e t
    cases t with
    | var k =>
      simp only [Term.mapVars, Vars.expand, Vars.Get_mapVars hf]
      cases hg : e.Get k with
      | some y => exact ih e y
      | none => rfl
    | int _ => rfl
    | str _ => rfl
    | wildcard => rfl

theorem toString_mapVars (f : Var → Var) (t : Term) : toString (t.mapVars f) = toString t := by
  cases t <;> rfl

theorem asTypeString_mapVars (f : Var → Var) (l r : Term) :
    asTypeString (l.mapVars f) (r.mapVars f) = asTypeString l r := by
  cases l <;> cases r <;> rfl

theorem asTypeInt_mapVars (f : Var → Var) (l r : Term) :
    asTypeInt (l.mapVars f) (r.mapVars f) = asTypeInt l r := by
  cases l <;> cases r <;> rfl

theorem Constraint.evalWith_mapVars (f : Var → Var) (c : Constraint) (l r : Term) :
    (c.mapVars f).evalWith (l.mapVars f) (r.mapVars f) = c.evalWith l r := by
  simp only [Constraint.evalWith, Constraint.mapVars, toString_mapVars, asTypeString_mapVars,
    asTypeInt_mapVars]

theorem Constraint.Eval_mapVars {f : Var → Var} (hf : Function.Injective f) (fuel : Nat)
    (c : Constraint) (e : Vars) :
    (c.mapVars f).Eval fuel (e.mapVars f) = (c.Eval fuel e).map (Emit.mapOut (Vars.mapVars f)) := by
  unfold Constraint.Eval
  have h1 : (c.mapVars f).Lhs = c.Lhs.mapVars f := rfl
  have h2 : (c.mapVars f).Rhs = c.Rhs.mapVars f := rfl
  rw [h1, h2, Vars.expand_mapVars hf, Vars.expand_mapVars hf]
  cases e.expand fuel c.Lhs with
  | none => rfl
  | some lhs =>
    cases e.expand fuel c.Rhs with
    | none => rfl
    | some rhs =>
      simp only [Option.map_some', Constraint.evalWith_mapVars]
      cases c.evalWith lhs rhs with
      | error msg => rfl
      | ok b => cases b <;> rfl

theorem substOne_mapVars {f : Var → Var} (hf : Function.Injective f) (new m : Mapping) :
    substOne (new.mapVars f) (m.mapVars f) = (substOne new m).mapVars f := by
  unfold substOne
  have h : (m.mapVars f).Val = .var (new.mapVars f).Key ↔ m.Val = .var new.Key :=
    Term.mapVars_eq_var hf m.Val new.Key
  by_cases h1 : m.Val = .var new.Key
  · rw [if_pos h1, if_pos (h.2 h1)]
    rfl
  · rw [if_neg h1, if_neg (fun hh => h1 (h.1 hh))]

theorem substLoop_mapVars {f : Var → Var} (hf : Function.Injective f) (n : Nat) :
    ∀ (l : List Mapping),
      substLoop n (l.map (Mapping.mapVars f)) = (substLoop n l).map (Mapping.mapVars f) := by
  induction n with
  | zero => intro l; rfl
  | succ n ih =>
    intro l
    cases l with
    | nil => rfl
    | cons m l =>
      simp only [List.map_cons, substLoop, List.map_map]
      rw [← ih (l.map (substOne m)), List.map_map]
      congr 2
      apply List.map_congr_left
      intro y _
      exact substOne_mapVars hf m y

theorem Vars.substitute_mapVars {f : Var → Var} (hf : Function.Injective f) (e : Vars) :
    (e.mapVars f).substitute = e.substitute.mapVars f := by
  simp only [Vars.substitute, Vars.mapVars, substRev, ← List.map_reverse, List.length_map,
    substLoop_mapVars hf]

theorem Atom.Materialize_mapVars {f : Var → Var} (hf : Function.Injective f) (q : Atom)
    (e : Vars) : (q.mapVars f).Materialize (e.mapVars f) = (q.Materialize e).mapVars f := by
  simp only [Atom.Materialize, Atom.mapVars, List.map_map]
  congr 1
  apply List.map_congr_left
  intro t _
  cases t with
  | var k =>
    simp only [Function.comp, Term.mapVars, Vars.Get_mapVars hf]
    cases e.Get k <;> rfl
  | int _ => rfl
  | str _ => rfl
  | wildcard => rfl

theorem renameGens_injective {ρ : String → String} (hρ : Function.Injective ρ) (G : List Nat) :
    Function.Injective (renameGens ρ G) := by
  intro x y h
  unfold renameGens at h
  by_cases hx : x.Counter ∈ G <;> by_cases hy : y.Counter ∈ G
  · rw [if_pos hx, if_pos hy] at h
    simp only [Var.mk.injEq] at h
    cases x
    cases y
    simp only [Var.mk.injEq]
    exact ⟨hρ h.1, h.2⟩
  · rw [if_pos hx, if_neg hy] at h
    have : y.Counter = x.Counter := by rw [← h]
    exact absurd (this ▸ hx) hy
  · rw [if_neg hx, if_pos hy] at h
    have : x.Counter = y.Counter := by rw [h]
    exact absurd (this ▸ hy) hx
  · rw [if_neg hx, if_neg hy] at h
    exact h

theorem renameGens_agree (ρ : String → String) {G G' : List Nat} {C : Nat}
    (h : ∀ n, n ≤ C → (n ∈ G' ↔ n ∈ G)) {x : Var} (hx : x.Counter ≤ C) :
    renameGens ρ G' x = renameGens ρ G x := by
  unfold renameGens
  by_cases hG : x.Counter ∈ G
  · rw [if_pos hG, if_pos ((h _ hx).2 hG)]
  · rw [if_neg hG, if_neg (fun hh => hG ((h _ hx).1 hh))]

theorem renameGens_nil (ρ : String → String) : renameGens ρ [] = id := by
  funext x
  simp [renameGens]

theorem Term.mapVars_congr_term {f g : Var → Var} {t : Term} (h : ∀ x ∈ t.vars, f x = g x) :
    t.mapVars f = t.mapVars g := by
  cases t with
  | var v =>
    simp only [Term.mapVars, Term.var.injEq]
    exact h v (by simp [Term.vars])
  | int _ => rfl
  | str _ => rfl
  | wildcard => rfl

theorem Atom.mapVars_congr_atom {f g : Var → Var} {a : Atom} (h : ∀ x ∈ a.vars, f x = g x) :
    a.mapVars f = a.mapVars g := by
  unfold Atom.mapVars
  congr 1
  apply List.map_congr_left
  intro t ht
  apply Term.mapVars_congr_term
  intro x hx
  exact h x (by simp only [Atom.vars, List.mem_flatMap]; exact ⟨t, ht, hx⟩)

theorem Constraint.mapVars_congr_constraint {f g : Var → Var} {c : Constraint}
    (h : ∀ x ∈ c.vars, f x = g x) : c.mapVars f = c.mapVars g := by
  unfold Constraint.mapVars
  rw [Term.mapVars_congr_term (fun x hx => h x (by simp [Constraint.vars, hx])),
    @Term.mapVars_congr_term f g c.Rhs (fun x hx => h x (by simp [Constraint.vars, hx]))]

mutual
theorem Goal.mapVars_congr_goal {f g : Var → Var} :
    ∀ (gl : Goal), (∀ x ∈ gl.vars, f x = g x) → Goal.mapVars f gl = Goal.mapVars g gl
  | .atom a => by
    intro h
    simp only [Goal.mapVars]
    rw [Atom.mapVars_congr_atom (fun x hx => h x (by simpa [Goal.vars] using hx))]
  | .rule head body => by
    intro h
    simp only [Goal.mapVars]
    rw [Atom.mapVars_congr_atom (fun x hx => h x (by simp [Goal.vars, hx])),
      Goal.mapVarsList_congr body (fun x hx => h x (by simp [Goal.vars, hx]))]
  | .constraint c => by
    intro h
    simp only [Goal.mapVars]
    rw [Constraint.mapVars_congr_constraint (fun x hx => h x (by simpa [Goal.vars] using hx))]
theorem Goal.mapVarsList_congr {f g : Var → Var} :
    ∀ (gs : List Goal), (∀ x ∈ Goal.varsList gs, f x = g x) →
      Goal.mapVarsList f gs = Goal.mapVarsList g gs
  | [] => by intro _; rfl
  | gl :: gs => by
    intro h
    simp only [Goal.mapVarsList]
    rw [Goal.mapVars_congr_goal gl (fun x hx => h x (by simp [Goal.varsList, hx])),
      Goal.mapVarsList_congr gs (fun x hx => h x (by simp [Goal.varsList, hx]))]
end

theorem Vars.mapVars_congr_env {f g : Var → Var} {e : Vars} (h : ∀ x ∈ e.vars, f x = g x) :
    e.mapVars f = e.mapVars g := by
  unfold Vars.mapVars
  congr 1
  apply List.map_congr_left
  intro m hm
  unfold Mapping.mapVars
  have hk : f m.Key = g m.Key :=
    h m.Key (by simp only [Vars.vars, List.mem_flatMap]; exact ⟨m, hm, by simp⟩)
  have hv : m.Val.mapVars f = m.Val.mapVars g :=
    Term.mapVars_congr_term (fun x hx => h x (by
      simp only [Vars.vars, List.mem_flatMap]
      exact ⟨m, hm, List.mem_cons_of_mem _ hx⟩))
  rw [hk, hv]

theorem Term.mapVars_id_term (t : Term) : t.mapVars id = t := by
  cases t <;> rfl

theorem Atom.mapVars_id_atom (a : Atom) : a.mapVars id = a := by
  unfold Atom.mapVars
  have : a.Args.map (Term.mapVars id) = a.Args := by
    conv_rhs => rw [← List.map_id a.Args]
    exact List.map_congr_left (fun t _ => Term.mapVars_id_term t)
  rw [this]

theorem Vars.mapVars_id_env (e : Vars) : e.mapVars id = e := by
  unfold Vars.mapVars
  have : e.Mapping.map (Mapping.mapVars id) = e.Mapping := by
    conv_rhs => rw [← List.map_id e.Mapping]
    apply List.map_congr_left
    intro m _
    simp [Mapping.mapVars, Term.mapVars_id_term]
  rw [this]

theorem Vars.rename_mapVars {f g : Var → Var} {c : Nat}
    (h : ∀ x : Var, f ⟨x.Name, c⟩ = ⟨(g x).Name, c⟩) (v v' : Vars) (hv : v.Counter = c)
    (hv' : v'.Counter = c) (t : Term) :
    (v.rename t).mapVars f = v'.rename (t.mapVars g) := by
  cases t with
  | var x =>
    simp only [Vars.rename, Term.mapVars, hv, hv', Term.var.injEq]
    exact h x
  | int _ => rfl
  | str _ => rfl
  | wildcard => rfl

theorem Atom.renameVars_mapVars_atom {f g : Var → Var} {c : Nat}
    (h : ∀ x : Var, f ⟨x.Name, c⟩ = ⟨(g x).Name, c⟩) (v v' : Vars) (hv : v.Counter = c)
    (hv' : v'.Counter = c) (a : Atom) :
    (a.renameVars v).mapVars f = (a.mapVars g).renameVars v' := by
  simp only [Atom.renameVars, Atom.mapVars, List.map_map]
  congr 1
  apply List.map_congr_left
  intro t _
  exact Vars.rename_mapVars h v v' hv hv' t

theorem Constraint.renameVars_mapVars_constraint {f g : Var → Var} {c : Nat}
    (h : ∀ x : Var, f ⟨x.Name, c⟩ = ⟨(g x).Name, c⟩) (v v' : Vars) (hv : v.Counter = c)
    (hv' : v'.Counter = c) (k : Constraint) :
    (k.renameVars v).mapVars f = (k.mapVars g).renameVars v' := by
  simp only [Constraint.renameVars, Constraint.mapVars, Vars.rename_mapVars h v v' hv hv']

mutual
theorem Goal.renameVars_mapVars_goal {f g : Var → Var} {c : Nat}
    (h : ∀ x : Var, f ⟨x.Name, c⟩ = ⟨(g x).Name, c⟩) (v v' : Vars) (hv : v.Counter = c)
    (hv' : v'.Counter = c) :
    ∀ (gl : Goal), Goal.mapVars f (Goal.renameVars v gl) = Goal.renameVars v' (Goal.mapVars g gl)
  | .atom a => by
    simp only [Goal.renameVars, Goal.mapVars, Atom.renameVars_mapVars_atom h v v' hv hv']
  | .rule head body => by
    simp only [Goal.renameVars, Goal.mapVars, Atom.renameVars_mapVars_atom h v v' hv hv',
      Goal.renameVarsList_mapVars h v v' hv hv' body]
  | .constraint k => by
    simp only [Goal.renameVars, Goal.mapVars, Constraint.renameVars_mapVars_constraint h v v' hv hv']
theorem Goal.renameVarsList_mapVars {f g : Var → Var} {c : Nat}
    (h : ∀ x : Var, f ⟨x.Name, c⟩ = ⟨(g x).Name, c⟩) (v v' : Vars) (hv : v.Counter = c)
    (hv' : v'.Counter = c) :
    ∀ (gs : List Goal),
      Goal.mapVarsList f (Goal.renameVarsList v gs) = Goal.renameVarsList v' (Goal.mapVarsList g gs)
  | [] => by simp [Goal.renameVarsList, Goal.mapVarsList]
  | gl :: gs => by
    simp only [Goal.renameVarsList, Goal.mapVarsList, Goal.renameVars_mapVars_goal h v v' hv hv' gl,
      Goal.renameVarsList_mapVars h v v' hv hv' gs]
end

theorem Goal.mapVarsList_length (f : Var → Var) (gs : List Goal) :
    (Goal.mapVarsList f gs).length = gs.length := by
  induction gs with
  | nil => simp [Goal.mapVarsList]
  | cons g gs ih => simp [Goal.mapVarsList, ih]

theorem Atom.genLe_of_vars_atom {c : Nat} {a : Atom} (h : ∀ x ∈ a.vars, x.Counter ≤ c) :
    a.genLe c := by
  intro t ht
  cases t with
  | var v =>
    exact h v (by simp only [Atom.vars, List.mem_flatMap]; exact ⟨_, ht, by simp [Term.vars]⟩)
  | int _ => trivial
  | str _ => trivial
  | wildcard => trivial

theorem Goal.genLe_of_vars_goal {c : Nat} {g : Goal} (h : ∀ x ∈ g.vars, x.Counter ≤ c) :
    g.genLe c := by
  cases g with
  | atom a => exact Atom.genLe_of_vars_atom (fun x hx => h x (by simpa [Goal.vars] using hx))
  | rule head body => exact Atom.genLe_of_vars_atom (fun x hx => h x (by simp [Goal.vars, hx]))
  | constraint k => trivial

/-- The run of `evalBody` on a body follows the run on the renamed body, given that the
evaluation of a single literal does. -/
theorem evalBodyWith_follows (ρ : String → String)
    (ev ev' : Goal → Vars → List (Emit Vars)) (en : Goal → Vars → List Nat)
    (hgen : ∀ g v e, g.genLe v.Counter → v.GenOK → (∀ c ∈ en g v, c + 1 < uintSize) →
      Emit.out e ∈ ev g v → e.GenOK ∧ v.Counter ≤ e.Counter)
    (hev : ∀ (g : Goal) (v : Vars) (G : List Nat), (∀ x ∈ g.vars, x.Counter ≤ v.Counter) →
      v.GenOK → (∀ n ∈ G, n ≤ v.Counter) → (∀ c ∈ en g v, c + 1 < uintSize) →
      ∀ item ∈ ev g v, ∃ G', (∀ n, n ≤ v.Counter → (n ∈ G' ↔ n ∈ G)) ∧
        (∀ w, item = .out w → ∀ n ∈ G', n ≤ w.Counter) ∧
        item.mapOut (Vars.mapVars (renameGens ρ G'))
          ∈ ev' (Goal.mapVars (renameGens ρ G) g) (v.mapVars (renameGens ρ G))) :
    ∀ (body : List Goal) (v : Vars) (G : List Nat) (c0 : Nat),
      (∀ x ∈ Goal.varsList body, x.Counter ≤ c0) → c0 ≤ v.Counter → v.GenOK →
      (∀ n ∈ G, n ≤ v.Counter) →
      (∀ c ∈ evalBodyCountersWith ev en body v, c + 1 < uintSize) →
      ∀ item ∈ evalBodyWith ev body v, ∃ G', (∀ n, n ≤ v.Counter → (n ∈ G' ↔ n ∈ G)) ∧
        (∀ w, item = .out w → ∀ n ∈ G', n ≤ w.Counter) ∧
        item.mapOut (Vars.mapVars (renameGens ρ G'))
          ∈ evalBodyWith ev' (Goal.mapVarsList (renameGens ρ G) body)
              (v.mapVars (renameGens ρ G)) := by
  intro body
  induction body with
  | nil =>
    intro v G c0 _ _ _ _ _ item hitem
    simp only [evalBodyWith, List.mem_singleton] at hitem
    subst hitem
    exact ⟨G, fun n _ => Iff.rfl, fun w hw => (by cases hw),
      (by simp [Goal.mapVarsList, evalBodyWith, Emit.mapOut])⟩
  | cons g rest ih =>
    intro v G c0 hvars hc0 hv hG hB item hitem
    simp only [evalBodyCountersWith, List.mem_append, List.mem_flatMap] at hB
    have hgv : ∀ x ∈ g.vars, x.Counter ≤ v.Counter :=
      fun x hx => le_trans (hvars x (by simp [Goal.varsList, hx])) hc0
    have hrv : ∀ x ∈ Goal.varsList rest, x.Counter ≤ c0 :=
      fun x hx => hvars x (by simp [Goal.varsList, hx])
    simp only [evalBodyWith, List.mem_flatMap] at hitem
    obtain ⟨x, hx, hix⟩ := hitem
    obtain ⟨G1, hag1, hb1, hx'⟩ := hev g v G hgv hv hG (fun c hc => hB c (Or.inl hc)) x hx
    simp only [Goal.mapVarsList, evalBodyWith, List.mem_flatMap]
    cases x with
    | fatal msg =>
      simp only [List.mem_singleton] at hix
      subst hix
      exact ⟨G1, hag1, fun w hw => (by cases hw), _, hx', by simp [Emit.mapOut]⟩
    | pending =>
      simp only [List.mem_singleton] at hix
      subst hix
      exact ⟨G1, hag1, fun w hw => (by cases hw), _, hx', by simp [Emit.mapOut]⟩
    | out v1 =>
      have hg1 := hgen g v v1 (Goal.genLe_of_vars_goal hgv) hv
        (fun c hc => hB c (Or.inl hc)) hx
      have hG1 : ∀ n ∈ G1, n ≤ v1.Counter := hb1 v1 rfl
      simp only at hix
      by_cases hr : rest.length = 0
      · rw [if_pos hr] at hix
        simp only [List.mem_singleton] at hix
        subst hix
        refine ⟨G1, hag1, fun w hw => (by cases hw; exact hG1), _, hx', ?_⟩
        simp only [Emit.mapOut, Goal.mapVarsList_length, hr, if_true, List.mem_singleton]
      · rw [if_neg hr] at hix
        obtain ⟨G2, hag2, hb2, hi2⟩ := ih v1 G1 c0 hrv (le_trans hc0 hg1.2) hg1.1 hG1
          (fun c hc => hB c (Or.inr ⟨.out v1, hx, by simp only [if_neg hr]; exact hc⟩))
          item hix
        have hrest : Goal.mapVarsList (renameGens ρ G1) rest
            = Goal.mapVarsList (renameGens ρ G) rest :=
          Goal.mapVarsList_congr rest
            (fun y hy => renameGens_agree ρ hag1 (le_trans (hrv y hy) hc0))
        rw [hrest] at hi2
        refine ⟨G2, ?_, hb2, _, hx', ?_⟩
        · intro n hn
          rw [hag2 n (le_trans hn hg1.2), hag1 n hn]
        · simp only [Emit.mapOut, Goal.mapVarsList_length, hr, if_false]
          exact hi2

mutual
theorem Goal.mapVars_id_goal : ∀ (g : Goal), Goal.mapVars id g = g
  | .atom a => by simp only [Goal.mapVars, Atom.mapVars_id_atom]
  | .rule head body => by
    simp only [Goal.mapVars, Atom.mapVars_id_atom, Goal.mapVarsList_id body]
  | .constraint c => by
    simp only [Goal.mapVars, Constraint.mapVars, Term.mapVars_id_term]
theorem Goal.mapVarsList_id : ∀ (gs : List Goal), Goal.mapVarsList id gs = gs
  | [] => by simp [Goal.mapVarsList]
  | g :: gs => by simp only [Goal.mapVarsList, Goal.mapVars_id_goal g, Goal.mapVarsList_id gs]
end

theorem Clause.mapVars_id_clause (c : Clause) : c.mapVars id = c := by
  cases c with
  | atom a => simp only [Clause.mapVars, Atom.mapVars_id_atom]
  | rule r => simp only [Clause.mapVars, Rule.mapVars, Atom.mapVars_id_atom, Goal.mapVarsList_id]

/-- The run of `Atom.Eval` against a database follows its run against a database in which
clauses are replaced by renamed copies: every item of the first run is an item of the
second, up to the renaming of the variables of the generations at which a renamed clause
was drawn. -/
theorem Atom.Eval_follows (ρ : String → String) (hρ : Function.Injective ρ)
    (db db' : Database)
    (hfind : ∀ (q : Atom) (f : Var → Var) (c : Clause), c ∈ db.find q →
      c ∈ db'.find (q.mapVars f) ∨ c.mapVars (renameNames ρ) ∈ db'.find (q.mapVars f)) :
    ∀ (fuel : Nat) (q : Atom) (e : Vars) (G : List Nat), q.genLe e.Counter → e.GenOK →
      (∀ n ∈ G, n ≤ e.Counter) → (∀ c ∈ q.EvalCounters fuel e db, c + 1 < uintSize) →
      ∀ item ∈ q.Eval fuel e db, ∃ G', (∀ n, n ≤ e.Counter → (n ∈ G' ↔ n ∈ G)) ∧
        (∀ w, item = .out w → ∀ n ∈ G', n ≤ w.Counter) ∧
        item.mapOut (Vars.mapVars (renameGens ρ G'))
          ∈ (q.mapVars (renameGens ρ G)).Eval fuel (e.mapVars (renameGens ρ G)) db' := by
  intro fuel
  induction fuel with
  | zero =>
    intro q e G _ _ _ _ item hitem
    simp only [Atom.Eval, List.mem_singleton] at hitem
    subst hitem
    exact ⟨G, fun n _ => Iff.rfl, fun w hw => (by cases hw), (by simp [Atom.Eval, Emit.mapOut])⟩
  | succ n ih =>
    intro q e G hq he hG hB item hitem
    simp only [Atom.Eval, List.mem_flatMap] at hitem
    obtain ⟨fact, hfact, hi⟩ := hitem
    simp only [Atom.EvalCounters, List.mem_cons, List.mem_flatMap] at hB
    have hC : (e.Counter + 1) % uintSize = e.Counter + 1 :=
      Nat.mod_eq_of_lt (hB _ (Or.inl rfl))
    have hBf := fun c hc => hB c (Or.inr ⟨fact, hfact, hc⟩)
    rw [hC] at hi hBf
    -- the clause of the second database and the generations renamed from now on
    obtain ⟨g, G1, hfact', hg, hag, hG1⟩ : ∃ (g : Var → Var) (G1 : List Nat),
        fact.mapVars g ∈ db'.find (q.mapVars (renameGens ρ G)) ∧
        (∀ x : Var, renameGens ρ G1 ⟨x.Name, e.Counter + 1⟩ = ⟨(g x).Name, e.Counter + 1⟩) ∧
        (∀ n, n ≤ e.Counter → (n ∈ G1 ↔ n ∈ G)) ∧ (∀ n ∈ G1, n ≤ e.Counter + 1) := by
      rcases hfind q (renameGens ρ G) fact hfact with h | h
      · refine ⟨id, G, by rw [Clause.mapVars_id_clause]; exact h, ?_, fun n _ => Iff.rfl,
          fun n hn => Nat.le_succ_of_le (hG n hn)⟩
        intro x
        have : e.Counter + 1 ∉ G := fun hh => by have := hG _ hh; omega
        simp [renameGens, this]
      · refine ⟨renameNames ρ, (e.Counter + 1) :: G, h, ?_, ?_, ?_⟩
        · intro x
          simp [renameGens, renameNames]
        · intro n hn
          simp only [List.mem_cons]
          constructor
          · rintro (h1 | h1)
            · omega
            · exact h1
          · exact fun h1 => Or.inr h1
        · intro n hn
          rcases List.mem_cons.1 hn with rfl | h1
          · exact le_refl _
          · exact Nat.le_succ_of_le (hG n h1)
    have hinj := renameGens_injective hρ G1
    have hqe : q.mapVars (renameGens ρ G) = q.mapVars (renameGens ρ G1) :=
      (Atom.mapVars_congr_atom (fun x hx =>
        renameGens_agree ρ hag (Atom.genLe_vars_atom hq x hx))).symm
    have hee : Vars.mapVars (renameGens ρ G) e = Vars.mapVars (renameGens ρ G1) e :=
      (Vars.mapVars_congr_env (fun x hx =>
        renameGens_agree ρ hag (Vars.genLe_vars_env he x hx))).symm
    have hv1 : Vars.genLe (e.Counter + 1)
        { Counter := e.Counter + 1, Mapping := e.Mapping } :=
      Vars.genLe_mono_env (Nat.le_succ _) he
    have hq1 : ∀ t ∈ q.Args, t.genLe (e.Counter + 1) :=
      fun t ht => Term.genLe_mono (Nat.le_succ _) (hq t ht)
    -- the second run draws `fact.mapVars g`
    simp only [Atom.Eval, List.mem_flatMap]
    have hC' : ((Vars.mapVars (renameGens ρ G) e).Counter + 1) % uintSize = e.Counter + 1 := hC
    rw [hC', hee]
    have henv : (⟨e.Counter + 1, (Vars.mapVars (renameGens ρ G1) e).Mapping⟩ : Vars)
        = Vars.mapVars (renameGens ρ G1) ⟨e.Counter + 1, e.Mapping⟩ := rfl
    -- the evaluation of one literal
    have hgen : ∀ (gl : Goal) (v w : Vars), gl.genLe v.Counter → v.GenOK →
        (∀ c ∈ (match gl with
          | .atom a => Atom.EvalCounters n a v db
          | .rule head _ => Atom.EvalCounters n head v db
          | .constraint _ => []), c + 1 < uintSize) →
        Emit.out w ∈ (match gl with
          | .atom a => Atom.Eval n a v db
          | .rule head _ => Atom.Eval n head v db
          | .constraint c => c.Eval n v) →
        w.GenOK ∧ v.Counter ≤ w.Counter := by
      intro gl v w hgl hvg hBg hout
      cases gl with
      | atom a =>
        have := Atom.Eval_genOK db n a v w hgl hvg hBg hout
        exact ⟨this.1, le_of_lt this.2⟩
      | rule head body =>
        have := Atom.Eval_genOK db n head v w hgl hvg hBg hout
        exact ⟨this.1, le_of_lt this.2⟩
      | constraint c =>
        have := Constraint.Eval_out hout
        subst this
        exact ⟨hvg, le_refl _⟩
    have hev : ∀ (gl : Goal) (v : Vars) (G0 : List Nat),
        (∀ x ∈ gl.vars, x.Counter ≤ v.Counter) → v.GenOK → (∀ n ∈ G0, n ≤ v.Counter) →
        (∀ c ∈ (match gl with
          | .atom a => Atom.EvalCounters n a v db
          | .rule head _ => Atom.EvalCounters n head v db
          | .constraint _ => []), c + 1 < uintSize) →
        ∀ (it : Emit Vars), it ∈ (match gl with
          | .atom a => Atom.Eval n a v db
          | .rule head _ => Atom.Eval n head v db
          | .constraint c => c.Eval n v) →
        ∃ G', (∀ m, m ≤ v.Counter → (m ∈ G' ↔ m ∈ G0)) ∧
          (∀ w, it = .out w → ∀ m ∈ G', m ≤ w.Counter) ∧
          it.mapOut (Vars.mapVars (renameGens ρ G'))
            ∈ (match Goal.mapVars (renameGens ρ G0) gl with
              | .atom a => Atom.Eval n a (v.mapVars (renameGens ρ G0)) db'
              | .rule head _ => Atom.Eval n head (v.mapVars (renameGens ρ G0)) db'
              | .constraint c => c.Eval n (v.mapVars (renameGens ρ G0))) := by
      intro gl v G0 hgl hvg hG0 hBg it hit
      cases gl with
      | atom a =>
        simp only [Goal.mapVars]
        exact ih a v G0 (Atom.genLe_of_vars_atom (fun x hx => hgl x (by simpa [Goal.vars] using hx)))
          hvg hG0 hBg it hit
      | rule head body =>
        simp only [Goal.mapVars]
        exact ih head v G0
          (Atom.genLe_of_vars_atom (fun x hx => hgl x (by simp [Goal.vars, hx]))) hvg hG0 hBg it hit
      | constraint c =>
        simp only [Goal.mapVars]
        refine ⟨G0, fun m _ => Iff.rfl, ?_, ?_⟩
        · intro w hw m hm
          subst hw
          have := Constraint.Eval_out hit
          subst this
          exact hG0 m hm
        · rw [Constraint.Eval_mapVars (renameGens_injective hρ G0)]
          exact List.mem_map.2 ⟨it, hit, rfl⟩
    cases fact with
    | atom a =>
      refine ⟨G1, hag, ?_, .atom (a.mapVars g), hfact', ?_⟩
      · intro w hw m hm
        subst hw
        simp only [Atom.unifyWith] at hi
        cases hu : Vars.unifyAll (n + 1) ⟨e.Counter + 1, e.Mapping⟩ q.Args
            (a.renameVars ⟨e.Counter + 1, e.Mapping⟩).Args with
        | none => rw [hu] at hi; simp at hi
        | some p =>
          obtain ⟨b, v'⟩ := p
          rw [hu] at hi
          cases b with
          | false => simp at hi
          | true =>
            simp only [List.mem_singleton, Emit.out.injEq] at hi
            subst hi
            have h1 := Vars.unifyAll_genLe hv1 hq1 (Atom.renameVars_genLe _ a) hu
            have hc : w.Counter = e.Counter + 1 := h1.2
            rw [hc]
            exact hG1 m hm
      · rw [hqe, henv]
        simp only [Atom.unifyWith] at hi ⊢
        rw [← Atom.renameVars_mapVars_atom hg ⟨e.Counter + 1, e.Mapping⟩ _ rfl rfl a]
        have := Vars.unifyAll_mapVars hinj (n + 1) q.Args
          (a.renameVars ⟨e.Counter + 1, e.Mapping⟩).Args ⟨e.Counter + 1, e.Mapping⟩
        simp only [Atom.mapVars] at this ⊢
        rw [this]
        cases hu : Vars.unifyAll (n + 1) ⟨e.Counter + 1, e.Mapping⟩ q.Args
            (a.renameVars ⟨e.Counter + 1, e.Mapping⟩).Args with
        | none =>
          rw [hu] at hi
          simp only [List.mem_singleton] at hi
          subst hi
          simp [Emit.mapOut]
        | some p =>
          obtain ⟨b, v'⟩ := p
          rw [hu] at hi
          cases b with
          | false => simp at hi
          | true =>
            simp only [List.mem_singleton] at hi
            subst hi
            simp [Emit.mapOut]
    | rule r =>
      simp only [Atom.unifyWith] at hi
      simp only [Atom.unifyCountersWith] at hBf
      cases hu : Vars.unifyAll (n + 1) ⟨e.Counter + 1, e.Mapping⟩ q.Args
          (r.renameVars ⟨e.Counter + 1, e.Mapping⟩).Atom.Args with
      | none =>
        rw [hu] at hi
        simp only [List.mem_singleton] at hi
        subst hi
        refine ⟨G1, hag, fun w hw => (by cases hw), .rule (r.mapVars g), hfact', ?_⟩
        rw [hqe, henv]
        simp only [Atom.unifyWith, Rule.renameVars, Rule.mapVars]
        rw [← Atom.renameVars_mapVars_atom hg ⟨e.Counter + 1, e.Mapping⟩ _ rfl rfl r.Atom]
        have := Vars.unifyAll_mapVars hinj (n + 1) q.Args
          (r.Atom.renameVars ⟨e.Counter + 1, e.Mapping⟩).Args ⟨e.Counter + 1, e.Mapping⟩
        simp only [Atom.mapVars] at this ⊢
        rw [this]
        simp only [Rule.renameVars] at hu
        rw [hu]
        simp [Emit.mapOut]
      | some p =>
        obtain ⟨b, v2⟩ := p
        rw [hu] at hi hBf
        cases b with
        | false => simp at hi
        | true =>
          simp only at hi hBf
          have h1 := Vars.unifyAll_genLe hv1 hq1 (Atom.renameVars_genLe _ r.Atom) hu
          have hc : v2.Counter = e.Counter + 1 := h1.2
          have hv2 : v2.GenOK := by
            unfold Vars.GenOK
            rw [hc]
            exact h1.1
          obtain ⟨G2, hag2, hb2, hi2⟩ := evalBodyWith_follows ρ
            (fun g v =>
              match g with
              | .atom a => Atom.Eval n a v db
              | .rule head _ => Atom.Eval n head v db
              | .constraint c => c.Eval n v)
            (fun g v =>
              match g with
              | .atom a => Atom.Eval n a v db'
              | .rule head _ => Atom.Eval n head v db'
              | .constraint c => c.Eval n v)
            (fun g v =>
              match g with
              | .atom a => Atom.EvalCounters n a v db
              | .rule head _ => Atom.EvalCounters n head v db
              | .constraint _ => [])
            hgen hev
            (Goal.renameVarsList ⟨e.Counter + 1, e.Mapping⟩ r.Body) v2 G1 (e.Counter + 1)
            (fun x hx => le_of_eq (Goal.varsList_renameVars _ r.Body x hx))
            (le_of_eq hc.symm) hv2 (fun m hm => by rw [hc]; exact hG1 m hm) hBf item hi
          refine ⟨G2, ?_, hb2, .rule (r.mapVars g), hfact', ?_⟩
          · intro m hm
            rw [hag2 m (by omega), hag m hm]
          · rw [hqe, henv]
            simp only [Atom.unifyWith, Rule.renameVars, Rule.mapVars]
            rw [← Atom.renameVars_mapVars_atom hg ⟨e.Counter + 1, e.Mapping⟩ _ rfl rfl r.Atom,
              ← Goal.renameVarsList_mapVars hg ⟨e.Counter + 1, e.Mapping⟩ _ rfl rfl r.Body]
            have := Vars.unifyAll_mapVars hinj (n + 1) q.Args
              (r.Atom.renameVars ⟨e.Counter + 1, e.Mapping⟩).Args ⟨e.Counter + 1, e.Mapping⟩
            simp only [Atom.mapVars] at this ⊢
            rw [this]
            simp only [Rule.renameVars] at hu
            rw [hu]
            exact hi2

theorem maybeUnifies_mapVars (f g : Var → Var) (a b : Term) :
    maybeUnifies (.term (a.mapVars f)) (.term (b.mapVars g))
      = maybeUnifies (.term a) (.term b) := by
  cases a <;> cases b <;> simp [maybeUnifies, Term.mapVars]

theorem argsMatch_mapVars (f g : Var → Var) : ∀ (as bs : List Term),
    argsMatch (as.map (Term.mapVars f)) (bs.map (Term.mapVars g)) = argsMatch as bs := by
  intro as
  induction as with
  | nil => intro bs; cases bs <;> rfl
  | cons a as ih =>
    intro bs
    cases bs with
    | nil => rfl
    | cons b bs =>
      simp only [List.map_cons, argsMatch, maybeUnifies_mapVars, ih]

theorem Clause.mapVars_head (f : Var → Var) (c : Clause) :
    (c.mapVars f).head = c.head.mapVars f := by
  cases c <;> rfl

theorem Term.mapVars_comp_term (f g : Var → Var) (t : Term) :
    (t.mapVars f).mapVars g = t.mapVars (g ∘ f) := by
  cases t <;> rfl

theorem Atom.mapVars_comp_atom (f g : Var → Var) (a : Atom) :
    (a.mapVars f).mapVars g = a.mapVars (g ∘ f) := by
  simp only [Atom.mapVars, List.map_map]
  congr 1
  apply List.map_congr_left
  intro t _
  exact Term.mapVars_comp_term f g t

mutual
theorem Goal.mapVars_comp_goal (f g : Var → Var) :
    ∀ (gl : Goal), Goal.mapVars g (Goal.mapVars f gl) = Goal.mapVars (g ∘ f) gl
  | .atom a => by simp only [Goal.mapVars, Atom.mapVars_comp_atom]
  | .rule head body => by
    simp only [Goal.mapVars, Atom.mapVars_comp_atom, Goal.mapVarsList_comp f g body]
  | .constraint c => by
    simp only [Goal.mapVars, Constraint.mapVars, Term.mapVars_comp_term]
theorem Goal.mapVarsList_comp (f g : Var → Var) :
    ∀ (gs : List Goal),
      Goal.mapVarsList g (Goal.mapVarsList f gs) = Goal.mapVarsList (g ∘ f) gs
  | [] => by simp [Goal.mapVarsList]
  | gl :: gs => by
    simp only [Goal.mapVarsList, Goal.mapVars_comp_goal f g gl, Goal.mapVarsList_comp f g gs]
end

theorem Rule.mapVars_comp_rule (f g : Var → Var) (r : Rule) :
    (r.mapVars f).mapVars g = r.mapVars (g ∘ f) := by
  simp only [Rule.mapVars, Atom.mapVars_comp_atom, Goal.mapVarsList_comp]

theorem Rule.mapVars_id_rule (r : Rule) : r.mapVars id = r := by
  simp only [Rule.mapVars, Atom.mapVars_id_atom, Goal.mapVarsList_id]

theorem renameNames_symm (ρ : Equiv.Perm String) :
    renameNames ρ.symm ∘ renameNames ρ = id := by
  funext x
  simp [renameNames]

theorem Rule.mapVars_symm (ρ : Equiv.Perm String) (r : Rule) :
    (r.mapVars (renameNames ρ)).mapVars (renameNames ρ.symm) = r := by
  rw [Rule.mapVars_comp_rule, renameNames_symm, Rule.mapVars_id_rule]

/-- The candidates of `find` in two databases built by the same assertions except for one
rule, which the second has under other variable names. -/
theorem Database.find_renamed (ρ : String → String) (pre post : List Clause) (R R' : Rule)
    (hR : R' = R.mapVars (renameNames ρ)) {db db' : Database} (hdb : Reachable db)
    (hdb' : Reachable db') (hs : ∀ x, db.stores x ↔ x ∈ pre ++ Clause.rule R :: post)
    (hs' : ∀ x, db'.stores x ↔ x ∈ pre ++ Clause.rule R' :: post)
    (q : Atom) (f : Var → Var) (c : Clause) (hc : c ∈ db.find q) :
    c ∈ db'.find (q.mapVars f) ∨ c.mapVars (renameNames ρ) ∈ db'.find (q.mapVars f) := by
  obtain ⟨hst, hk, hm⟩ := (Database.mem_find_iff hdb q c).1 hc
  have hmem := (hs c).1 hst
  have hleft : c ∈ pre ∨ c ∈ post → c ∈ db'.find (q.mapVars f) := by
    intro h
    refine (Database.mem_find_iff hdb' _ c).2 ⟨(hs' c).2 ?_, hk, ?_⟩
    · rcases h with h | h
      · exact List.mem_append_left _ h
      · exact List.mem_append_right _ (List.mem_cons_of_mem _ h)
    · have := argsMatch_mapVars f id q.Args c.head.Args
      simp only [Atom.mapVars]
      rw [← hm, ← this]
      congr 1
      conv_lhs => rw [← List.map_id c.head.Args]
      exact List.map_congr_left (fun t _ => (Term.mapVars_id_term t).symm)
  rcases List.mem_append.1 hmem with h | h
  · exact Or.inl (hleft (Or.inl h))
  · rcases List.mem_cons.1 h with rfl | h
    · right
      refine (Database.mem_find_iff hdb' _ _).2 ⟨(hs' _).2 ?_, ?_, ?_⟩
      · simp [Clause.mapVars, hR]
      · exact hk
      · rw [Clause.mapVars_head]
        simp only [Atom.mapVars]
        rw [argsMatch_mapVars]
        exact hm
    · exact Or.inl (hleft (Or.inr h))

theorem Database.post_mapVars {f : Var → Var} (hf : Function.Injective f) (q : Atom)
    (hq : q.mapVars f = q) (x : Emit Vars) :
    Database.post q (x.mapOut (Vars.mapVars f)) = (Database.post q x).mapOut (Atom.mapVars f) := by
  cases x with
  | out v =>
    simp only [Emit.mapOut, Database.post, Vars.substitute_mapVars hf]
    rw [← Atom.Materialize_mapVars hf, hq]
  | fatal msg => rfl
  | pending => rfl

/-- The items of `Database.Query` against a database are, up to a renaming of variables of
generations above 0, items of the query against a database that has renamed copies of
clauses in their place. -/
theorem Database.Query_follows (ρ : String → String) (hρ : Function.Injective ρ)
    (db db' : Database)
    (hfind : ∀ (q : Atom) (f : Var → Var) (c : Clause), c ∈ db.find q →
      c ∈ db'.find (q.mapVars f) ∨ c.mapVars (renameNames ρ) ∈ db'.find (q.mapVars f))
    (fuel : Nat) (q : Atom) (hq0 : q.genLe 0)
    (hB : ∀ c ∈ q.EvalCounters fuel ⟨0, []⟩ db, c + 1 < uintSize) :
    ∀ item ∈ db.Query fuel q, ∃ G, 0 ∉ G ∧
      item.mapOut (Atom.mapVars (renameGens ρ G)) ∈ db'.Query fuel q := by
  intro item hitem
  unfold Database.Query at hitem ⊢
  obtain ⟨x, hx, rfl⟩ := List.mem_map.1 hitem
  obtain ⟨G, hag, _, hsim⟩ := Atom.Eval_follows ρ hρ db db' hfind fuel q ⟨0, []⟩ []
    hq0 (by intro m hm; simp at hm) (by intro n hn; simp at hn) hB x hx
  have h0 : 0 ∉ G := fun h => by simpa using (hag 0 (le_refl _)).1 h
  have hqid : q.mapVars (renameGens ρ G) = q := by
    rw [Atom.mapVars_congr_atom (g := id), Atom.mapVars_id_atom]
    intro y hy
    have hy0 : y.Counter = 0 := Nat.le_zero.1 (Atom.genLe_vars_atom hq0 y hy)
    simp [renameGens, hy0, h0]
  rw [renameGens_nil, Atom.mapVars_id_atom] at hsim
  have he : Vars.mapVars id ⟨0, []⟩ = ⟨0, []⟩ := rfl
  rw [he] at hsim
  refine ⟨G, h0, List.mem_map.2 ⟨_, hsim, ?_⟩⟩
  exact Database.post_mapVars (renameGens_injective hρ G) q hqid x

/-- C13 fails on the code as stated: with the fact `q(a)`, the rule `p(X) :- q(a).` and
the rule `p(W) :- q(a).`, which is the first one with `X` renamed to `W`, give different
results for the query `p(Z)`: `p(X.1)` against `p(W.1)`.  The renamed variable of the rule
is part of the result. -/
theorem Database.Query_shows_rule_variable :
    Database.empty.AssertAll [.atom { Name := "q", Args := [.str "a"] }, .rule rulePX]
      = .ok dbPX ∧
    Database.empty.AssertAll [.atom { Name := "q", Args := [.str "a"] }, .rule rulePW]
      = .ok dbPW ∧
    rulePW = rulePX.mapVars (renameNames (Equiv.swap "X" "W")) ∧
    dbPX.Query 3 { Name := "p", Args := [.var ⟨"Z", 0⟩] }
      = [.out { Name := "p", Args := [.var ⟨"X", 1⟩] }] ∧
    dbPW.Query 3 { Name := "p", Args := [.var ⟨"Z", 0⟩] }
      = [.out { Name := "p", Args := [.var ⟨"W", 1⟩] }] := by
  refine ⟨rfl, rfl, by decide, by decide, by decide⟩

theorem Database.stores_Assert_any {db db1 : Database} {c : Clause}
    (h : db.Assert c = .ok db1) (x : Clause) : db1.stores x ↔ x = c ∨ db.stores x := by
  cases hc : c.head.Args with
  | cons a rest => exact Database.stores_Assert_iff (by rw [hc]; simp) h x
  | nil =>
    obtain ⟨hn, rfl⟩ := Database.Assert_nil hc h
    unfold Database.stores
    rw [Database.leaves_set]
    by_cases hk : x.Key = c.Key
    · rw [if_pos hk]
      have hb : db.leaves x.Key = [] := by
        rw [hk]
        unfold Database.leaves
        rw [hn]
        rfl
      rw [hb]
      have hl : Node.leavesList [nodeFrom [] c.toValue] = [([], c)] := by
        rw [Node.leavesList_cons, leaves_nodeFrom]
        rfl
      rw [hl]
      constructor
      · rintro ⟨p, hp⟩
        exact Or.inl (Prod.mk.inj (List.mem_singleton.1 hp)).2
      · rintro (rfl | ⟨p, hp⟩)
        · exact ⟨[], List.mem_singleton.2 rfl⟩
        · simp at hp
    · rw [if_neg hk]
      constructor
      · exact fun h1 => Or.inr h1
      · rintro (rfl | h1)
        · exact absurd rfl hk
        · exact h1

theorem Database.AssertAll_ok_stores : ∀ (cs seen : List Clause) (db db' : Database),
    Reachable db → (∀ x, db.stores x ↔ x ∈ seen) → db.AssertAll cs = .ok db' →
    Reachable db' ∧ ∀ x, db'.stores x ↔ x ∈ seen ++ cs := by
  intro cs
  induction cs with
  | nil =>
    intro seen db db' hdb hs h
    cases h
    exact ⟨hdb, by simpa using hs⟩
  | cons c cs ih =>
    intro seen db db' hdb hs h
    rw [Database.AssertAll] at h
    cases h1 : db.Assert c with
    | error msg => rw [h1] at h; cases h
    | ok db1 =>
      rw [h1] at h
      have hr1 : Reachable db1 := Reachable.assert c hdb h1
      have hs1 : ∀ x, db1.stores x ↔ x ∈ seen ++ [c] := by
        intro x
        rw [Database.stores_Assert_any h1, hs x]
        simp only [List.mem_append, List.mem_singleton]
        exact Or.comm
      obtain ⟨hr2, hs2⟩ := ih (seen ++ [c]) db1 db' hr1 hs1 h
      exact ⟨hr2, by simpa using hs2⟩

/-- C13, amended: renaming preserves the results up to the names of variables.  Two
databases are built from the empty one by the same assertions, except that the second
gets, in place of the rule `R`, the rule `R` with all its variables renamed by a
permutation `ρ` of names.  For a query with variables of generation 0 and evaluations in
which the counter does not wrap around (no value in `EvalCounters`, the values of the
counter at its increments, is the greatest `uint`): every item of the query against one
database is an item against the other, up to the renaming (by `ρ`, or back by its
inverse) of variables of generations above 0; so the result atoms without such variables,
the ground ones among them, are the same for both databases. -/
theorem Database.Query_renamed_rule (ρ : Equiv.Perm String) (pre post : List Clause)
    (R : Rule) (q : Atom) (fuel : Nat) (db db' : Database)
    (hA : Database.empty.AssertAll (pre ++ Clause.rule R :: post) = .ok db)
    (hA' : Database.empty.AssertAll
      (pre ++ Clause.rule (R.mapVars (renameNames ρ)) :: post) = .ok db')
    (hq0 : q.genLe 0)
    (hW : ∀ c ∈ q.EvalCounters fuel { Counter := 0, Mapping := [] } db, c + 1 < uintSize)
    (hW' : ∀ c ∈ q.EvalCounters fuel { Counter := 0, Mapping := [] } db', c + 1 < uintSize) :
    (∀ item ∈ db.Query fuel q, ∃ G, 0 ∉ G ∧
      item.mapOut (Atom.mapVars (renameGens ρ G)) ∈ db'.Query fuel q) ∧
    (∀ item ∈ db'.Query fuel q, ∃ G, 0 ∉ G ∧
      item.mapOut (Atom.mapVars (renameGens ρ.symm G)) ∈ db.Query fuel q) ∧
    (∀ a : Atom, a.genLe 0 →
      (Emit.out a ∈ db.Query fuel q ↔ Emit.out a ∈ db'.Query fuel q)) := by
  obtain ⟨hr, hs⟩ := Database.AssertAll_ok_stores (pre ++ Clause.rule R :: post) []
    Database.empty db Reachable.empty
    (fun x => ⟨fun h => absurd h (Database.stores_empty x), fun h => by simp at h⟩) hA
  obtain ⟨hr', hs'⟩ := Database.AssertAll_ok_stores
    (pre ++ Clause.rule (R.mapVars (renameNames ρ)) :: post) [] Database.empty db'
    Reachable.empty
    (fun x => ⟨fun h => absurd h (Database.stores_empty x), fun h => by simp at h⟩) hA'
  rw [List.nil_append] at hs hs'
  have hfind := Database.find_renamed ρ pre post R _ rfl hr hr' hs hs'
  have hfind' := Database.find_renamed ρ.symm pre post (R.mapVars (renameNames ρ)) R
    (Rule.mapVars_symm ρ R).symm hr' hr hs' hs
  have h1 := Database.Query_follows ρ ρ.injective db db' hfind fuel q hq0 hW
  have h2 := Database.Query_follows ρ.symm ρ.symm.injective db' db hfind' fuel q hq0 hW'
  refine ⟨h1, h2, ?_⟩
  intro a ha
  have hfix : ∀ (τ : String → String) (G : List Nat), 0 ∉ G →
      a.mapVars (renameGens τ G) = a := by
    intro τ G h0
    rw [Atom.mapVars_congr_atom (g := id), Atom.mapVars_id_atom]
    intro y hy
    have hy0 : y.Counter = 0 := Nat.le_zero.1 (Atom.genLe_vars_atom ha y hy)
    simp [renameGens, hy0, h0]
  constructor
  · intro h
    obtain ⟨G, h0, hG⟩ := h1 _ h
    simpa [Emit.mapOut, hfix ρ G h0] using hG
  · intro h
    obtain ⟨G, h0, hG⟩ := h2 _ h
    simpa [Emit.mapOut, hfix ρ.symm G h0] using hG

theorem Database.Query_renamed_rule_witness :
    ((∀ item ∈ (Database.ofClauses (factsQab ++ Clause.rule rulePQQ :: [])).Query 3
          { Name := "p", Args := [.var ⟨"Z", 0⟩] }, ∃ G, 0 ∉ G ∧
        item.mapOut (Atom.mapVars (renameGens (Equiv.swap "X" "W") G))
          ∈ (Database.ofClauses (factsQab ++
              Clause.rule (rulePQQ.mapVars (renameNames (Equiv.swap "X" "W"))) :: [])).Query 3
            { Name := "p", Args := [.var ⟨"Z", 0⟩] }) ∧
      (∀ item ∈ (Database.ofClauses (factsQab ++
            Clause.rule (rulePQQ.mapVars (renameNames (Equiv.swap "X" "W"))) :: [])).Query 3
          { Name := "p", Args := [.var ⟨"Z", 0⟩] }, ∃ G, 0 ∉ G ∧
        item.mapOut (Atom.mapVars (renameGens (Equiv.swap "X" "W").symm G))
          ∈ (Database.ofClauses (factsQab ++ Clause.rule rulePQQ :: [])).Query 3
            { Name := "p", Args := [.var ⟨"Z", 0⟩] }) ∧
      (∀ a : Atom, a.genLe 0 →
        (Emit.out a ∈ (Database.ofClauses (factsQab ++ Clause.rule rulePQQ :: [])).Query 3
            { Name := "p", Args := [.var ⟨"Z", 0⟩] } ↔
          Emit.out a ∈ (Database.ofClauses (factsQab ++
              Clause.rule (rulePQQ.mapVars (renameNames (Equiv.swap "X" "W"))) :: [])).Query 3
            { Name := "p", Args := [.var ⟨"Z", 0⟩] }))) ∧
    (Database.ofClauses (factsQab ++ Clause.rule rulePQQ :: [])).Query 3
        { Name := "p", Args := [.var ⟨"Z", 0⟩] }
      = [.out { Name := "p", Args := [.str "a"] }, .out { Name := "p", Args := [.str "a"] },
         .out { Name := "p", Args := [.str "b"] }, .out { Name := "p", Args := [.str "b"] }] ∧
    Atom.EvalCounters 3 { Name := "p", Args := [.var ⟨"Z", 0⟩] } { Counter := 0, Mapping := [] }
        (Database.ofClauses (factsQab ++ Clause.rule rulePQQ :: []))
      = [0, 1, 2, 2] :=
  ⟨Database.Query_renamed_rule (Equiv.swap "X" "W") factsQab [] rulePQQ
      { Name := "p", Args := [.var ⟨"Z", 0⟩] } 3 _ _ rfl rfl
      (by intro t ht; simp only [List.mem_singleton] at ht; subst ht; exact le_refl _)
      (by decide) (by decide),
    by decide, by decide⟩

end Datalog
